import Mathlib

/-!
# Overmix: the recursive offset search of `GradientPlane`

A shallow embedding of `src/comparators/GradientPlane.cpp`, and of the loop of
`FrameAligner::align` in `src/aligners/FrameAligner.cpp`.

Conventions of the embedding.

* C++ `int` is `Int`; signed overflow is undefined in C++ and is not modelled. The
  theorems about the search in binary64 state the range of the regions (`inRange`) in
  which no `int` of the source overflows.
* C++ `unsigned` is `Nat`, reduced modulo `2^32` where the source computes on it.
* The search is embedded twice. In the first embedding (`generate`, `evaluate`,
  `findMinimum`) a finite `double` is its exact rational value (`ℚ`) and a `double`
  holding a precision is a `Precision`, kept exactly through its square. In the second
  embedding (`generate64`, `evaluate64`, `findMinimum64`) every operation on a `double`
  of the source is rounded to binary64 (`fl`, `fsqrt`), a loop over a `double` that
  does not end is a `Fault`, and the run records the calls of the metric.
  The quotients by `amount` are infinite or NaN exactly when `amount = 0`; that
  case is treated separately in `generate` and in `generate64`.
* The metric `Plane::diffAlpha` is not part of the search; it is the field
  `getDifference` of `GradientPlane`.
  Its values are finite scores (`ℚ`): a NaN score is not modelled.
* The vector `DiffCache::cache` is mutable state; it is passed in and returned.
* `QtConcurrent::map( comps, do_diff )` is a `List.map`: `do_diff` writes to its own
  element only.
* Operations without a defined result in C++ are reported as a `Fault`.
* The header `GradientPlane.hpp` is not among the sources: the order of the fields of
  `GradientCheck` and `Cached` is read from the initialisers in the `.cpp` file.
-/

namespace Overmix

deriving instance DecidableEq for Except

/-- The constant `std::numeric_limits<double>::max()`, that is `2^1024 - 2^971`. -/
def DOUBLE_MAX : ℚ :=
  179769313486231570814527423731704356798070567525844996598917476803157260780028538760589558632766878171540458953514382464234321326889464182768467546703537516986049910576551282076245490090389328944075868508455133942304583236903222948165808559332123348274797826204144723168738177180919299881250404026184124858368

/-- Ways in which a run of the source has no result. -/
inductive Fault where
  /-- The iterator `max_element( comps.begin(), comps.end(), .. )` of an empty vector is
  `comps.end()`, and the source dereferences it. -/
  | emptyDereference
  /-- A NaN, an infinite or a too large `double` is converted to `unsigned`. -/
  | badConversion
  /-- A `for` loop whose variable is `-inf` never leaves its range. -/
  | nonTermination
  /-- The embedding ran out of recursion fuel (not a behaviour of the source). -/
  | outOfFuel
deriving DecidableEq

/-! ## Precisions -/

/-- The value of a `double` that holds a precision. `root s` is the real number `√s`
(for `0 ≤ s`), `inf` is `+inf` and `nan` is NaN. -/
inductive Precision where
  | root (s : ℚ)
  | inf
  | nan
deriving DecidableEq

namespace Precision

/-- The call `std::sqrt( v )` for a finite `v`: NaN below zero. -/
def sqrt (v : ℚ) : Precision :=
  if v < 0 then nan else root v

/-- The comparison `p <= q` of two precisions as real numbers (false on NaN). -/
def le : Precision → Precision → Bool
  | root s, root t => decide (s ≤ t)
  | root _, inf => true
  | inf, inf => true
  | _, _ => false

/-- The quotient `precision / (max_checked / checked)` of `increasePrecision`, where
`max_checked` and `checked` are pixel counts converted to `double`.
`0/0` is NaN, `m/0` is `+inf`, `x/inf` is `0`, `x/0` is `+inf` for `x > 0`. -/
def divQuot (p : Precision) (max_checked checked : Nat) : Precision :=
  match p with
  | nan => nan
  | inf => if checked = 0 then nan else inf
  | root s =>
    if checked = 0 then
      if max_checked = 0 then nan else root 0
    else if max_checked = 0 then
      if s = 0 then nan else inf
    else root (s / ((max_checked : ℚ) / (checked : ℚ)) ^ 2)

/-- The call `std::max( p, 1.0 )`, which is `(p < 1.0) ? 1.0 : p`. -/
def max1 : Precision → Precision
  | root s => root (max s 1)
  | inf => inf
  | nan => nan

/-- The conversion of a `double` to `unsigned`: truncation, defined only for a finite
value below `2^32`. -/
def toUnsigned : Precision → Option Nat
  | root s => if Nat.sqrt ⌊s⌋₊ < 2 ^ 32 then some (Nat.sqrt ⌊s⌋₊) else none
  | inf => none
  | nan => none

end Precision

/-! ## DiffCache -/

/-- The struct `DiffCache::Cached`, with its fields in the order of the initialiser
`{ x, y, diff, precision }` of `add_diff`; the precision is an `unsigned`. -/
structure Cached where
  x : Int
  y : Int
  diff : ℚ
  precision : Nat
deriving DecidableEq

/-- The member `std::vector<Cached> cache` of `DiffCache`. -/
abbrev DiffCache := List Cached

/-- The method `DiffCache::get_diff`. -/
def DiffCache.get_diff : DiffCache → Int → Int → Nat → ℚ
  | [], _, _, _ => -1
  | c :: rest, x, y, precision =>
    if c.x = x ∧ c.y = y ∧ c.precision ≤ precision then c.diff
    else DiffCache.get_diff rest x y precision

/-- The method `DiffCache::add_diff`. -/
def DiffCache.add_diff (cache : DiffCache) (x y : Int) (diff : ℚ) (precision : Nat) :
    DiffCache :=
  cache ++ [{ x := x, y := y, diff := diff, precision := precision }]

/-! ## GradientCheck, MergeResult, GradientPlane -/

/-- The struct `GradientCheck`: a region of offsets and a recursion level. The fields
stand in the order of the initialisers `{ left, right, top, bottom, level }` of
`findMinimum`. -/
structure GradientCheck where
  left : Int
  right : Int
  top : Int
  bottom : Int
  level : Int
deriving DecidableEq

/-- The result `MergeResult( {x, y}, diff )`. -/
structure MergeResult where
  x : Int
  y : Int
  diff : ℚ
deriving DecidableEq

/-- The geometry of a `Plane` read by the search. -/
structure Plane where
  get_width : Nat
  get_height : Nat

/-- The class `GradientPlane` without its cache: the two planes and the metric
`getDifference( x, y, precision )`. -/
structure GradientPlane where
  p1 : Plane
  p2 : Plane
  getDifference : Int → Int → Precision → ℚ

/-! ## img_comp -/

/-- The struct `img_comp`. -/
structure img_comp where
  area : GradientCheck
  h_middle : Int
  v_middle : Int
  diff : ℚ
  precision : Precision
  diff_set : Bool
deriving DecidableEq

/-- The constructor `img_comp( plane, hm, vm, area, p )`. -/
def img_comp.create (hm vm : Int) (area : GradientCheck) (p : Precision) : img_comp :=
  { area := area, h_middle := hm, v_middle := vm, diff := -1, precision := p,
    diff_set := false }

/-- The constructor `img_comp( plane, hm, vm )` with its default arguments
`area = { 0,0,0,0,0 }` and `p = 1`. -/
def img_comp.createDefault (hm vm : Int) : img_comp :=
  img_comp.create hm vm ⟨0, 0, 0, 0, 0⟩ (Precision.root 1)

/-- The method `img_comp::set_diff`. -/
def img_comp.set_diff (c : img_comp) (new_diff : ℚ) : img_comp :=
  { c with diff := new_diff, diff_set := if new_diff ≥ 0 then true else c.diff_set }

/-- The method `img_comp::do_diff`. -/
def img_comp.do_diff (plane : GradientPlane) (c : img_comp) : img_comp :=
  if c.diff_set then c
  else { c with diff := plane.getDifference c.h_middle c.v_middle c.precision }

/-- The subtraction `a - b` of an `unsigned` and an `int`, computed in `unsigned`. -/
def usub (a : Nat) (b : Int) : Nat :=
  (((a : Int) - b) % 2 ^ 32).toNat

/-- The method `img_comp::checkedPercentage`; the product is an `unsigned`. -/
def img_comp.checkedPercentage (plane : GradientPlane) (c : img_comp) : Nat :=
  let x := c.h_middle
  let y := c.v_middle
  let p1_top : Int := if y < 0 then 0 else y
  let p2_top : Int := if y > 0 then 0 else -y
  let p1_left : Int := if x < 0 then 0 else x
  let p2_left : Int := if x > 0 then 0 else -x
  let width := min (usub plane.p1.get_width p1_left) (usub plane.p2.get_width p2_left)
  let height := min (usub plane.p1.get_height p1_top) (usub plane.p2.get_height p2_top)
  (width * height) % 2 ^ 32

/-- The method `img_comp::increasePrecision`. -/
def img_comp.increasePrecision (plane : GradientPlane) (max_checked : Nat) (c : img_comp) :
    img_comp :=
  { c with precision :=
      (c.precision.divQuot max_checked (c.checkedPercentage plane)).max1 }

/-! ## Candidate generation of `findMinimum` -/

/-- The values of `i` in `for( int i = lo; i <= hi; i++ )`. -/
def intRange (lo hi : Int) : List Int :=
  (List.range (hi + 1 - lo).toNat).map fun (k : Nat) => lo + (k : Int)

/-- The values of `i` in `for( double i = start; i <= stop; i += add )`, at most `fuel`
of them. -/
def loopValues (add : ℚ) (stop : Int) : Nat → ℚ → List ℚ
  | 0, _ => []
  | fuel + 1, i =>
    if i ≤ (stop : ℚ) then i :: loopValues add stop fuel (i + add) else []

/-- A number of iterations that a loop from `start` to `stop` with a step of at least 1
cannot exceed. -/
def loopFuel (start : ℚ) (stop : Int) : Nat :=
  (⌊(stop : ℚ) - start⌋ + 1).toNat

/-- The values of `i` in `for( double i = start; i <= stop; i += add )` when `1 ≤ add`. -/
def doubleRange (start add : ℚ) (stop : Int) : List ℚ :=
  loopValues add stop (loopFuel start stop) start

/-- The rounding `( v < 0.0 ) ? ceil( v-0.5 ) : floor( v+0.5 )`. -/
def roundHalfAway (v : ℚ) : Int :=
  if v < 0 then ⌈v - 1 / 2⌉ else ⌊v + 1 / 2⌋

/-- The local `amount = area.level*2 + 2`. -/
def GradientCheck.amount (area : GradientCheck) : Int :=
  area.level * 2 + 2

/-- The local `h_offset`, for `amount ≠ 0`. -/
def GradientCheck.h_offset (area : GradientCheck) : ℚ :=
  ((area.right - area.left : Int) : ℚ) / (area.amount : ℚ)

/-- The local `v_offset`, for `amount ≠ 0`. -/
def GradientCheck.v_offset (area : GradientCheck) : ℚ :=
  ((area.bottom - area.top : Int) : ℚ) / (area.amount : ℚ)

/-- The local `level = area.level > 1 ? area.level-1 : 1`. -/
def GradientCheck.subLevel (area : GradientCheck) : Int :=
  if area.level > 1 then area.level - 1 else 1

/-- The local `h_add`. -/
def GradientCheck.h_add (area : GradientCheck) : ℚ :=
  if area.h_offset < 1 then 1 else area.h_offset

/-- The local `v_add`. -/
def GradientCheck.v_add (area : GradientCheck) : ℚ :=
  if area.v_offset < 1 then 1 else area.v_offset

/-- The local `precision = std::sqrt( prec_offset )` of the recursive case. -/
def GradientCheck.precision (area : GradientCheck) : Precision :=
  let prec_offset := min area.h_offset area.v_offset
  let prec_offset :=
    if area.h_offset = 0 ∨ area.v_offset = 0 then max area.h_offset area.v_offset
    else prec_offset
  Precision.sqrt prec_offset

/-- The test `h_offset < 1 && v_offset < 1`. For `amount = 0` a quotient is `-inf`
(below one) for a negative numerator, and `+inf` or NaN (not below one) otherwise. -/
def GradientCheck.isLeaf (area : GradientCheck) : Bool :=
  if area.amount = 0 then
    decide (area.right - area.left < 0) && decide (area.bottom - area.top < 0)
  else
    decide (area.h_offset < 1) && decide (area.v_offset < 1)

/-- The offsets visited by the two loops of the trivial step, in order. -/
def GradientCheck.leafOffsets (area : GradientCheck) : List (Int × Int) :=
  (intRange area.left area.right).flatMap fun ix =>
    (intRange area.top area.bottom).map fun iy => (ix, iy)

/-- The body of the inner loop of the recursive case at `( ix, iy )`: the rounded offset
and the sub-area, or nothing when the body leaves through `continue`. -/
def GradientCheck.sample (area : GradientCheck) (iy ix : ℚ) :
    Option (Int × Int × GradientCheck) :=
  let x := roundHalfAway ix
  let y := roundHalfAway iy
  if (x = area.right ∧ x ≠ area.left) ∨ (y = area.bottom ∧ y ≠ area.top) then none
  else
    some (x, y,
      { left := ⌊ix - area.h_offset⌋, right := ⌈ix + area.h_offset⌉,
        top := ⌊iy - area.v_offset⌋, bottom := ⌈iy + area.v_offset⌉,
        level := area.subLevel })

/-- The samples made by the two loops of the recursive case, in order, for
`amount ≠ 0`. -/
def GradientCheck.samples (area : GradientCheck) : List (Int × Int × GradientCheck) :=
  (doubleRange (area.top + area.v_offset) area.v_add area.bottom).flatMap fun iy =>
    (doubleRange (area.left + area.h_offset) area.h_add area.right).filterMap fun ix =>
      area.sample iy ix

/-- The candidate of the trivial step at `( ix, iy )`, seeded from the cache. -/
def leafComp (cache : DiffCache) (p : Int × Int) : img_comp :=
  (img_comp.createDefault p.1 p.2).set_diff (cache.get_diff p.1 p.2 1)

/-- The candidate of the recursive case for one sample, seeded from the cache; `u` is
`t.precision` converted to `unsigned` for the call of `get_diff`. -/
def sampleComp (cache : DiffCache) (precision : Precision) (u : Nat)
    (s : Int × Int × GradientCheck) : img_comp :=
  (img_comp.create s.1 s.2.1 s.2.2 precision).set_diff (cache.get_diff s.1 s.2.1 u)

/-- The vector `comps` after the candidate generation of `findMinimum`
(source lines 112 to 159). -/
def generate (cache : DiffCache) (area : GradientCheck) : Except Fault (List img_comp) :=
  if area.isLeaf then
    .ok (area.leafOffsets.map (leafComp cache))
  else if area.amount = 0 then
    -- the offsets are infinite or NaN: the inner loop never runs, and the outer loop
    -- either never runs or, started at -inf, never ends
    if area.bottom - area.top < 0 then .error Fault.nonTermination else .ok []
  else
    match area.samples, area.precision.toUnsigned with
    | [], _ => .ok []
    | _ :: _, none => .error Fault.badConversion
    | s :: rest, some u => .ok ((s :: rest).map (sampleComp cache area.precision u))

/-! ## One round of `findMinimum` -/

/-- The value `max_element( .. )->checkedPercentage()` for a non-empty vector. -/
def maxChecked (plane : GradientPlane) (comps : List img_comp) : Nat :=
  comps.foldl (fun m c => max m (c.checkedPercentage plane)) 0

/-- The vector `comps` after the precisions are re-evaluated and the missing diffs are
computed (source lines 161 to 170). -/
def evaluate (plane : GradientPlane) (comps : List img_comp) :
    Except Fault (List img_comp) :=
  match comps with
  | [] => .error Fault.emptyDereference
  | c :: rest =>
    let max_checked := maxChecked plane (c :: rest)
    .ok (((c :: rest).map (img_comp.increasePrecision plane max_checked)).map
      (img_comp.do_diff plane))

/-- One pass of the body of the selection loop (source lines 177 to 180) over the pair
`( best, best_diff )`. -/
def bestStep (acc : Option img_comp × ℚ) (c : img_comp) : Option img_comp × ℚ :=
  if c.diff < acc.2 then (some c, c.diff) else acc

/-- The pointer `best` after the selection loop. -/
def findBest (comps : List img_comp) : Option img_comp :=
  (comps.foldl bestStep (none, DOUBLE_MAX)).1

/-- The cache after the selection loop (source lines 182 to 184). -/
def addToCache : DiffCache → List img_comp → Except Fault DiffCache
  | cache, [] => .ok cache
  | cache, c :: rest =>
    if c.diff_set then addToCache cache rest
    else
      match c.precision.toUnsigned with
      | none => .error Fault.badConversion
      | some u => addToCache (cache.add_diff c.h_middle c.v_middle c.diff u) rest

/-- The scored vector `comps` of one round, up to the selection loop. -/
def roundComps (plane : GradientPlane) (cache : DiffCache) (area : GradientCheck) :
    Except Fault (List img_comp) :=
  (generate cache area).bind (evaluate plane)

/-- The outcome of a run of `findMinimum`: the returned `MergeResult`, the cache it
leaves, and the regions of the nested invocations, the outermost first. -/
structure Run where
  result : MergeResult
  cache : DiffCache
  calls : List GradientCheck
deriving DecidableEq

/-- The method `GradientPlane::findMinimum`, with `img_comp::result` unfolded at its
end; `fuel` bounds the number of nested invocations. -/
def findMinimumFuel (plane : GradientPlane) :
    Nat → DiffCache → GradientCheck → Except Fault Run
  | 0, _, _ => .error Fault.outOfFuel
  | fuel + 1, cache, area =>
    match roundComps plane cache area with
    | .error e => .error e
    | .ok comps =>
      match addToCache cache comps with
      | .error e => .error e
      | .ok cache1 =>
        match findBest comps with
        | none => .ok { result := ⟨0, 0, DOUBLE_MAX⟩, cache := cache1, calls := [area] }
        | some best =>
          if best.area.level > 0 then
            match findMinimumFuel plane fuel cache1 best.area with
            | .error e => .error e
            | .ok run => .ok { run with calls := area :: run.calls }
          else
            .ok { result := ⟨best.h_middle, best.v_middle, best.diff⟩, cache := cache1,
                  calls := [area] }

/-- A bound on the number of nested invocations started from a region. -/
def GradientCheck.depthBound (area : GradientCheck) : Nat :=
  2 * ((area.right - area.left).toNat + (area.bottom - area.top).toNat)
    + (if area.level ≤ 0 then 1 else 0) + 1

/-- The method `GradientPlane::findMinimum`. -/
def findMinimum (plane : GradientPlane) (cache : DiffCache) (area : GradientCheck) :
    Except Fault Run :=
  findMinimumFuel plane area.depthBound cache area

/-! ## Test data -/

/-- Two planes of 16 by 16 pixels with a metric that ignores the precision:
the squared distance of the offset from the origin. -/
def demoPlane : GradientPlane :=
  { p1 := ⟨16, 16⟩, p2 := ⟨16, 16⟩,
    getDifference := fun x y _ => ((x * x + y * y : Int) : ℚ) }

/-- The vector of a stage that succeeded, the empty vector otherwise. -/
def compsOf (r : Except Fault (List img_comp)) : List img_comp :=
  match r with
  | .ok comps => comps
  | .error _ => []

/-- A leaf region used in examples: `[-1,1]×[-1,1]` at level 1. -/
def demoLeaf : GradientCheck := ⟨-1, 1, -1, 1, 1⟩

/-- The caches met in a sequence of `findMinimum` calls on one `GradientPlane`:
the empty cache of a new `GradientPlane`, and the cache that a round leaves when it
started from such a cache. -/
inductive Reachable (plane : GradientPlane) : DiffCache → Prop where
  | empty : Reachable plane []
  | round (cache : DiffCache) (area : GradientCheck) (comps : List img_comp)
      (cache1 : DiffCache) :
      Reachable plane cache → roundComps plane cache area = .ok comps →
      addToCache cache comps = .ok cache1 → Reachable plane cache1

/-- Two planes of 16 by 16 pixels with a metric that tells the precision it was asked
for: it returns the square of that precision. -/
def precisionPlane : GradientPlane :=
  { p1 := ⟨16, 16⟩, p2 := ⟨16, 16⟩,
    getDifference := fun _ _ p =>
      match p with
      | Precision.root s => s
      | _ => 0 }

/-- The overlap of the spec, in its words: the number of pixels in the intersection of
plane 1, of `w1` by `h1` pixels placed at the origin, and plane 2, of `w2` by `h2`
pixels displaced by `(x, y)`; zero when they do not overlap. -/
def overlapPixels (w1 h1 w2 h2 : Nat) (x y : Int) : Int :=
  max 0 (min (w1 : Int) (x + w2) - max 0 x) * max 0 (min (h1 : Int) (y + h2) - max 0 y)

/-! ## The constructor of `GradientCheck` -/

/-- The conversion `(int)u` of an `unsigned` to `int` (two's complement). -/
def toInt32 (u : Nat) : Int :=
  if u % 2 ^ 32 < 2 ^ 31 then ((u % 2 ^ 32 : Nat) : Int) else ((u % 2 ^ 32 : Nat) : Int) - 2 ^ 32

/-- The conversion of a `double` to `int`: truncation toward zero. -/
def truncToInt (v : ℚ) : Int :=
  if v < 0 then ⌈v⌉ else ⌊v⌋

/-! ## FrameAligner -/

/-- Modelled from the spec: one still of a `FrameAligner` (the containers
`AContainer`, `ImageContainer` and `FrameContainer` are not among the sources): the
number of the frame the still belongs to, and its position `pos( i )`, a
`Point<double>`. -/
structure Still where
  frame : Int
  pos : ℚ × ℚ
deriving DecidableEq

/-- Modelled from the spec: what `FrameAligner::align` reads from collaborators that are
not among the sources. `minPoint` is `minPoint()` of a container, computed from the
positions of its stills; `imagesPos i` is `images.pos( i )` after
`RecursiveAligner::align` and `imagesMinPoint` is `images.minPoint()`, both fixed before
the last loop starts. -/
structure Collaborators where
  minPoint : List (ℚ × ℚ) → ℚ × ℚ
  imagesPos : Nat → ℚ × ℚ
  imagesMinPoint : ℚ × ℚ

/-- Modelled from the spec: `FrameContainer( *this, frame ).offsetAll( delta )`, which
is to "apply that identical delta to every still inside the frame": every still of the
frame moves by `delta` and no other still moves. -/
def offsetAll (stills : List Still) (frame : Int) (delta : ℚ × ℚ) : List Still :=
  stills.map fun s => if s.frame = frame then { s with pos := s.pos + delta } else s

/-- The argument of `offsetAll` in the last loop of `FrameAligner::align`:
`aligned_offset + (images.pos(i) - images.minPoint())` with
`aligned_offset = base_point - current.minPoint()`. -/
def frameDelta (env : Collaborators) (base_point : ℚ × ℚ) (stills : List Still) (i : Nat)
    (frame : Int) : ℚ × ℚ :=
  let current := stills.filter fun s => s.frame = frame
  let aligned_offset := base_point - env.minPoint (current.map fun s => s.pos)
  aligned_offset + (env.imagesPos i - env.imagesMinPoint)

/-- The last loop of `FrameAligner::align`, from the frame of index `i` on. -/
def alignFrames (env : Collaborators) (base_point : ℚ × ℚ) :
    List Int → Nat → List Still → List Still
  | [], _, stills => stills
  | frame :: rest, i, stills =>
    alignFrames env base_point rest (i + 1)
      (offsetAll stills frame (frameDelta env base_point stills i frame))

/-- The method `FrameAligner::align` as a function of the positions of the stills;
`frames` is the result of `getFrames()`. -/
def FrameAligner.align (env : Collaborators) (frames : List Int) (stills : List Still) :
    List Still :=
  let base_point := env.minPoint (stills.map fun s => s.pos)
  alignFrames env base_point frames 0 stills

/-- Two frames of three stills each, and collaborators that place the first composite at
`(0, 0)` and the second at `(5, 7)`. -/
def demoStills : List Still :=
  [⟨0, (0, 0)⟩, ⟨0, (1, 2)⟩, ⟨0, (3, 1)⟩, ⟨1, (10, 10)⟩, ⟨1, (12, 11)⟩, ⟨1, (11, 14)⟩]

/-- Collaborators for `demoStills`: `minPoint` is the componentwise minimum. -/
def demoCollaborators : Collaborators :=
  { minPoint := fun ps => (ps.foldl (fun m p => min m p.1) (ps.headD (0, 0)).1,
                           ps.foldl (fun m p => min m p.2) (ps.headD (0, 0)).2)
    imagesPos := fun i => if i = 0 then (0, 0) else (5, 7)
    imagesMinPoint := (0, 0) }

/-! ## More test data -/

/-- Two planes of 16 by 16 pixels with a metric that depends on the precision at the
offset `(0, 0)`: there it is 10 at the precisions up to 1 and 0 at the coarser ones;
everywhere else it is 1. -/
def coarsePlane : GradientPlane :=
  { p1 := ⟨16, 16⟩, p2 := ⟨16, 16⟩,
    getDifference := fun x y p =>
      if x = 0 ∧ y = 0 then
        match p with
        | Precision.root s => if s ≤ 1 then 10 else 0
        | _ => 0
      else 1 }

/-- Two planes of 16 by 16 pixels with a metric that ignores the precision, is 0 at the
offset `(3, -1)` and grows with the distance from it in each axis:
`(x-3)² + (y+1)²`. -/
def shiftedPlane : GradientPlane :=
  { p1 := ⟨16, 16⟩, p2 := ⟨16, 16⟩,
    getDifference := fun x y _ => (((x - 3) ^ 2 + (y + 1) ^ 2 : Int) : ℚ) }

/-! ## binary64 arithmetic

The source computes the step sizes, the sample positions, the sub-areas and the
precisions in `double`. The definitions of this section round a rational to the nearest
binary64 number, ties to even. The exponent range is not modelled: for regions and levels
in the range of `int` the values met in `findMinimum` are 0 or far from overflow and from
the subnormal numbers. -/

/-- The power `2^e` for an integer exponent. -/
def pow2 (e : Int) : ℚ :=
  if 0 ≤ e then (2 : ℚ) ^ e.toNat else 1 / (2 : ℚ) ^ (-e).toNat

/-- The number of binary digits of `n`, for `n < 2^fuel`. -/
def bitLength : Nat → Nat → Nat
  | 0, _ => 0
  | fuel + 1, n => if n = 0 then 0 else bitLength fuel (n / 2) + 1

/-- The exponent of a positive rational: the integer `e` with `2^e ≤ x < 2^(e+1)`. -/
def ilog2 (x : ℚ) : Int :=
  let e0 : Int := (bitLength x.num.toNat x.num.toNat : Int) - (bitLength x.den x.den : Int)
  if pow2 e0 ≤ x then e0 else e0 - 1

/-- Rounding to the nearest integer, ties to even. -/
def roundEven (x : ℚ) : Int :=
  if x - (⌊x⌋ : ℚ) < 1 / 2 then ⌊x⌋
  else if 1 / 2 < x - (⌊x⌋ : ℚ) then ⌊x⌋ + 1
  else if ⌊x⌋ % 2 = 0 then ⌊x⌋ else ⌊x⌋ + 1

/-- The unit in the last place of the binary64 numbers around `x ≠ 0`: `2^(e-52)` for
`2^e ≤ |x| < 2^(e+1)`. -/
def ulp (x : ℚ) : ℚ :=
  pow2 (ilog2 |x| - 52)

/-- The binary64 number nearest to `x`, ties to even: the result of a `double` operation
whose exact result is `x`. -/
def fl (x : ℚ) : ℚ :=
  if x = 0 then 0 else (roundEven (x / ulp x) : ℚ) * ulp x

/-- The largest `r` with `r*r ≤ n` among the numbers `r0 + j` with `j < 2^bits`, found
bit by bit. -/
def isqrtBits (n : Nat) : Nat → Nat → Nat
  | 0, r => r
  | b + 1, r =>
    if (r + 2 ^ b) * (r + 2 ^ b) ≤ n then isqrtBits n b (r + 2 ^ b) else isqrtBits n b r

/-- The integer square root of `n`. -/
def isqrt (n : Nat) : Nat :=
  isqrtBits n ((bitLength n n + 1) / 2) 0

/-- The call `std::sqrt( v )` for a finite `v > 0`: the binary64 number nearest to the
square root of `v` (IEEE 754 requires the correctly rounded result). With
`2^(2h) ≤ v < 2^(2h+2)` the root lies in `[2^h, 2^(h+1))`, and `k` is the root of
`t = v / u²` rounded to an integer, for `u = 2^(h-52)`. -/
def fsqrt (v : ℚ) : ℚ :=
  if v ≤ 0 then 0
  else
    let u := pow2 (ilog2 v / 2 - 52)
    let t := v / (u * u)
    let k := isqrt ⌊t⌋₊
    let mid : ℚ := (k : ℚ) * k + k + 1 / 4
    if t < mid then (k : ℚ) * u
    else if mid < t then ((k : ℚ) + 1) * u
    else if k % 2 = 0 then (k : ℚ) * u else ((k : ℚ) + 1) * u

/-! ## The search with the doubles of the source in binary64

The definitions above compute the doubles of `findMinimum` exactly. The definitions of
this section are the same functions with every `double` operation of the source rounded
to binary64 (`fl`, `fsqrt`); they also record the calls of the metric. A binary64
precision `p` is the real number `√(p·p)`, the value `Precision.root (p * p)`.
The `int` arithmetic of the source is exact here; the theorems state the ranges in which
it does not overflow. -/

/-- The bounds within which the `int` arithmetic of `findMinimum` on a region and on the
regions nested in it does not overflow, with room to spare: the edges lie between `-2^29`
and `2^29`, and the level between `-2^27` and `2^27`. -/
def GradientCheck.inRange (area : GradientCheck) : Prop :=
  -2 ^ 29 ≤ area.left ∧ area.left ≤ 2 ^ 29 ∧ -2 ^ 29 ≤ area.right ∧ area.right ≤ 2 ^ 29 ∧
  -2 ^ 29 ≤ area.top ∧ area.top ≤ 2 ^ 29 ∧ -2 ^ 29 ≤ area.bottom ∧ area.bottom ≤ 2 ^ 29 ∧
  -2 ^ 27 ≤ area.level ∧ area.level ≤ 2 ^ 27

instance (area : GradientCheck) : Decidable area.inRange := by
  unfold GradientCheck.inRange; infer_instance

/-- The four edges of a region lie between `-B` and `B`. -/
def GradientCheck.edgesWithin (area : GradientCheck) (B : Int) : Prop :=
  -B ≤ area.left ∧ area.left ≤ B ∧ -B ≤ area.right ∧ area.right ≤ B ∧
  -B ≤ area.top ∧ area.top ≤ B ∧ -B ≤ area.bottom ∧ area.bottom ≤ B

instance (area : GradientCheck) (B : Int) : Decidable (area.edgesWithin B) := by
  unfold GradientCheck.edgesWithin; infer_instance

/-- The edges of a region lie within `B` of zero, and `B`, the sides and the level
leave the room that the nested regions need: above level 1 a sub-area can reach out of
its region by a sixth of the longer side, rounded up. -/
def GradientCheck.hasRoom (area : GradientCheck) (B : Int) : Prop :=
  0 ≤ B ∧ area.edgesWithin B ∧
  4 * B + (area.right - area.left) + 6 * area.level ≤ 2 ^ 32 ∧
  4 * B + (area.bottom - area.top) + 6 * area.level ≤ 2 ^ 32 ∧
  4 * B + (area.right - area.left) + 6 ≤ 2 ^ 32 ∧
  4 * B + (area.bottom - area.top) + 6 ≤ 2 ^ 32

/-- The precision that holds the binary64 number `p ≥ 0`. -/
def Precision.ofDouble (p : ℚ) : Precision :=
  Precision.root (p * p)

/-- The square root of a rational that is the square of a rational. -/
def qsqrt (s : ℚ) : ℚ :=
  (isqrt s.num.toNat : ℚ) / (isqrt s.den : ℚ)

/-- The call `std::sqrt( v )` for a finite `v`: NaN below zero. -/
def Precision.sqrt64 (v : ℚ) : Precision :=
  if v < 0 then Precision.nan else Precision.ofDouble (fsqrt v)

/-- The quotient `precision / (max_checked / checked)` of `increasePrecision`, with its
two divisions in binary64; `max_checked` and `checked` are pixel counts converted to
`double`. `0/0` is NaN, `m/0` is `+inf`, `x/inf` is `0`, `x/0` is `+inf` for `x > 0`.
A finite precision of this embedding is `Precision.ofDouble p` for a binary64 number
`p ≥ 0`, which `qsqrt` recovers from its square. -/
def Precision.divQuot64 (p : Precision) (max_checked checked : Nat) : Precision :=
  match p with
  | Precision.nan => Precision.nan
  | Precision.inf => if checked = 0 then Precision.nan else Precision.inf
  | Precision.root s =>
    if checked = 0 then
      if max_checked = 0 then Precision.nan else Precision.ofDouble 0
    else if max_checked = 0 then
      if s = 0 then Precision.nan else Precision.inf
    else Precision.ofDouble (fl (qsqrt s / fl ((max_checked : ℚ) / (checked : ℚ))))

/-- The method `img_comp::increasePrecision` in binary64. -/
def img_comp.increasePrecision64 (plane : GradientPlane) (max_checked : Nat) (c : img_comp) :
    img_comp :=
  { c with precision :=
      (c.precision.divQuot64 max_checked (c.checkedPercentage plane)).max1 }

/-- The metric behind a call-counting stub: the score of `getDifference` and the record
of the call, the offset and the precision that were passed. -/
def GradientPlane.getDifferenceLogged (plane : GradientPlane) (x y : Int)
    (precision : Precision) : ℚ × (Int × Int × Precision) :=
  (plane.getDifference x y precision, (x, y, precision))

/-- The method `img_comp::do_diff` on the stub: the candidate after the call, and the
record of the call of the metric when `do_diff` made one. -/
def img_comp.do_diffLogged (plane : GradientPlane) (c : img_comp) :
    img_comp × List (Int × Int × Precision) :=
  if c.diff_set then (c, [])
  else
    let r := plane.getDifferenceLogged c.h_middle c.v_middle c.precision
    ({ c with diff := r.1 }, [r.2])

/-- The local `h_offset = (double)(area.right - area.left) / amount`, for `amount ≠ 0`. -/
def GradientCheck.h_offset64 (area : GradientCheck) : ℚ :=
  fl (((area.right - area.left : Int) : ℚ) / (area.amount : ℚ))

/-- The local `v_offset = (double)(area.bottom - area.top) / amount`, for `amount ≠ 0`. -/
def GradientCheck.v_offset64 (area : GradientCheck) : ℚ :=
  fl (((area.bottom - area.top : Int) : ℚ) / (area.amount : ℚ))

/-- The local `h_add`. -/
def GradientCheck.h_add64 (area : GradientCheck) : ℚ :=
  if area.h_offset64 < 1 then 1 else area.h_offset64

/-- The local `v_add`. -/
def GradientCheck.v_add64 (area : GradientCheck) : ℚ :=
  if area.v_offset64 < 1 then 1 else area.v_offset64

/-- The local `precision = std::sqrt( prec_offset )` of the recursive case. -/
def GradientCheck.precision64 (area : GradientCheck) : Precision :=
  let prec_offset := min area.h_offset64 area.v_offset64
  let prec_offset :=
    if area.h_offset64 = 0 ∨ area.v_offset64 = 0 then max area.h_offset64 area.v_offset64
    else prec_offset
  Precision.sqrt64 prec_offset

/-- The test `h_offset < 1 && v_offset < 1`; for `amount = 0` as in `isLeaf`. -/
def GradientCheck.isLeaf64 (area : GradientCheck) : Bool :=
  if area.amount = 0 then
    decide (area.right - area.left < 0) && decide (area.bottom - area.top < 0)
  else
    decide (area.h_offset64 < 1) && decide (area.v_offset64 < 1)

/-- The values of `i` in `for( double i = start; i <= stop; i += add )` with the
addition in binary64, or nothing when the loop makes more than `fuel` iterations. -/
def loopValues64 (add : ℚ) (stop : Int) : Nat → ℚ → Option (List ℚ)
  | 0, i => if i ≤ (stop : ℚ) then none else some []
  | fuel + 1, i =>
    if i ≤ (stop : ℚ) then (loopValues64 add stop fuel (fl (i + add))).map (List.cons i)
    else some []

/-- The values of the loop variable, with fuel for twice the number of unit steps from
`start` to `stop`. -/
def doubleRange64 (start add : ℚ) (stop : Int) : Option (List ℚ) :=
  loopValues64 add stop (2 * loopFuel start stop + 2) start

/-- The rounding `( v < 0.0 ) ? ceil( v-0.5 ) : floor( v+0.5 )` in binary64. -/
def roundHalfAway64 (v : ℚ) : Int :=
  if v < 0 then ⌈fl (v - 1 / 2)⌉ else ⌊fl (v + 1 / 2)⌋

/-- The body of the inner loop of the recursive case at `( ix, iy )` in binary64: the
rounded offset and the sub-area, or nothing when the body leaves through `continue`. -/
def GradientCheck.sample64 (area : GradientCheck) (iy ix : ℚ) :
    Option (Int × Int × GradientCheck) :=
  let x := roundHalfAway64 ix
  let y := roundHalfAway64 iy
  if (x = area.right ∧ x ≠ area.left) ∨ (y = area.bottom ∧ y ≠ area.top) then none
  else
    some (x, y,
      { left := ⌊fl (ix - area.h_offset64)⌋, right := ⌈fl (ix + area.h_offset64)⌉,
        top := ⌊fl (iy - area.v_offset64)⌋, bottom := ⌈fl (iy + area.v_offset64)⌉,
        level := area.subLevel })

/-- The samples made by the two loops of the recursive case in binary64, in order, for
`amount ≠ 0`; nothing when a loop runs out of fuel. -/
def GradientCheck.samples64 (area : GradientCheck) :
    Option (List (Int × Int × GradientCheck)) :=
  match doubleRange64 (fl ((area.top : ℚ) + area.v_offset64)) area.v_add64 area.bottom with
  | none => none
  | some [] => some []
  | some (iy :: rows) =>
    match doubleRange64 (fl ((area.left : ℚ) + area.h_offset64)) area.h_add64 area.right with
    | none => none
    | some cols =>
      some ((iy :: rows).flatMap fun jy => cols.filterMap fun ix => area.sample64 jy ix)

/-- The vector `comps` after the candidate generation of `findMinimum` (source lines 112
to 159), in binary64. -/
def generate64 (cache : DiffCache) (area : GradientCheck) : Except Fault (List img_comp) :=
  if area.isLeaf64 then
    .ok (area.leafOffsets.map (leafComp cache))
  else if area.amount = 0 then
    if area.bottom - area.top < 0 then .error Fault.nonTermination else .ok []
  else
    match area.samples64 with
    | none => .error Fault.outOfFuel
    | some [] => .ok []
    | some (s :: rest) =>
      match area.precision64.toUnsigned with
      | none => .error Fault.badConversion
      | some u => .ok ((s :: rest).map (sampleComp cache area.precision64 u))

/-- The vector `comps` after the precisions are re-evaluated and the missing diffs are
computed (source lines 161 to 170), in binary64, and the calls of the metric that
`do_diff` made, in the order of the vector. -/
def evaluate64 (plane : GradientPlane) (comps : List img_comp) :
    Except Fault (List img_comp × List (Int × Int × Precision)) :=
  match comps with
  | [] => .error Fault.emptyDereference
  | c :: rest =>
    let max_checked := maxChecked plane (c :: rest)
    let scored := ((c :: rest).map (img_comp.increasePrecision64 plane max_checked)).map
      (img_comp.do_diffLogged plane)
    .ok (scored.map Prod.fst, scored.flatMap Prod.snd)

/-- The scored vector `comps` of one round in binary64, up to the selection loop, and the
calls of the metric. -/
def roundComps64 (plane : GradientPlane) (cache : DiffCache) (area : GradientCheck) :
    Except Fault (List img_comp × List (Int × Int × Precision)) :=
  (generate64 cache area).bind (evaluate64 plane)

/-- The outcome of a run of `findMinimum` in binary64: the returned `MergeResult`, the
cache it leaves, the regions of the nested invocations, the outermost first, and the
calls of the metric. -/
structure Run64 where
  result : MergeResult
  cache : DiffCache
  calls : List GradientCheck
  evals : List (Int × Int × Precision)
deriving DecidableEq

/-- The method `GradientPlane::findMinimum` in binary64, with `img_comp::result` unfolded
at its end; `fuel` bounds the number of nested invocations. -/
def findMinimumFuel64 (plane : GradientPlane) :
    Nat → DiffCache → GradientCheck → Except Fault Run64
  | 0, _, _ => .error Fault.outOfFuel
  | fuel + 1, cache, area =>
    match roundComps64 plane cache area with
    | .error e => .error e
    | .ok (comps, evals) =>
      match addToCache cache comps with
      | .error e => .error e
      | .ok cache1 =>
        match findBest comps with
        | none =>
          .ok { result := ⟨0, 0, DOUBLE_MAX⟩, cache := cache1, calls := [area],
                evals := evals }
        | some best =>
          if best.area.level > 0 then
            match findMinimumFuel64 plane fuel cache1 best.area with
            | .error e => .error e
            | .ok run => .ok { run with calls := area :: run.calls,
                                        evals := evals ++ run.evals }
          else
            .ok { result := ⟨best.h_middle, best.v_middle, best.diff⟩, cache := cache1,
                  calls := [area], evals := evals }

/-- A bound on the number of nested invocations in binary64. From level 1 on the steps
are quarters of the sides, exact in binary64, and the bound is `depthBound`; above
level 1 a sub-area can be wider than the region by two units in each of the rounds that
lead to level 1. -/
def GradientCheck.fuel64 (area : GradientCheck) : Nat :=
  if area.level ≤ 1 then area.depthBound
  else
    2 * ((area.right - area.left).toNat + (area.bottom - area.top).toNat
      + 4 * area.level.toNat) + area.level.toNat + 2

/-- The method `GradientPlane::findMinimum` in binary64. -/
def findMinimum64 (plane : GradientPlane) (cache : DiffCache) (area : GradientCheck) :
    Except Fault Run64 :=
  findMinimumFuel64 plane area.fuel64 cache area

/-- The constructor `GradientCheck( Size<unsigned> size, double width_scale,
double height_scale, int lvl )` in binary64: each product of an `int` and a `double` is
rounded, then truncated by the conversion to `int`. -/
def GradientCheck.ofSize64 (width height : Nat) (width_scale height_scale : ℚ) (lvl : Int) :
    GradientCheck :=
  { left := truncToInt (fl ((((1 : Int) - toInt32 width : Int) : ℚ) * width_scale))
    top := truncToInt (fl ((((1 : Int) - toInt32 height : Int) : ℚ) * height_scale))
    right := truncToInt (fl (((toInt32 width - 1 : Int) : ℚ) * width_scale))
    bottom := truncToInt (fl (((toInt32 height - 1 : Int) : ℚ) * height_scale))
    level := lvl }

/-! # Theorems -/

/-! ## Conversion of a precision to `unsigned` -/

/-- The conversion truncates: `√s` becomes the natural number `k` with `k² ≤ s < (k+1)²`. -/
theorem toUnsigned_root (s : ℚ) (hs : 0 ≤ s) (k : Nat) :
    (Precision.root s).toUnsigned = some k ↔
      ((k : ℚ) ^ 2 ≤ s ∧ s < ((k : ℚ) + 1) ^ 2 ∧ k < 2 ^ 32) := by
  have hchar : ∀ j : Nat, j = Nat.sqrt ⌊s⌋₊ ↔ ((j : ℚ) ^ 2 ≤ s ∧ s < ((j : ℚ) + 1) ^ 2) := by
    intro j
    rw [Nat.eq_sqrt, Nat.le_floor_iff hs, Nat.floor_lt hs]
    push_cast
    constructor
    · rintro ⟨h1, h2⟩
      exact ⟨by nlinarith, by nlinarith⟩
    · rintro ⟨h1, h2⟩
      exact ⟨by nlinarith, by nlinarith⟩
  have hdef : (Precision.root s).toUnsigned
      = if Nat.sqrt ⌊s⌋₊ < 2 ^ 32 then some (Nat.sqrt ⌊s⌋₊) else none := rfl
  rw [hdef]
  by_cases h : Nat.sqrt ⌊s⌋₊ < 2 ^ 32
  · rw [if_pos h]
    constructor
    · intro hk
      have hk2 : Nat.sqrt ⌊s⌋₊ = k := by simpa using hk
      have := (hchar k).mp hk2.symm
      exact ⟨this.1, this.2, by omega⟩
    · rintro ⟨h1, h2, _⟩
      have := (hchar k).mpr ⟨h1, h2⟩
      rw [← this]
  · rw [if_neg h]
    constructor
    · intro hk; cases hk
    · rintro ⟨h1, h2, h3⟩
      have := (hchar k).mpr ⟨h1, h2⟩
      omega

/-! ## Integer loops -/

theorem mem_intRange (lo hi x : Int) : x ∈ intRange lo hi ↔ lo ≤ x ∧ x ≤ hi := by
  unfold intRange
  rw [List.mem_map]
  constructor
  · rintro ⟨k, hk, rfl⟩
    rw [List.mem_range] at hk
    omega
  · rintro ⟨h1, h2⟩
    refine ⟨(x - lo).toNat, List.mem_range.mpr ?_, ?_⟩ <;> omega

theorem pairwise_intRange (lo hi : Int) : (intRange lo hi).Pairwise (· < ·) := by
  unfold intRange
  rw [List.pairwise_map]
  exact (List.pairwise_lt_range _).imp (fun h => by omega)

theorem mem_leafOffsets (area : GradientCheck) (p : Int × Int) :
    p ∈ area.leafOffsets ↔
      area.left ≤ p.1 ∧ p.1 ≤ area.right ∧ area.top ≤ p.2 ∧ p.2 ≤ area.bottom := by
  obtain ⟨x, y⟩ := p
  unfold GradientCheck.leafOffsets
  simp only [List.mem_flatMap, List.mem_map, mem_intRange, Prod.mk.injEq]
  constructor
  · rintro ⟨ix, hx, iy, hy, rfl, rfl⟩
    exact ⟨hx.1, hx.2, hy.1, hy.2⟩
  · rintro ⟨h1, h2, h3, h4⟩
    exact ⟨x, ⟨h1, h2⟩, y, ⟨h3, h4⟩, rfl, rfl⟩

theorem pairwise_leafOffsets (area : GradientCheck) :
    area.leafOffsets.Pairwise
      (fun a b => a.1 < b.1 ∨ (a.1 = b.1 ∧ a.2 < b.2)) := by
  unfold GradientCheck.leafOffsets
  rw [List.pairwise_flatMap]
  constructor
  · intro ix _
    rw [List.pairwise_map]
    exact (pairwise_intRange _ _).imp (fun h => Or.inr ⟨rfl, h⟩)
  · refine (pairwise_intRange _ _).imp ?_
    intro a b hab p hp q hq
    simp only [List.mem_map] at hp hq
    obtain ⟨_, _, rfl⟩ := hp
    obtain ⟨_, _, rfl⟩ := hq
    exact Or.inl hab

/-- For `amount ≠ 0` the leaf test is the comparison of the two step sizes with 1. -/
theorem isLeaf_iff (area : GradientCheck) (hamount : area.amount ≠ 0) :
    area.isLeaf = true ↔ area.h_offset < 1 ∧ area.v_offset < 1 := by
  unfold GradientCheck.isLeaf
  rw [if_neg hamount]
  simp

/-- For a level of at least 0 the leaf test compares the width and the height of the
region with `amount = 2·level + 2`. -/
theorem isLeaf_iff_lt_amount (area : GradientCheck) (hl : 0 ≤ area.level) :
    area.isLeaf = true ↔
      area.right - area.left < area.amount ∧ area.bottom - area.top < area.amount := by
  have hamount : area.amount ≠ 0 := by unfold GradientCheck.amount; omega
  have hpos : (0 : ℚ) < (area.amount : ℚ) := by
    have : (0 : Int) < area.amount := by unfold GradientCheck.amount; omega
    exact_mod_cast this
  rw [isLeaf_iff area hamount]
  unfold GradientCheck.h_offset GradientCheck.v_offset
  rw [div_lt_one hpos, div_lt_one hpos]
  constructor
  · rintro ⟨h1, h2⟩
    exact ⟨by exact_mod_cast h1, by exact_mod_cast h2⟩
  · rintro ⟨h1, h2⟩
    exact ⟨by exact_mod_cast h1, by exact_mod_cast h2⟩

theorem leafComp_offset (cache : DiffCache) (p : Int × Int) :
    ((leafComp cache p).h_middle, (leafComp cache p).v_middle) = p := rfl

theorem generate_leaf (cache : DiffCache) (area : GradientCheck)
    (hleaf : area.isLeaf = true) :
    generate cache area = .ok (area.leafOffsets.map (leafComp cache)) := by
  simp [generate, hleaf]

/-- C1 (leaf exhaustiveness). When the test `h_offset < 1 && v_offset < 1` succeeds, the
candidate list built by `findMinimum` holds exactly the integer offsets `(x, y)` with
`left ≤ x ≤ right` and `top ≤ y ≤ bottom`, each once, enumerated with `x` as the outer
loop and `y` as the inner loop (the list of offsets is strictly increasing in that
order). -/
theorem leaf_exhaustive (cache : DiffCache) (area : GradientCheck)
    (hleaf : area.isLeaf = true) :
    ∃ comps, generate cache area = .ok comps ∧
      (∀ x y : Int, (x, y) ∈ comps.map (fun c => (c.h_middle, c.v_middle)) ↔
        area.left ≤ x ∧ x ≤ area.right ∧ area.top ≤ y ∧ y ≤ area.bottom) ∧
      (comps.map (fun c => (c.h_middle, c.v_middle))).Nodup ∧
      (comps.map (fun c => (c.h_middle, c.v_middle))).Pairwise
        (fun a b => a.1 < b.1 ∨ (a.1 = b.1 ∧ a.2 < b.2)) := by
  refine ⟨_, generate_leaf cache area hleaf, ?_⟩
  have hmap : (area.leafOffsets.map (leafComp cache)).map
      (fun c => (c.h_middle, c.v_middle)) = area.leafOffsets := by
    rw [List.map_map]
    conv_rhs => rw [← List.map_id area.leafOffsets]
    exact List.map_congr_left (fun p _ => leafComp_offset cache p)
  rw [hmap]
  refine ⟨fun x y => mem_leafOffsets area (x, y), ?_, pairwise_leafOffsets area⟩
  refine (pairwise_leafOffsets area).imp ?_
  rintro a b (h | ⟨_, h⟩) hab
  · rw [hab] at h; exact lt_irrefl _ h
  · rw [hab] at h; exact lt_irrefl _ h

/-- The region `[-1,1]×[-1,1]` at level 1 is a leaf: its nine offsets are the
candidates. -/
theorem leaf_exhaustive_witness :
    (GradientCheck.mk (-1) 1 (-1) 1 1).isLeaf = true ∧
    ∃ comps, generate [] (GradientCheck.mk (-1) 1 (-1) 1 1) = .ok comps ∧
      (∀ x y : Int, (x, y) ∈ comps.map (fun c => (c.h_middle, c.v_middle)) ↔
        (GradientCheck.mk (-1) 1 (-1) 1 1).left ≤ x ∧ x ≤ (GradientCheck.mk (-1) 1 (-1) 1 1).right ∧
        (GradientCheck.mk (-1) 1 (-1) 1 1).top ≤ y ∧ y ≤ (GradientCheck.mk (-1) 1 (-1) 1 1).bottom) ∧
      (comps.map (fun c => (c.h_middle, c.v_middle))).Nodup ∧
      (comps.map (fun c => (c.h_middle, c.v_middle))).Pairwise
        (fun a b => a.1 < b.1 ∨ (a.1 = b.1 ∧ a.2 < b.2)) :=
  ⟨by decide!, leaf_exhaustive [] _ (by decide!)⟩

/-! ## Selection of the best candidate -/

/-- State of the selection loop after a prefix `l` of the vector. -/
theorem bestFold_spec (l : List img_comp) :
    ((l.foldl bestStep (none, DOUBLE_MAX)).1 = none ∧
      (l.foldl bestStep (none, DOUBLE_MAX)).2 = DOUBLE_MAX ∧
      ∀ c ∈ l, DOUBLE_MAX ≤ c.diff) ∨
    (∃ best pre post, (l.foldl bestStep (none, DOUBLE_MAX)).1 = some best ∧
      (l.foldl bestStep (none, DOUBLE_MAX)).2 = best.diff ∧ best.diff < DOUBLE_MAX ∧
      l = pre ++ best :: post ∧ (∀ c ∈ pre, best.diff < c.diff) ∧
      ∀ c ∈ post, best.diff ≤ c.diff) := by
  induction l using List.reverseRecOn with
  | nil => exact Or.inl ⟨rfl, rfl, by simp⟩
  | append_singleton l c ih =>
    rw [List.foldl_append, List.foldl_cons, List.foldl_nil]
    rcases ih with ⟨h1, h2, h3⟩ | ⟨best, pre, post, h1, h2, hlt, hl, hpre, hpost⟩
    · by_cases hc : c.diff < DOUBLE_MAX
      · right
        refine ⟨c, l, [], ?_, ?_, hc, rfl, ?_, by simp⟩
        · simp [bestStep, h2, hc]
        · simp [bestStep, h2, hc]
        · intro c1 hc1
          exact lt_of_lt_of_le hc (h3 c1 hc1)
      · left
        refine ⟨?_, ?_, ?_⟩
        · simp [bestStep, h2, hc, h1]
        · simp [bestStep, h2, hc]
        · intro c1 hc1
          rcases List.mem_append.mp hc1 with h | h
          · exact h3 c1 h
          · rw [List.mem_singleton.mp h]; exact not_lt.mp hc
    · right
      by_cases hc : c.diff < best.diff
      · refine ⟨c, l, [], ?_, ?_, lt_trans hc hlt, rfl, ?_, by simp⟩
        · simp [bestStep, h2, hc]
        · simp [bestStep, h2, hc]
        · intro c1 hc1
          rw [hl] at hc1
          rcases List.mem_append.mp hc1 with h | h
          · exact lt_trans hc (hpre c1 h)
          · rcases List.mem_cons.mp h with h | h
            · rw [h]; exact hc
            · exact lt_of_lt_of_le hc (hpost c1 h)
      · refine ⟨best, pre, post ++ [c], ?_, ?_, hlt, ?_, hpre, ?_⟩
        · simp [bestStep, h2, hc, h1]
        · simp [bestStep, h2, hc]
        · rw [hl]; simp
        · intro c1 hc1
          rcases List.mem_append.mp hc1 with h | h
          · exact hpost c1 h
          · rw [List.mem_singleton.mp h]; exact not_lt.mp hc

theorem findBest_eq_none (l : List img_comp) (h : findBest l = none) :
    ∀ c ∈ l, DOUBLE_MAX ≤ c.diff := by
  unfold findBest at h
  rcases bestFold_spec l with ⟨_, _, h3⟩ | ⟨best, _, _, h1, _⟩
  · exact h3
  · rw [h1] at h; cases h

theorem findBest_eq_some (l : List img_comp) (best : img_comp) (h : findBest l = some best) :
    best.diff < DOUBLE_MAX ∧ ∃ pre post, l = pre ++ best :: post ∧
      (∀ c ∈ pre, best.diff < c.diff) ∧ ∀ c ∈ post, best.diff ≤ c.diff := by
  unfold findBest at h
  rcases bestFold_spec l with ⟨h1, _, _⟩ | ⟨b, pre, post, h1, _, hlt, hl, hpre, hpost⟩
  · rw [h1] at h; cases h
  · rw [h1] at h
    cases h
    exact ⟨hlt, pre, post, hl, hpre, hpost⟩

theorem evaluate_ok (plane : GradientPlane) (gen comps : List img_comp)
    (h : evaluate plane gen = .ok comps) :
    gen ≠ [] ∧ comps = (gen.map (img_comp.increasePrecision plane (maxChecked plane gen))).map
      (img_comp.do_diff plane) := by
  cases gen with
  | nil => simp [evaluate] at h
  | cons c rest =>
    simp only [evaluate, Except.ok.injEq] at h
    exact ⟨by simp, h.symm⟩

theorem roundComps_ok (plane : GradientPlane) (cache : DiffCache) (area : GradientCheck)
    (comps : List img_comp) (h : roundComps plane cache area = .ok comps) :
    ∃ gen, generate cache area = .ok gen ∧ evaluate plane gen = .ok comps := by
  unfold roundComps at h
  cases hg : generate cache area with
  | error e => rw [hg] at h; cases h
  | ok gen => rw [hg] at h; exact ⟨gen, rfl, h⟩

/-! ## Cache lookup -/

theorem get_diff_spec (cache : DiffCache) (x y : Int) (p : Nat) :
    (∃ pre c post, cache = pre ++ c :: post ∧
      (c.x = x ∧ c.y = y ∧ c.precision ≤ p) ∧
      (∀ e ∈ pre, ¬ (e.x = x ∧ e.y = y ∧ e.precision ≤ p)) ∧
      cache.get_diff x y p = c.diff) ∨
    ((∀ e ∈ cache, ¬ (e.x = x ∧ e.y = y ∧ e.precision ≤ p)) ∧
      cache.get_diff x y p = -1) := by
  induction cache with
  | nil => exact Or.inr ⟨by simp, rfl⟩
  | cons c rest ih =>
    by_cases hc : c.x = x ∧ c.y = y ∧ c.precision ≤ p
    · left
      refine ⟨[], c, rest, rfl, hc, by simp, ?_⟩
      simp only [DiffCache.get_diff, if_pos hc]
    · have hstep : DiffCache.get_diff (c :: rest) x y p = DiffCache.get_diff rest x y p := by
        simp only [DiffCache.get_diff, if_neg hc]
      rcases ih with ⟨pre, d, post, hl, hd, hpre, hget⟩ | ⟨hnone, hget⟩
      · left
        refine ⟨c :: pre, d, post, by rw [hl]; rfl, hd, ?_, by rw [hstep, hget]⟩
        intro e he
        rcases List.mem_cons.mp he with h | h
        · rw [h]; exact hc
        · exact hpre e h
      · right
        refine ⟨?_, by rw [hstep, hget]⟩
        intro e he
        rcases List.mem_cons.mp he with h | h
        · rw [h]; exact hc
        · exact hnone e h

/-- C3, as stated, fails: the cache that holds the single entry `(0, 0)` with score `-1`
and precision `1` answers the query `(0, 0, 1)` with `-1` although a matching entry
exists. -/
theorem get_diff_minus_one_with_entry :
    ¬ (DiffCache.get_diff [⟨0, 0, -1, 1⟩] 0 0 1 = -1 ↔
      ¬ ∃ c ∈ ([⟨0, 0, -1, 1⟩] : DiffCache), c.x = 0 ∧ c.y = 0 ∧ c.precision ≤ 1) := by
  decide!

/-- C3 (cache lookup), amended. For every cache content and every query `(x, y, p)`,
`get_diff` returns the score of the first entry in insertion order whose offset is
`(x, y)` and whose stored precision is at most `p`, and `-1` when there is no such
entry; a result of `-1` means that there is no such entry or that the first such entry
stores the score `-1`, so when no stored score is `-1` (scores are non-negative) the
result is `-1` exactly when no such entry exists. -/
theorem get_diff_first_match (cache : DiffCache) (x y : Int) (p : Nat) :
    ((∃ pre c post, cache = pre ++ c :: post ∧
        (c.x = x ∧ c.y = y ∧ c.precision ≤ p) ∧
        (∀ e ∈ pre, ¬ (e.x = x ∧ e.y = y ∧ e.precision ≤ p)) ∧
        cache.get_diff x y p = c.diff) ∨
      ((∀ e ∈ cache, ¬ (e.x = x ∧ e.y = y ∧ e.precision ≤ p)) ∧
        cache.get_diff x y p = -1)) ∧
    ((∀ e ∈ cache, e.diff ≠ -1) →
      (cache.get_diff x y p = -1 ↔
        ¬ ∃ e ∈ cache, e.x = x ∧ e.y = y ∧ e.precision ≤ p)) := by
  refine ⟨get_diff_spec cache x y p, ?_⟩
  intro hne
  rcases get_diff_spec cache x y p with ⟨pre, c, post, hl, hc, _, hget⟩ | ⟨hnone, hget⟩
  · have hmem : c ∈ cache := by rw [hl]; simp
    constructor
    · intro h
      rw [hget] at h
      exact absurd h (hne c hmem)
    · intro h
      exact absurd ⟨c, hmem, hc⟩ h
  · constructor
    · rintro _ ⟨e, he, hm⟩
      exact hnone e he hm
    · intro _
      exact hget

/-! ## The loops over `double` and the rounding -/

theorem le_of_mem_loopValues (add : ℚ) (stop : Int) (hadd : 0 ≤ add) :
    ∀ (fuel : Nat) (i v : ℚ), v ∈ loopValues add stop fuel i → i ≤ v ∧ v ≤ (stop : ℚ) := by
  intro fuel
  induction fuel with
  | zero => intro i v hv; simp [loopValues] at hv
  | succ n ih =>
    intro i v hv
    unfold loopValues at hv
    split at hv
    · rcases List.mem_cons.mp hv with h | h
      · rw [h]; exact ⟨le_refl _, by assumption⟩
      · have := ih (i + add) v h
        exact ⟨by linarith [this.1], this.2⟩
    · simp at hv

theorem pairwise_loopValues (add : ℚ) (stop : Int) (hadd : 1 ≤ add) :
    ∀ (fuel : Nat) (i : ℚ), (loopValues add stop fuel i).Pairwise (fun a b => a + 1 ≤ b) := by
  intro fuel
  induction fuel with
  | zero => intro i; simp [loopValues]
  | succ n ih =>
    intro i
    unfold loopValues
    split
    · refine List.pairwise_cons.mpr ⟨?_, ih (i + add)⟩
      intro v hv
      have := (le_of_mem_loopValues add stop (by linarith) n (i + add) v hv).1
      linarith
    · exact List.Pairwise.nil

theorem roundHalfAway_lt (a b : ℚ) (h : a + 1 ≤ b) : roundHalfAway a < roundHalfAway b := by
  unfold roundHalfAway
  by_cases ha : a < 0
  · by_cases hb : b < 0
    · rw [if_pos ha, if_pos hb, Int.lt_ceil]
      have := Int.ceil_lt_add_one (a - 1 / 2)
      linarith
    · rw [if_pos ha, if_neg hb]
      by_cases hb2 : b < 1 / 2
      · have h1 : ⌈a - 1 / 2⌉ ≤ -1 := by
          rw [Int.ceil_le]; push_cast; linarith
        have h2 : (0 : Int) ≤ ⌊b + 1 / 2⌋ := by
          rw [Int.le_floor]; push_cast; linarith
        omega
      · have h1 : ⌈a - 1 / 2⌉ ≤ 0 := by
          rw [Int.ceil_le]; push_cast; linarith
        have h2 : (1 : Int) ≤ ⌊b + 1 / 2⌋ := by
          rw [Int.le_floor]; push_cast; linarith
        omega
  · have hb : ¬ b < 0 := by linarith
    rw [if_neg ha, if_neg hb, Int.lt_iff_add_one_le, Int.le_floor]
    have := Int.floor_le (a + 1 / 2)
    push_cast
    linarith

/-- The fuel of `doubleRange` is enough: for a step of at least 1 the loop visits every
value `start + k·add` that does not exceed `stop`, and nothing else. -/
theorem mem_doubleRange (start add : ℚ) (stop : Int) (hadd : 1 ≤ add) (v : ℚ) :
    v ∈ doubleRange start add stop ↔ ∃ k : ℕ, v = start + (k : ℚ) * add ∧ v ≤ (stop : ℚ) := by
  constructor
  · intro h
    have hk : ∀ (fuel : Nat) (i w : ℚ), w ∈ loopValues add stop fuel i →
        ∃ k : ℕ, w = i + (k : ℚ) * add ∧ w ≤ (stop : ℚ) := by
      intro fuel
      induction fuel with
      | zero => intro i w hw; simp [loopValues] at hw
      | succ n ih =>
        intro i w hw
        unfold loopValues at hw
        split at hw
        · rcases List.mem_cons.mp hw with h | h
          · exact ⟨0, by rw [h]; simp, by rw [h]; assumption⟩
          · obtain ⟨k, hk, hle⟩ := ih (i + add) w h
            exact ⟨k + 1, by rw [hk]; push_cast; ring, hle⟩
        · simp at hw
    exact hk _ _ _ h
  · rintro ⟨k, hk, hle⟩
    have key : ∀ (k : ℕ) (i : ℚ) (fuel : Nat), i + (k : ℚ) * add ≤ (stop : ℚ) →
        loopFuel i stop ≤ fuel → i + (k : ℚ) * add ∈ loopValues add stop fuel i := by
      intro k
      induction k with
      | zero =>
        intro i fuel hle hf
        simp only [Nat.cast_zero, zero_mul, add_zero] at hle ⊢
        have h1 : 1 ≤ loopFuel i stop := by
          unfold loopFuel
          have : (0 : Int) ≤ ⌊(stop : ℚ) - i⌋ := by
            rw [Int.le_floor]; push_cast; linarith
          omega
        obtain ⟨n, rfl⟩ : ∃ n, fuel = n + 1 := ⟨fuel - 1, by omega⟩
        unfold loopValues
        rw [if_pos hle]
        exact List.mem_cons_self _ _
      | succ k ih =>
        intro i fuel hle hf
        have hk0 : (0 : ℚ) ≤ (k : ℚ) := Nat.cast_nonneg k
        have hi : i ≤ (stop : ℚ) := by
          push_cast at hle
          nlinarith
        have hfl : (0 : Int) ≤ ⌊(stop : ℚ) - i⌋ := by
          rw [Int.le_floor]; push_cast; linarith
        have hfl2 : ⌊(stop : ℚ) - (i + add)⌋ + 1 ≤ ⌊(stop : ℚ) - i⌋ := by
          rw [Int.le_floor]
          have := Int.floor_le ((stop : ℚ) - (i + add))
          push_cast
          linarith
        obtain ⟨n, rfl⟩ : ∃ n, fuel = n + 1 := by
          refine ⟨fuel - 1, ?_⟩
          unfold loopFuel at hf
          omega
        unfold loopValues
        rw [if_pos hi]
        refine List.mem_cons_of_mem _ ?_
        have heq : i + ((k + 1 : ℕ) : ℚ) * add = (i + add) + (k : ℚ) * add := by
          push_cast; ring
        rw [heq]
        refine ih (i + add) n (by rw [← heq]; exact hle) ?_
        unfold loopFuel at hf ⊢
        omega
    rw [hk]
    exact key k start _ (by rw [← hk]; exact hle) (le_refl _)

/-- The literal of `DOUBLE_MAX` is `2^1024 - 2^971`. -/
theorem DOUBLE_MAX_eq : DOUBLE_MAX = 2 ^ 1024 - 2 ^ 971 := by
  norm_num [DOUBLE_MAX]

theorem h_add_ge_one (area : GradientCheck) : 1 ≤ area.h_add := by
  unfold GradientCheck.h_add
  split
  · exact le_refl _
  · linarith

theorem v_add_ge_one (area : GradientCheck) : 1 ≤ area.v_add := by
  unfold GradientCheck.v_add
  split
  · exact le_refl _
  · linarith

/-- What one sample is made of. -/
theorem sample_eq_some (area : GradientCheck) (iy ix : ℚ) (s : Int × Int × GradientCheck)
    (h : area.sample iy ix = some s) :
    s.1 = roundHalfAway ix ∧ s.2.1 = roundHalfAway iy ∧
    ¬ (s.1 = area.right ∧ s.1 ≠ area.left) ∧ ¬ (s.2.1 = area.bottom ∧ s.2.1 ≠ area.top) ∧
    s.2.2 = { left := ⌊ix - area.h_offset⌋, right := ⌈ix + area.h_offset⌉,
              top := ⌊iy - area.v_offset⌋, bottom := ⌈iy + area.v_offset⌉,
              level := area.subLevel } := by
  unfold GradientCheck.sample at h
  simp only at h
  split at h
  · cases h
  · rename_i hskip
    cases h
    push_neg at hskip
    refine ⟨rfl, rfl, ?_, ?_, rfl⟩
    · rintro ⟨h1, h2⟩; exact h2 (hskip.1 h1)
    · rintro ⟨h1, h2⟩; exact h2 (hskip.2 h1)

/-- Where a sample comes from: its row `iy` and its column `ix`. -/
theorem mem_samples (area : GradientCheck) (s : Int × Int × GradientCheck)
    (h : s ∈ area.samples) :
    ∃ iy ∈ doubleRange (area.top + area.v_offset) area.v_add area.bottom,
    ∃ ix ∈ doubleRange (area.left + area.h_offset) area.h_add area.right,
      area.sample iy ix = some s := by
  unfold GradientCheck.samples at h
  rw [List.mem_flatMap] at h
  obtain ⟨iy, hiy, hs⟩ := h
  rw [List.mem_filterMap] at hs
  obtain ⟨ix, hix, hs⟩ := hs
  exact ⟨iy, hiy, ix, hix, hs⟩

/-- The samples are made row by row, top to bottom, and from left to right within a
row: their offsets strictly increase in the order `y` first, `x` second. -/
theorem pairwise_samples (area : GradientCheck) :
    area.samples.Pairwise
      (fun s t => s.2.1 < t.2.1 ∨ (s.2.1 = t.2.1 ∧ s.1 < t.1)) := by
  unfold GradientCheck.samples
  rw [List.pairwise_flatMap]
  constructor
  · intro iy _
    rw [List.pairwise_filterMap]
    refine (pairwise_loopValues _ _ (h_add_ge_one area) _ _).imp ?_
    intro a b hab s hs t ht
    rw [Option.mem_def] at hs ht
    obtain ⟨hs1, hs2, _⟩ := sample_eq_some area iy a s hs
    obtain ⟨ht1, ht2, _⟩ := sample_eq_some area iy b t ht
    right
    exact ⟨by rw [hs2, ht2], by rw [hs1, ht1]; exact roundHalfAway_lt a b hab⟩
  · refine (pairwise_loopValues _ _ (v_add_ge_one area) _ _).imp ?_
    intro a b hab s hs t ht
    rw [List.mem_filterMap] at hs ht
    obtain ⟨ix, _, hs⟩ := hs
    obtain ⟨jx, _, ht⟩ := ht
    obtain ⟨_, hs2, _⟩ := sample_eq_some area a ix s hs
    obtain ⟨_, ht2, _⟩ := sample_eq_some area b jx t ht
    left
    rw [hs2, ht2]
    exact roundHalfAway_lt a b hab

/-! ## The candidates of the recursive case -/

theorem generate_nonleaf (cache : DiffCache) (area : GradientCheck) (gen : List img_comp)
    (hleaf : area.isLeaf = false) (hgen : generate cache area = .ok gen) :
    (gen = [] ∧ (area.amount = 0 ∨ area.samples = [])) ∨
    (area.amount ≠ 0 ∧ ∃ u, area.precision.toUnsigned = some u ∧
      gen = area.samples.map (sampleComp cache area.precision u)) := by
  unfold generate at hgen
  simp only [hleaf, Bool.false_eq_true, if_false] at hgen
  by_cases ha : area.amount = 0
  · rw [if_pos ha] at hgen
    split at hgen
    · cases hgen
    · cases hgen
      exact Or.inl ⟨rfl, Or.inl ha⟩
  · rw [if_neg ha] at hgen
    split at hgen
    · cases hgen
      rename_i hs
      exact Or.inl ⟨rfl, Or.inr hs⟩
    · cases hgen
    · rename_i s rest u hs hu
      cases hgen
      exact Or.inr ⟨ha, u, hu, by rw [hs]⟩

/-- The order of generation: in the trivial step the offsets strictly increase with `x`
first and `y` second (outer `x` loop, inner `y` loop); in the recursive case they
strictly increase with `y` first and `x` second (row by row, left to right). -/
theorem generated_order (cache : DiffCache) (area : GradientCheck) (gen : List img_comp)
    (hgen : generate cache area = .ok gen) :
    (area.isLeaf = true → (gen.map (fun c => (c.h_middle, c.v_middle))).Pairwise
      (fun a b => a.1 < b.1 ∨ (a.1 = b.1 ∧ a.2 < b.2))) ∧
    (area.isLeaf = false → (gen.map (fun c => (c.h_middle, c.v_middle))).Pairwise
      (fun a b => a.2 < b.2 ∨ (a.2 = b.2 ∧ a.1 < b.1))) := by
  constructor
  · intro hleaf
    rw [generate_leaf cache area hleaf] at hgen
    cases hgen
    rw [List.map_map, List.pairwise_map]
    exact (pairwise_leafOffsets area).imp (fun h => h)
  · intro hleaf
    rcases generate_nonleaf cache area gen hleaf hgen with ⟨h, _⟩ | ⟨_, u, _, h⟩
    · rw [h]; simp
    · rw [h, List.map_map, List.pairwise_map]
      exact (pairwise_samples area).imp (fun h => h)

/-- C2 (winner selection). In a round of `findMinimum` whose scored candidates are
`comps` (they are the generated candidates, in generation order, with their scores), if
some score is below `DOUBLE_MAX` then the selection loop picks a candidate `best` that
splits the vector as `earlier ++ best :: later` where every earlier candidate has a
strictly larger score and every later one a score at least as large: `best` has the
lowest score of the round and is the first with that score. The order of the vector is
`x` outer and `y` inner in the trivial step, and row by row (top to bottom), left to
right within a row, in the recursive case. -/
theorem winner_selection (plane : GradientPlane) (cache : DiffCache) (area : GradientCheck)
    (comps : List img_comp) (hround : roundComps plane cache area = .ok comps)
    (hscore : ∃ c ∈ comps, c.diff < DOUBLE_MAX) :
    (∃ gen, generate cache area = .ok gen ∧
      comps.map (fun c => (c.h_middle, c.v_middle, c.area))
        = gen.map (fun c => (c.h_middle, c.v_middle, c.area))) ∧
    (area.isLeaf = true → (comps.map (fun c => (c.h_middle, c.v_middle))).Pairwise
      (fun a b => a.1 < b.1 ∨ (a.1 = b.1 ∧ a.2 < b.2))) ∧
    (area.isLeaf = false → (comps.map (fun c => (c.h_middle, c.v_middle))).Pairwise
      (fun a b => a.2 < b.2 ∨ (a.2 = b.2 ∧ a.1 < b.1))) ∧
    ∃ best earlier later, findBest comps = some best ∧ comps = earlier ++ best :: later ∧
      (∀ c ∈ earlier, best.diff < c.diff) ∧ (∀ c ∈ later, best.diff ≤ c.diff) ∧
      (∀ c ∈ comps, best.diff ≤ c.diff) := by
  obtain ⟨gen, hg, he⟩ := roundComps_ok plane cache area comps hround
  have hoff : comps.map (fun c => (c.h_middle, c.v_middle))
      = gen.map (fun c => (c.h_middle, c.v_middle)) := by
    rw [(evaluate_ok plane gen comps he).2, List.map_map, List.map_map]
    refine List.map_congr_left (fun c _ => ?_)
    simp only [Function.comp, img_comp.do_diff, img_comp.increasePrecision]
    split <;> rfl
  refine ⟨⟨gen, hg, ?_⟩, ?_, ?_, ?_⟩
  · rw [(evaluate_ok plane gen comps he).2, List.map_map, List.map_map]
    refine List.map_congr_left (fun c _ => ?_)
    simp only [Function.comp, img_comp.do_diff, img_comp.increasePrecision]
    split <;> rfl
  · rw [hoff]; exact (generated_order cache area gen hg).1
  · rw [hoff]; exact (generated_order cache area gen hg).2
  · cases hb : findBest comps with
    | none =>
      obtain ⟨c, hc, hlt⟩ := hscore
      exact absurd hlt (not_lt.mpr (findBest_eq_none comps hb c hc))
    | some best =>
      obtain ⟨_, pre, post, hl, hpre, hpost⟩ := findBest_eq_some comps best hb
      refine ⟨best, pre, post, rfl, hl, hpre, hpost, ?_⟩
      intro c hc
      rw [hl] at hc
      rcases List.mem_append.mp hc with h | h
      · exact le_of_lt (hpre c h)
      · rcases List.mem_cons.mp h with h | h
        · rw [h]
        · exact hpost c h

/-- C2 at the round of the leaf `[-1,1]×[-1,1]` on the demonstration planes: the
candidate `(0, 0)` is selected. -/
theorem winner_selection_witness :
    roundComps demoPlane [] demoLeaf = .ok (compsOf (roundComps demoPlane [] demoLeaf)) ∧
    (∃ c ∈ compsOf (roundComps demoPlane [] demoLeaf), c.diff < DOUBLE_MAX) ∧
    ∃ best earlier later,
      findBest (compsOf (roundComps demoPlane [] demoLeaf)) = some best ∧
      compsOf (roundComps demoPlane [] demoLeaf) = earlier ++ best :: later ∧
      (∀ c ∈ earlier, best.diff < c.diff) ∧ (∀ c ∈ later, best.diff ≤ c.diff) ∧
      (∀ c ∈ compsOf (roundComps demoPlane [] demoLeaf), best.diff ≤ c.diff) :=
  ⟨by decide!, by decide!,
    (winner_selection demoPlane [] demoLeaf _ (by decide!) (by decide!)).2.2.2⟩

/-- A round whose candidate vector is empty has no result: the source dereferences
`comps.end()` before it reaches the test `if( !best )`. -/
theorem findMinimum_of_generate_nil (plane : GradientPlane) (cache : DiffCache)
    (area : GradientCheck) (fuel : Nat) (h : generate cache area = .ok []) :
    findMinimumFuel plane (fuel + 1) cache area = .error Fault.emptyDereference := by
  simp [findMinimumFuel, roundComps, h, evaluate, Except.bind]

/-- C7, failing input. The well-formed region `[0,1]×[0,2]` at level 0 is handled by the
recursive case and every sample of it leaves through `continue`: its candidate vector
is empty, for every cache, and `findMinimum` has no result. -/
theorem wellformed_region_without_candidates :
    (GradientCheck.mk 0 1 0 2 0).left ≤ (GradientCheck.mk 0 1 0 2 0).right ∧
    (GradientCheck.mk 0 1 0 2 0).top ≤ (GradientCheck.mk 0 1 0 2 0).bottom ∧
    0 ≤ (GradientCheck.mk 0 1 0 2 0).level ∧
    (GradientCheck.mk 0 1 0 2 0).isLeaf = false ∧
    (∀ cache : DiffCache, generate cache (GradientCheck.mk 0 1 0 2 0) = .ok []) ∧
    findMinimum demoPlane [] (GradientCheck.mk 0 1 0 2 0)
      = .error Fault.emptyDereference := by
  refine ⟨by decide, by decide, by decide, by decide!, ?_, by decide!⟩
  intro cache
  have h1 : (GradientCheck.mk 0 1 0 2 0).isLeaf = false := by decide!
  have h2 : (GradientCheck.mk 0 1 0 2 0).amount ≠ 0 := by decide
  have h3 : (GradientCheck.mk 0 1 0 2 0).samples = [] := by decide!
  simp only [generate, h1, Bool.false_eq_true, if_false, if_neg h2, h3]

/-- C8, failing input. The region `[1,0]×[0,0]` (with `left > right`) at level 0 has an
empty candidate vector, and `findMinimum` does not return the sentinel
`MergeResult( {0,0}, DOUBLE_MAX )`: it has no result. -/
theorem empty_region_has_no_result :
    generate [] (GradientCheck.mk 1 0 0 0 0) = .ok [] ∧
    findMinimum demoPlane [] (GradientCheck.mk 1 0 0 0 0)
      = .error Fault.emptyDereference ∧
    ∀ (plane : GradientPlane) (cache : DiffCache) (area : GradientCheck) (fuel : Nat),
      generate cache area = .ok [] →
      findMinimumFuel plane (fuel + 1) cache area = .error Fault.emptyDereference :=
  ⟨by decide!, by decide!, findMinimum_of_generate_nil⟩

theorem roundHalfAway_le (v : ℚ) : ((roundHalfAway v : Int) : ℚ) ≤ v + 1 / 2 := by
  unfold roundHalfAway
  split
  · have := Int.ceil_lt_add_one (v - 1 / 2)
    linarith
  · exact Int.floor_le (v + 1 / 2)

/-- The first sample of one axis is kept when `amount` is at least 4. -/
theorem first_sample_kept (lo hi amount : Int) (hlohi : lo ≤ hi) (hamount : 4 ≤ amount) :
    ¬ (roundHalfAway ((lo : ℚ) + ((hi - lo : Int) : ℚ) / (amount : ℚ)) = hi ∧
      roundHalfAway ((lo : ℚ) + ((hi - lo : Int) : ℚ) / (amount : ℚ)) ≠ lo) := by
  rintro ⟨h1, h2⟩
  have hne : lo ≠ hi := by
    intro h
    exact h2 (h1.trans h.symm)
  have hw : (1 : ℚ) ≤ ((hi - lo : Int) : ℚ) := by
    have : (1 : Int) ≤ hi - lo := by omega
    exact_mod_cast this
  have ha : (4 : ℚ) ≤ (amount : ℚ) := by exact_mod_cast hamount
  have hdiv : ((hi - lo : Int) : ℚ) / (amount : ℚ) ≤ ((hi - lo : Int) : ℚ) / 4 :=
    div_le_div_of_nonneg_left (by linarith) (by norm_num) ha
  have hle := roundHalfAway_le ((lo : ℚ) + ((hi - lo : Int) : ℚ) / (amount : ℚ))
  rw [h1] at hle
  push_cast at hle hw hdiv
  linarith

/-- For a well-formed region of level at least 1 the candidate generation never returns
an empty vector: among the well-formed regions only those of level 0 can be left
without a candidate. -/
theorem generate_ne_nil_of_level_pos (cache : DiffCache) (area : GradientCheck)
    (hw : area.left ≤ area.right) (ht : area.top ≤ area.bottom) (hl : 1 ≤ area.level) :
    generate cache area ≠ .ok [] := by
  have hamount : 4 ≤ area.amount := by unfold GradientCheck.amount; omega
  have hamount0 : area.amount ≠ 0 := by omega
  have haq : (4 : ℚ) ≤ (area.amount : ℚ) := by exact_mod_cast hamount
  cases hleaf : area.isLeaf with
  | true =>
    rw [generate_leaf cache area hleaf]
    have hmem : (area.left, area.top) ∈ area.leafOffsets :=
      (mem_leafOffsets area _).mpr ⟨le_refl _, hw, le_refl _, ht⟩
    intro h
    simp only [Except.ok.injEq, List.map_eq_nil_iff] at h
    rw [h] at hmem
    cases hmem
  | false =>
    have hwq : (0 : ℚ) ≤ ((area.right - area.left : Int) : ℚ) := by
      have : (0 : Int) ≤ area.right - area.left := by omega
      exact_mod_cast this
    have htq : (0 : ℚ) ≤ ((area.bottom - area.top : Int) : ℚ) := by
      have : (0 : Int) ≤ area.bottom - area.top := by omega
      exact_mod_cast this
    have hh : area.h_offset ≤ ((area.right - area.left : Int) : ℚ) :=
      div_le_self hwq (by linarith)
    have hv : area.v_offset ≤ ((area.bottom - area.top : Int) : ℚ) :=
      div_le_self htq (by linarith)
    have hix : (area.left : ℚ) + area.h_offset ∈
        doubleRange (area.left + area.h_offset) area.h_add area.right := by
      rw [mem_doubleRange _ _ _ (h_add_ge_one area)]
      refine ⟨0, by simp, ?_⟩
      push_cast at hh
      linarith
    have hiy : (area.top : ℚ) + area.v_offset ∈
        doubleRange (area.top + area.v_offset) area.v_add area.bottom := by
      rw [mem_doubleRange _ _ _ (v_add_ge_one area)]
      refine ⟨0, by simp, ?_⟩
      push_cast at hv
      linarith
    have hkx := first_sample_kept area.left area.right area.amount hw hamount
    have hky := first_sample_kept area.top area.bottom area.amount ht hamount
    have hsample : ∃ s, area.sample ((area.top : ℚ) + area.v_offset)
        ((area.left : ℚ) + area.h_offset) = some s := by
      unfold GradientCheck.sample
      simp only
      rw [if_neg]
      · exact ⟨_, rfl⟩
      · rintro (h | h)
        · exact hkx h
        · exact hky h
    obtain ⟨s, hs⟩ := hsample
    have hmem : s ∈ area.samples := by
      unfold GradientCheck.samples
      rw [List.mem_flatMap]
      exact ⟨_, hiy, List.mem_filterMap.mpr ⟨_, hix, hs⟩⟩
    unfold generate
    simp only [hleaf, Bool.false_eq_true, if_false, if_neg hamount0]
    cases hsm : area.samples with
    | nil => rw [hsm] at hmem; cases hmem
    | cons a rest =>
      cases hu : area.precision.toUnsigned with
      | none => simp
      | some u => simp

/-! ## The sub-areas shrink -/

theorem roundHalfAway_intCast (n : Int) : roundHalfAway (n : ℚ) = n := by
  unfold roundHalfAway
  split
  · rw [Int.ceil_eq_iff]
    constructor <;> linarith
  · rw [Int.floor_eq_iff]
    constructor <;> linarith

theorem mem_loopValues (add : ℚ) (stop : Int) :
    ∀ (fuel : Nat) (i v : ℚ), v ∈ loopValues add stop fuel i →
      ∃ k : ℕ, v = i + (k : ℚ) * add ∧ v ≤ (stop : ℚ) := by
  intro fuel
  induction fuel with
  | zero => intro i v hv; simp [loopValues] at hv
  | succ n ih =>
    intro i v hv
    unfold loopValues at hv
    split at hv
    · rcases List.mem_cons.mp hv with h | h
      · exact ⟨0, by rw [h]; simp, by rw [h]; assumption⟩
      · obtain ⟨k, hk, hle⟩ := ih (i + add) v h
        exact ⟨k + 1, by rw [hk]; push_cast; ring, hle⟩
    · simp at hv

/-- One axis of a sub-area: the interval `[floor( i-off ), ceil( i+off )]` around a kept
sample `i` of `[lo, hi]` is not wider than `[lo, hi]`, and it is narrower when the step
`off` is at least 1 and `amount` at least 4. -/
theorem subrange_bound (lo hi amount : Int) (i : ℚ) (k : ℕ)
    (hlohi : lo ≤ hi) (hamount : amount = 2 ∨ 4 ≤ amount)
    (hi_eq : i = (lo : ℚ) + ((hi - lo : Int) : ℚ) / (amount : ℚ) + (k : ℚ) *
      (if ((hi - lo : Int) : ℚ) / (amount : ℚ) < 1 then 1
        else ((hi - lo : Int) : ℚ) / (amount : ℚ)))
    (hi_le : i ≤ (hi : ℚ))
    (hkeep : ¬ (roundHalfAway i = hi ∧ roundHalfAway i ≠ lo)) :
    ⌊i - ((hi - lo : Int) : ℚ) / (amount : ℚ)⌋ ≤ ⌈i + ((hi - lo : Int) : ℚ) / (amount : ℚ)⌉ ∧
    ⌈i + ((hi - lo : Int) : ℚ) / (amount : ℚ)⌉ - ⌊i - ((hi - lo : Int) : ℚ) / (amount : ℚ)⌋
      ≤ hi - lo ∧
    (1 ≤ ((hi - lo : Int) : ℚ) / (amount : ℚ) → 4 ≤ amount →
      ⌈i + ((hi - lo : Int) : ℚ) / (amount : ℚ)⌉ - ⌊i - ((hi - lo : Int) : ℚ) / (amount : ℚ)⌋
        < hi - lo) := by
  have hamount2 : (2 : ℚ) ≤ (amount : ℚ) := by
    have : (2 : Int) ≤ amount := by omega
    exact_mod_cast this
  have hw : (0 : ℚ) ≤ ((hi - lo : Int) : ℚ) := by
    have : (0 : Int) ≤ hi - lo := by omega
    exact_mod_cast this
  generalize hoff : ((hi - lo : Int) : ℚ) / (amount : ℚ) = off at hi_eq ⊢
  have hmul : off * (amount : ℚ) = ((hi - lo : Int) : ℚ) := by
    rw [← hoff]; field_simp
  have hoff0 : 0 ≤ off := by
    rw [← hoff]; exact div_nonneg hw (by linarith)
  have h2off : 2 * off ≤ ((hi - lo : Int) : ℚ) := by
    rw [← hmul]; nlinarith
  have hfl := Int.floor_le (i - off)
  have hfl2 := Int.lt_floor_add_one (i - off)
  have hce := Int.le_ceil (i + off)
  have hce2 := Int.ceil_lt_add_one (i + off)
  have hwf : ⌊i - off⌋ ≤ ⌈i + off⌉ := by
    have : ((⌊i - off⌋ : Int) : ℚ) ≤ ((⌈i + off⌉ : Int) : ℚ) := by linarith
    exact_mod_cast this
  have hstrict : 1 ≤ off → 4 ≤ amount → ⌈i + off⌉ - ⌊i - off⌋ < hi - lo := by
    intro h1 h4
    have h4q : (4 : ℚ) ≤ (amount : ℚ) := by exact_mod_cast h4
    have h4off : 4 * off ≤ ((hi - lo : Int) : ℚ) := by
      rw [← hmul]; nlinarith
    have : ((⌈i + off⌉ - ⌊i - off⌋ : Int) : ℚ) < ((hi - lo : Int) : ℚ) := by
      push_cast
      push_cast at h4off
      linarith
    exact_mod_cast this
  refine ⟨hwf, ?_, hstrict⟩
  by_cases hlt : off < 1
  · rw [if_pos hlt] at hi_eq
    have hfloor : ⌊i - off⌋ = lo + (k : Int) := by
      rw [Int.floor_eq_iff]
      constructor
      · rw [hi_eq]; push_cast; linarith
      · rw [hi_eq]; push_cast; linarith
    have hceil : ⌈i + off⌉ ≤ lo + (k : Int) + (hi - lo) := by
      rw [Int.ceil_le, hi_eq]
      push_cast
      push_cast at h2off
      linarith
    omega
  · rw [if_neg hlt] at hi_eq
    have h1 : 1 ≤ off := not_lt.mp hlt
    rcases hamount with h2 | h4
    · have ha : (amount : ℚ) = 2 := by exact_mod_cast h2
      rw [ha] at hmul
      have hk0 : k = 0 := by
        by_contra hk
        have hk1 : (1 : ℚ) ≤ (k : ℚ) := by
          have : 1 ≤ k := Nat.one_le_iff_ne_zero.mpr hk
          exact_mod_cast this
        have hge : (hi : ℚ) ≤ i := by
          rw [hi_eq]
          push_cast at hmul
          nlinarith
        have hieq : i = (hi : ℚ) := le_antisymm hi_le hge
        apply hkeep
        rw [hieq, roundHalfAway_intCast]
        refine ⟨rfl, ?_⟩
        intro heq
        rw [heq] at hmul
        simp at hmul
        linarith
      rw [hk0] at hi_eq
      simp only [Nat.cast_zero, zero_mul, add_zero] at hi_eq
      have hfloor : ⌊i - off⌋ = lo := by
        rw [Int.floor_eq_iff]
        constructor <;> rw [hi_eq] <;> linarith
      have hceil : ⌈i + off⌉ = hi := by
        rw [Int.ceil_eq_iff]
        push_cast at hmul
        constructor <;> rw [hi_eq] <;> linarith
      omega
    · exact le_of_lt (hstrict h1 h4)

theorem isLeaf_false_offsets (area : GradientCheck) (hamount : area.amount ≠ 0)
    (hleaf : area.isLeaf = false) : 1 ≤ area.h_offset ∨ 1 ≤ area.v_offset := by
  unfold GradientCheck.isLeaf at hleaf
  rw [if_neg hamount] at hleaf
  by_cases hh : area.h_offset < 1
  · by_cases hv : area.v_offset < 1
    · simp [hh, hv] at hleaf
    · exact Or.inr (not_lt.mp hv)
  · exact Or.inl (not_lt.mp hh)

/-- Every sample of a well-formed region carries a well-formed sub-area of level
`subLevel`, whose bound on the nesting depth is smaller than that of the region. -/
theorem sample_decreases (area : GradientCheck) (s : Int × Int × GradientCheck)
    (hw : area.left ≤ area.right) (ht : area.top ≤ area.bottom) (hl : 0 ≤ area.level)
    (hleaf : area.isLeaf = false) (hs : s ∈ area.samples) :
    s.2.2.left ≤ s.2.2.right ∧ s.2.2.top ≤ s.2.2.bottom ∧ s.2.2.level = area.subLevel ∧
    1 ≤ s.2.2.level ∧ s.2.2.depthBound < area.depthBound := by
  obtain ⟨iy, hiy, ix, hix, hsample⟩ := mem_samples area s hs
  obtain ⟨hs1, hs2, hkx, hky, hsub⟩ := sample_eq_some area iy ix s hsample
  obtain ⟨kx, hkx_eq, hkx_le⟩ := mem_loopValues _ _ _ _ _ hix
  obtain ⟨ky, hky_eq, hky_le⟩ := mem_loopValues _ _ _ _ _ hiy
  have hamount : area.amount = 2 ∨ 4 ≤ area.amount := by
    unfold GradientCheck.amount; omega
  have hamount0 : area.amount ≠ 0 := by omega
  rw [hs1] at hkx
  rw [hs2] at hky
  have hx := subrange_bound area.left area.right area.amount ix kx hw hamount
    hkx_eq hkx_le hkx
  have hy := subrange_bound area.top area.bottom area.amount iy ky ht hamount
    hky_eq hky_le hky
  have hsl : 1 ≤ area.subLevel := by
    unfold GradientCheck.subLevel; split <;> omega
  have hoffs := isLeaf_false_offsets area hamount0 hleaf
  rw [hsub]
  refine ⟨hx.1, hy.1, rfl, hsl, ?_⟩
  have hx1 := hx.1
  have hx2 := hx.2.1
  have hx3 := hx.2.2
  have hy1 := hy.1
  have hy2 := hy.2.1
  have hy3 := hy.2.2
  have hh : area.h_offset = ((area.right - area.left : Int) : ℚ) / (area.amount : ℚ) := rfl
  have hv : area.v_offset = ((area.bottom - area.top : Int) : ℚ) / (area.amount : ℚ) := rfl
  rw [← hh] at hx1 hx2 hx3
  rw [← hv] at hy1 hy2 hy3
  unfold GradientCheck.depthBound
  simp only
  have hflag : ¬ (area.subLevel ≤ 0) := by omega
  rw [if_neg hflag]
  by_cases h0 : area.level ≤ 0
  · rw [if_pos h0]
    omega
  · rw [if_neg h0]
    have h4 : 4 ≤ area.amount := by unfold GradientCheck.amount; omega
    rcases hoffs with h | h
    · have := hx3 h h4
      omega
    · have := hy3 h h4
      omega

/-! ## The recursion of `findMinimum` -/

theorem mem_of_findBest (comps : List img_comp) (best : img_comp)
    (h : findBest comps = some best) : best ∈ comps := by
  obtain ⟨_, pre, post, hl, _⟩ := findBest_eq_some comps best h
  rw [hl]; simp

/-- Where the candidates of a round come from: in the trivial step they carry the
default area, of level 0; in the recursive case each belongs to a sample. -/
theorem roundComps_mem (plane : GradientPlane) (cache : DiffCache) (area : GradientCheck)
    (comps : List img_comp) (c : img_comp)
    (h : roundComps plane cache area = .ok comps) (hc : c ∈ comps) :
    (area.isLeaf = true ∧ c.area = ⟨0, 0, 0, 0, 0⟩ ∧
      (c.h_middle, c.v_middle) ∈ area.leafOffsets) ∨
    (area.isLeaf = false ∧ ∃ s ∈ area.samples,
      c.area = s.2.2 ∧ c.h_middle = s.1 ∧ c.v_middle = s.2.1) := by
  obtain ⟨gen, hg, he⟩ := roundComps_ok plane cache area comps h
  rw [(evaluate_ok plane gen comps he).2] at hc
  rw [List.mem_map] at hc
  obtain ⟨c1, hc1, rfl⟩ := hc
  rw [List.mem_map] at hc1
  obtain ⟨g, hgm, rfl⟩ := hc1
  have harea : (img_comp.do_diff plane (img_comp.increasePrecision plane
      (maxChecked plane gen) g)).area = g.area := by
    unfold img_comp.do_diff img_comp.increasePrecision; split <;> rfl
  have hh : (img_comp.do_diff plane (img_comp.increasePrecision plane
      (maxChecked plane gen) g)).h_middle = g.h_middle := by
    unfold img_comp.do_diff img_comp.increasePrecision; split <;> rfl
  have hv : (img_comp.do_diff plane (img_comp.increasePrecision plane
      (maxChecked plane gen) g)).v_middle = g.v_middle := by
    unfold img_comp.do_diff img_comp.increasePrecision; split <;> rfl
  rw [harea, hh, hv]
  cases hleaf : area.isLeaf with
  | true =>
    left
    rw [generate_leaf cache area hleaf] at hg
    cases hg
    rw [List.mem_map] at hgm
    obtain ⟨p, hp, rfl⟩ := hgm
    exact ⟨rfl, rfl, hp⟩
  | false =>
    right
    rcases generate_nonleaf cache area gen hleaf hg with ⟨h0, _⟩ | ⟨_, u, _, h1⟩
    · rw [h0] at hgm; cases hgm
    · rw [h1, List.mem_map] at hgm
      obtain ⟨s, hs, rfl⟩ := hgm
      exact ⟨rfl, s, hs, rfl, rfl, rfl⟩

theorem generate_error (cache : DiffCache) (area : GradientCheck) (e : Fault)
    (h : generate cache area = .error e) :
    e = Fault.badConversion ∨
      (e = Fault.nonTermination ∧ area.amount = 0 ∧ area.bottom < area.top) := by
  unfold generate at h
  split at h
  · cases h
  · split at h
    · rename_i ha
      split at h
      · rename_i hb
        cases h
        exact Or.inr ⟨rfl, ha, by omega⟩
      · cases h
    · split at h
      · cases h
      · cases h; exact Or.inl rfl
      · cases h

theorem evaluate_error (plane : GradientPlane) (gen : List img_comp) (e : Fault)
    (h : evaluate plane gen = .error e) : e = Fault.emptyDereference := by
  cases gen with
  | nil => simp only [evaluate] at h; cases h; rfl
  | cons c rest => simp [evaluate] at h

theorem roundComps_error (plane : GradientPlane) (cache : DiffCache) (area : GradientCheck)
    (e : Fault) (h : roundComps plane cache area = .error e) :
    e = Fault.badConversion ∨ e = Fault.emptyDereference ∨
      (e = Fault.nonTermination ∧ area.amount = 0 ∧ area.bottom < area.top) := by
  unfold roundComps at h
  cases hg : generate cache area with
  | error e1 =>
    rw [hg] at h
    cases h
    rcases generate_error cache area e hg with h1 | h1
    · exact Or.inl h1
    · exact Or.inr (Or.inr h1)
  | ok gen =>
    rw [hg] at h
    exact Or.inr (Or.inl (evaluate_error plane gen e h))

theorem addToCache_error (comps : List img_comp) :
    ∀ (cache : DiffCache) (e : Fault), addToCache cache comps = .error e →
      e = Fault.badConversion := by
  induction comps with
  | nil => intro cache e h; simp [addToCache] at h
  | cons c rest ih =>
    intro cache e h
    unfold addToCache at h
    split at h
    · exact ih _ _ h
    · split at h
      · cases h; rfl
      · exact ih _ _ h

/-- The shape of a run that returns. -/
theorem findMinimumFuel_ok (plane : GradientPlane) (fuel : Nat) (cache : DiffCache)
    (area : GradientCheck) (run : Run)
    (h : findMinimumFuel plane (fuel + 1) cache area = .ok run) :
    ∃ comps cache1, roundComps plane cache area = .ok comps ∧
      addToCache cache comps = .ok cache1 ∧
      ((findBest comps = none ∧
          run = { result := ⟨0, 0, DOUBLE_MAX⟩, cache := cache1, calls := [area] }) ∨
       (∃ best, findBest comps = some best ∧ ¬ best.area.level > 0 ∧
          run = { result := ⟨best.h_middle, best.v_middle, best.diff⟩, cache := cache1,
                  calls := [area] }) ∨
       (∃ best inner, findBest comps = some best ∧ best.area.level > 0 ∧
          findMinimumFuel plane fuel cache1 best.area = .ok inner ∧
          run = { inner with calls := area :: inner.calls })) := by
  unfold findMinimumFuel at h
  cases hr : roundComps plane cache area with
  | error e => rw [hr] at h; cases h
  | ok comps =>
    rw [hr] at h
    simp only at h
    cases ha : addToCache cache comps with
    | error e => rw [ha] at h; cases h
    | ok cache1 =>
      rw [ha] at h
      simp only at h
      refine ⟨comps, cache1, rfl, ha, ?_⟩
      cases hb : findBest comps with
      | none =>
        rw [hb] at h
        simp only at h
        cases h
        exact Or.inl ⟨rfl, rfl⟩
      | some best =>
        rw [hb] at h
        simp only at h
        by_cases hlev : best.area.level > 0
        · rw [if_pos hlev] at h
          cases hi : findMinimumFuel plane fuel cache1 best.area with
          | error e => rw [hi] at h; cases h
          | ok inner =>
            rw [hi] at h
            simp only at h
            cases h
            exact Or.inr (Or.inr ⟨best, inner, rfl, hlev, hi, rfl⟩)
        · rw [if_neg hlev] at h
          cases h
          exact Or.inr (Or.inl ⟨best, rfl, hlev, rfl⟩)

/-- The winner of a round of a well-formed region, when the search recurses into it. -/
theorem best_decreases (plane : GradientPlane) (cache : DiffCache) (area : GradientCheck)
    (comps : List img_comp) (best : img_comp)
    (hw : area.left ≤ area.right) (ht : area.top ≤ area.bottom) (hl : 0 ≤ area.level)
    (hr : roundComps plane cache area = .ok comps) (hb : findBest comps = some best)
    (hlev : best.area.level > 0) :
    best.area.left ≤ best.area.right ∧ best.area.top ≤ best.area.bottom ∧
    best.area.level = area.subLevel ∧ 1 ≤ best.area.level ∧
    best.area.depthBound < area.depthBound := by
  rcases roundComps_mem plane cache area comps best hr (mem_of_findBest comps best hb) with
    ⟨_, h0, _⟩ | ⟨hleaf, s, hs, hsa, _, _⟩
  · rw [h0] at hlev
    exact absurd hlev (by decide)
  · rw [hsa]
    exact sample_decreases area s hw ht hl hleaf hs

theorem depthBound_pos (area : GradientCheck) : 1 ≤ area.depthBound := by
  unfold GradientCheck.depthBound; omega

theorem findMinimumFuel_enough (plane : GradientPlane) :
    ∀ (fuel : Nat) (cache : DiffCache) (area : GradientCheck),
      area.left ≤ area.right → area.top ≤ area.bottom → 0 ≤ area.level →
      area.depthBound ≤ fuel →
      findMinimumFuel plane fuel cache area ≠ .error Fault.outOfFuel ∧
      findMinimumFuel plane fuel cache area ≠ .error Fault.nonTermination := by
  intro fuel
  induction fuel with
  | zero =>
    intro cache area _ _ _ hf
    have := depthBound_pos area
    omega
  | succ n ih =>
    intro cache area hw ht hl hf
    unfold findMinimumFuel
    cases hr : roundComps plane cache area with
    | error e =>
      simp only
      have hamount : area.amount ≠ 0 := by unfold GradientCheck.amount; omega
      rcases roundComps_error plane cache area e hr with h | h | ⟨_, h, _⟩
      · rw [h]; exact ⟨by decide, by decide⟩
      · rw [h]; exact ⟨by decide, by decide⟩
      · exact absurd h hamount
    | ok comps =>
      simp only
      cases ha : addToCache cache comps with
      | error e =>
        simp only
        rw [addToCache_error comps cache e ha]
        exact ⟨by decide, by decide⟩
      | ok cache1 =>
        simp only
        cases hb : findBest comps with
        | none => exact ⟨by simp, by simp⟩
        | some best =>
          simp only
          by_cases hlev : best.area.level > 0
          · rw [if_pos hlev]
            obtain ⟨h1, h2, _, h4, h5⟩ :=
              best_decreases plane cache area comps best hw ht hl hr hb hlev
            have hih := ih cache1 best.area h1 h2 (by omega) (by omega)
            cases hi : findMinimumFuel plane n cache1 best.area with
            | error e =>
              rw [hi] at hih
              simp only
              exact hih
            | ok inner => exact ⟨by simp, by simp⟩
          · rw [if_neg hlev]
            exact ⟨by simp, by simp⟩

theorem findMinimumFuel_succ (plane : GradientPlane) :
    ∀ (fuel : Nat) (cache : DiffCache) (area : GradientCheck),
      findMinimumFuel plane fuel cache area ≠ .error Fault.outOfFuel →
      findMinimumFuel plane (fuel + 1) cache area = findMinimumFuel plane fuel cache area := by
  intro fuel
  induction fuel with
  | zero => intro cache area h; exact absurd rfl h
  | succ n ih =>
    intro cache area h
    rw [findMinimumFuel] at h ⊢
    conv_rhs => rw [findMinimumFuel]
    cases hr : roundComps plane cache area with
    | error e => rfl
    | ok comps =>
      rw [hr] at h
      simp only at h ⊢
      cases ha : addToCache cache comps with
      | error e => rfl
      | ok cache1 =>
        rw [ha] at h
        simp only at h ⊢
        cases hb : findBest comps with
        | none => rfl
        | some best =>
          rw [hb] at h
          simp only at h ⊢
          by_cases hlev : best.area.level > 0
          · rw [if_pos hlev] at h ⊢
            rw [if_pos hlev]
            have hne : findMinimumFuel plane n cache1 best.area ≠ .error Fault.outOfFuel := by
              intro hc
              rw [hc] at h
              exact h rfl
            rw [ih cache1 best.area hne]
          · rw [if_neg hlev, if_neg hlev]

theorem findMinimumFuel_add (plane : GradientPlane) (fuel : Nat) (cache : DiffCache)
    (area : GradientCheck)
    (h : findMinimumFuel plane fuel cache area ≠ .error Fault.outOfFuel) (n : Nat) :
    findMinimumFuel plane (fuel + n) cache area = findMinimumFuel plane fuel cache area := by
  induction n with
  | zero => rfl
  | succ m ih =>
    rw [← Nat.add_assoc, findMinimumFuel_succ plane (fuel + m) cache area (by rw [ih]; exact h),
      ih]

/-! ## Nesting depth -/

theorem addToCache_entries (plane : GradientPlane) (comps : List img_comp) :
    ∀ (cache cache1 : DiffCache),
      (∀ e ∈ cache, ∃ q : Precision, q.toUnsigned = some e.precision ∧
        e.diff = plane.getDifference e.x e.y q) →
      (∀ c ∈ comps, c.diff_set = false →
        c.diff = plane.getDifference c.h_middle c.v_middle c.precision) →
      addToCache cache comps = .ok cache1 →
      ∀ e ∈ cache1, ∃ q : Precision, q.toUnsigned = some e.precision ∧
        e.diff = plane.getDifference e.x e.y q := by
  induction comps with
  | nil =>
    intro cache cache1 ih _ ha
    simp only [addToCache, Except.ok.injEq] at ha
    rw [← ha]; exact ih
  | cons c rest ihc =>
    intro cache cache1 ih hcomps ha
    unfold addToCache at ha
    split at ha
    · exact ihc cache cache1 ih (fun d hd => hcomps d (List.mem_cons_of_mem _ hd)) ha
    · rename_i hset
      split at ha
      · cases ha
      · rename_i u hu
        refine ihc _ cache1 ?_ (fun d hd => hcomps d (List.mem_cons_of_mem _ hd)) ha
        intro e he
        unfold DiffCache.add_diff at he
        rcases List.mem_append.mp he with h | h
        · exact ih e h
        · rw [List.mem_singleton.mp h]
          refine ⟨c.precision, hu, ?_⟩
          exact hcomps c (List.mem_cons_self _ _) (by simpa using hset)

/-- Every entry of a reachable cache stores a score that the metric produced at some
precision, together with that precision converted to `unsigned`. -/
theorem reachable_entries (plane : GradientPlane) (cache : DiffCache)
    (h : Reachable plane cache) :
    ∀ e ∈ cache, ∃ q : Precision, q.toUnsigned = some e.precision ∧
      e.diff = plane.getDifference e.x e.y q := by
  induction h with
  | empty => intro e he; cases he
  | round cache area comps cache1 _ hr ha ih =>
    obtain ⟨gen, _, he⟩ := roundComps_ok plane cache area comps hr
    have hcomps : ∀ c ∈ comps, c.diff_set = false →
        c.diff = plane.getDifference c.h_middle c.v_middle c.precision := by
      intro c hc hset
      rw [(evaluate_ok plane gen comps he).2, List.mem_map] at hc
      obtain ⟨c1, _, rfl⟩ := hc
      unfold img_comp.do_diff at hset ⊢
      split
      · rename_i h1
        rw [if_pos h1] at hset
        rw [h1] at hset
        cases hset
      · rfl
    exact addToCache_entries plane comps cache cache1 ih hcomps ha

/-- A candidate seeded with a non-negative score from the cache holds the score of an
entry of the cache at its offset whose precision is at most the requested one. -/
theorem set_diff_hit (cache : DiffCache) (c0 : img_comp) (u : Nat)
    (h0 : c0.diff_set = false)
    (hset : (c0.set_diff (cache.get_diff c0.h_middle c0.v_middle u)).diff_set = true) :
    ∃ e ∈ cache, e.x = c0.h_middle ∧ e.y = c0.v_middle ∧ e.precision ≤ u ∧
      (c0.set_diff (cache.get_diff c0.h_middle c0.v_middle u)).diff = e.diff := by
  unfold img_comp.set_diff at hset ⊢
  simp only at hset ⊢
  rcases get_diff_spec cache c0.h_middle c0.v_middle u with
    ⟨pre, e, post, hl, ⟨h1, h2, h3⟩, _, hget⟩ | ⟨_, hget⟩
  · exact ⟨e, by rw [hl]; simp, h1, h2, h3, hget⟩
  · rw [hget, h0] at hset
    norm_num at hset

theorem reachable_findMinimum (plane : GradientPlane) :
    ∀ (fuel : Nat) (cache : DiffCache) (area : GradientCheck) (run : Run),
      Reachable plane cache → findMinimumFuel plane fuel cache area = .ok run →
      Reachable plane run.cache := by
  intro fuel
  induction fuel with
  | zero => intro cache area run _ h; simp [findMinimumFuel] at h
  | succ n ih =>
    intro cache area run hreach h
    obtain ⟨comps, cache1, hr, ha, hcase⟩ := findMinimumFuel_ok plane n cache area run h
    have h1 : Reachable plane cache1 := Reachable.round cache area comps cache1 hreach hr ha
    rcases hcase with ⟨_, rfl⟩ | ⟨best, _, _, rfl⟩ | ⟨best, inner, _, _, hi, rfl⟩
    · exact h1
    · exact h1
    · exact ih cache1 best.area inner h1 hi

/-- C4, as stated, fails. On two planes of 16 by 16 pixels, `findMinimum` on
`[-2,2]×[-2,2]` at level 0 from the empty cache evaluates the offset `(0, 0)` at the
precision `√2` in its first round and stores it with the precision `1`; its second
round, on `[-2,2]×[-2,2]` at level 1, requests `(0, 0)` at the precision `1` and takes
that score from the cache. With a metric that returns the square of the precision, the
score taken is 2, which no evaluation at a precision of at most 1 produces. -/
theorem cache_hit_coarser_than_requested :
    roundComps precisionPlane [] (GradientCheck.mk (-2) 2 (-2) 2 0)
      = .ok [{ area := GradientCheck.mk (-2) 2 (-2) 2 1, h_middle := 0, v_middle := 0,
               diff := 2, precision := Precision.root 2, diff_set := false }] ∧
    addToCache []
        [{ area := GradientCheck.mk (-2) 2 (-2) 2 1, h_middle := 0, v_middle := 0,
           diff := 2, precision := Precision.root 2, diff_set := false }]
      = .ok [⟨0, 0, 2, 1⟩] ∧
    (findMinimum precisionPlane [] (GradientCheck.mk (-2) 2 (-2) 2 0)).map
        (fun run => run.calls.take 2)
      = .ok [GradientCheck.mk (-2) 2 (-2) 2 0, GradientCheck.mk (-2) 2 (-2) 2 1] ∧
    (∃ c ∈ compsOf (generate [⟨0, 0, 2, 1⟩] (GradientCheck.mk (-2) 2 (-2) 2 1)),
      c.h_middle = 0 ∧ c.v_middle = 0 ∧ c.precision = Precision.root 1 ∧
      c.diff_set = true ∧ c.diff = 2) ∧
    precisionPlane.getDifference 0 0 (Precision.root 2) = 2 ∧
    (Precision.root 2).le (Precision.root 1) = false ∧
    ¬ ∃ q : Precision, q.le (Precision.root 1) = true ∧
      precisionPlane.getDifference 0 0 q = 2 := by
  refine ⟨by decide!, by decide!, by decide!, by decide!, by decide!, by decide!, ?_⟩
  rintro ⟨q, hq, hd⟩
  cases q with
  | root s =>
    simp only [Precision.le, decide_eq_true_eq] at hq
    simp only [precisionPlane] at hd
    linarith
  | inf => simp [Precision.le] at hq
  | nan => simp [Precision.le] at hq

/-- A generated candidate whose score was taken from the cache: the score was produced
by the metric at a precision whose conversion to `unsigned` is at most that of the
precision the candidate asked for. -/
theorem generated_hit (plane : GradientPlane) (cache : DiffCache)
    (area : GradientCheck) (gen : List img_comp) (c : img_comp)
    (hreach : Reachable plane cache) (hgen : generate cache area = .ok gen)
    (hc : c ∈ gen) (hset : c.diff_set = true) :
    ∃ (q : Precision) (up uq : Nat), c.precision.toUnsigned = some up ∧
      q.toUnsigned = some uq ∧ uq ≤ up ∧
      c.diff = plane.getDifference c.h_middle c.v_middle q := by
  have hsound := reachable_entries plane cache hreach
  cases hleaf : area.isLeaf with
  | true =>
    rw [generate_leaf cache area hleaf] at hgen
    cases hgen
    rw [List.mem_map] at hc
    obtain ⟨p, _, rfl⟩ := hc
    obtain ⟨e, he, h1, h2, h3, h4⟩ :=
      set_diff_hit cache (img_comp.createDefault p.1 p.2) 1 rfl hset
    obtain ⟨q, hq1, hq2⟩ := hsound e he
    have hp : (leafComp cache p).precision.toUnsigned = some 1 := by
      show (Precision.root 1).toUnsigned = some 1
      decide!
    refine ⟨q, 1, e.precision, hp, hq1, h3, ?_⟩
    have h1' : e.x = p.1 := h1
    have h2' : e.y = p.2 := h2
    have h4' : (leafComp cache p).diff = e.diff := h4
    rw [h4', hq2, h1', h2']
    rfl
  | false =>
    rcases generate_nonleaf cache area gen hleaf hgen with ⟨h0, _⟩ | ⟨_, u, hu, h1⟩
    · rw [h0] at hc; cases hc
    · rw [h1, List.mem_map] at hc
      obtain ⟨s, _, rfl⟩ := hc
      obtain ⟨e, he, h1, h2, h3, h4⟩ :=
        set_diff_hit cache (img_comp.create s.1 s.2.1 s.2.2 area.precision) u rfl hset
      obtain ⟨q, hq1, hq2⟩ := hsound e he
      refine ⟨q, u, e.precision, hu, hq1, h3, ?_⟩
      have h1' : e.x = s.1 := h1
      have h2' : e.y = s.2.1 := h2
      have h4' : (sampleComp cache area.precision u s).diff = e.diff := h4
      rw [h4', hq2, h1', h2']
      rfl

/-- C4 (cache soundness), amended. In any sequence of `findMinimum` calls on one
`GradientPlane`, whenever a candidate's score is taken from the cache at the candidate's
requested precision `p`, that score was produced by a metric evaluation at the same
offset at a precision `q` whose conversion to `unsigned` (its integer part) is at most
that of `p`; `q` itself may exceed `p`, by less than 1. Every call leaves a cache of the
same kind. -/
theorem cache_hit_precision (plane : GradientPlane) (cache : DiffCache)
    (area : GradientCheck) (gen : List img_comp) (c : img_comp)
    (hreach : Reachable plane cache) (hgen : generate cache area = .ok gen)
    (hc : c ∈ gen) (hset : c.diff_set = true) :
    (∃ (q : Precision) (up uq : Nat), c.precision.toUnsigned = some up ∧
      q.toUnsigned = some uq ∧ uq ≤ up ∧
      c.diff = plane.getDifference c.h_middle c.v_middle q) ∧
    ∀ (fuel : Nat) (area1 : GradientCheck) (run : Run),
      findMinimumFuel plane fuel cache area1 = .ok run → Reachable plane run.cache := by
  exact ⟨generated_hit plane cache area gen c hreach hgen hc hset,
    fun fuel area1 run h => reachable_findMinimum plane fuel cache area1 run hreach h⟩

/-- The second round of the search of `[-2,2]×[-2,2]` at level 0: the candidate `(0, 0)`
asks for the precision 1 and is served from the cache. -/
theorem cache_hit_precision_witness :
    Reachable precisionPlane [⟨0, 0, 2, 1⟩] ∧
    ∃ (q : Precision) (up uq : Nat), (Precision.root 1).toUnsigned = some up ∧
      q.toUnsigned = some uq ∧ uq ≤ up ∧ (2 : ℚ) = precisionPlane.getDifference 0 0 q :=
  have hr : Reachable precisionPlane [⟨0, 0, 2, 1⟩] :=
    Reachable.round [] (GradientCheck.mk (-2) 2 (-2) 2 0)
      [{ area := GradientCheck.mk (-2) 2 (-2) 2 1, h_middle := 0, v_middle := 0,
         diff := 2, precision := Precision.root 2, diff_set := false }]
      [⟨0, 0, 2, 1⟩] Reachable.empty (by decide!) (by decide!)
  ⟨hr, (cache_hit_precision precisionPlane [⟨0, 0, 2, 1⟩] (GradientCheck.mk (-2) 2 (-2) 2 1)
    (compsOf (generate [⟨0, 0, 2, 1⟩] (GradientCheck.mk (-2) 2 (-2) 2 1)))
    { area := GradientCheck.mk (-1) 1 (-1) 1 1, h_middle := 0, v_middle := 0,
      diff := 2, precision := Precision.root 1, diff_set := true }
    hr (by decide!) (by decide!) (by decide!)).1⟩

/-! ## Scores of a round -/

/-- Every score of a round that started from a reachable cache is a value of the metric
at the candidate's offset, whether it was taken from the cache or computed. -/
theorem scored_diff (plane : GradientPlane) (cache : DiffCache) (area : GradientCheck)
    (comps : List img_comp) (hreach : Reachable plane cache)
    (hr : roundComps plane cache area = .ok comps) :
    ∀ c ∈ comps, ∃ q : Precision, c.diff = plane.getDifference c.h_middle c.v_middle q := by
  intro c hc
  obtain ⟨gen, hg, he⟩ := roundComps_ok plane cache area comps hr
  rw [(evaluate_ok plane gen comps he).2, List.mem_map] at hc
  obtain ⟨c1, hc1, rfl⟩ := hc
  rw [List.mem_map] at hc1
  obtain ⟨g, hgm, rfl⟩ := hc1
  cases hset : g.diff_set with
  | true =>
    obtain ⟨q, _, _, _, _, _, hq⟩ := generated_hit plane cache area gen g hreach hg hgm hset
    refine ⟨q, ?_⟩
    have : img_comp.do_diff plane (img_comp.increasePrecision plane (maxChecked plane gen) g)
        = img_comp.increasePrecision plane (maxChecked plane gen) g := by
      unfold img_comp.do_diff
      rw [if_pos (by simpa [img_comp.increasePrecision] using hset)]
    rw [this]
    exact hq
  | false =>
    refine ⟨(img_comp.increasePrecision plane (maxChecked plane gen) g).precision, ?_⟩
    unfold img_comp.do_diff
    rw [if_neg (by simpa [img_comp.increasePrecision] using hset)]

theorem foldl_max_ge (plane : GradientPlane) (comps : List img_comp) :
    ∀ init : Nat, init ≤ comps.foldl (fun m c => max m (c.checkedPercentage plane)) init := by
  induction comps with
  | nil => intro init; exact le_refl _
  | cons c rest ih =>
    intro init
    rw [List.foldl_cons]
    exact le_trans (le_max_left _ _) (ih _)

theorem le_maxChecked (plane : GradientPlane) (comps : List img_comp) (c : img_comp)
    (hc : c ∈ comps) : c.checkedPercentage plane ≤ maxChecked plane comps := by
  unfold maxChecked
  generalize (0 : Nat) = init
  induction comps generalizing init with
  | nil => cases hc
  | cons d rest ih =>
    rw [List.foldl_cons]
    rcases List.mem_cons.mp hc with h | h
    · rw [h]
      exact le_trans (le_max_right _ _) (foldl_max_ge plane rest _)
    · exact ih h _

/-- The precision of a candidate after `increasePrecision`, converted to `unsigned`, is 1
when the precision before was below 2 and the largest overlap is not zero. -/
theorem toUnsigned_increased (s : ℚ) (m own : Nat) (hs0 : 0 ≤ s) (hs : s < 4)
    (hm : 0 < m) (hown : own ≤ m) :
    ((Precision.root s).divQuot m own).max1.toUnsigned = some 1 := by
  have key : ∀ v : ℚ, 1 ≤ v → v < 4 → (Precision.root v).toUnsigned = some 1 := by
    intro v h1 h4
    have hfl1 : 1 ≤ ⌊v⌋₊ := Nat.le_floor (by simpa using h1)
    have hfl4 : ⌊v⌋₊ < 4 := (Nat.floor_lt (by linarith)).mpr (by simpa using h4)
    have hsq : Nat.sqrt ⌊v⌋₊ = 1 := by
      symm
      rw [Nat.eq_sqrt]
      omega
    simp [Precision.toUnsigned, hsq]
  unfold Precision.divQuot
  simp only
  by_cases h0 : own = 0
  · rw [if_pos h0, if_neg (by omega)]
    exact key _ (by simp [Precision.max1]) (by simp [Precision.max1])
  · rw [if_neg h0, if_neg (by omega)]
    simp only [Precision.max1]
    apply key
    · exact le_max_right _ _
    · apply max_lt _ (by norm_num)
      have hmq : (0 : ℚ) < (m : ℚ) := by exact_mod_cast hm
      have hoq : (0 : ℚ) < (own : ℚ) := by
        have : 0 < own := Nat.pos_of_ne_zero h0
        exact_mod_cast this
      have hle : (own : ℚ) ≤ (m : ℚ) := by exact_mod_cast hown
      have hq1 : (1 : ℚ) ≤ (m : ℚ) / (own : ℚ) := by
        rw [le_div_iff₀ hoq]; linarith
      have hq2 : (1 : ℚ) ≤ ((m : ℚ) / (own : ℚ)) ^ 2 := by nlinarith
      calc s / ((m : ℚ) / (own : ℚ)) ^ 2 ≤ s := div_le_self hs0 hq2
        _ < 4 := hs

theorem addToCache_ok (comps : List img_comp) :
    ∀ cache : DiffCache,
      (∀ c ∈ comps, c.diff_set = false → ∃ u, c.precision.toUnsigned = some u) →
      ∃ cache1, addToCache cache comps = .ok cache1 := by
  induction comps with
  | nil => intro cache _; exact ⟨cache, rfl⟩
  | cons c rest ih =>
    intro cache h
    unfold addToCache
    split
    · exact ih cache (fun d hd => h d (List.mem_cons_of_mem _ hd))
    · rename_i hset
      obtain ⟨u, hu⟩ := h c (List.mem_cons_self _ _) (by simpa using hset)
      rw [hu]
      exact ih _ (fun d hd => h d (List.mem_cons_of_mem _ hd))

theorem checkedPercentage_congr (plane : GradientPlane) (c d : img_comp)
    (hh : c.h_middle = d.h_middle) (hv : c.v_middle = d.v_middle) :
    c.checkedPercentage plane = d.checkedPercentage plane := by
  unfold img_comp.checkedPercentage
  rw [hh, hv]

theorem double_max_pos : (0 : ℚ) < DOUBLE_MAX := by decide!

/-! ## Scenario A: identical planes -/

/-- A round from a reachable cache whose candidates include the offset `(0, 0)`, for a
metric that vanishes at `(0, 0)` only: the round leaves a cache and selects a candidate
at `(0, 0)` with score 0. -/
theorem round_origin (plane : GradientPlane) (cache : DiffCache) (area : GradientCheck)
    (gen : List img_comp)
    (hov : 0 < (img_comp.createDefault 0 0).checkedPercentage plane)
    (h0 : ∀ p, plane.getDifference 0 0 p = 0)
    (hpos : ∀ x y p, (x ≠ 0 ∨ y ≠ 0) → 0 < plane.getDifference x y p)
    (hreach : Reachable plane cache) (hgen : generate cache area = .ok gen)
    (horigin : ∃ g ∈ gen, g.h_middle = 0 ∧ g.v_middle = 0)
    (hprec : ∀ g ∈ gen, ∃ s, g.precision = Precision.root s ∧ 0 ≤ s ∧ s < 4) :
    ∃ comps cache1 best, roundComps plane cache area = .ok comps ∧
      addToCache cache comps = .ok cache1 ∧ Reachable plane cache1 ∧
      findBest comps = some best ∧ best.h_middle = 0 ∧ best.v_middle = 0 ∧
      best.diff = 0 := by
  obtain ⟨g0, hg0, hg0x, hg0y⟩ := horigin
  have hne : gen ≠ [] := List.ne_nil_of_mem hg0
  obtain ⟨comps, hcomps⟩ : ∃ comps, comps =
      (gen.map (img_comp.increasePrecision plane (maxChecked plane gen))).map
        (img_comp.do_diff plane) := ⟨_, rfl⟩
  have he : evaluate plane gen = .ok comps := by
    cases gen with
    | nil => exact absurd rfl hne
    | cons c rest => rw [hcomps]; rfl
  have hr : roundComps plane cache area = .ok comps := by
    unfold roundComps
    rw [hgen]
    exact he
  have hm : 0 < maxChecked plane gen := by
    have h1 := le_maxChecked plane gen g0 hg0
    have h2 : g0.checkedPercentage plane
        = (img_comp.createDefault 0 0).checkedPercentage plane :=
      checkedPercentage_congr plane _ _ hg0x hg0y
    omega
  have hconv : ∀ c ∈ comps, c.diff_set = false → ∃ u, c.precision.toUnsigned = some u := by
    intro c hc _
    rw [hcomps, List.mem_map] at hc
    obtain ⟨c1, hc1, rfl⟩ := hc
    rw [List.mem_map] at hc1
    obtain ⟨g, hg, rfl⟩ := hc1
    obtain ⟨s, hs, hs0, hs4⟩ := hprec g hg
    refine ⟨1, ?_⟩
    have hp : (img_comp.do_diff plane (img_comp.increasePrecision plane
        (maxChecked plane gen) g)).precision
        = ((Precision.root s).divQuot (maxChecked plane gen)
            (g.checkedPercentage plane)).max1 := by
      unfold img_comp.do_diff img_comp.increasePrecision
      split <;> simp only [hs]
    rw [hp]
    exact toUnsigned_increased s _ _ hs0 hs4 hm (le_maxChecked plane gen g hg)
  obtain ⟨cache1, ha⟩ := addToCache_ok comps cache hconv
  have hscore := scored_diff plane cache area comps hreach hr
  have hc0 : ∃ c0 ∈ comps, c0.h_middle = 0 ∧ c0.v_middle = 0 := by
    refine ⟨img_comp.do_diff plane (img_comp.increasePrecision plane
      (maxChecked plane gen) g0), ?_, ?_, ?_⟩
    · rw [hcomps]
      exact List.mem_map_of_mem _ (List.mem_map_of_mem _ hg0)
    · unfold img_comp.do_diff img_comp.increasePrecision
      split <;> exact hg0x
    · unfold img_comp.do_diff img_comp.increasePrecision
      split <;> exact hg0y
  obtain ⟨c0, hc0m, hc0x, hc0y⟩ := hc0
  have hc0d : c0.diff = 0 := by
    obtain ⟨q, hq⟩ := hscore c0 hc0m
    rw [hq, hc0x, hc0y]
    exact h0 q
  cases hb : findBest comps with
  | none =>
    have := findBest_eq_none comps hb c0 hc0m
    rw [hc0d] at this
    exact absurd double_max_pos (not_lt.mpr this)
  | some best =>
    refine ⟨comps, cache1, best, hr, ha,
      Reachable.round cache area comps cache1 hreach hr ha, hb, ?_⟩
    obtain ⟨_, pre, post, hl, hpre, hpost⟩ := findBest_eq_some comps best hb
    have hle : best.diff ≤ 0 := by
      rw [← hc0d]
      rw [hl] at hc0m
      rcases List.mem_append.mp hc0m with h | h
      · exact le_of_lt (hpre c0 h)
      · rcases List.mem_cons.mp h with h | h
        · rw [h]
        · exact hpost c0 h
    obtain ⟨q, hq⟩ := hscore best (mem_of_findBest comps best hb)
    by_cases hxy : best.h_middle ≠ 0 ∨ best.v_middle ≠ 0
    · have := hpos best.h_middle best.v_middle q hxy
      rw [← hq] at this
      exact absurd this (not_lt.mpr hle)
    · push_neg at hxy
      refine ⟨hxy.1, hxy.2, ?_⟩
      rw [hq, hxy.1, hxy.2]
      exact h0 q

/-- One round of the recursive case that selects the offset `(0, 0)` and recurses into
the sub-area `next` of that sample. -/
theorem origin_step (plane : GradientPlane) (cache : DiffCache) (area next : GradientCheck)
    (u : Nat)
    (hov : 0 < (img_comp.createDefault 0 0).checkedPercentage plane)
    (h0 : ∀ p, plane.getDifference 0 0 p = 0)
    (hpos : ∀ x y p, (x ≠ 0 ∨ y ≠ 0) → 0 < plane.getDifference x y p)
    (hreach : Reachable plane cache)
    (hleaf : area.isLeaf = false) (hamount : area.amount ≠ 0)
    (hu : area.precision.toUnsigned = some u)
    (hprec : ∃ s, area.precision = Precision.root s ∧ 0 ≤ s ∧ s < 4)
    (horigin : ∃ s ∈ area.samples, s.1 = 0 ∧ s.2.1 = 0)
    (hnext : ∀ s ∈ area.samples, s.1 = 0 → s.2.1 = 0 → s.2.2 = next)
    (hlevel : next.level > 0) :
    ∃ cache1, Reachable plane cache1 ∧ ∀ fuel,
      findMinimumFuel plane (fuel + 1) cache area =
        match findMinimumFuel plane fuel cache1 next with
        | .error e => .error e
        | .ok run => .ok { run with calls := area :: run.calls } := by
  obtain ⟨s0, hs0, hs0x, hs0y⟩ := horigin
  have hgen : generate cache area
      = .ok (area.samples.map (sampleComp cache area.precision u)) := by
    unfold generate
    simp only [hleaf, Bool.false_eq_true, if_false, if_neg hamount, hu]
    cases hs : area.samples with
    | nil => rw [hs] at hs0; cases hs0
    | cons a rest => rfl
  obtain ⟨comps, cache1, best, hr, ha, hreach1, hb, hbx, hby, _⟩ :=
    round_origin plane cache area _ hov h0 hpos hreach hgen
      ⟨sampleComp cache area.precision u s0, List.mem_map_of_mem _ hs0, hs0x, hs0y⟩
      (by
        intro g hg
        rw [List.mem_map] at hg
        obtain ⟨s, _, rfl⟩ := hg
        exact hprec)
  have harea : best.area = next := by
    rcases roundComps_mem plane cache area comps best hr (mem_of_findBest comps best hb) with
      ⟨h, _⟩ | ⟨_, s, hs, hsa, hsx, hsy⟩
    · rw [hleaf] at h; cases h
    · rw [hsa]
      exact hnext s hs (by rw [← hsx]; exact hbx) (by rw [← hsy]; exact hby)
  refine ⟨cache1, hreach1, ?_⟩
  intro fuel
  rw [findMinimumFuel]
  simp only [hr, ha, hb, harea, if_pos hlevel]

/-- The round of a trivial step that selects the offset `(0, 0)` and returns it. -/
theorem origin_leaf (plane : GradientPlane) (cache : DiffCache) (area : GradientCheck)
    (hov : 0 < (img_comp.createDefault 0 0).checkedPercentage plane)
    (h0 : ∀ p, plane.getDifference 0 0 p = 0)
    (hpos : ∀ x y p, (x ≠ 0 ∨ y ≠ 0) → 0 < plane.getDifference x y p)
    (hreach : Reachable plane cache)
    (hleaf : area.isLeaf = true) (horigin : ((0 : Int), (0 : Int)) ∈ area.leafOffsets) :
    ∃ cache1, ∀ fuel, findMinimumFuel plane (fuel + 1) cache area
      = .ok { result := ⟨0, 0, 0⟩, cache := cache1, calls := [area] } := by
  obtain ⟨comps, cache1, best, hr, ha, _, hb, hbx, hby, hbd⟩ :=
    round_origin plane cache area _ hov h0 hpos hreach (generate_leaf cache area hleaf)
      ⟨leafComp cache (0, 0), List.mem_map_of_mem _ horigin, rfl, rfl⟩
      (by
        intro g hg
        rw [List.mem_map] at hg
        obtain ⟨p, _, rfl⟩ := hg
        exact ⟨1, rfl, by norm_num, by norm_num⟩)
  have harea : best.area = ⟨0, 0, 0, 0, 0⟩ := by
    rcases roundComps_mem plane cache area comps best hr (mem_of_findBest comps best hb) with
      ⟨_, h, _⟩ | ⟨h, _⟩
    · exact h
    · rw [hleaf] at h; cases h
  refine ⟨cache1, ?_⟩
  intro fuel
  rw [findMinimumFuel]
  simp only [hr, ha, hb, harea, hbx, hby, hbd]
  rfl

/-- C10 (scenario A). For every metric that is 0 at the offset `(0, 0)` at every precision
and strictly positive at every other offset, on planes that overlap at the offset
`(0, 0)` in a non-zero number of pixels (for two identical planes of `w` by `h` pixels that
number is `w·h`, taken modulo `2^32`), `findMinimum` on the region `[-2,2]×[-2,2]` at level
0, started from the empty cache, returns the offset `(0, 0)` with the score 0. -/
theorem scenario_identical_planes (plane : GradientPlane)
    (hov : 0 < (img_comp.createDefault 0 0).checkedPercentage plane)
    (h0 : ∀ p, plane.getDifference 0 0 p = 0)
    (hpos : ∀ x y p, (x ≠ 0 ∨ y ≠ 0) → 0 < plane.getDifference x y p) :
    ∃ run, findMinimum plane [] (GradientCheck.mk (-2) 2 (-2) 2 0) = .ok run ∧
      run.result = ⟨0, 0, 0⟩ := by
  obtain ⟨cache1, hreach1, hstep1⟩ :=
    origin_step plane [] (GradientCheck.mk (-2) 2 (-2) 2 0) (GradientCheck.mk (-2) 2 (-2) 2 1) 1
      hov h0 hpos Reachable.empty (by decide!) (by decide!) (by decide!)
      ⟨2, by decide!, by norm_num, by norm_num⟩ (by decide!) (by decide!) (by decide!)
  obtain ⟨cache2, hreach2, hstep2⟩ :=
    origin_step plane cache1 (GradientCheck.mk (-2) 2 (-2) 2 1)
      (GradientCheck.mk (-1) 1 (-1) 1 1) 1
      hov h0 hpos hreach1 (by decide!) (by decide!) (by decide!)
      ⟨1, by decide!, by norm_num, by norm_num⟩ (by decide!) (by decide!) (by decide!)
  obtain ⟨cache3, hstep3⟩ :=
    origin_leaf plane cache2 (GradientCheck.mk (-1) 1 (-1) 1 1) hov h0 hpos hreach2
      (by decide!) (by decide!)
  have hfuel : (GradientCheck.mk (-2) 2 (-2) 2 0).depthBound = 15 + 1 + 1 + 1 := by decide!
  unfold findMinimum
  rw [hfuel, hstep1, hstep2, hstep3]
  exact ⟨_, rfl, rfl⟩

/-- Two identical planes of 16 by 16 pixels compared by the squared distance of the
offset from the origin. -/
theorem scenario_identical_planes_witness :
    0 < (img_comp.createDefault 0 0).checkedPercentage demoPlane ∧
    (∀ p, demoPlane.getDifference 0 0 p = 0) ∧
    (∀ x y p, (x ≠ 0 ∨ y ≠ 0) → 0 < demoPlane.getDifference x y p) ∧
    ∃ run, findMinimum demoPlane [] (GradientCheck.mk (-2) 2 (-2) 2 0) = .ok run ∧
      run.result = ⟨0, 0, 0⟩ :=
  have hpos : ∀ (x y : Int) (p : Precision), (x ≠ 0 ∨ y ≠ 0) →
      0 < demoPlane.getDifference x y p := by
    intro x y p h
    have h1 : (0 : Int) < x * x + y * y := by
      rcases h with h | h
      · have := mul_self_pos.mpr h
        nlinarith [mul_self_nonneg y]
      · have := mul_self_pos.mpr h
        nlinarith [mul_self_nonneg x]
    show (0 : ℚ) < ((x * x + y * y : Int) : ℚ)
    exact_mod_cast h1
  have h0 : ∀ p : Precision, demoPlane.getDifference 0 0 p = 0 := by
    intro p
    show (((0 * 0 + 0 * 0 : Int)) : ℚ) = 0
    norm_num
  ⟨by decide!, h0, hpos, scenario_identical_planes demoPlane (by decide!) h0 hpos⟩

/-! ## The leaf test -/

/-- C18, as stated, fails in both directions: the region `[-2,2]×[-2,2]` at level 0 is
subdivided (its steps are 2), and the region `[-1,1]×[-1,1]` at level 1 is scanned
exhaustively (its steps are 1/2). -/
theorem leaf_is_not_level_zero :
    ¬ ((GradientCheck.mk (-2) 2 (-2) 2 0).isLeaf = true ↔
        (GradientCheck.mk (-2) 2 (-2) 2 0).level = 0) ∧
    ¬ ((GradientCheck.mk (-1) 1 (-1) 1 1).isLeaf = true ↔
        (GradientCheck.mk (-1) 1 (-1) 1 1).level = 0) ∧
    (GradientCheck.mk (-1) 1 (-1) 1 1).level > 0 ∧
    generate [] (GradientCheck.mk (-1) 1 (-1) 1 1)
      = .ok ((GradientCheck.mk (-1) 1 (-1) 1 1).leafOffsets.map (leafComp [])) := by
  refine ⟨?_, ?_, by decide, by decide!⟩
  · have h : (GradientCheck.mk (-2) 2 (-2) 2 0).isLeaf = false := by decide!
    rw [h]; decide
  · have h : (GradientCheck.mk (-1) 1 (-1) 1 1).isLeaf = true := by decide!
    rw [h]; decide

/-- C18 (leaf marker), amended. For a well-formed region of level at least 0,
`findMinimum` takes the exhaustive unit scan exactly when both the width and the height
of the region are below `amount = 2·level + 2` (both step sizes below 1), whatever the
level is. The candidates of the unit scan carry the default area, of level 0, and are
returned directly; the candidates of the other case carry a nested sub-region of level
`level > 1 ? level-1 : 1`, which is at least 1, so the search recurses into the winner. -/
theorem leaf_iff_steps_small (cache : DiffCache) (area : GradientCheck)
    (gen : List img_comp) (hl : 0 ≤ area.level) (hgen : generate cache area = .ok gen) :
    (area.isLeaf = true ↔
      (area.right - area.left < 2 * area.level + 2 ∧
        area.bottom - area.top < 2 * area.level + 2)) ∧
    (area.isLeaf = true →
      gen.map (fun c => (c.h_middle, c.v_middle)) = area.leafOffsets ∧
      ∀ c ∈ gen, c.area.level = 0) ∧
    (area.isLeaf = false →
      ∀ c ∈ gen, c.area.level = (if area.level > 1 then area.level - 1 else 1) ∧
        c.area.level > 0) := by
  refine ⟨?_, ?_, ?_⟩
  · rw [isLeaf_iff_lt_amount area hl]
    unfold GradientCheck.amount
    constructor <;> rintro ⟨h1, h2⟩ <;> constructor <;> omega
  · intro hleaf
    rw [generate_leaf cache area hleaf] at hgen
    cases hgen
    constructor
    · rw [List.map_map]
      conv_rhs => rw [← List.map_id area.leafOffsets]
      exact List.map_congr_left (fun p _ => leafComp_offset cache p)
    · intro c hc
      rw [List.mem_map] at hc
      obtain ⟨p, _, rfl⟩ := hc
      rfl
  · intro hleaf c hc
    rcases generate_nonleaf cache area gen hleaf hgen with ⟨h0, _⟩ | ⟨_, u, _, h1⟩
    · rw [h0] at hc; cases hc
    · rw [h1, List.mem_map] at hc
      obtain ⟨s, hs, rfl⟩ := hc
      obtain ⟨iy, _, ix, _, hsample⟩ := mem_samples area s hs
      obtain ⟨_, _, _, _, hsub⟩ := sample_eq_some area iy ix s hsample
      have hlev : (sampleComp cache area.precision u s).area.level = area.subLevel := by
        show s.2.2.level = area.subLevel
        rw [hsub]
      rw [hlev]
      unfold GradientCheck.subLevel
      constructor
      · rfl
      · split <;> omega

/-- C18 at the region `[-2,2]×[-2,2]` of level 1, which is subdivided. -/
theorem leaf_iff_steps_small_witness :
    0 ≤ (GradientCheck.mk (-2) 2 (-2) 2 1).level ∧
    generate [] (GradientCheck.mk (-2) 2 (-2) 2 1)
      = .ok (compsOf (generate [] (GradientCheck.mk (-2) 2 (-2) 2 1))) ∧
    ((GradientCheck.mk (-2) 2 (-2) 2 1).isLeaf = true ↔
      ((GradientCheck.mk (-2) 2 (-2) 2 1).right - (GradientCheck.mk (-2) 2 (-2) 2 1).left
          < 2 * (GradientCheck.mk (-2) 2 (-2) 2 1).level + 2 ∧
        (GradientCheck.mk (-2) 2 (-2) 2 1).bottom - (GradientCheck.mk (-2) 2 (-2) 2 1).top
          < 2 * (GradientCheck.mk (-2) 2 (-2) 2 1).level + 2)) :=
  ⟨by decide, by decide!,
    (leaf_iff_steps_small [] (GradientCheck.mk (-2) 2 (-2) 2 1)
      (compsOf (generate [] (GradientCheck.mk (-2) 2 (-2) 2 1))) (by decide)
      (by decide!)).1⟩

/-! ## The overlap of the two planes -/

theorem usub_eq (a : Nat) (b : Int) (h0 : 0 ≤ b) (hb : b ≤ a) (ha : a < 2 ^ 32) :
    ((usub a b : Nat) : Int) = (a : Int) - b := by
  unfold usub
  have h1 : (0 : Int) ≤ (a : Int) - b := by omega
  have h2 : (a : Int) - b < 2 ^ 32 := by omega
  rw [Int.emod_eq_of_lt h1 h2, Int.toNat_of_nonneg h1]

/-- One axis of `checkedPercentage` for an offset that does not exceed the sizes: the
length of the intersection of `[0, w1)` and `[x, x + w2)`. -/
theorem axis_overlap (w1 w2 : Nat) (x : Int) (h1 : w1 < 2 ^ 32) (h2 : w2 < 2 ^ 32)
    (hlo : -(w2 : Int) ≤ x) (hhi : x ≤ (w1 : Int)) :
    ((min (usub w1 (if x < 0 then 0 else x)) (usub w2 (if x > 0 then 0 else -x)) : Nat) : Int)
      = max 0 (min (w1 : Int) (x + w2) - max 0 x) := by
  by_cases hx : x < 0
  · have hx2 : ¬ x > 0 := by omega
    rw [if_pos hx, if_neg hx2]
    have e1 := usub_eq w1 0 (le_refl _) (by omega) h1
    have e2 := usub_eq w2 (-x) (by omega) (by omega) h2
    rw [Nat.cast_min, e1, e2]
    omega
  · rw [if_neg hx]
    have e1 := usub_eq w1 x (by omega) hhi h1
    by_cases hx2 : x > 0
    · rw [if_pos hx2]
      have e2 := usub_eq w2 0 (le_refl _) (by omega) h2
      rw [Nat.cast_min, e1, e2]
      omega
    · rw [if_neg hx2]
      have hx0 : x = 0 := by omega
      have e2 := usub_eq w2 (-x) (by omega) (by omega) h2
      rw [Nat.cast_min, e1, e2]
      omega

/-- For an offset that does not exceed the sizes of the planes, and planes of fewer than
`2^32` pixels, `checkedPercentage` is the overlap of the spec. -/
theorem checkedPercentage_inside (plane : GradientPlane) (c : img_comp)
    (h1 : plane.p1.get_width * plane.p1.get_height < 2 ^ 32)
    (hw1 : plane.p1.get_width < 2 ^ 32) (hh1 : plane.p1.get_height < 2 ^ 32)
    (hw2 : plane.p2.get_width < 2 ^ 32) (hh2 : plane.p2.get_height < 2 ^ 32)
    (hx : -(plane.p2.get_width : Int) ≤ c.h_middle ∧ c.h_middle ≤ plane.p1.get_width)
    (hy : -(plane.p2.get_height : Int) ≤ c.v_middle ∧ c.v_middle ≤ plane.p1.get_height) :
    ((c.checkedPercentage plane : Nat) : Int)
      = overlapPixels plane.p1.get_width plane.p1.get_height plane.p2.get_width
          plane.p2.get_height c.h_middle c.v_middle := by
  unfold img_comp.checkedPercentage overlapPixels
  simp only
  have ex := axis_overlap plane.p1.get_width plane.p2.get_width c.h_middle hw1 hw2 hx.1 hx.2
  have ey := axis_overlap plane.p1.get_height plane.p2.get_height c.v_middle hh1 hh2
    hy.1 hy.2
  rw [← ex, ← ey]
  set W := min (usub plane.p1.get_width (if c.h_middle < 0 then 0 else c.h_middle))
    (usub plane.p2.get_width (if c.h_middle > 0 then 0 else -c.h_middle)) with hW
  set H := min (usub plane.p1.get_height (if c.v_middle < 0 then 0 else c.v_middle))
    (usub plane.p2.get_height (if c.v_middle > 0 then 0 else -c.v_middle)) with hH
  have hWle : (W : Int) ≤ plane.p1.get_width := by
    rw [ex]; omega
  have hHle : (H : Int) ≤ plane.p1.get_height := by
    rw [ey]; omega
  have hWn : W ≤ plane.p1.get_width := by exact_mod_cast hWle
  have hHn : H ≤ plane.p1.get_height := by exact_mod_cast hHle
  have hlt : W * H < 2 ^ 32 := lt_of_le_of_lt (Nat.mul_le_mul hWn hHn) h1
  rw [Nat.mod_eq_of_lt hlt]
  push_cast
  rfl

/-- C17, failing input. On two planes of 16 by 16 pixels the offset `(17, 0)` leaves no
common pixel, and `checkedPercentage` returns 256: `16 - 17` wraps around in `unsigned`
and the minimum with 16 is 16. -/
theorem overlap_wraps_beyond_plane :
    (img_comp.createDefault 17 0).checkedPercentage demoPlane = 256 ∧
    overlapPixels 16 16 16 16 17 0 = 0 ∧
    usub 16 17 = 4294967295 := by
  refine ⟨by decide!, by decide!, by decide!⟩

/-! ## The cache after a round -/

theorem forall₂_mem_left {α β : Type} {R : α → β → Prop} {P : α → Prop} {l : List α}
    {l1 : List β} (h : List.Forall₂ R l l1) (hp : ∀ a ∈ l, P a) :
    List.Forall₂ (fun a b => R a b ∧ P a) l l1 := by
  induction h with
  | nil => exact List.Forall₂.nil
  | cons hab _ ih =>
    exact List.Forall₂.cons ⟨hab, hp _ (List.mem_cons_self _ _)⟩
      (ih (fun a ha => hp a (List.mem_cons_of_mem _ ha)))

/-- The loop that fills the cache appends one entry for each candidate whose diff was
not set from the cache, in the order of the vector, and touches nothing else. -/
theorem addToCache_append (comps : List img_comp) :
    ∀ (cache cache1 : DiffCache), addToCache cache comps = .ok cache1 →
      ∃ entries, cache1 = cache ++ entries ∧
        List.Forall₂ (fun c e => e.x = c.h_middle ∧ e.y = c.v_middle ∧ e.diff = c.diff ∧
            c.precision.toUnsigned = some e.precision)
          (comps.filter (fun c => !c.diff_set)) entries := by
  induction comps with
  | nil =>
    intro cache cache1 h
    simp only [addToCache, Except.ok.injEq] at h
    exact ⟨[], by simp [h], by simp⟩
  | cons c rest ih =>
    intro cache cache1 h
    unfold addToCache at h
    split at h
    · rename_i hset
      obtain ⟨entries, h1, h2⟩ := ih cache cache1 h
      refine ⟨entries, h1, ?_⟩
      rw [List.filter_cons_of_neg (by simp [hset])]
      exact h2
    · rename_i hset
      split at h
      · cases h
      · rename_i u hu
        obtain ⟨entries, h1, h2⟩ := ih _ cache1 h
        refine ⟨⟨c.h_middle, c.v_middle, c.diff, u⟩ :: entries, ?_, ?_⟩
        · rw [h1]
          simp [DiffCache.add_diff]
        · rw [List.filter_cons_of_pos (by simpa using hset)]
          exact List.Forall₂.cons ⟨rfl, rfl, rfl, hu⟩ h2

/-- A generated candidate has its diff set exactly when the lookup at its precision,
converted to `unsigned`, returned a non-negative score, which is then its diff. -/
theorem generated_seed (cache : DiffCache) (area : GradientCheck) (gen : List img_comp)
    (hgen : generate cache area = .ok gen) :
    ∀ g ∈ gen, ∃ u, g.precision.toUnsigned = some u ∧
      g.diff = cache.get_diff g.h_middle g.v_middle u ∧
      (g.diff_set = true ↔ 0 ≤ cache.get_diff g.h_middle g.v_middle u) := by
  intro g hg
  have hseed : ∀ (c0 : img_comp) (d : ℚ), c0.diff_set = false →
      (c0.set_diff d).diff = d ∧ ((c0.set_diff d).diff_set = true ↔ 0 ≤ d) := by
    intro c0 d h0
    refine ⟨rfl, ?_⟩
    show (if d ≥ 0 then true else c0.diff_set) = true ↔ 0 ≤ d
    by_cases hd : d ≥ 0
    · simp [hd]
    · rw [if_neg hd, h0]
      constructor
      · intro h; cases h
      · intro h; exact absurd h hd
  cases hleaf : area.isLeaf with
  | true =>
    rw [generate_leaf cache area hleaf] at hgen
    cases hgen
    rw [List.mem_map] at hg
    obtain ⟨p, _, rfl⟩ := hg
    have hp : (leafComp cache p).precision.toUnsigned = some 1 := by
      show (Precision.root 1).toUnsigned = some 1
      decide!
    exact ⟨1, hp, hseed (img_comp.createDefault p.1 p.2) _ rfl⟩
  | false =>
    rcases generate_nonleaf cache area gen hleaf hgen with ⟨h0, _⟩ | ⟨_, u, hu, h1⟩
    · rw [h0] at hg; cases hg
    · rw [h1, List.mem_map] at hg
      obtain ⟨s, _, rfl⟩ := hg
      exact ⟨u, hu, hseed (img_comp.create s.1 s.2.1 s.2.2 area.precision) _ rfl⟩

/-- The scored candidates keep the offsets, the sub-areas, the flags `diff_set` and, when
the flag is set, the diffs of the generated candidates; the diff of a candidate whose
flag is not set is the metric at its offset and at its re-evaluated precision. -/
theorem evaluate_forall₂ (plane : GradientPlane) (gen comps : List img_comp)
    (h : evaluate plane gen = .ok comps) :
    List.Forall₂ (fun g c => c.h_middle = g.h_middle ∧ c.v_middle = g.v_middle ∧
        c.area = g.area ∧ c.diff_set = g.diff_set ∧
        c.precision = (g.increasePrecision plane (maxChecked plane gen)).precision ∧
        (g.diff_set = true → c.diff = g.diff) ∧
        (g.diff_set = false →
          c.diff = plane.getDifference c.h_middle c.v_middle c.precision)) gen comps := by
  rw [(evaluate_ok plane gen comps h).2, List.map_map, List.forall₂_map_right_iff]
  refine List.forall₂_same.mpr ?_
  intro g _
  simp only [Function.comp, img_comp.do_diff, img_comp.increasePrecision]
  cases hset : g.diff_set with
  | true => simp
  | false => simp

/-- The diff of a scored candidate whose flag is not set was computed by the metric at the
candidate's re-evaluated precision. -/
theorem scored_unset (plane : GradientPlane) (gen comps : List img_comp)
    (he : evaluate plane gen = .ok comps) :
    ∀ c ∈ comps, c.diff_set = false →
      c.diff = plane.getDifference c.h_middle c.v_middle c.precision := by
  intro c hc hset
  rw [(evaluate_ok plane gen comps he).2, List.mem_map] at hc
  obtain ⟨c1, _, rfl⟩ := hc
  unfold img_comp.do_diff at hset ⊢
  split
  · rename_i h1
    rw [if_pos h1] at hset
    rw [h1] at hset
    cases hset
  · rfl

/-- C15, as stated, fails in the precision of the entry. The first round of
`[-2,2]×[-2,2]` at level 0 from the empty cache evaluates `(0, 0)` at the precision `√2`
(the metric of `precisionPlane` answers with the square of the precision, 2), and the
entry it appends holds the precision 1. -/
theorem stored_precision_is_truncated :
    roundComps precisionPlane [] (GradientCheck.mk (-2) 2 (-2) 2 0)
      = .ok [{ area := GradientCheck.mk (-2) 2 (-2) 2 1, h_middle := 0, v_middle := 0,
               diff := 2, precision := Precision.root 2, diff_set := false }] ∧
    addToCache []
        [{ area := GradientCheck.mk (-2) 2 (-2) 2 1, h_middle := 0, v_middle := 0,
           diff := 2, precision := Precision.root 2, diff_set := false }]
      = .ok [{ x := 0, y := 0, diff := 2, precision := 1 }] ∧
    Precision.root (((1 : Nat) : ℚ) ^ 2) ≠ Precision.root 2 := by
  refine ⟨by decide!, by decide!, by decide!⟩

/-- C15 (cache update of a round), amended. A round of `findMinimum` that completes
leaves every existing cache entry in place and unchanged and appends exactly one entry
for each candidate whose lookup returned no non-negative score, in candidate order:
the entry holds the offset, the score computed by the metric at the candidate's
re-evaluated precision, and that precision converted to `unsigned` (truncated). It
appends nothing for a candidate whose score came from the cache. -/
theorem cache_update (plane : GradientPlane) (cache : DiffCache) (area : GradientCheck)
    (comps : List img_comp) (cache1 : DiffCache)
    (hr : roundComps plane cache area = .ok comps)
    (ha : addToCache cache comps = .ok cache1) :
    ∃ entries, cache1 = cache ++ entries ∧
      List.Forall₂ (fun c e => e.x = c.h_middle ∧ e.y = c.v_middle ∧ e.diff = c.diff ∧
          c.diff = plane.getDifference c.h_middle c.v_middle c.precision ∧
          c.precision.toUnsigned = some e.precision)
        (comps.filter (fun c => !c.diff_set)) entries ∧
      ∃ gen, generate cache area = .ok gen ∧
        List.Forall₂ (fun g c => c.h_middle = g.h_middle ∧ c.v_middle = g.v_middle ∧
          ∃ u, g.precision.toUnsigned = some u ∧
            (c.diff_set = true ↔ 0 ≤ cache.get_diff g.h_middle g.v_middle u) ∧
            (c.diff_set = true → c.diff = cache.get_diff g.h_middle g.v_middle u)) gen comps := by
  obtain ⟨gen, hg, he⟩ := roundComps_ok plane cache area comps hr
  obtain ⟨entries, h1, h2⟩ := addToCache_append comps cache cache1 ha
  have hev := evaluate_forall₂ plane gen comps he
  have hmetric := scored_unset plane gen comps he
  refine ⟨entries, h1, ?_, gen, hg, ?_⟩
  · have hfil : ∀ c ∈ comps.filter (fun c => !c.diff_set),
        c.diff = plane.getDifference c.h_middle c.v_middle c.precision := by
      intro c hc
      have h := List.mem_filter.mp hc
      exact hmetric c h.1 (by simpa using h.2)
    refine (forall₂_mem_left h2 hfil).imp ?_
    rintro c e ⟨⟨e1, e2, e3, e4⟩, e5⟩
    exact ⟨e1, e2, e3, e5, e4⟩
  · refine (forall₂_mem_left hev (generated_seed cache area gen hg)).imp ?_
    rintro g c ⟨⟨e1, e2, _, e4, _, e6, _⟩, u, hu, hd, hs⟩
    refine ⟨e1, e2, u, hu, by rw [e4]; exact hs, ?_⟩
    intro hset
    rw [e4] at hset
    rw [e6 hset, hd]

/-- C15 at the first round of `[-2,2]×[-2,2]` at level 0 from the empty cache: one
candidate, one entry. -/
theorem cache_update_witness :
    roundComps precisionPlane [] (GradientCheck.mk (-2) 2 (-2) 2 0)
      = .ok [{ area := GradientCheck.mk (-2) 2 (-2) 2 1, h_middle := 0, v_middle := 0,
               diff := 2, precision := Precision.root 2, diff_set := false }] ∧
    addToCache []
        [{ area := GradientCheck.mk (-2) 2 (-2) 2 1, h_middle := 0, v_middle := 0,
           diff := 2, precision := Precision.root 2, diff_set := false }]
      = .ok [{ x := 0, y := 0, diff := 2, precision := 1 }] ∧
    ∃ entries : DiffCache,
      ([{ x := 0, y := 0, diff := 2, precision := 1 }] : DiffCache) = [] ++ entries :=
  ⟨by decide!, by decide!,
    (cache_update precisionPlane [] (GradientCheck.mk (-2) 2 (-2) 2 0)
      [{ area := GradientCheck.mk (-2) 2 (-2) 2 1, h_middle := 0, v_middle := 0,
         diff := 2, precision := Precision.root 2, diff_set := false }]
      [{ x := 0, y := 0, diff := 2, precision := 1 }] (by decide!) (by decide!)).imp
      (fun _ h => h.1)⟩

/-! ## The region invariant -/

theorem truncToInt_nonneg (v : ℚ) (h : 0 ≤ v) : 0 ≤ truncToInt v := by
  unfold truncToInt
  rw [if_neg (not_lt.mpr h)]
  exact Int.floor_nonneg.mpr h

theorem toInt32_of_lt (u : Nat) (h : u < 2 ^ 31) : toInt32 u = (u : Int) := by
  unfold toInt32
  have h1 : u % 2 ^ 32 = u := Nat.mod_eq_of_lt (by omega)
  rw [h1, if_pos h]

/-! ## FrameAligner: the stills of a frame move together -/

theorem offsetAll_getElem (stills : List Still) (frame : Int) (delta : ℚ × ℚ) (i : Nat)
    (hi : i < stills.length) :
    ∃ h : i < (offsetAll stills frame delta).length,
      (offsetAll stills frame delta)[i].frame = stills[i].frame ∧
      (offsetAll stills frame delta)[i].pos
        = if stills[i].frame = frame then stills[i].pos + delta else stills[i].pos := by
  unfold offsetAll
  refine ⟨by simpa using hi, ?_⟩
  simp only [List.getElem_map]
  split <;> exact ⟨rfl, rfl⟩

/-- What the last loop of `align` does to the stills: it keeps their number and their
frames, and two stills of one frame keep the difference of their positions. -/
theorem alignFrames_rigid (env : Collaborators) (base_point : ℚ × ℚ) (frames : List Int) :
    ∀ (k : Nat) (stills : List Still),
      (alignFrames env base_point frames k stills).length = stills.length ∧
      ∀ (i j : Nat) (hi : i < stills.length) (hj : j < stills.length)
        (hi1 : i < (alignFrames env base_point frames k stills).length)
        (hj1 : j < (alignFrames env base_point frames k stills).length),
        (alignFrames env base_point frames k stills)[i].frame = stills[i].frame ∧
        (stills[i].frame = stills[j].frame →
          (alignFrames env base_point frames k stills)[i].pos
              - (alignFrames env base_point frames k stills)[j].pos
            = stills[i].pos - stills[j].pos) := by
  induction frames with
  | nil =>
    intro k stills
    refine ⟨rfl, ?_⟩
    intro i j hi hj _ _
    exact ⟨rfl, fun _ => rfl⟩
  | cons frame rest ih =>
    intro k stills
    have hstep := ih (k + 1) (offsetAll stills frame (frameDelta env base_point stills k frame))
    have hlen : (offsetAll stills frame (frameDelta env base_point stills k frame)).length
        = stills.length := by simp [offsetAll]
    refine ⟨by rw [alignFrames, hstep.1, hlen], ?_⟩
    intro i j hi hj hi1 hj1
    obtain ⟨hi2, hfi, hpi⟩ := offsetAll_getElem stills frame
      (frameDelta env base_point stills k frame) i hi
    obtain ⟨hj2, hfj, hpj⟩ := offsetAll_getElem stills frame
      (frameDelta env base_point stills k frame) j hj
    have h := hstep.2 i j hi2 hj2 (by rw [hstep.1]; exact hi2) (by rw [hstep.1]; exact hj2)
    simp only [alignFrames]
    refine ⟨by rw [h.1, hfi], ?_⟩
    intro hsame
    rw [h.2 (by rw [hfi, hfj, hsame]), hpi, hpj]
    by_cases hf : stills[i].frame = frame
    · rw [if_pos hf, if_pos (by rw [← hsame]; exact hf)]
      exact add_sub_add_right_eq_sub _ _ _
    · rw [if_neg hf, if_neg (by rw [← hsame]; exact hf)]

/-- Moving the stills of one frame does not change the stills of another frame. -/
theorem offsetAll_filter_ne (stills : List Still) (frame other : Int) (delta : ℚ × ℚ)
    (h : other ≠ frame) :
    (offsetAll stills frame delta).filter (fun s => s.frame = other)
      = stills.filter (fun s => s.frame = other) := by
  unfold offsetAll
  induction stills with
  | nil => rfl
  | cons s rest ih =>
    rw [List.map_cons, List.filter_cons, List.filter_cons, ih]
    by_cases hs : s.frame = frame
    · have hne : ¬ frame = other := fun e => h e.symm
      simp [hs, hne]
    · simp [hs]

theorem frameDelta_offsetAll (env : Collaborators) (base_point : ℚ × ℚ)
    (stills : List Still) (frame other : Int) (delta : ℚ × ℚ) (i : Nat)
    (h : other ≠ frame) :
    frameDelta env base_point (offsetAll stills frame delta) i other
      = frameDelta env base_point stills i other := by
  unfold frameDelta
  simp only
  rw [offsetAll_filter_ne stills frame other delta h]

/-- The last loop of `align` in closed form, for distinct frames: every still of the
frame at index `j` moves by the delta computed for that frame from the positions before
the loop, and no other still moves. -/
theorem alignFrames_closed (env : Collaborators) (base_point : ℚ × ℚ) :
    ∀ (frames : List Int) (k : Nat) (stills : List Still), frames.Nodup →
      alignFrames env base_point frames k stills
        = stills.map fun s =>
            if s.frame ∈ frames then
              { s with pos := s.pos
                  + frameDelta env base_point stills (k + frames.indexOf s.frame) s.frame }
            else s := by
  intro frames
  induction frames with
  | nil =>
    intro k stills _
    simp [alignFrames]
  | cons f rest ih =>
    intro k stills hnd
    obtain ⟨hf, hrest⟩ := List.nodup_cons.mp hnd
    rw [alignFrames, ih (k + 1) _ hrest]
    unfold offsetAll
    rw [List.map_map]
    apply List.map_congr_left
    intro s _
    simp only [Function.comp]
    by_cases hs : s.frame = f
    · have hnot : ¬ f ∈ rest := hf
      simp only [hs, if_true, hnot, if_false, List.mem_cons, true_or,
        List.indexOf_cons_self, Nat.add_zero]
    · have hne : f ≠ s.frame := fun e => hs e.symm
      rw [if_neg hs]
      by_cases hin : s.frame ∈ rest
      · have hfd := frameDelta_offsetAll env base_point stills f s.frame
          (frameDelta env base_point stills k f) (k + 1 + rest.indexOf s.frame) hs
        unfold offsetAll at hfd
        rw [if_pos hin, if_pos (List.mem_cons_of_mem _ hin), hfd,
          List.indexOf_cons_ne _ hne]
        congr 3
        omega
      · rw [if_neg hin, if_neg (by simp [hs, hin])]

/-- C14 (scenario D, rigid-group propagation). Let the frames of `getFrames()` be
distinct. `FrameAligner::align` moves every still of the frame at index `i` by one
delta, `(base_point − frame.minPoint()) + (images.pos(i) − images.minPoint())` with
`base_point` and `frame.minPoint()` taken from the positions before `align`, and moves no
still of another frame; so the stills keep their number and, for every two stills of one
frame, the difference of their positions after `align` equals the difference before
`align`. -/
theorem frame_stills_move_together (env : Collaborators) (frames : List Int)
    (stills : List Still) (hnd : frames.Nodup) :
    FrameAligner.align env frames stills
      = (stills.map fun s =>
          if s.frame ∈ frames then
            { s with pos := s.pos
                + ((env.minPoint (stills.map fun t => t.pos)
                    - env.minPoint ((stills.filter fun t => t.frame = s.frame).map
                        fun t => t.pos))
                  + (env.imagesPos (frames.indexOf s.frame) - env.imagesMinPoint)) }
          else s) ∧
    (FrameAligner.align env frames stills).length = stills.length ∧
    ∀ (i j : Nat) (hi : i < stills.length) (hj : j < stills.length)
      (hi1 : i < (FrameAligner.align env frames stills).length)
      (hj1 : j < (FrameAligner.align env frames stills).length),
      stills[i].frame = stills[j].frame →
        (FrameAligner.align env frames stills)[i].pos
            - (FrameAligner.align env frames stills)[j].pos
          = stills[i].pos - stills[j].pos := by
  refine ⟨?_, ?_, ?_⟩
  · unfold FrameAligner.align
    simp only
    rw [alignFrames_closed env _ frames 0 stills hnd]
    apply List.map_congr_left
    intro s _
    rw [Nat.zero_add]
    rfl
  · exact (alignFrames_rigid env _ frames 0 stills).1
  · intro i j hi hj hi1 hj1 hsame
    exact ((alignFrames_rigid env _ frames 0 stills).2 i j hi hj hi1 hj1).2 hsame

/-- Scenario D on two frames of three stills each: the stills of the first frame stay,
and the stills of the second frame move by `(-5, -3)` together. -/
theorem frame_stills_move_together_witness :
    [(0 : Int), 1].Nodup ∧
    FrameAligner.align demoCollaborators [0, 1] demoStills
      = [⟨0, (0, 0)⟩, ⟨0, (1, 2)⟩, ⟨0, (3, 1)⟩, ⟨1, (5, 7)⟩, ⟨1, (7, 8)⟩, ⟨1, (6, 11)⟩] ∧
    (FrameAligner.align demoCollaborators [0, 1] demoStills)
      = (demoStills.map fun s =>
          if s.frame ∈ [(0 : Int), 1] then
            { s with pos := s.pos
                + ((demoCollaborators.minPoint (demoStills.map fun t => t.pos)
                    - demoCollaborators.minPoint
                        ((demoStills.filter fun t => t.frame = s.frame).map fun t => t.pos))
                  + (demoCollaborators.imagesPos ([(0 : Int), 1].indexOf s.frame)
                      - demoCollaborators.imagesMinPoint)) }
          else s) :=
  ⟨by decide, by decide!,
    (frame_stills_move_together demoCollaborators [0, 1] demoStills (by decide)).1⟩

/-! ## The candidates and the sub-areas stay inside the region -/

theorem le_roundHalfAway (lo : Int) (v : ℚ) (h : (lo : ℚ) ≤ v) : lo ≤ roundHalfAway v := by
  unfold roundHalfAway
  split
  · have : lo - 1 < ⌈v - 1 / 2⌉ := by
      rw [Int.lt_ceil]; push_cast; linarith
    omega
  · rw [Int.le_floor]; linarith

theorem roundHalfAway_le_of_le (hi : Int) (v : ℚ) (h : v ≤ (hi : ℚ)) :
    roundHalfAway v ≤ hi := by
  unfold roundHalfAway
  split
  · rw [Int.ceil_le]; linarith
  · have : ⌊v + 1 / 2⌋ < hi + 1 := by
      rw [Int.floor_lt]; push_cast; linarith
    omega

/-- The rounding of `n + off` for an integer `n` and `1/2 < off < 1` is `n + 1`. -/
theorem roundHalfAway_add_frac (n : Int) (off : ℚ) (h1 : 1 / 2 < off) (h2 : off < 1) :
    roundHalfAway ((n : ℚ) + off) = n + 1 := by
  unfold roundHalfAway
  split
  · rw [Int.ceil_eq_iff]
    constructor <;> push_cast <;> linarith
  · rw [Int.floor_eq_iff]
    constructor <;> push_cast <;> linarith

/-- One axis of a kept sample: the rounded offset and the interval
`[floor( i-off ), ceil( i+off )]` lie inside `[lo, hi]`. -/
theorem subrange_inside (lo hi amount : Int) (i : ℚ) (k : ℕ)
    (hlohi : lo ≤ hi) (hamount : 2 ≤ amount)
    (hi_eq : i = (lo : ℚ) + ((hi - lo : Int) : ℚ) / (amount : ℚ) + (k : ℚ) *
      (if ((hi - lo : Int) : ℚ) / (amount : ℚ) < 1 then 1
        else ((hi - lo : Int) : ℚ) / (amount : ℚ)))
    (hi_le : i ≤ (hi : ℚ))
    (hkeep : ¬ (roundHalfAway i = hi ∧ roundHalfAway i ≠ lo)) :
    lo ≤ ⌊i - ((hi - lo : Int) : ℚ) / (amount : ℚ)⌋ ∧
    ⌈i + ((hi - lo : Int) : ℚ) / (amount : ℚ)⌉ ≤ hi ∧
    lo ≤ roundHalfAway i ∧ roundHalfAway i ≤ hi := by
  have hamountq : (2 : ℚ) ≤ (amount : ℚ) := by exact_mod_cast hamount
  have hw : (0 : ℚ) ≤ ((hi - lo : Int) : ℚ) := by
    have : (0 : Int) ≤ hi - lo := by omega
    exact_mod_cast this
  have hwdef : ((hi - lo : Int) : ℚ) = (hi : ℚ) - (lo : ℚ) := by push_cast; ring
  generalize hoff : ((hi - lo : Int) : ℚ) / (amount : ℚ) = off at hi_eq ⊢
  have hmul : off * (amount : ℚ) = ((hi - lo : Int) : ℚ) := by
    rw [← hoff]; field_simp
  have hoff0 : 0 ≤ off := by
    rw [← hoff]; exact div_nonneg hw (by linarith)
  have hk0 : (0 : ℚ) ≤ (k : ℚ) := Nat.cast_nonneg k
  have hadd0 : (0 : ℚ) ≤ (if off < 1 then 1 else off) := by
    split <;> linarith
  have hlo_i : (lo : ℚ) ≤ i := by
    rw [hi_eq]
    have := mul_nonneg hk0 hadd0
    linarith
  have hfloor : lo ≤ ⌊i - off⌋ := by
    rw [Int.le_floor, hi_eq]
    have := mul_nonneg hk0 hadd0
    linarith
  refine ⟨hfloor, ?_, le_roundHalfAway lo i hlo_i, roundHalfAway_le_of_le hi i hi_le⟩
  rw [Int.ceil_le]
  by_contra hcon
  push_neg at hcon
  apply hkeep
  by_cases hlt : off < 1
  · rw [if_pos hlt] at hi_eq
    -- the position is `n + off` for the integer `n = lo + k`
    have hn : i = ((lo + (k : Int) : Int) : ℚ) + off := by
      rw [hi_eq]; push_cast; ring
    have hoffpos : 0 < off := by
      by_contra h0
      have : off = 0 := le_antisymm (not_lt.mp h0) hoff0
      rw [this] at hcon
      linarith
    have hn1 : lo + (k : Int) ≤ hi - 1 := by
      have : ((lo + (k : Int) : Int) : ℚ) < (hi : ℚ) := by linarith
      have : lo + (k : Int) < hi := by exact_mod_cast this
      omega
    have hn2 : hi - 2 < lo + (k : Int) := by
      have : ((hi - 2 : Int) : ℚ) < ((lo + (k : Int) : Int) : ℚ) := by
        push_cast
        push_cast at hn
        linarith
      exact_mod_cast this
    have hneq : lo + (k : Int) = hi - 1 := by omega
    have hhalf : 1 / 2 < off := by
      have : ((lo + (k : Int) : Int) : ℚ) = (hi : ℚ) - 1 := by
        rw [hneq]; push_cast; ring
      rw [hn, this] at hcon
      linarith
    have hround : roundHalfAway i = hi := by
      rw [hn, roundHalfAway_add_frac _ off hhalf hlt, hneq]
      ring
    refine ⟨hround, ?_⟩
    rw [hround]
    intro heq
    rw [heq] at hmul
    simp at hmul
    rcases hmul with h | h
    · linarith
    · rw [h] at hamountq; linarith
  · rw [if_neg hlt] at hi_eq
    have h1 : 1 ≤ off := not_lt.mp hlt
    have hapos : (0 : ℚ) < (amount : ℚ) := by linarith
    -- the position is `lo + (k+1)·off`, and `(k+2)·off` exceeds the width
    have hj1 : ((k : ℚ) + 1) * off ≤ off * (amount : ℚ) := by
      rw [hmul, hwdef]; rw [hi_eq] at hi_le; linarith
    have hj2 : off * (amount : ℚ) < ((k : ℚ) + 2) * off := by
      rw [hmul, hwdef]; rw [hi_eq] at hcon; linarith
    have hk1 : (k : ℚ) + 1 ≤ (amount : ℚ) := by
      by_contra hc
      push_neg at hc
      nlinarith
    have hk2 : (amount : ℚ) < (k : ℚ) + 2 := by
      by_contra hc
      push_neg at hc
      nlinarith
    have hkz1 : (k : Int) + 1 ≤ amount := by exact_mod_cast hk1
    have hkz2 : amount < (k : Int) + 2 := by exact_mod_cast hk2
    have hka : (amount : ℚ) = (k : ℚ) + 1 := by
      have : amount = (k : Int) + 1 := by omega
      rw [this]; push_cast; ring
    have hieq : i = (hi : ℚ) := by
      rw [hi_eq]
      have : off * ((k : ℚ) + 1) = (hi : ℚ) - (lo : ℚ) := by
        rw [← hka, hmul, hwdef]
      linarith
    have hround : roundHalfAway i = hi := by
      rw [hieq, roundHalfAway_intCast]
    refine ⟨hround, ?_⟩
    rw [hround]
    intro heq
    rw [heq] at hmul
    simp at hmul
    rcases hmul with h | h
    · linarith
    · rw [h] at hamountq; linarith

/-- Every sample of a well-formed region has its offset and its sub-area inside the
region. -/
theorem sample_inside (area : GradientCheck) (s : Int × Int × GradientCheck)
    (hw : area.left ≤ area.right) (ht : area.top ≤ area.bottom) (hl : 0 ≤ area.level)
    (hs : s ∈ area.samples) :
    (area.left ≤ s.1 ∧ s.1 ≤ area.right ∧ area.top ≤ s.2.1 ∧ s.2.1 ≤ area.bottom) ∧
    (area.left ≤ s.2.2.left ∧ s.2.2.right ≤ area.right ∧
      area.top ≤ s.2.2.top ∧ s.2.2.bottom ≤ area.bottom) := by
  obtain ⟨iy, hiy, ix, hix, hsample⟩ := mem_samples area s hs
  obtain ⟨hs1, hs2, hkx, hky, hsub⟩ := sample_eq_some area iy ix s hsample
  obtain ⟨kx, hkx_eq, hkx_le⟩ := mem_loopValues _ _ _ _ _ hix
  obtain ⟨ky, hky_eq, hky_le⟩ := mem_loopValues _ _ _ _ _ hiy
  have hamount : 2 ≤ area.amount := by
    unfold GradientCheck.amount; omega
  rw [hs1] at hkx
  rw [hs2] at hky
  have hx := subrange_inside area.left area.right area.amount ix kx hw hamount
    hkx_eq hkx_le hkx
  have hy := subrange_inside area.top area.bottom area.amount iy ky ht hamount
    hky_eq hky_le hky
  rw [hsub, hs1, hs2]
  exact ⟨⟨hx.2.2.1, hx.2.2.2, hy.2.2.1, hy.2.2.2⟩, ⟨hx.1, hx.2.1, hy.1, hy.2.1⟩⟩

/-- The winner of a round has a score below `DOUBLE_MAX`. -/
theorem findBest_lt (comps : List img_comp) (best : img_comp)
    (h : findBest comps = some best) : best.diff < DOUBLE_MAX :=
  (findBest_eq_some comps best h).1

/-! ## Scenario B: reuse of the cache by leaf regions -/

/-- The selection loop looks at the diffs only: on two vectors whose candidates have
pairwise the same diff it selects candidates at the same position. -/
theorem bestFold_forall₂ {R : img_comp → img_comp → Prop}
    (hR : ∀ a b, R a b → a.diff = b.diff) {l1 l2 : List img_comp}
    (h : List.Forall₂ R l1 l2) :
    ∀ acc1 acc2 : Option img_comp × ℚ, Option.Rel R acc1.1 acc2.1 → acc1.2 = acc2.2 →
      Option.Rel R (l1.foldl bestStep acc1).1 (l2.foldl bestStep acc2).1 ∧
      (l1.foldl bestStep acc1).2 = (l2.foldl bestStep acc2).2 := by
  induction h with
  | nil => intro acc1 acc2 h1 h2; exact ⟨h1, h2⟩
  | cons hab _ ih =>
    intro acc1 acc2 h1 h2
    rw [List.foldl_cons, List.foldl_cons]
    apply ih
    · unfold bestStep
      rw [hR _ _ hab, h2]
      split
      · exact Option.Rel.some hab
      · exact h1
    · unfold bestStep
      rw [hR _ _ hab, h2]
      split <;> simp [h2]

theorem findBest_forall₂ {R : img_comp → img_comp → Prop}
    (hR : ∀ a b, R a b → a.diff = b.diff) {l1 l2 : List img_comp}
    (h : List.Forall₂ R l1 l2) : Option.Rel R (findBest l1) (findBest l2) :=
  (bestFold_forall₂ hR h (none, DOUBLE_MAX) (none, DOUBLE_MAX) Option.Rel.none rfl).1

/-- The lookup at precision 1 in a cache that holds one entry of precision 1 for each
offset of a list. -/
theorem get_diff_map (l : List (Int × Int)) (f : Int × Int → ℚ) (x y : Int) :
    DiffCache.get_diff (l.map fun p => (⟨p.1, p.2, f p, 1⟩ : Cached)) x y 1
      = if (x, y) ∈ l then f (x, y) else -1 := by
  induction l with
  | nil => simp [DiffCache.get_diff]
  | cons p rest ih =>
    obtain ⟨px, py⟩ := p
    rw [List.map_cons, DiffCache.get_diff, ih]
    by_cases hp : px = x ∧ py = y
    · obtain ⟨rfl, rfl⟩ := hp
      simp
    · have hne : ¬ ((x, y) = (px, py)) := by
        intro h
        rw [Prod.mk.injEq] at h
        exact hp ⟨h.1.symm, h.2.symm⟩
      have hcond : ¬ (px = x ∧ py = y ∧ 1 ≤ 1) := fun h => hp ⟨h.1, h.2.1⟩
      simp only [List.mem_cons, hne, false_or]
      rw [if_neg hcond]

/-- The loop that fills the cache, on candidates none of which was seeded from the cache
and whose precisions are all 1. -/
theorem addToCache_unset (comps : List img_comp) :
    ∀ cache : DiffCache,
      (∀ c ∈ comps, c.diff_set = false ∧ c.precision = Precision.root 1) →
      addToCache cache comps
        = .ok (cache ++ comps.map fun c => (⟨c.h_middle, c.v_middle, c.diff, 1⟩ : Cached)) := by
  induction comps with
  | nil => intro cache _; simp [addToCache]
  | cons c rest ih =>
    intro cache h
    obtain ⟨h1, h2⟩ := h c (List.mem_cons_self _ _)
    have hu : (Precision.root 1).toUnsigned = some 1 := by decide!
    unfold addToCache
    rw [if_neg (by simp [h1]), h2, hu]
    simp only
    rw [ih _ (fun d hd => h d (List.mem_cons_of_mem _ hd))]
    simp [DiffCache.add_diff]

/-- The loop that fills the cache adds nothing when every candidate was seeded from the
cache. -/
theorem addToCache_set (comps : List img_comp) (cache : DiffCache)
    (h : ∀ c ∈ comps, c.diff_set = true) : addToCache cache comps = .ok cache := by
  induction comps with
  | nil => rfl
  | cons c rest ih =>
    unfold addToCache
    rw [if_pos (h c (List.mem_cons_self _ _))]
    exact ih (fun d hd => h d (List.mem_cons_of_mem _ hd))

/-- The candidate of the trivial step seeded from the empty cache, and from a cache that
holds the metric at precision 1 for the offsets of a list. -/
theorem leafComp_seeded (plane : GradientPlane) (l : List (Int × Int)) (p : Int × Int)
    (hm : ∀ x y q, 0 ≤ plane.getDifference x y q) :
    (leafComp [] p).diff_set = false ∧
    (leafComp [] p).do_diff plane
      = { img_comp.createDefault p.1 p.2 with
          diff := plane.getDifference p.1 p.2 (Precision.root 1) } ∧
    (p ∈ l →
      leafComp (l.map fun q =>
          (⟨q.1, q.2, plane.getDifference q.1 q.2 (Precision.root 1), 1⟩ : Cached)) p
        = { img_comp.createDefault p.1 p.2 with
            diff := plane.getDifference p.1 p.2 (Precision.root 1), diff_set := true }) ∧
    (p ∉ l →
      (leafComp (l.map fun q =>
          (⟨q.1, q.2, plane.getDifference q.1 q.2 (Precision.root 1), 1⟩ : Cached)) p).diff_set
        = false) := by
  have hempty : leafComp [] p = img_comp.createDefault p.1 p.2 := by
    simp [leafComp, DiffCache.get_diff, img_comp.set_diff, img_comp.createDefault,
      img_comp.create]
  refine ⟨by rw [hempty]; rfl, by rw [hempty]; rfl, ?_, ?_⟩
  · intro hp
    unfold leafComp
    rw [get_diff_map l (fun q => plane.getDifference q.1 q.2 (Precision.root 1)) p.1 p.2,
      if_pos hp]
    simp [img_comp.set_diff, hm]
  · intro hp
    unfold leafComp
    rw [get_diff_map l (fun q => plane.getDifference q.1 q.2 (Precision.root 1)) p.1 p.2,
      if_neg hp]
    simp [img_comp.set_diff, img_comp.createDefault, img_comp.create]

/-! ## Determinism -/

/-- C13, as stated, fails. The metric of `coarsePlane` depends on the precision at
`(0, 0)`. On a new `GradientPlane`, `findMinimum` on `[-4,4]×[-4,4]` at level 1 returns
the offset `(0, 0)`. When `findMinimum` on `[0,0]×[0,0]` at level 1 ran before, it left
the score 10 of `(0, 0)` at precision 1 in the cache; the same call on `[-4,4]×[-4,4]`
then takes that score for `(0, 0)` in its first round, where it asks for the precision
`√2`, and returns the offset `(-4, -4)`. -/
theorem cache_changes_winner :
    findMinimum coarsePlane [] (GradientCheck.mk 0 0 0 0 1)
      = .ok ⟨⟨0, 0, 10⟩, [⟨0, 0, 10, 1⟩], [GradientCheck.mk 0 0 0 0 1]⟩ ∧
    (findMinimum coarsePlane [] (GradientCheck.mk (-4) 4 (-4) 4 1)).toOption.map
        (fun run => run.result) = some ⟨0, 0, 0⟩ ∧
    (findMinimum coarsePlane [⟨0, 0, 10, 1⟩] (GradientCheck.mk (-4) 4 (-4) 4 1)).toOption.map
        (fun run => run.result) = some ⟨-4, -4, 1⟩ := by
  decide!

/-- Two rounds on the same region of one `GradientPlane` whose metric does not depend on
the precision score the same candidates with the same diffs, whatever the two caches
hold. -/
theorem roundComps_congr (plane : GradientPlane)
    (hind : ∀ x y p q, plane.getDifference x y p = plane.getDifference x y q)
    (c1 c2 : DiffCache) (h1 : Reachable plane c1) (h2 : Reachable plane c2)
    (area : GradientCheck) (comps1 comps2 : List img_comp)
    (hr1 : roundComps plane c1 area = .ok comps1)
    (hr2 : roundComps plane c2 area = .ok comps2) :
    List.Forall₂ (fun a b : img_comp => a.diff = b.diff ∧ a.h_middle = b.h_middle ∧
      a.v_middle = b.v_middle ∧ a.area = b.area) comps1 comps2 := by
  have hs1 := scored_diff plane c1 area comps1 h1 hr1
  have hs2 := scored_diff plane c2 area comps2 h2 hr2
  obtain ⟨gen1, hg1, he1⟩ := roundComps_ok plane c1 area comps1 hr1
  obtain ⟨gen2, hg2, he2⟩ := roundComps_ok plane c2 area comps2 hr2
  have e1 := (evaluate_ok plane gen1 comps1 he1).2
  have e2 := (evaluate_ok plane gen2 comps2 he2).2
  rw [List.map_map] at e1 e2
  generalize maxChecked plane gen1 = n1 at e1
  generalize maxChecked plane gen2 = n2 at e2
  have hfield : ∀ (m : Nat) (g : img_comp),
      ((img_comp.do_diff plane ∘ img_comp.increasePrecision plane m) g).h_middle = g.h_middle ∧
      ((img_comp.do_diff plane ∘ img_comp.increasePrecision plane m) g).v_middle = g.v_middle ∧
      ((img_comp.do_diff plane ∘ img_comp.increasePrecision plane m) g).area = g.area := by
    intro m g
    simp only [Function.comp, img_comp.do_diff, img_comp.increasePrecision]
    split <;> exact ⟨rfl, rfl, rfl⟩
  -- the two scored vectors are images of one list of samples
  have key : ∀ {σ : Type} (l : List σ) (f1 f2 : σ → img_comp),
      gen1 = l.map f1 → gen2 = l.map f2 →
      (∀ s ∈ l, (f1 s).h_middle = (f2 s).h_middle ∧ (f1 s).v_middle = (f2 s).v_middle ∧
        (f1 s).area = (f2 s).area) →
      List.Forall₂ (fun a b : img_comp => a.diff = b.diff ∧ a.h_middle = b.h_middle ∧
        a.v_middle = b.v_middle ∧ a.area = b.area) comps1 comps2 := by
    intro σ l f1 f2 hl1 hl2 hf
    have e1' := e1
    have e2' := e2
    rw [hl1, List.map_map] at e1'
    rw [hl2, List.map_map] at e2'
    rw [e1', e2', List.forall₂_map_left_iff, List.forall₂_map_right_iff]
    apply List.forall₂_same.mpr
    intro s hs
    have m1 : ((img_comp.do_diff plane ∘ img_comp.increasePrecision plane
        n1) ∘ f1) s ∈ comps1 := by
      rw [e1']; exact List.mem_map_of_mem _ hs
    have m2 : ((img_comp.do_diff plane ∘ img_comp.increasePrecision plane
        n2) ∘ f2) s ∈ comps2 := by
      rw [e2']; exact List.mem_map_of_mem _ hs
    obtain ⟨q1, hq1⟩ := hs1 _ m1
    obtain ⟨q2, hq2⟩ := hs2 _ m2
    obtain ⟨a1, a2, a3⟩ := hfield n1 (f1 s)
    obtain ⟨b1, b2, b3⟩ := hfield n2 (f2 s)
    obtain ⟨d1, d2, d3⟩ := hf s hs
    have hh : (((img_comp.do_diff plane ∘ img_comp.increasePrecision plane
        n1) ∘ f1) s).h_middle
        = (((img_comp.do_diff plane ∘ img_comp.increasePrecision plane
          n2) ∘ f2) s).h_middle := by
      show ((img_comp.do_diff plane ∘ img_comp.increasePrecision plane
        n1) (f1 s)).h_middle = _
      rw [a1, d1, ← b1]; rfl
    have hv : (((img_comp.do_diff plane ∘ img_comp.increasePrecision plane
        n1) ∘ f1) s).v_middle
        = (((img_comp.do_diff plane ∘ img_comp.increasePrecision plane
          n2) ∘ f2) s).v_middle := by
      show ((img_comp.do_diff plane ∘ img_comp.increasePrecision plane
        n1) (f1 s)).v_middle = _
      rw [a2, d2, ← b2]; rfl
    have ha : (((img_comp.do_diff plane ∘ img_comp.increasePrecision plane
        n1) ∘ f1) s).area
        = (((img_comp.do_diff plane ∘ img_comp.increasePrecision plane
          n2) ∘ f2) s).area := by
      show ((img_comp.do_diff plane ∘ img_comp.increasePrecision plane
        n1) (f1 s)).area = _
      rw [a3, d3, ← b3]; rfl
    refine ⟨?_, hh, hv, ha⟩
    rw [hq1, hq2, hh, hv]
    exact hind _ _ _ _
  cases hleaf : area.isLeaf with
  | true =>
    rw [generate_leaf c1 area hleaf] at hg1
    rw [generate_leaf c2 area hleaf] at hg2
    cases hg1
    cases hg2
    exact key area.leafOffsets (leafComp c1) (leafComp c2) rfl rfl
      (fun s _ => ⟨rfl, rfl, rfl⟩)
  | false =>
    rcases generate_nonleaf c1 area gen1 hleaf hg1 with ⟨h0, _⟩ | ⟨_, u1, _, hm1⟩
    · exact absurd h0 (evaluate_ok plane gen1 comps1 he1).1
    · rcases generate_nonleaf c2 area gen2 hleaf hg2 with ⟨h0, _⟩ | ⟨_, u2, _, hm2⟩
      · exact absurd h0 (evaluate_ok plane gen2 comps2 he2).1
      · exact key area.samples (sampleComp c1 area.precision u1)
          (sampleComp c2 area.precision u2) hm1 hm2 (fun s _ => ⟨rfl, rfl, rfl⟩)

/-- Two runs on the same region of one `GradientPlane` whose metric does not depend on
the precision have the same result and make the same nested invocations. -/
theorem findMinimumFuel_congr (plane : GradientPlane)
    (hind : ∀ x y p q, plane.getDifference x y p = plane.getDifference x y q) :
    ∀ (fuel1 fuel2 : Nat) (c1 c2 : DiffCache) (area : GradientCheck) (r1 r2 : Run),
      Reachable plane c1 → Reachable plane c2 →
      findMinimumFuel plane fuel1 c1 area = .ok r1 →
      findMinimumFuel plane fuel2 c2 area = .ok r2 →
      r1.result = r2.result ∧ r1.calls = r2.calls := by
  intro fuel1
  induction fuel1 with
  | zero => intro fuel2 c1 c2 area r1 r2 _ _ h; simp [findMinimumFuel] at h
  | succ n ih =>
    intro fuel2 c1 c2 area r1 r2 h1 h2 hr1 hr2
    cases fuel2 with
    | zero => simp [findMinimumFuel] at hr2
    | succ m =>
      obtain ⟨comps1, cache1, hc1, ha1, hcase1⟩ := findMinimumFuel_ok plane n c1 area r1 hr1
      obtain ⟨comps2, cache2, hc2, ha2, hcase2⟩ := findMinimumFuel_ok plane m c2 area r2 hr2
      have hrel := roundComps_congr plane hind c1 c2 h1 h2 area comps1 comps2 hc1 hc2
      have hbest := findBest_forall₂ (fun a b h => h.1) hrel
      have hreach1 : Reachable plane cache1 := Reachable.round c1 area comps1 cache1 h1 hc1 ha1
      have hreach2 : Reachable plane cache2 := Reachable.round c2 area comps2 cache2 h2 hc2 ha2
      generalize findBest comps1 = b1 at hbest hcase1
      generalize findBest comps2 = b2 at hbest hcase2
      cases hbest with
      | none =>
        rcases hcase1 with ⟨_, rfl⟩ | ⟨best, hb, _⟩ | ⟨best, _, hb, _⟩
        · rcases hcase2 with ⟨_, rfl⟩ | ⟨best, hb, _⟩ | ⟨best, _, hb, _⟩
          · exact ⟨rfl, rfl⟩
          · cases hb
          · cases hb
        · cases hb
        · cases hb
      | some hab =>
        rename_i a b
        obtain ⟨hd, hh, hv, harea⟩ := hab
        rcases hcase1 with ⟨hb, _⟩ | ⟨best1, hb1, hl1, rfl⟩ | ⟨best1, inner1, hb1, hl1, hi1, rfl⟩
        · cases hb
        · cases hb1
          rcases hcase2 with ⟨hb, _⟩ | ⟨best2, hb2, hl2, rfl⟩ |
            ⟨best2, inner2, hb2, hl2, hi2, rfl⟩
          · cases hb
          · cases hb2
            simp only [hd, hh, hv, and_self]
          · cases hb2
            rw [harea] at hl1
            exact absurd hl2 hl1
        · cases hb1
          rcases hcase2 with ⟨hb, _⟩ | ⟨best2, hb2, hl2, rfl⟩ |
            ⟨best2, inner2, hb2, hl2, hi2, rfl⟩
          · cases hb
          · cases hb2
            rw [harea] at hl1
            exact absurd hl1 hl2
          · cases hb2
            rw [harea] at hi1
            obtain ⟨g1, g2⟩ := ih m cache1 cache2 _ inner1 inner2 hreach1 hreach2 hi1 hi2
            exact ⟨g1, by simp only [g2]⟩

/-- C13 (determinism), amended. The offset that `findMinimum` returns is determined by
the metric, the region, the level and the content of the cache. When the metric does
not depend on the precision, two calls with the same region on the same `GradientPlane`
that both return a result return the same `MergeResult`, and visit the same nested
regions, whatever `findMinimum` calls were made on that `GradientPlane` before. -/
theorem determinism (plane : GradientPlane)
    (hind : ∀ x y p q, plane.getDifference x y p = plane.getDifference x y q)
    (c1 c2 : DiffCache) (h1 : Reachable plane c1) (h2 : Reachable plane c2)
    (area : GradientCheck) (r1 r2 : Run)
    (hr1 : findMinimum plane c1 area = .ok r1) (hr2 : findMinimum plane c2 area = .ok r2) :
    r1.result = r2.result ∧ r1.calls = r2.calls :=
  findMinimumFuel_congr plane hind area.depthBound area.depthBound c1 c2 area r1 r2 h1 h2
    hr1 hr2

theorem determinism_witness :
    (∀ x y p q, demoPlane.getDifference x y p = demoPlane.getDifference x y q) ∧
    Reachable demoPlane [⟨0, 0, 0, 1⟩] ∧
    ∃ r1 r2, findMinimum demoPlane [] (GradientCheck.mk (-4) 4 (-4) 4 1) = .ok r1 ∧
      findMinimum demoPlane [⟨0, 0, 0, 1⟩] (GradientCheck.mk (-4) 4 (-4) 4 1) = .ok r2 ∧
      r1.result = r2.result ∧ r1.calls = r2.calls := by
  have hsome : ∀ (r : Except Fault Run), r.toOption.isSome = true → ∃ run, r = .ok run := by
    intro r h
    cases r with
    | error e => cases h
    | ok run => exact ⟨run, rfl⟩
  have h0 : findMinimum demoPlane [] (GradientCheck.mk 0 0 0 0 1)
      = .ok ⟨⟨0, 0, 0⟩, [⟨0, 0, 0, 1⟩], [GradientCheck.mk 0 0 0 0 1]⟩ := by decide!
  have hreach : Reachable demoPlane [⟨0, 0, 0, 1⟩] :=
    reachable_findMinimum demoPlane _ [] _ _ Reachable.empty h0
  obtain ⟨r1, hr1⟩ := hsome (findMinimum demoPlane [] (GradientCheck.mk (-4) 4 (-4) 4 1))
    (by decide!)
  obtain ⟨r2, hr2⟩ := hsome
    (findMinimum demoPlane [⟨0, 0, 0, 1⟩] (GradientCheck.mk (-4) 4 (-4) 4 1)) (by decide!)
  exact ⟨fun _ _ _ _ => rfl, hreach, r1, r2, hr1, hr2,
    determinism demoPlane (fun _ _ _ _ => rfl) [] [⟨0, 0, 0, 1⟩] Reachable.empty hreach
      (GradientCheck.mk (-4) 4 (-4) 4 1) r1 r2 hr1 hr2⟩

/-! ## Scenario C: the search follows a target offset -/

theorem abs_closer_below (a b T : Int) (h1 : a < b) (h2 : b ≤ T) : |b - T| < |a - T| := by
  rw [abs_of_nonpos (by omega), abs_of_nonpos (by omega)]
  omega

theorem abs_closer_above (a b T : Int) (h1 : b < a) (h2 : T ≤ b) : |b - T| < |a - T| := by
  rw [abs_of_nonneg (by omega), abs_of_nonneg (by omega)]
  omega

theorem roundHalfAway_neg_le (v : ℚ) (n : Int) (hv : v < 0) (h : v ≤ (n : ℚ) + 1 / 2) :
    roundHalfAway v ≤ n := by
  unfold roundHalfAway
  rw [if_pos hv, Int.ceil_le]
  linarith

/-- One axis of the winning sample. Let the target `T` lie in `[lo, hi]`, not on the
upper edge unless the interval is at most 1 wide or the edge is at most 0. If the kept
position `p` rounds at least as close to `T` as every kept position of the loop, then the
interval `[floor( p-off ), ceil( p+off )]` of its sub-area holds `T`, again not on its
upper edge unless that interval is at most 1 wide or its edge is at most 0. -/
theorem subrange_target (lo hi amount T : Int) (p : ℚ) (k : ℕ)
    (hlo : lo ≤ T) (hhi : T ≤ hi) (hamount : 4 ≤ amount)
    (hJ : T < hi ∨ hi - lo ≤ 1 ∨ hi ≤ 0)
    (hp : p = (lo : ℚ) + ((hi - lo : Int) : ℚ) / (amount : ℚ) + (k : ℚ) *
      (if ((hi - lo : Int) : ℚ) / (amount : ℚ) < 1 then 1
        else ((hi - lo : Int) : ℚ) / (amount : ℚ)))
    (hple : p ≤ (hi : ℚ))
    (hmin : ∀ k1 : ℕ,
      (lo : ℚ) + ((hi - lo : Int) : ℚ) / (amount : ℚ) + (k1 : ℚ) *
        (if ((hi - lo : Int) : ℚ) / (amount : ℚ) < 1 then 1
          else ((hi - lo : Int) : ℚ) / (amount : ℚ)) ≤ (hi : ℚ) →
      ¬ (roundHalfAway ((lo : ℚ) + ((hi - lo : Int) : ℚ) / (amount : ℚ) + (k1 : ℚ) *
          (if ((hi - lo : Int) : ℚ) / (amount : ℚ) < 1 then 1
            else ((hi - lo : Int) : ℚ) / (amount : ℚ))) = hi ∧
        roundHalfAway ((lo : ℚ) + ((hi - lo : Int) : ℚ) / (amount : ℚ) + (k1 : ℚ) *
          (if ((hi - lo : Int) : ℚ) / (amount : ℚ) < 1 then 1
            else ((hi - lo : Int) : ℚ) / (amount : ℚ))) ≠ lo) →
      ¬ (|roundHalfAway ((lo : ℚ) + ((hi - lo : Int) : ℚ) / (amount : ℚ) + (k1 : ℚ) *
          (if ((hi - lo : Int) : ℚ) / (amount : ℚ) < 1 then 1
            else ((hi - lo : Int) : ℚ) / (amount : ℚ))) - T| < |roundHalfAway p - T|)) :
    ⌊p - ((hi - lo : Int) : ℚ) / (amount : ℚ)⌋ ≤ T ∧
    T ≤ ⌈p + ((hi - lo : Int) : ℚ) / (amount : ℚ)⌉ ∧
    (T < ⌈p + ((hi - lo : Int) : ℚ) / (amount : ℚ)⌉ ∨
      ⌈p + ((hi - lo : Int) : ℚ) / (amount : ℚ)⌉
        - ⌊p - ((hi - lo : Int) : ℚ) / (amount : ℚ)⌋ ≤ 1 ∨
      ⌈p + ((hi - lo : Int) : ℚ) / (amount : ℚ)⌉ ≤ 0) := by
  have hamountq : (4 : ℚ) ≤ (amount : ℚ) := by exact_mod_cast hamount
  have hlohi : lo ≤ hi := le_trans hlo hhi
  have hw : (0 : ℚ) ≤ ((hi - lo : Int) : ℚ) := by
    have : (0 : Int) ≤ hi - lo := by omega
    exact_mod_cast this
  have hwdef : ((hi - lo : Int) : ℚ) = (hi : ℚ) - (lo : ℚ) := by push_cast; ring
  generalize hoff : ((hi - lo : Int) : ℚ) / (amount : ℚ) = off at hp hmin ⊢
  have hmul : off * (amount : ℚ) = (hi : ℚ) - (lo : ℚ) := by
    rw [← hoff, ← hwdef]; field_simp
  have hoff0 : 0 ≤ off := by
    rw [← hoff]; exact div_nonneg hw (by linarith)
  generalize hadd : (if off < 1 then (1 : ℚ) else off) = add at hp hmin
  have hadd1 : 1 ≤ add := by
    rw [← hadd]; split <;> linarith
  have hloq : (lo : ℚ) ≤ (T : ℚ) := by exact_mod_cast hlo
  have hhiq : (T : ℚ) ≤ (hi : ℚ) := by exact_mod_cast hhi
  have hk0 : (0 : ℚ) ≤ (k : ℚ) := Nat.cast_nonneg k
  have hround_hi : roundHalfAway p ≤ hi := roundHalfAway_le_of_le hi p hple
  -- a position that rounds below the upper edge is kept
  have kept : ∀ v : ℚ, roundHalfAway v < hi →
      ¬ (roundHalfAway v = hi ∧ roundHalfAway v ≠ lo) := by
    intro v h hc
    omega
  -- the integer part of a position of the unit-step loop
  have hunit : off < 1 → ∀ j : ℕ, (lo : ℚ) + off + (j : ℚ) * add
      = ((lo + (j : Int) : Int) : ℚ) + off := by
    intro hlt j
    rw [← hadd, if_pos hlt]
    push_cast
    ring
  -- the neighbour above is a position, and it is kept
  have above : (p + add ≤ (T : ℚ)) →
      (T = hi → roundHalfAway (p + add) < hi) → False := by
    intro hle hedge
    have hpos : (lo : ℚ) + off + ((k + 1 : ℕ) : ℚ) * add = p + add := by
      rw [hp]; push_cast; ring
    have h1 : roundHalfAway p < roundHalfAway (p + add) :=
      roundHalfAway_lt p (p + add) (by linarith)
    have h2 : roundHalfAway (p + add) ≤ T := roundHalfAway_le_of_le T (p + add) hle
    have h3 : roundHalfAway (p + add) < hi := by
      by_cases hT : T = hi
      · exact hedge hT
      · omega
    have := hmin (k + 1) (by rw [hpos]; linarith) (by rw [hpos]; exact kept _ h3)
    rw [hpos] at this
    exact this (abs_closer_below _ _ T h1 h2)
  have hlower : ⌊p - off⌋ ≤ T := by
    by_contra hcon
    push_neg at hcon
    have h1 : (T : ℚ) + 1 ≤ p - off := by
      have : T + 1 ≤ ⌊p - off⌋ := hcon
      have h2 : ((T + 1 : Int) : ℚ) ≤ p - off := Int.le_floor.mp this
      push_cast at h2
      exact h2
    have hk1 : 1 ≤ k := by
      by_contra h0
      have : k = 0 := by omega
      rw [this] at hp
      simp only [Nat.cast_zero, zero_mul, add_zero] at hp
      rw [hp] at h1
      linarith
    obtain ⟨j, rfl⟩ : ∃ j, k = j + 1 := ⟨k - 1, by omega⟩
    have hpos : (lo : ℚ) + off + (j : ℚ) * add = p - add := by
      rw [hp]; push_cast; ring
    have h2 : roundHalfAway (p - add) < roundHalfAway p :=
      roundHalfAway_lt (p - add) p (by linarith)
    have h3 : (T : ℚ) ≤ p - add := by
      rw [← hadd]
      split <;> linarith
    have h4 : T ≤ roundHalfAway (p - add) := le_roundHalfAway T (p - add) h3
    have := hmin j (by rw [hpos]; linarith) (by rw [hpos]; exact kept _ (by omega))
    rw [hpos] at this
    exact this (abs_closer_above _ _ T h2 h4)
  have hupper : T ≤ ⌈p + off⌉ := by
    by_contra hcon
    push_neg at hcon
    have h1 : p + off + 1 ≤ (T : ℚ) := by
      have h2 : ⌈p + off⌉ + 1 ≤ T := hcon
      have h3 : (((⌈p + off⌉ + 1 : Int)) : ℚ) ≤ (T : ℚ) := by exact_mod_cast h2
      have h4 := Int.le_ceil (p + off)
      push_cast at h3
      linarith
    have hple2 : p + add ≤ (T : ℚ) := by
      rw [← hadd]
      split <;> linarith
    apply above hple2
    intro hT
    by_cases hlt : off < 1
    · have haddeq : add = 1 := by rw [← hadd, if_pos hlt]
      rcases hJ with h | h | h
      · omega
      · -- the interval is too narrow for two positions
        exfalso
        have hwq : (hi : ℚ) - (lo : ℚ) ≤ 1 := by
          have : ((hi - lo : Int) : ℚ) ≤ ((1 : Int) : ℚ) := by exact_mod_cast h
          push_cast at this
          exact this
        have hpge : (lo : ℚ) + off ≤ p := by
          rw [hp]
          have := mul_nonneg hk0 (le_trans zero_le_one hadd1)
          linarith
        have hTq : (T : ℚ) = (hi : ℚ) := by rw [hT]
        have hoff00 : off = 0 := by linarith
        rw [hoff00] at hmul
        linarith
      · -- the upper edge is at most 0: the neighbour rounds downwards
        have hTq : (T : ℚ) = (hi : ℚ) := by rw [hT]
        have hhi0 : (hi : ℚ) ≤ 0 := by exact_mod_cast h
        have hoffpos : 0 < off := by
          rcases lt_or_eq_of_le hoff0 with h5 | h5
          · exact h5
          · exfalso
            rw [← h5] at hmul
            have hpge : (lo : ℚ) + off ≤ p := by
              rw [hp]
              have := mul_nonneg hk0 (le_trans zero_le_one hadd1)
              linarith
            linarith
        have hint : p + add = ((lo + ((k + 1 : ℕ) : Int) : Int) : ℚ) + off := by
          rw [← hunit hlt (k + 1), hp]
          push_cast
          ring
        have hn : lo + ((k + 1 : ℕ) : Int) ≤ hi - 1 := by
          have h6 : ((lo + ((k + 1 : ℕ) : Int) : Int) : ℚ) < (hi : ℚ) := by
            rw [haddeq] at hint
            linarith
          have : lo + ((k + 1 : ℕ) : Int) < hi := by exact_mod_cast h6
          omega
        have hnq : ((lo + ((k + 1 : ℕ) : Int) : Int) : ℚ) ≤ (hi : ℚ) - 1 := by
          have : ((lo + ((k + 1 : ℕ) : Int) : Int) : ℚ) ≤ ((hi - 1 : Int) : ℚ) := by
            exact_mod_cast hn
          push_cast at this
          push_cast
          exact this
        have hneg : p + add < 0 := by
          rw [haddeq]
          linarith
        have hle : roundHalfAway (p + add) ≤ hi - 1 := by
          apply roundHalfAway_neg_le _ _ hneg
          push_cast
          by_cases hhalf : off < 1 / 2
          · rw [hint]
            push_cast at hnq ⊢
            linarith
          · rw [haddeq]
            linarith
        omega
    · have haddeq : add = off := by rw [← hadd, if_neg hlt]
      have hTq : (T : ℚ) = (hi : ℚ) := by rw [hT]
      have hle : roundHalfAway (p + add) ≤ hi - 1 := by
        apply roundHalfAway_le_of_le
        push_cast
        rw [haddeq]
        linarith
      omega
  refine ⟨hlower, hupper, ?_⟩
  · -- the target is not on the upper edge of the sub-interval
    by_contra hcon
    push_neg at hcon
    obtain ⟨hc1, hc2, hc3⟩ := hcon
    by_cases hlt : off < 1
    · have haddeq : add = 1 := by rw [← hadd, if_pos hlt]
      have hpint : p = ((lo + (k : Int) : Int) : ℚ) + off := by
        rw [hp, hunit hlt k]
      have hfloor : ⌊p - off⌋ = lo + (k : Int) := by
        rw [hpint, add_sub_cancel_right, Int.floor_intCast]
      have hceil_le : ⌈p + off⌉ ≤ lo + (k : Int) + 2 := by
        rw [Int.ceil_le, hpint]
        push_cast
        linarith
      have hceq : ⌈p + off⌉ = lo + (k : Int) + 2 := by omega
      have hhalf : 1 / 2 < off := by
        by_contra hh
        push_neg at hh
        have : ⌈p + off⌉ ≤ lo + (k : Int) + 1 := by
          rw [Int.ceil_le, hpint]
          push_cast
          linarith
        omega
      have hTeq : T = lo + (k : Int) + 2 := by
        have hfirst : ⌊p - off⌋ ≤ T := by omega
        omega
      have hrp : roundHalfAway p = lo + (k : Int) + 1 := by
        rw [hpint, roundHalfAway_add_frac _ off hhalf hlt]
      have hpos : (lo : ℚ) + off + ((k + 1 : ℕ) : ℚ) * add = p + add := by
        rw [hp]; push_cast; ring
      have hint : p + add = ((lo + (k : Int) + 1 : Int) : ℚ) + off := by
        rw [hpint, haddeq]
        push_cast
        ring
      have hrp1 : roundHalfAway (p + add) = lo + (k : Int) + 1 + 1 := by
        rw [hint, roundHalfAway_add_frac _ off hhalf hlt]
      have hTlt : T < hi := by
        rcases hJ with h | h | h
        · exact h
        · omega
        · omega
      have hple1 : p + add ≤ (hi : ℚ) := by
        have : (T : ℚ) ≤ (hi : ℚ) := hhiq
        have hTq : (T : ℚ) = (lo : ℚ) + (k : ℚ) + 2 := by
          rw [hTeq]; push_cast; ring
        rw [hint]
        push_cast
        linarith
      have := hmin (k + 1) (by rw [hpos]; exact hple1)
        (by rw [hpos]; exact kept _ (by omega))
      rw [hpos, hrp1, hrp] at this
      apply this
      rw [hTeq]
      have e1 : lo + (k : Int) + 1 + 1 - (lo + (k : Int) + 2) = 0 := by ring
      have e2 : lo + (k : Int) + 1 - (lo + (k : Int) + 2) = -1 := by ring
      rw [e1, e2]
      decide
    · have haddeq : add = off := by rw [← hadd, if_neg hlt]
      have h1 : 1 ≤ off := not_lt.mp hlt
      have hTeq : T = ⌈p + off⌉ := by
        omega
      have hle : p + add ≤ (T : ℚ) := by
        rw [haddeq, hTeq]
        exact Int.le_ceil _
      apply above hle
      intro hT
      exfalso
      rcases hJ with h | h | h
      · omega
      · have hwq : (hi : ℚ) - (lo : ℚ) ≤ 1 := by
          have : ((hi - lo : Int) : ℚ) ≤ ((1 : Int) : ℚ) := by exact_mod_cast h
          push_cast at this
          exact this
        nlinarith
      · omega
/-- A sample of row `iy` and column `ix` that the body of the loop keeps. -/
theorem mem_samples_of (area : GradientCheck) (iy ix : ℚ) (s : Int × Int × GradientCheck)
    (hiy : iy ∈ doubleRange (area.top + area.v_offset) area.v_add area.bottom)
    (hix : ix ∈ doubleRange (area.left + area.h_offset) area.h_add area.right)
    (h : area.sample iy ix = some s) : s ∈ area.samples := by
  unfold GradientCheck.samples
  rw [List.mem_flatMap]
  exact ⟨iy, hiy, List.mem_filterMap.mpr ⟨ix, hix, h⟩⟩

theorem sample_of_kept (area : GradientCheck) (iy ix : ℚ)
    (hx : ¬ (roundHalfAway ix = area.right ∧ roundHalfAway ix ≠ area.left))
    (hy : ¬ (roundHalfAway iy = area.bottom ∧ roundHalfAway iy ≠ area.top)) :
    area.sample iy ix = some (roundHalfAway ix, roundHalfAway iy,
      { left := ⌊ix - area.h_offset⌋, right := ⌈ix + area.h_offset⌉,
        top := ⌊iy - area.v_offset⌋, bottom := ⌈iy + area.v_offset⌉,
        level := area.subLevel }) := by
  unfold GradientCheck.sample
  simp only
  rw [if_neg]
  rintro (h | h)
  · exact hx h
  · exact hy h

/-- The sub-area of a sample that is, in its row and in its column, at least as close to
the target as every other sample: it holds the target, in each axis not on the upper edge
unless the sub-area is at most 1 wide or that edge is at most 0. -/
theorem sample_target (area : GradientCheck) (tx ty : Int) (s : Int × Int × GradientCheck)
    (hl : 1 ≤ area.level)
    (hx1 : area.left ≤ tx) (hx2 : tx ≤ area.right)
    (hy1 : area.top ≤ ty) (hy2 : ty ≤ area.bottom)
    (hJx : tx < area.right ∨ area.right - area.left ≤ 1 ∨ area.right ≤ 0)
    (hJy : ty < area.bottom ∨ area.bottom - area.top ≤ 1 ∨ area.bottom ≤ 0)
    (hs : s ∈ area.samples)
    (hminx : ∀ s1 ∈ area.samples, s1.2.1 = s.2.1 → ¬ (|s1.1 - tx| < |s.1 - tx|))
    (hminy : ∀ s1 ∈ area.samples, s1.1 = s.1 → ¬ (|s1.2.1 - ty| < |s.2.1 - ty|)) :
    (s.2.2.left ≤ tx ∧ tx ≤ s.2.2.right ∧ s.2.2.top ≤ ty ∧ ty ≤ s.2.2.bottom) ∧
    (tx < s.2.2.right ∨ s.2.2.right - s.2.2.left ≤ 1 ∨ s.2.2.right ≤ 0) ∧
    (ty < s.2.2.bottom ∨ s.2.2.bottom - s.2.2.top ≤ 1 ∨ s.2.2.bottom ≤ 0) := by
  obtain ⟨iy, hiy, ix, hix, hsample⟩ := mem_samples area s hs
  obtain ⟨hs1, hs2, hkx, hky, hsub⟩ := sample_eq_some area iy ix s hsample
  obtain ⟨kx, hkx_eq, hkx_le⟩ := mem_loopValues _ _ _ _ _ hix
  obtain ⟨ky, hky_eq, hky_le⟩ := mem_loopValues _ _ _ _ _ hiy
  have hamount : 4 ≤ area.amount := by
    unfold GradientCheck.amount; omega
  rw [hs1] at hkx
  rw [hs2] at hky
  have hx := subrange_target area.left area.right area.amount tx ix kx hx1 hx2 hamount hJx
    hkx_eq hkx_le
    (by
      intro k1 hle hkeep
      have hmem : (area.left : ℚ) + area.h_offset + (k1 : ℚ) * area.h_add
          ∈ doubleRange (area.left + area.h_offset) area.h_add area.right :=
        (mem_doubleRange _ _ _ (h_add_ge_one area) _).mpr ⟨k1, rfl, hle⟩
      have h1 := mem_samples_of area iy _ _ hiy hmem (sample_of_kept area iy _ hkeep hky)
      have h2 := hminx _ h1 (by rw [hs2])
      rw [hs1] at h2
      exact h2)
  have hy := subrange_target area.top area.bottom area.amount ty iy ky hy1 hy2 hamount hJy
    hky_eq hky_le
    (by
      intro k1 hle hkeep
      have hmem : (area.top : ℚ) + area.v_offset + (k1 : ℚ) * area.v_add
          ∈ doubleRange (area.top + area.v_offset) area.v_add area.bottom :=
        (mem_doubleRange _ _ _ (v_add_ge_one area) _).mpr ⟨k1, rfl, hle⟩
      have h1 := mem_samples_of area _ ix _ hmem hix (sample_of_kept area _ ix hkx hkeep)
      have h2 := hminy _ h1 (by rw [hs1])
      rw [hs2] at h2
      exact h2)
  rw [hsub]
  exact ⟨⟨hx.1, hx.2.1, hy.1, hy.2.1⟩, hx.2.2, hy.2.2⟩

/-- A metric that is 0 at the target and grows with the distance from it in each axis is
positive at every other offset. -/
theorem metric_pos (plane : GradientPlane) (tx ty : Int)
    (h0 : ∀ p, plane.getDifference tx ty p = 0)
    (hmx : ∀ x x1 y p, |x - tx| < |x1 - tx| →
      plane.getDifference x y p < plane.getDifference x1 y p)
    (hmy : ∀ x y y1 p, |y - ty| < |y1 - ty| →
      plane.getDifference x y p < plane.getDifference x y1 p)
    (x y : Int) (p : Precision) (hne : x ≠ tx ∨ y ≠ ty) :
    0 < plane.getDifference x y p := by
  have hcol : 0 ≤ plane.getDifference tx y p := by
    by_cases hy : y = ty
    · rw [hy, h0]
    · have := hmy tx ty y p (by
        rw [sub_self, abs_zero]
        exact abs_pos.mpr (sub_ne_zero.mpr hy))
      rw [h0] at this
      exact le_of_lt this
  by_cases hx : x = tx
  · rcases hne with h | h
    · exact absurd hx h
    · have := hmy tx ty y p (by
        rw [sub_self, abs_zero]
        exact abs_pos.mpr (sub_ne_zero.mpr h))
      rw [h0] at this
      rw [hx]
      exact this
  · have := hmx tx x y p (by
      rw [sub_self, abs_zero]
      exact abs_pos.mpr (sub_ne_zero.mpr hx))
    linarith

/-- The metric of `shiftedPlane`: it ignores the precision, is 0 at `(3, -1)` and grows
with `|x - 3|` and with `|y + 1|`. -/
theorem shiftedPlane_metric :
    (∀ x y p q, shiftedPlane.getDifference x y p = shiftedPlane.getDifference x y q) ∧
    (∀ p, shiftedPlane.getDifference 3 (-1) p = 0) ∧
    (∀ x x1 y p, |x - 3| < |x1 - 3| →
      shiftedPlane.getDifference x y p < shiftedPlane.getDifference x1 y p) ∧
    (∀ x y y1 p, |y + 1| < |y1 + 1| →
      shiftedPlane.getDifference x y p < shiftedPlane.getDifference x y1 p) := by
  refine ⟨fun _ _ _ _ => rfl, ?_, ?_, ?_⟩
  · intro p
    show ((((3 : Int) - 3) ^ 2 + ((-1 : Int) + 1) ^ 2 : Int) : ℚ) = 0
    norm_num
  · intro x x1 y p h
    show ((((x - 3) ^ 2 + (y + 1) ^ 2 : Int)) : ℚ) < ((((x1 - 3) ^ 2 + (y + 1) ^ 2 : Int)) : ℚ)
    have := sq_lt_sq.mpr h
    have h2 : (x - 3) ^ 2 + (y + 1) ^ 2 < (x1 - 3) ^ 2 + (y + 1) ^ 2 := by omega
    exact_mod_cast h2
  · intro x y y1 p h
    show ((((x - 3) ^ 2 + (y + 1) ^ 2 : Int)) : ℚ) < ((((x - 3) ^ 2 + (y1 + 1) ^ 2 : Int)) : ℚ)
    have := sq_lt_sq.mpr h
    have h2 : (x - 3) ^ 2 + (y + 1) ^ 2 < (x - 3) ^ 2 + (y1 + 1) ^ 2 := by omega
    exact_mod_cast h2

/-- At the offsets of `[-12,12]×[-12,12]` the planes of `shiftedPlane` overlap and the
metric is below `DOUBLE_MAX`. -/
theorem shiftedPlane_region (x y : Int) (hx1 : -12 ≤ x) (hx2 : x ≤ 12) (hy1 : -12 ≤ y)
    (hy2 : y ≤ 12) :
    0 < (img_comp.createDefault x y).checkedPercentage shiftedPlane ∧
    ∀ p, shiftedPlane.getDifference x y p < DOUBLE_MAX := by
  constructor
  · have h := checkedPercentage_inside shiftedPlane (img_comp.createDefault x y)
      (by decide) (by decide) (by decide) (by decide) (by decide)
      ⟨by show -((16 : Nat) : Int) ≤ x; omega, by show x ≤ ((16 : Nat) : Int); omega⟩
      ⟨by show -((16 : Nat) : Int) ≤ y; omega, by show y ≤ ((16 : Nat) : Int); omega⟩
    have hpos : 0 < overlapPixels 16 16 16 16 x y := by
      unfold overlapPixels
      apply Int.mul_pos
      · omega
      · omega
    have h2 : (0 : Int) < (((img_comp.createDefault x y).checkedPercentage shiftedPlane : Nat)
        : Int) := by
      rw [h]
      exact hpos
    exact_mod_cast h2
  · intro p
    show ((((x - 3) ^ 2 + (y + 1) ^ 2 : Int)) : ℚ) < DOUBLE_MAX
    have h1 : (x - 3) ^ 2 ≤ 225 := by nlinarith
    have h2 : (y + 1) ^ 2 ≤ 225 := by nlinarith
    have h3 : ((((x - 3) ^ 2 + (y + 1) ^ 2 : Int)) : ℚ) ≤ ((450 : Int) : ℚ) := by
      have : (x - 3) ^ 2 + (y + 1) ^ 2 ≤ 450 := by omega
      exact_mod_cast this
    have h4 : (((450 : Int)) : ℚ) < DOUBLE_MAX := by decide!
    exact lt_of_le_of_lt h3 h4

/-! ## binary64 rounding -/

theorem pow2_eq_zpow (e : Int) : pow2 e = (2 : ℚ) ^ e := by
  unfold pow2
  split
  · rename_i h
    conv_rhs => rw [← Int.toNat_of_nonneg h]
    rw [zpow_natCast]
  · rename_i h
    have h1 : 0 ≤ -e := by omega
    have h2 : e = -((-e).toNat : Int) := by rw [Int.toNat_of_nonneg h1]; ring
    conv_rhs => rw [h2]
    rw [zpow_neg, zpow_natCast, one_div]

theorem pow2_pos (e : Int) : 0 < pow2 e := by
  rw [pow2_eq_zpow]; positivity

theorem pow2_add (a b : Int) : pow2 (a + b) = pow2 a * pow2 b := by
  simp only [pow2_eq_zpow]
  exact zpow_add₀ (by norm_num) a b

theorem pow2_le_pow2 {a b : Int} (h : a ≤ b) : pow2 a ≤ pow2 b := by
  simp only [pow2_eq_zpow]
  exact zpow_le_zpow_right₀ (by norm_num) h

theorem pow2_lt_pow2_iff {a b : Int} : pow2 a < pow2 b ↔ a < b := by
  simp only [pow2_eq_zpow]
  exact zpow_lt_zpow_iff_right₀ (by norm_num)

theorem pow2_natCast (n : Nat) : pow2 (n : Int) = (2 : ℚ) ^ n := by
  rw [pow2_eq_zpow, zpow_natCast]

theorem bitLength_spec : ∀ (fuel n : Nat), n < 2 ^ fuel → 0 < n →
    1 ≤ bitLength fuel n ∧ 2 ^ (bitLength fuel n - 1) ≤ n ∧ n < 2 ^ bitLength fuel n := by
  intro fuel
  induction fuel with
  | zero => intro n h hpos; simp at h; omega
  | succ k ih =>
    intro n h hpos
    unfold bitLength
    rw [if_neg (by omega)]
    by_cases h1 : n / 2 = 0
    · have hn : n = 1 := by omega
      subst hn
      have : bitLength k (1 / 2) = 0 := by
        cases k <;> simp [bitLength]
      rw [this]
      simp
    · have hlt : n / 2 < 2 ^ k := by
        rw [Nat.div_lt_iff_lt_mul (by norm_num)]
        rw [pow_succ] at h
        exact h
      obtain ⟨a1, a2, a3⟩ := ih (n / 2) hlt (by omega)
      refine ⟨by omega, ?_, ?_⟩
      · have e : bitLength k (n / 2) + 1 - 1 = (bitLength k (n / 2) - 1) + 1 := by omega
        rw [e, pow_succ]
        omega
      · rw [pow_succ]
        omega

theorem bitLength_self (n : Nat) (hpos : 0 < n) :
    1 ≤ bitLength n n ∧ 2 ^ (bitLength n n - 1) ≤ n ∧ n < 2 ^ bitLength n n :=
  bitLength_spec n n (Nat.lt_two_pow n) hpos

/-- The exponent of a positive rational. -/
theorem ilog2_spec (x : ℚ) (hx : 0 < x) :
    pow2 (ilog2 x) ≤ x ∧ x < pow2 (ilog2 x + 1) := by
  have hnum : 0 < x.num := Rat.num_pos.mpr hx
  have hden : 0 < x.den := x.den_pos
  obtain ⟨a1, a2, a3⟩ := bitLength_self x.num.toNat (by omega)
  obtain ⟨b1, b2, b3⟩ := bitLength_self x.den hden
  set a := bitLength x.num.toNat x.num.toNat with ha
  set b := bitLength x.den x.den with hb
  have hxeq : x = ((x.num.toNat : Nat) : ℚ) / ((x.den : Nat) : ℚ) := by
    have h1 : ((x.num.toNat : Nat) : ℚ) = ((x.num : Int) : ℚ) := by
      have : ((x.num.toNat : Nat) : Int) = x.num := Int.toNat_of_nonneg (le_of_lt hnum)
      exact_mod_cast this
    rw [h1]
    exact (Rat.num_div_den x).symm
  have hdq : (0 : ℚ) < ((x.den : Nat) : ℚ) := by exact_mod_cast hden
  have a3q : ((x.num.toNat : Nat) : ℚ) < (2 : ℚ) ^ a := by exact_mod_cast a3
  have b2q : (2 : ℚ) ^ (b - 1) ≤ ((x.den : Nat) : ℚ) := by exact_mod_cast b2
  have a2q : (2 : ℚ) ^ (a - 1) ≤ ((x.num.toNat : Nat) : ℚ) := by exact_mod_cast a2
  have b3q : ((x.den : Nat) : ℚ) < (2 : ℚ) ^ b := by exact_mod_cast b3
  -- x < 2^(a-b+1) and 2^(a-b-1) < x
  have hup : x < pow2 ((a : Int) - (b : Int) + 1) := by
    have e : ((a : Int) - (b : Int) + 1) = (a : Int) - ((b - 1 : Nat) : Int) := by
      rw [Nat.cast_sub b1]; push_cast; ring
    rw [e, pow2_eq_zpow, zpow_sub₀ (by norm_num), zpow_natCast, zpow_natCast, hxeq]
    calc ((x.num.toNat : Nat) : ℚ) / ((x.den : Nat) : ℚ)
        < (2 : ℚ) ^ a / ((x.den : Nat) : ℚ) := div_lt_div_of_pos_right a3q hdq
      _ ≤ (2 : ℚ) ^ a / (2 : ℚ) ^ (b - 1) :=
          div_le_div_of_nonneg_left (by positivity) (by positivity) b2q
  have hlo : pow2 ((a : Int) - (b : Int) - 1) < x := by
    have e : ((a : Int) - (b : Int) - 1) = ((a - 1 : Nat) : Int) - (b : Int) := by
      rw [Nat.cast_sub a1]; push_cast; ring
    rw [e, pow2_eq_zpow, zpow_sub₀ (by norm_num), zpow_natCast, zpow_natCast]
    conv_rhs => rw [hxeq]
    calc (2 : ℚ) ^ (a - 1) / (2 : ℚ) ^ b
        < (2 : ℚ) ^ (a - 1) / ((x.den : Nat) : ℚ) :=
          div_lt_div_of_pos_left (by positivity) hdq b3q
      _ ≤ ((x.num.toNat : Nat) : ℚ) / ((x.den : Nat) : ℚ) :=
          div_le_div_of_nonneg_right a2q (le_of_lt hdq)
  unfold ilog2
  simp only
  rw [← ha, ← hb]
  split
  · rename_i h
    exact ⟨h, hup⟩
  · rename_i h
    push_neg at h
    refine ⟨le_of_lt hlo, ?_⟩
    have e : (a : Int) - (b : Int) - 1 + 1 = (a : Int) - (b : Int) := by ring
    rw [e]
    exact h

theorem ilog2_unique (x : ℚ) (e : Int) (h1 : pow2 e ≤ x) (h2 : x < pow2 (e + 1)) :
    ilog2 x = e := by
  have hx : 0 < x := lt_of_lt_of_le (pow2_pos e) h1
  obtain ⟨s1, s2⟩ := ilog2_spec x hx
  have a := pow2_lt_pow2_iff.mp (lt_of_le_of_lt s1 h2)
  have b := pow2_lt_pow2_iff.mp (lt_of_le_of_lt h1 s2)
  omega

theorem ilog2_mono (x y : ℚ) (hx : 0 < x) (hxy : x ≤ y) : ilog2 x ≤ ilog2 y := by
  obtain ⟨s1, _⟩ := ilog2_spec x hx
  obtain ⟨_, t2⟩ := ilog2_spec y (lt_of_lt_of_le hx hxy)
  have := pow2_lt_pow2_iff.mp (lt_of_le_of_lt (le_trans s1 hxy) t2)
  omega

theorem roundEven_intCast (n : Int) : roundEven (n : ℚ) = n := by
  unfold roundEven
  rw [Int.floor_intCast, sub_self, if_pos (by norm_num)]

theorem roundEven_cases (x : ℚ) :
    (roundEven x = ⌊x⌋ ∧ x - (⌊x⌋ : ℚ) ≤ 1 / 2) ∨
    (roundEven x = ⌊x⌋ + 1 ∧ 1 / 2 ≤ x - (⌊x⌋ : ℚ)) := by
  unfold roundEven
  split
  · rename_i h; exact Or.inl ⟨rfl, le_of_lt h⟩
  · rename_i h
    split
    · rename_i h1; exact Or.inr ⟨rfl, le_of_lt h1⟩
    · rename_i h1
      have : x - (⌊x⌋ : ℚ) = 1 / 2 := le_antisymm (not_lt.mp h1) (not_lt.mp h)
      split
      · exact Or.inl ⟨rfl, le_of_eq this⟩
      · exact Or.inr ⟨rfl, le_of_eq this.symm⟩

theorem roundEven_mono {x y : ℚ} (h : x ≤ y) : roundEven x ≤ roundEven y := by
  have hf : ⌊x⌋ ≤ ⌊y⌋ := Int.floor_mono h
  rcases lt_or_eq_of_le hf with hlt | heq
  · rcases roundEven_cases x with ⟨hx, _⟩ | ⟨hx, _⟩ <;>
      rcases roundEven_cases y with ⟨hy, _⟩ | ⟨hy, _⟩ <;> omega
  · unfold roundEven
    rw [← heq]
    have hfrac : x - (⌊x⌋ : ℚ) ≤ y - (⌊x⌋ : ℚ) := by linarith
    by_cases hy1 : y - (⌊x⌋ : ℚ) < 1 / 2
    · rw [if_pos hy1, if_pos (lt_of_le_of_lt hfrac hy1)]
    · rw [if_neg hy1]
      by_cases hy2 : 1 / 2 < y - (⌊x⌋ : ℚ)
      · rw [if_pos hy2]
        split
        · omega
        · split
          · omega
          · split <;> omega
      · rw [if_neg hy2]
        have hyeq : y - (⌊x⌋ : ℚ) = 1 / 2 := le_antisymm (not_lt.mp hy2) (not_lt.mp hy1)
        by_cases hx1 : x - (⌊x⌋ : ℚ) < 1 / 2
        · rw [if_pos hx1]
          split <;> omega
        · rw [if_neg hx1, if_neg (by linarith)]

theorem le_roundEven (n : Int) (x : ℚ) (h : (n : ℚ) ≤ x) : n ≤ roundEven x := by
  have := roundEven_mono h
  rwa [roundEven_intCast] at this

theorem roundEven_le (n : Int) (x : ℚ) (h : x ≤ (n : ℚ)) : roundEven x ≤ n := by
  have := roundEven_mono h
  rwa [roundEven_intCast] at this

theorem roundEven_neg (x : ℚ) : roundEven (-x) = -roundEven x := by
  by_cases hint : (⌊x⌋ : ℚ) = x
  · rw [← hint, ← Int.cast_neg, roundEven_intCast, roundEven_intCast]
  · have hfl : (⌊x⌋ : ℚ) < x := lt_of_le_of_ne (Int.floor_le x) hint
    have hfl2 : x < (⌊x⌋ : ℚ) + 1 := Int.lt_floor_add_one x
    have hneg : ⌊-x⌋ = -⌊x⌋ - 1 := by
      rw [Int.floor_eq_iff]
      push_cast
      constructor <;> linarith
    unfold roundEven
    rw [hneg]
    push_cast
    by_cases h1 : x - (⌊x⌋ : ℚ) < 1 / 2
    · rw [if_pos h1, if_neg (by linarith), if_pos (by linarith)]
      ring
    · rw [if_neg h1]
      by_cases h2 : 1 / 2 < x - (⌊x⌋ : ℚ)
      · rw [if_pos h2, if_pos (by linarith)]
        ring
      · rw [if_neg h2, if_neg (by linarith), if_neg (by linarith)]
        by_cases hev : ⌊x⌋ % 2 = 0
        · rw [if_pos hev, if_neg (by omega)]
          ring
        · rw [if_neg hev, if_pos (by omega)]
          ring

theorem ulp_pos (x : ℚ) : 0 < ulp x := pow2_pos _

theorem ulp_neg (x : ℚ) : ulp (-x) = ulp x := by
  unfold ulp; rw [abs_neg]

theorem fl_zero : fl 0 = 0 := by simp [fl]

theorem fl_neg (x : ℚ) : fl (-x) = -fl x := by
  unfold fl
  by_cases hx : x = 0
  · simp [hx]
  · rw [if_neg hx, if_neg (by simpa using hx), ulp_neg, neg_div, roundEven_neg]
    push_cast
    ring

/-- The scaled mantissa of a positive number lies between `2^52` and `2^53`. -/
theorem mantissa_bounds (x : ℚ) (hx : 0 < x) :
    (2 : ℚ) ^ 52 ≤ x / ulp x ∧ x / ulp x < (2 : ℚ) ^ 53 := by
  obtain ⟨s1, s2⟩ := ilog2_spec x hx
  have hu : ulp x = pow2 (ilog2 x - 52) := by unfold ulp; rw [abs_of_pos hx]
  have hupos := ulp_pos x
  have e1 : pow2 (ilog2 x) = (2 : ℚ) ^ 52 * ulp x := by
    rw [hu, ← pow2_natCast, ← pow2_add]
    congr 1
    push_cast
    ring
  have e2 : pow2 (ilog2 x + 1) = (2 : ℚ) ^ 53 * ulp x := by
    rw [hu, ← pow2_natCast, ← pow2_add]
    congr 1
    push_cast
    ring
  constructor
  · rw [le_div_iff₀ hupos, ← e1]; exact s1
  · rw [div_lt_iff₀ hupos, ← e2]; exact s2

theorem fl_pos_bounds (x : ℚ) (hx : 0 < x) :
    pow2 (ilog2 x) ≤ fl x ∧ fl x ≤ pow2 (ilog2 x + 1) := by
  obtain ⟨m1, m2⟩ := mantissa_bounds x hx
  have hu : ulp x = pow2 (ilog2 x - 52) := by unfold ulp; rw [abs_of_pos hx]
  have hupos := ulp_pos x
  have e1 : pow2 (ilog2 x) = (2 : ℚ) ^ 52 * ulp x := by
    rw [hu, ← pow2_natCast, ← pow2_add]
    congr 1
    push_cast
    ring
  have e2 : pow2 (ilog2 x + 1) = (2 : ℚ) ^ 53 * ulp x := by
    rw [hu, ← pow2_natCast, ← pow2_add]
    congr 1
    push_cast
    ring
  have r1 : ((2 ^ 52 : Int) : ℚ) ≤ (roundEven (x / ulp x) : ℚ) := by
    have := le_roundEven (2 ^ 52) (x / ulp x) (by push_cast; exact m1)
    exact_mod_cast this
  have r2 : (roundEven (x / ulp x) : ℚ) ≤ ((2 ^ 53 : Int) : ℚ) := by
    have := roundEven_le (2 ^ 53) (x / ulp x) (by push_cast; exact le_of_lt m2)
    exact_mod_cast this
  unfold fl
  rw [if_neg (ne_of_gt hx), e1, e2]
  push_cast at r1 r2
  constructor
  · exact mul_le_mul_of_nonneg_right r1 (le_of_lt hupos)
  · exact mul_le_mul_of_nonneg_right r2 (le_of_lt hupos)

theorem fl_pos (x : ℚ) (hx : 0 < x) : 0 < fl x :=
  lt_of_lt_of_le (pow2_pos _) (fl_pos_bounds x hx).1

theorem fl_nonneg (x : ℚ) (hx : 0 ≤ x) : 0 ≤ fl x := by
  rcases lt_or_eq_of_le hx with h | h
  · exact le_of_lt (fl_pos x h)
  · rw [← h, fl_zero]

theorem fl_nonpos (x : ℚ) (hx : x ≤ 0) : fl x ≤ 0 := by
  have := fl_nonneg (-x) (by linarith)
  rw [fl_neg] at this
  linarith

theorem fl_mono_pos (x y : ℚ) (hx : 0 < x) (hxy : x ≤ y) : fl x ≤ fl y := by
  have hy : 0 < y := lt_of_lt_of_le hx hxy
  have hlog := ilog2_mono x y hx hxy
  rcases lt_or_eq_of_le hlog with hlt | heq
  · calc fl x ≤ pow2 (ilog2 x + 1) := (fl_pos_bounds x hx).2
      _ ≤ pow2 (ilog2 y) := pow2_le_pow2 (by omega)
      _ ≤ fl y := (fl_pos_bounds y hy).1
  · have hu : ulp x = ulp y := by
      unfold ulp
      rw [abs_of_pos hx, abs_of_pos hy, heq]
    unfold fl
    rw [if_neg (ne_of_gt hx), if_neg (ne_of_gt hy), hu]
    apply mul_le_mul_of_nonneg_right _ (le_of_lt (ulp_pos y))
    have : roundEven (x / ulp y) ≤ roundEven (y / ulp y) :=
      roundEven_mono (div_le_div_of_nonneg_right hxy (le_of_lt (ulp_pos y)))
    exact_mod_cast this

/-- Rounding to binary64 is monotone. -/
theorem fl_mono {x y : ℚ} (hxy : x ≤ y) : fl x ≤ fl y := by
  rcases lt_trichotomy x 0 with hx | hx | hx
  · rcases lt_or_le y 0 with hy | hy
    · have := fl_mono_pos (-y) (-x) (by linarith) (by linarith)
      rw [fl_neg, fl_neg] at this
      linarith
    · exact le_trans (fl_nonpos x (le_of_lt hx)) (fl_nonneg y hy)
  · rw [hx, fl_zero]
    exact fl_nonneg y (by rw [← hx]; exact hxy)
  · exact fl_mono_pos x y hx hxy

/-- A dyadic number `n / 2^k` with `|n| ≤ 2^53` is a binary64 number. -/
theorem fl_dyadic (n : Int) (k : Nat) (hn : |n| ≤ 2 ^ 53) :
    fl ((n : ℚ) / (2 : ℚ) ^ k) = (n : ℚ) / (2 : ℚ) ^ k := by
  -- it is enough to treat the positive numbers
  have key : ∀ m : Int, 0 < m → m ≤ 2 ^ 53 →
      fl ((m : ℚ) / (2 : ℚ) ^ k) = (m : ℚ) / (2 : ℚ) ^ k := by
    intro m hm hm53
    have hmq : (0 : ℚ) < (m : ℚ) := by exact_mod_cast hm
    have hx : (0 : ℚ) < (m : ℚ) / (2 : ℚ) ^ k := by positivity
    obtain ⟨s1, s2⟩ := ilog2_spec _ hx
    set e := ilog2 ((m : ℚ) / (2 : ℚ) ^ k) with he
    have hu : ulp ((m : ℚ) / (2 : ℚ) ^ k) = pow2 (e - 52) := by
      unfold ulp; rw [abs_of_pos hx]
    -- `2^(e+k) ≤ m`, hence `e + k ≤ 53`
    have h1 : pow2 (e + (k : Int)) ≤ (m : ℚ) := by
      rw [pow2_add, pow2_natCast]
      rw [le_div_iff₀ (by positivity)] at s1
      exact s1
    have h2 : (m : ℚ) ≤ pow2 53 := by
      have : pow2 53 = ((2 ^ 53 : Int) : ℚ) := by
        rw [show (53 : Int) = ((53 : Nat) : Int) by rfl, pow2_natCast]; norm_num
      rw [this]
      exact_mod_cast hm53
    have hek : e + (k : Int) ≤ 53 := by
      by_contra hc
      push_neg at hc
      have := pow2_lt_pow2_iff.mpr hc
      linarith
    -- the scaled mantissa is an integer
    have hint : ∃ z : Int, (m : ℚ) / (2 : ℚ) ^ k / pow2 (e - 52) = (z : ℚ) := by
      rcases lt_or_eq_of_le hek with hlt | heq
      · refine ⟨m * 2 ^ (52 - e - (k : Int)).toNat, ?_⟩
        have hnn : 0 ≤ 52 - e - (k : Int) := by omega
        have hp : pow2 (52 - e - (k : Int)) = (2 : ℚ) ^ (52 - e - (k : Int)).toNat := by
          conv_lhs => rw [← Int.toNat_of_nonneg hnn]
          rw [pow2_natCast]
        push_cast
        rw [← hp]
        have hmul : pow2 (52 - e - (k : Int)) * pow2 (e - 52) * (2 : ℚ) ^ k = 1 := by
          rw [← pow2_natCast, ← pow2_add, ← pow2_add]
          have : 52 - e - (k : Int) + (e - 52) + (k : Int) = 0 := by ring
          rw [this]
          simp [pow2]
        have hpp := pow2_pos (e - 52)
        have hkk : (0 : ℚ) < (2 : ℚ) ^ k := by positivity
        field_simp
        calc (m : ℚ) = (m : ℚ) * (pow2 (52 - e - (k : Int)) * pow2 (e - 52) * (2 : ℚ) ^ k) := by
              rw [hmul, mul_one]
          _ = (m : ℚ) * pow2 (52 - e - (k : Int)) * ((2 : ℚ) ^ k * pow2 (e - 52)) := by ring
      · -- then `m = 2^53`
        have hm_eq : (m : ℚ) = pow2 53 := by
          apply le_antisymm h2
          rw [← heq]
          exact h1
        refine ⟨2 ^ 52, ?_⟩
        rw [hm_eq]
        have e1 : pow2 53 = pow2 52 * pow2 (e - 52) * pow2 (k : Int) := by
          rw [← pow2_add, ← pow2_add]
          congr 1
          omega
        rw [e1, pow2_natCast]
        have hpp := pow2_pos (e - 52)
        have hkk : (0 : ℚ) < (2 : ℚ) ^ k := by positivity
        have h52 : pow2 52 = (((2 : Int) ^ 52 : Int) : ℚ) := by
          rw [show (52 : Int) = ((52 : Nat) : Int) by rfl, pow2_natCast]; norm_num
        rw [h52]
        field_simp
    obtain ⟨z, hz⟩ := hint
    unfold fl
    rw [if_neg (ne_of_gt hx), hu, hz, roundEven_intCast, ← hz]
    have hpp := pow2_pos (e - 52)
    field_simp
    ring
  rcases lt_trichotomy n 0 with h | h | h
  · have hneg := key (-n) (by omega) (by
      have := abs_of_neg h
      omega)
    have e1 : ((n : ℚ) / (2 : ℚ) ^ k) = -(((-n : Int) : ℚ) / (2 : ℚ) ^ k) := by
      push_cast; ring
    rw [e1, fl_neg, hneg]
  · rw [h]; simp [fl_zero]
  · exact key n h (by
      have := abs_of_pos h
      omega)

theorem fl_intCast (n : Int) (hn : |n| ≤ 2 ^ 53) : fl (n : ℚ) = (n : ℚ) := by
  have := fl_dyadic n 0 hn
  simpa using this

theorem fl_one : fl 1 = 1 := by
  have := fl_intCast 1 (by norm_num)
  simpa using this

/-- Scaling by a power of two commutes with the rounding (the exponent is unbounded). -/
theorem fl_scale (x : ℚ) (j : Int) : fl (x * pow2 j) = fl x * pow2 j := by
  by_cases hx : x = 0
  · simp [hx, fl_zero]
  · have hj := pow2_pos j
    have hxj : x * pow2 j ≠ 0 := mul_ne_zero hx (ne_of_gt hj)
    have habs : |x * pow2 j| = |x| * pow2 j := by
      rw [abs_mul, abs_of_pos hj]
    have hpos : 0 < |x| := abs_pos.mpr hx
    obtain ⟨s1, s2⟩ := ilog2_spec |x| hpos
    have hlog : ilog2 (|x| * pow2 j) = ilog2 |x| + j := by
      apply ilog2_unique
      · rw [pow2_add]
        exact mul_le_mul_of_nonneg_right s1 (le_of_lt hj)
      · have : ilog2 |x| + j + 1 = (ilog2 |x| + 1) + j := by ring
        rw [this, pow2_add]
        exact mul_lt_mul_of_pos_right s2 hj
    have hulp : ulp (x * pow2 j) = ulp x * pow2 j := by
      unfold ulp
      rw [habs, hlog, ← pow2_add]
      congr 1
      ring
    unfold fl
    rw [if_neg hx, if_neg hxj, hulp]
    have hu := ulp_pos x
    have hq : x * pow2 j / (ulp x * pow2 j) = x / ulp x := by
      field_simp
      ring
    rw [hq]
    ring

/-- An integer mantissa of at most 53 bits times a power of two is a binary64 number. -/
theorem fl_mantissa (K j : Int) (hK : |K| ≤ 2 ^ 53) :
    fl ((K : ℚ) * pow2 j) = (K : ℚ) * pow2 j := by
  rw [fl_scale, fl_intCast K hK]

theorem fl_quarter (n : Int) (hn : |n| ≤ 2 ^ 53) : fl ((n : ℚ) / 4) = (n : ℚ) / 4 := by
  have := fl_dyadic n 2 hn
  norm_num at this
  exact this

theorem fl_le_of_le_intCast (x : ℚ) (n : Int) (hn : |n| ≤ 2 ^ 53) (h : x ≤ (n : ℚ)) :
    fl x ≤ (n : ℚ) := by
  have := fl_mono h
  rwa [fl_intCast n hn] at this

theorem le_fl_of_intCast_le (x : ℚ) (n : Int) (hn : |n| ≤ 2 ^ 53) (h : (n : ℚ) ≤ x) :
    (n : ℚ) ≤ fl x := by
  have := fl_mono h
  rwa [fl_intCast n hn] at this

/-! ## Integer and rational square roots -/

theorem isqrtBits_spec (n : Nat) : ∀ (b r : Nat), r * r ≤ n →
    n < (r + 2 ^ b) * (r + 2 ^ b) →
    isqrtBits n b r * isqrtBits n b r ≤ n ∧
      n < (isqrtBits n b r + 1) * (isqrtBits n b r + 1) := by
  intro b
  induction b with
  | zero =>
    intro r h1 h2
    simp only [isqrtBits]
    exact ⟨h1, by simpa using h2⟩
  | succ k ih =>
    intro r h1 h2
    unfold isqrtBits
    split
    · rename_i h
      apply ih _ h
      have : r + 2 ^ k + 2 ^ k = r + 2 ^ (k + 1) := by rw [pow_succ]; ring
      rw [this]
      exact h2
    · rename_i h
      exact ih r h1 (not_le.mp h)

theorem isqrt_spec (n : Nat) : isqrt n * isqrt n ≤ n ∧ n < (isqrt n + 1) * (isqrt n + 1) := by
  unfold isqrt
  apply isqrtBits_spec n _ 0 (Nat.zero_le _)
  rw [Nat.zero_add, ← pow_add]
  rcases Nat.eq_zero_or_pos n with h | h
  · rw [h]; simp
  · obtain ⟨_, _, h3⟩ := bitLength_self n h
    calc n < 2 ^ bitLength n n := h3
      _ ≤ 2 ^ ((bitLength n n + 1) / 2 + (bitLength n n + 1) / 2) :=
          Nat.pow_le_pow_right (by norm_num) (by omega)

theorem isqrt_mul_self (m : Nat) : isqrt (m * m) = m := by
  obtain ⟨h1, h2⟩ := isqrt_spec (m * m)
  have a : isqrt (m * m) ≤ m := Nat.mul_self_le_mul_self_iff.mp h1
  have b : m < isqrt (m * m) + 1 := Nat.mul_self_lt_mul_self_iff.mp h2
  omega

/-- The rational square root undoes the squaring of a non-negative rational. -/
theorem qsqrt_mul_self (p : ℚ) (hp : 0 ≤ p) : qsqrt (p * p) = p := by
  unfold qsqrt
  rw [Rat.mul_self_num, Rat.mul_self_den, isqrt_mul_self]
  have hnum : 0 ≤ p.num := Rat.num_nonneg.mpr hp
  have e : (p.num * p.num).toNat = p.num.toNat * p.num.toNat := by
    have h1 : ((p.num.toNat : Nat) : Int) = p.num := Int.toNat_of_nonneg hnum
    conv_lhs => rw [← h1]
    rw [← Nat.cast_mul, Int.toNat_natCast]
  rw [e, isqrt_mul_self]
  have h1 : ((p.num.toNat : Nat) : ℚ) = ((p.num : Int) : ℚ) := by
    have : ((p.num.toNat : Nat) : Int) = p.num := Int.toNat_of_nonneg hnum
    exact_mod_cast this
  rw [h1]
  exact Rat.num_div_den p

/-- The conversion of a binary64 precision to `unsigned` is the truncation. -/
theorem toUnsigned_ofDouble (p : ℚ) (hp : 0 ≤ p) :
    (Precision.ofDouble p).toUnsigned = if ⌊p⌋₊ < 2 ^ 32 then some ⌊p⌋₊ else none := by
  have hsq : Nat.sqrt ⌊p * p⌋₊ = ⌊p⌋₊ := by
    symm
    rw [Nat.eq_sqrt]
    constructor
    · apply Nat.le_floor
      push_cast
      have h1 : (⌊p⌋₊ : ℚ) ≤ p := Nat.floor_le hp
      have h0 : (0 : ℚ) ≤ (⌊p⌋₊ : ℚ) := Nat.cast_nonneg _
      nlinarith
    · rw [Nat.floor_lt (mul_nonneg hp hp)]
      push_cast
      have h1 : p < (⌊p⌋₊ : ℚ) + 1 := Nat.lt_floor_add_one p
      nlinarith
  show (if Nat.sqrt ⌊p * p⌋₊ < 2 ^ 32 then some (Nat.sqrt ⌊p * p⌋₊) else none) = _
  rw [hsq]

/-- The binary64 square root of a number below `2^32` is a binary64 number between 0
and `2^16`. -/
theorem fsqrt_bounds (v : ℚ) (_hv0 : 0 ≤ v) (hv : v < 2 ^ 32) :
    0 ≤ fsqrt v ∧ fsqrt v ≤ 2 ^ 16 ∧ fl (fsqrt v) = fsqrt v := by
  unfold fsqrt
  by_cases h0 : v ≤ 0
  · rw [if_pos h0]
    exact ⟨le_refl _, by norm_num, fl_zero⟩
  · rw [if_neg h0]
    push_neg at h0
    obtain ⟨s1, s2⟩ := ilog2_spec v h0
    have hlog : ilog2 v ≤ 31 := by
      have h32 : pow2 (ilog2 v) < pow2 32 := by
        have : pow2 32 = (2 : ℚ) ^ 32 := by
          rw [show (32 : Int) = ((32 : Nat) : Int) by rfl, pow2_natCast]
        rw [this]
        exact lt_of_le_of_lt s1 hv
      have := pow2_lt_pow2_iff.mp h32
      omega
    set h := ilog2 v / 2 with hh
    have hh1 : 2 * h ≤ ilog2 v := by omega
    have hh2 : ilog2 v ≤ 2 * h + 1 := by omega
    have hh15 : h ≤ 15 := by omega
    set u := pow2 (h - 52) with hu
    have hupos : 0 < u := pow2_pos _
    have huu : u * u = pow2 (2 * h - 104) := by
      rw [hu, ← pow2_add]; congr 1; ring
    set t := v / (u * u) with ht
    have htlt : t < (2 : ℚ) ^ 106 := by
      rw [ht, div_lt_iff₀ (mul_pos hupos hupos), huu, ← pow2_natCast, ← pow2_add]
      calc v < pow2 (ilog2 v + 1) := s2
        _ ≤ pow2 (((106 : Nat) : Int) + (2 * h - 104)) := pow2_le_pow2 (by push_cast; omega)
    have htpos : 0 < t := div_pos h0 (mul_pos hupos hupos)
    set k := isqrt ⌊t⌋₊ with hk
    obtain ⟨k1, _⟩ := isqrt_spec ⌊t⌋₊
    rw [← hk] at k1
    have hk53 : k < 2 ^ 53 := by
      by_contra hc
      push_neg at hc
      have h1 : 2 ^ 53 * 2 ^ 53 ≤ k * k := Nat.mul_le_mul hc hc
      have h2 : (k * k : Nat) ≤ ⌊t⌋₊ := k1
      have h3 : ((⌊t⌋₊ : Nat) : ℚ) ≤ t := Nat.floor_le (le_of_lt htpos)
      have h4 : (((2 ^ 53 * 2 ^ 53 : Nat)) : ℚ) ≤ t := by
        have : (((2 ^ 53 * 2 ^ 53 : Nat)) : ℚ) ≤ ((⌊t⌋₊ : Nat) : ℚ) := by
          exact_mod_cast le_trans h1 h2
        linarith
      norm_num at h4
      linarith
    have hkq : (k : ℚ) + 1 ≤ 2 ^ 53 := by
      have : k + 1 ≤ 2 ^ 53 := hk53
      exact_mod_cast this
    have hk0 : (0 : ℚ) ≤ (k : ℚ) := Nat.cast_nonneg k
    have hutop : (2 : ℚ) ^ 53 * u ≤ 2 ^ 16 := by
      have e : (2 : ℚ) ^ 53 * u = pow2 (h + 1) := by
        rw [hu, ← pow2_natCast, ← pow2_add]; congr 1; push_cast; ring
      have e16 : (2 : ℚ) ^ 16 = pow2 16 := by
        rw [show (16 : Int) = ((16 : Nat) : Int) by rfl, pow2_natCast]
      rw [e, e16]
      exact pow2_le_pow2 (by omega)
    have rep1 : fl ((k : ℚ) * u) = (k : ℚ) * u := by
      have := fl_mantissa (k : Int) (h - 52) (by
        rw [abs_of_nonneg (by positivity)]
        have : k ≤ 2 ^ 53 := le_of_lt hk53
        exact_mod_cast this)
      simpa using this
    have rep2 : fl (((k : ℚ) + 1) * u) = ((k : ℚ) + 1) * u := by
      have := fl_mantissa ((k : Int) + 1) (h - 52) (by
        rw [abs_of_nonneg (by positivity)]
        have : k + 1 ≤ 2 ^ 53 := hk53
        exact_mod_cast this)
      simpa using this
    have b1 : 0 ≤ (k : ℚ) * u ∧ (k : ℚ) * u ≤ 2 ^ 16 ∧ fl ((k : ℚ) * u) = (k : ℚ) * u :=
      ⟨by positivity, le_trans (mul_le_mul_of_nonneg_right (by linarith) (le_of_lt hupos)) hutop,
        rep1⟩
    have b2 : 0 ≤ ((k : ℚ) + 1) * u ∧ ((k : ℚ) + 1) * u ≤ 2 ^ 16 ∧
        fl (((k : ℚ) + 1) * u) = ((k : ℚ) + 1) * u :=
      ⟨by positivity, le_trans (mul_le_mul_of_nonneg_right hkq (le_of_lt hupos)) hutop, rep2⟩
    simp only
    split
    · exact b1
    · split
      · exact b2
      · split
        · exact b1
        · exact b2

/-! ## The loops over `double` in binary64 -/

/-- A loop with a step of at least 1 ends within the fuel: each addition, though rounded,
passes the next integer. -/
theorem loopValues64_terminates (add : ℚ) (stop lo : Int) (hadd : 1 ≤ add)
    (hlo : |lo| ≤ 2 ^ 52) (hstop : |stop| ≤ 2 ^ 52) :
    ∀ (fuel : Nat) (i : ℚ), (lo : ℚ) ≤ i → (stop - ⌊i⌋ + 1).toNat ≤ fuel →
      ∃ vs, loopValues64 add stop fuel i = some vs ∧
        ∀ v ∈ vs, (lo : ℚ) ≤ v ∧ v ≤ (stop : ℚ) := by
  intro fuel
  induction fuel with
  | zero =>
    intro i _ hf
    have h1 : stop + 1 ≤ ⌊i⌋ := by omega
    have h2 : ((stop + 1 : Int) : ℚ) ≤ i := Int.le_floor.mp h1
    have h3 : ¬ i ≤ (stop : ℚ) := by
      push_cast at h2
      linarith
    refine ⟨[], ?_, by simp⟩
    unfold loopValues64
    rw [if_neg h3]
  | succ n ih =>
    intro i hi hf
    unfold loopValues64
    by_cases hc : i ≤ (stop : ℚ)
    · rw [if_pos hc]
      have hfl1 : lo ≤ ⌊i⌋ := Int.le_floor.mpr hi
      have hfl2 : ⌊i⌋ ≤ stop := by
        have : ((⌊i⌋ : Int) : ℚ) ≤ (stop : ℚ) := le_trans (Int.floor_le i) hc
        exact_mod_cast this
      have habs : |⌊i⌋ + 1| ≤ 2 ^ 53 := by
        rw [abs_le] at hlo hstop ⊢
        constructor <;> omega
      have hnext : ((⌊i⌋ + 1 : Int) : ℚ) ≤ fl (i + add) := by
        apply le_fl_of_intCast_le _ _ habs
        push_cast
        have := Int.floor_le i
        linarith
      have hfl3 : ⌊i⌋ + 1 ≤ ⌊fl (i + add)⌋ := Int.le_floor.mpr hnext
      have hlo2 : (lo : ℚ) ≤ fl (i + add) := by
        have : ((lo : Int) : ℚ) ≤ ((⌊i⌋ + 1 : Int) : ℚ) := by
          have : lo ≤ ⌊i⌋ + 1 := by omega
          exact_mod_cast this
        linarith
      obtain ⟨vs, hvs, hmem⟩ := ih (fl (i + add)) hlo2 (by omega)
      refine ⟨i :: vs, by rw [hvs]; rfl, ?_⟩
      intro v hv
      rcases List.mem_cons.mp hv with h | h
      · rw [h]; exact ⟨hi, hc⟩
      · exact hmem v h
    · rw [if_neg hc]
      exact ⟨[], rfl, by simp⟩

theorem doubleRange64_terminates (start add : ℚ) (stop lo : Int) (hadd : 1 ≤ add)
    (hlo : |lo| ≤ 2 ^ 52) (hstop : |stop| ≤ 2 ^ 52) (hstart : (lo : ℚ) ≤ start) :
    ∃ vs, doubleRange64 start add stop = some vs ∧
      ∀ v ∈ vs, (lo : ℚ) ≤ v ∧ v ≤ (stop : ℚ) := by
  unfold doubleRange64
  apply loopValues64_terminates add stop lo hadd hlo hstop _ _ hstart
  unfold loopFuel
  have h1 : ⌊(stop : ℚ) - start⌋ = stop + ⌊-start⌋ := by
    rw [sub_eq_add_neg, Int.floor_int_add]
  have h2 : -⌊start⌋ - 1 ≤ ⌊-start⌋ := by
    rw [Int.le_floor]
    push_cast
    have := Int.lt_floor_add_one start
    have := Int.floor_le start
    linarith
  rw [h1]
  omega

/-- On quarters of integers of moderate size the loop in binary64 is the exact loop. -/
theorem loopValues64_quarter (add : ℚ) (stop : Int) (na : Int) (hna : add = (na : ℚ) / 4)
    (hadd : 1 ≤ add) (hadd2 : add ≤ 2 ^ 40) (hstop : |stop| ≤ 2 ^ 40) :
    ∀ (fuel1 fuel2 : Nat) (i : ℚ) (ni : Int), i = (ni : ℚ) / 4 → -2 ^ 40 ≤ i →
      (stop - ⌊i⌋ + 1).toNat ≤ fuel2 → (⌊(stop : ℚ) - i⌋ + 1).toNat ≤ fuel1 →
      loopValues64 add stop fuel2 i = some (loopValues add stop fuel1 i) := by
  intro fuel1
  induction fuel1 with
  | zero =>
    intro fuel2 i ni _ _ _ hf1
    have h1 : ⌊(stop : ℚ) - i⌋ < 0 := by omega
    have h2 : (stop : ℚ) - i < 0 := by
      have := Int.floor_lt.mp h1
      simpa using this
    have h3 : ¬ i ≤ (stop : ℚ) := by linarith
    cases fuel2 with
    | zero => simp only [loopValues64, loopValues]; rw [if_neg h3]
    | succ m => simp only [loopValues64, loopValues]; rw [if_neg h3]
  | succ k ih =>
    intro fuel2 i ni hni hilo hf2 hf1
    by_cases hc : i ≤ (stop : ℚ)
    · have hfl2 : ⌊i⌋ ≤ stop := by
        have : ((⌊i⌋ : Int) : ℚ) ≤ (stop : ℚ) := le_trans (Int.floor_le i) hc
        exact_mod_cast this
      cases fuel2 with
      | zero => omega
      | succ m =>
        have hstopq : (stop : ℚ) ≤ 2 ^ 40 := by
          have := (abs_le.mp hstop).2
          exact_mod_cast this
        have hsum : fl (i + add) = i + add := by
          have e : i + add = ((ni + na : Int) : ℚ) / 4 := by
            rw [hni, hna]; push_cast; ring
          rw [e]
          apply fl_quarter
          have b1 : (ni : ℚ) ≤ 4 * 2 ^ 40 := by rw [hni] at hc; linarith
          have b2 : -(4 * 2 ^ 40) ≤ (ni : ℚ) := by rw [hni] at hilo; linarith
          have b3 : (na : ℚ) ≤ 4 * 2 ^ 40 := by rw [hna] at hadd2; linarith
          have b4 : (4 : ℚ) ≤ (na : ℚ) := by rw [hna] at hadd; linarith
          have c1 : ni ≤ 4 * 2 ^ 40 := by exact_mod_cast b1
          have c2 : -(4 * 2 ^ 40) ≤ ni := by exact_mod_cast b2
          have c3 : na ≤ 4 * 2 ^ 40 := by exact_mod_cast b3
          have c4 : 4 ≤ na := by exact_mod_cast b4
          rw [abs_le]
          constructor <;> omega
        have e : i + add = ((ni + na : Int) : ℚ) / 4 := by
          rw [hni, hna]; push_cast; ring
        have hfl3 : ⌊i⌋ + 1 ≤ ⌊i + add⌋ := by
          rw [Int.le_floor]
          push_cast
          have := Int.floor_le i
          linarith
        have hfl4 : ⌊(stop : ℚ) - (i + add)⌋ ≤ ⌊(stop : ℚ) - i⌋ - 1 := by
          have h1 : (stop : ℚ) - (i + add) ≤ ((stop : ℚ) - i) - 1 := by linarith
          have h2 := Int.floor_le_floor h1
          have h3 : ⌊((stop : ℚ) - i) - 1⌋ = ⌊(stop : ℚ) - i⌋ - 1 := Int.floor_sub_one _
          omega
        have := ih m (i + add) (ni + na) e (by linarith) (by omega) (by omega)
        simp only [loopValues64, loopValues]
        rw [if_pos hc, if_pos hc, hsum, this]
        rfl
    · cases fuel2 with
      | zero => simp only [loopValues64, loopValues]; rw [if_neg hc, if_neg hc]
      | succ m => simp only [loopValues64, loopValues]; rw [if_neg hc, if_neg hc]

theorem doubleRange64_quarter (start add : ℚ) (stop : Int) (na ns : Int)
    (hna : add = (na : ℚ) / 4) (hns : start = (ns : ℚ) / 4)
    (hadd : 1 ≤ add) (hadd2 : add ≤ 2 ^ 40) (hstop : |stop| ≤ 2 ^ 40)
    (hstart : -2 ^ 40 ≤ start) :
    doubleRange64 start add stop = some (doubleRange start add stop) := by
  unfold doubleRange64 doubleRange
  apply loopValues64_quarter add stop na hna hadd hadd2 hstop _ _ start ns hns hstart
  · unfold loopFuel
    have h1 : ⌊(stop : ℚ) - start⌋ = stop + ⌊-start⌋ := by
      rw [sub_eq_add_neg, Int.floor_int_add]
    have h2 : -⌊start⌋ - 1 ≤ ⌊-start⌋ := by
      rw [Int.le_floor]
      push_cast
      have := Int.lt_floor_add_one start
      have := Int.floor_le start
      linarith
    rw [h1]
    omega
  · exact le_refl _

theorem roundHalfAway64_quarter (v : ℚ) (n : Int) (hn : v = (n : ℚ) / 4)
    (hb : |n| ≤ 2 ^ 50) : roundHalfAway64 v = roundHalfAway v := by
  have hb2 := abs_le.mp hb
  have e1 : fl (v - 1 / 2) = v - 1 / 2 := by
    have e : v - 1 / 2 = ((n - 2 : Int) : ℚ) / 4 := by rw [hn]; push_cast; ring
    rw [e]
    apply fl_quarter
    rw [abs_le]; constructor <;> omega
  have e2 : fl (v + 1 / 2) = v + 1 / 2 := by
    have e : v + 1 / 2 = ((n + 2 : Int) : ℚ) / 4 := by rw [hn]; push_cast; ring
    rw [e]
    apply fl_quarter
    rw [abs_le]; constructor <;> omega
  unfold roundHalfAway64 roundHalfAway
  rw [e1, e2]

theorem fl_quarter_add (a b : ℚ) (na nb : Int) (ha : a = (na : ℚ) / 4)
    (hb : b = (nb : ℚ) / 4) (hna : |na| ≤ 2 ^ 50) (hnb : |nb| ≤ 2 ^ 50) :
    fl (a + b) = a + b ∧ fl (a - b) = a - b := by
  have h1 := abs_le.mp hna
  have h2 := abs_le.mp hnb
  constructor
  · have e : a + b = ((na + nb : Int) : ℚ) / 4 := by rw [ha, hb]; push_cast; ring
    rw [e]
    apply fl_quarter
    rw [abs_le]; constructor <;> omega
  · have e : a - b = ((na - nb : Int) : ℚ) / 4 := by rw [ha, hb]; push_cast; ring
    rw [e]
    apply fl_quarter
    rw [abs_le]; constructor <;> omega

/-! ## Levels 0 and 1: the steps are halves and quarters, exact in binary64 -/

theorem offsets64_exact (area : GradientCheck) (ha : area.amount = 2 ∨ area.amount = 4)
    (hb : area.edgesWithin (2 ^ 31)) :
    area.h_offset64 = area.h_offset ∧ area.v_offset64 = area.v_offset ∧
    ∃ nh nv : Int, area.h_offset = (nh : ℚ) / 4 ∧ area.v_offset = (nv : ℚ) / 4 ∧
      |nh| ≤ 2 ^ 34 ∧ |nv| ≤ 2 ^ 34 := by
  obtain ⟨b1, b2, b3, b4, b5, b6, b7, b8⟩ := hb
  have key : ∀ d : Int, |d| ≤ 2 ^ 33 →
      ∃ n : Int, ((d : Int) : ℚ) / (area.amount : ℚ) = (n : ℚ) / 4 ∧ |n| ≤ 2 ^ 34 := by
    intro d hd
    have hd2 := abs_le.mp hd
    rcases ha with h | h
    · refine ⟨2 * d, ?_, ?_⟩
      · rw [h]; push_cast; ring
      · rw [abs_le]; constructor <;> omega
    · refine ⟨d, ?_, ?_⟩
      · rw [h]; push_cast; ring
      · rw [abs_le]; constructor <;> omega
  obtain ⟨nh, hnh, bnh⟩ := key (area.right - area.left) (by rw [abs_le]; constructor <;> omega)
  obtain ⟨nv, hnv, bnv⟩ := key (area.bottom - area.top) (by rw [abs_le]; constructor <;> omega)
  have fh : fl ((nh : ℚ) / 4) = (nh : ℚ) / 4 :=
    fl_quarter nh (le_trans bnh (by norm_num))
  have fv : fl ((nv : ℚ) / 4) = (nv : ℚ) / 4 :=
    fl_quarter nv (le_trans bnv (by norm_num))
  refine ⟨?_, ?_, nh, nv, hnh, hnv, bnh, bnv⟩
  · show fl (((area.right - area.left : Int) : ℚ) / (area.amount : ℚ)) =
      ((area.right - area.left : Int) : ℚ) / (area.amount : ℚ)
    rw [hnh, fh]
  · show fl (((area.bottom - area.top : Int) : ℚ) / (area.amount : ℚ)) =
      ((area.bottom - area.top : Int) : ℚ) / (area.amount : ℚ)
    rw [hnv, fv]

theorem isLeaf64_exact (area : GradientCheck) (ha : area.amount = 2 ∨ area.amount = 4)
    (hb : area.edgesWithin (2 ^ 31)) : area.isLeaf64 = area.isLeaf := by
  obtain ⟨h1, h2, _⟩ := offsets64_exact area ha hb
  unfold GradientCheck.isLeaf64 GradientCheck.isLeaf
  rw [h1, h2]

theorem adds64_exact (area : GradientCheck) (ha : area.amount = 2 ∨ area.amount = 4)
    (hb : area.edgesWithin (2 ^ 31)) :
    area.h_add64 = area.h_add ∧ area.v_add64 = area.v_add := by
  obtain ⟨h1, h2, _⟩ := offsets64_exact area ha hb
  unfold GradientCheck.h_add64 GradientCheck.v_add64 GradientCheck.h_add GradientCheck.v_add
  rw [h1, h2]
  exact ⟨rfl, rfl⟩

/-- The body of the inner loop in binary64 at a position that is a quarter of an
integer. -/
theorem sample64_exact (area : GradientCheck) (ha : area.amount = 2 ∨ area.amount = 4)
    (hb : area.edgesWithin (2 ^ 31)) (iy ix : ℚ) (ny nx : Int)
    (hy : iy = (ny : ℚ) / 4) (hx : ix = (nx : ℚ) / 4) (hny : |ny| ≤ 2 ^ 40)
    (hnx : |nx| ≤ 2 ^ 40) : area.sample64 iy ix = area.sample iy ix := by
  obtain ⟨h1, h2, nh, nv, hnh, hnv, bnh, bnv⟩ := offsets64_exact area ha hb
  have rx := roundHalfAway64_quarter ix nx hx (le_trans hnx (by norm_num))
  have ry := roundHalfAway64_quarter iy ny hy (le_trans hny (by norm_num))
  have ex := fl_quarter_add ix area.h_offset nx nh hx hnh (le_trans hnx (by norm_num))
    (le_trans bnh (by norm_num))
  have ey := fl_quarter_add iy area.v_offset ny nv hy hnv (le_trans hny (by norm_num))
    (le_trans bnv (by norm_num))
  unfold GradientCheck.sample64 GradientCheck.sample
  simp only [h1, h2, rx, ry, ex.1, ex.2, ey.1, ey.2]

theorem quarter_of_mem_doubleRange (start add : ℚ) (stop : Int) (ns na : Int)
    (hns : start = (ns : ℚ) / 4) (hna : add = (na : ℚ) / 4) (hadd : 1 ≤ add)
    (hlo : -2 ^ 36 ≤ start) (hstop : stop ≤ 2 ^ 36) (v : ℚ)
    (hv : v ∈ doubleRange start add stop) :
    ∃ n : Int, v = (n : ℚ) / 4 ∧ |n| ≤ 2 ^ 40 := by
  obtain ⟨k, hk, hle⟩ := (mem_doubleRange start add stop hadd v).mp hv
  refine ⟨ns + k * na, ?_, ?_⟩
  · rw [hk, hns, hna]; push_cast; ring
  · have hge : start ≤ v := by
      rw [hk]
      have : (0 : ℚ) ≤ (k : ℚ) * add := mul_nonneg (Nat.cast_nonneg k) (by linarith)
      linarith
    have hvq : v = ((ns + k * na : Int) : ℚ) / 4 := by
      rw [hk, hns, hna]; push_cast; ring
    have hstopq : (stop : ℚ) ≤ 2 ^ 36 := by exact_mod_cast hstop
    have u1 : ((ns + k * na : Int) : ℚ) ≤ 4 * 2 ^ 36 := by
      rw [hvq] at hle; linarith
    have u2 : -(4 * 2 ^ 36) ≤ ((ns + k * na : Int) : ℚ) := by
      rw [hvq] at hge; linarith
    have v1 : (ns + k * na : Int) ≤ 4 * 2 ^ 36 := by exact_mod_cast u1
    have v2 : -(4 * 2 ^ 36) ≤ (ns + k * na : Int) := by exact_mod_cast u2
    rw [abs_le]
    constructor
    · linarith
    · linarith

/-- At levels 0 and 1 the two loops of the recursive case make in binary64 exactly the
samples of the exact computation. -/
theorem samples64_exact (area : GradientCheck) (ha : area.amount = 2 ∨ area.amount = 4)
    (hb : area.edgesWithin (2 ^ 31)) : area.samples64 = some area.samples := by
  obtain ⟨h1, h2, nh, nv, hnh, hnv, bnh, bnv⟩ := offsets64_exact area ha hb
  obtain ⟨a1, a2⟩ := adds64_exact area ha hb
  obtain ⟨b1, b2, b3, b4, b5, b6, b7, b8⟩ := hb
  have hb0 : area.edgesWithin (2 ^ 31) := ⟨b1, b2, b3, b4, b5, b6, b7, b8⟩
  have bnh2 := abs_le.mp bnh
  have bnv2 := abs_le.mp bnv
  have hh1 := h_add_ge_one area
  have hv1 := v_add_ge_one area
  -- the steps are quarters
  have qadd : ∀ off : ℚ, ∀ n : Int, off = (n : ℚ) / 4 → |n| ≤ 2 ^ 34 →
      ∃ na : Int, (if off < 1 then (1 : ℚ) else off) = (na : ℚ) / 4 ∧
        (if off < 1 then (1 : ℚ) else off) ≤ 2 ^ 40 := by
    intro off n hn bn
    by_cases h : off < 1
    · rw [if_pos h]
      exact ⟨4, by norm_num, by norm_num⟩
    · rw [if_neg h]
      refine ⟨n, hn, ?_⟩
      have : (n : ℚ) ≤ 2 ^ 34 := by
        have := (abs_le.mp bn).2
        exact_mod_cast this
      rw [hn]
      linarith
  obtain ⟨nah, hnah, bah⟩ := qadd area.h_offset nh hnh bnh
  obtain ⟨nav, hnav, bav⟩ := qadd area.v_offset nv hnv bnv
  have hadd_h : area.h_add = (nah : ℚ) / 4 := hnah
  have hadd_v : area.v_add = (nav : ℚ) / 4 := hnav
  -- the starts are quarters
  have sv : (area.top : ℚ) + area.v_offset = ((4 * area.top + nv : Int) : ℚ) / 4 := by
    rw [hnv]; push_cast; ring
  have sh : (area.left : ℚ) + area.h_offset = ((4 * area.left + nh : Int) : ℚ) / 4 := by
    rw [hnh]; push_cast; ring
  have fsv : fl ((area.top : ℚ) + area.v_offset) = (area.top : ℚ) + area.v_offset := by
    rw [sv]
    apply fl_quarter
    rw [abs_le]; constructor <;> omega
  have fsh : fl ((area.left : ℚ) + area.h_offset) = (area.left : ℚ) + area.h_offset := by
    rw [sh]
    apply fl_quarter
    rw [abs_le]; constructor <;> omega
  have lov : -2 ^ 36 ≤ (area.top : ℚ) + area.v_offset := by
    rw [sv]
    have : -(2 ^ 38 : Int) ≤ 4 * area.top + nv := by omega
    have : ((-(2 ^ 38 : Int) : Int) : ℚ) ≤ ((4 * area.top + nv : Int) : ℚ) := by
      exact_mod_cast this
    push_cast at this ⊢
    linarith
  have loh : -2 ^ 36 ≤ (area.left : ℚ) + area.h_offset := by
    rw [sh]
    have : -(2 ^ 38 : Int) ≤ 4 * area.left + nh := by omega
    have : ((-(2 ^ 38 : Int) : Int) : ℚ) ≤ ((4 * area.left + nh : Int) : ℚ) := by
      exact_mod_cast this
    push_cast at this ⊢
    linarith
  have rows := doubleRange64_quarter ((area.top : ℚ) + area.v_offset) area.v_add area.bottom
    nav (4 * area.top + nv) hadd_v sv hv1 bav (by rw [abs_le]; constructor <;> omega)
    (by linarith)
  have cols := doubleRange64_quarter ((area.left : ℚ) + area.h_offset) area.h_add area.right
    nah (4 * area.left + nh) hadd_h sh hh1 bah (by rw [abs_le]; constructor <;> omega)
    (by linarith)
  have hcongr : ∀ jy ∈ doubleRange ((area.top : ℚ) + area.v_offset) area.v_add area.bottom,
      (doubleRange ((area.left : ℚ) + area.h_offset) area.h_add area.right).filterMap
        (fun ix => area.sample64 jy ix) =
      (doubleRange ((area.left : ℚ) + area.h_offset) area.h_add area.right).filterMap
        (fun ix => area.sample jy ix) := by
    intro jy hjy
    obtain ⟨ny, hny, bny⟩ := quarter_of_mem_doubleRange _ _ _ _ _ sv hadd_v hv1 lov
      (by omega) jy hjy
    have hpt : ∀ ix ∈ doubleRange ((area.left : ℚ) + area.h_offset) area.h_add area.right,
        area.sample64 jy ix = area.sample jy ix := by
      intro ix hix
      obtain ⟨nx, hnx, bnx⟩ := quarter_of_mem_doubleRange _ _ _ _ _ sh hadd_h hh1 loh
        (by omega) ix hix
      exact sample64_exact area ha hb0 jy ix ny nx hny hnx bny bnx
    generalize doubleRange ((area.left : ℚ) + area.h_offset) area.h_add area.right = l at hpt
    induction l with
    | nil => rfl
    | cons x xs ih =>
      simp only [List.filterMap_cons]
      rw [hpt x (by simp), ih (fun ix hix => hpt ix (by simp [hix]))]
  unfold GradientCheck.samples64 GradientCheck.samples
  rw [h1, h2, a1, a2, fsv, fsh, rows]
  generalize doubleRange ((area.top : ℚ) + area.v_offset) area.v_add area.bottom = rs at hcongr
  cases rs with
  | nil => rfl
  | cons iy rest =>
    simp only [cols]
    congr 1
    generalize (iy :: rest) = l at hcongr
    induction l with
    | nil => rfl
    | cons x xs ih =>
      simp only [List.flatMap_cons]
      rw [hcongr x (by simp), ih (fun jy hjy => hcongr jy (by simp [hjy]))]

/-! ## The round in binary64 -/

/-- The candidate that `do_diff` leaves on the stub is the candidate that `do_diff`
leaves. -/
theorem do_diffLogged_fst (plane : GradientPlane) (c : img_comp) :
    (img_comp.do_diffLogged plane c).1 = img_comp.do_diff plane c := by
  unfold img_comp.do_diffLogged img_comp.do_diff GradientPlane.getDifferenceLogged
  split <;> rfl

theorem do_diffLogged_snd (plane : GradientPlane) (c : img_comp) :
    (img_comp.do_diffLogged plane c).2 =
      if c.diff_set then [] else [(c.h_middle, c.v_middle, c.precision)] := by
  unfold img_comp.do_diffLogged GradientPlane.getDifferenceLogged
  split <;> rfl

theorem generate64_leaf (cache : DiffCache) (area : GradientCheck)
    (hleaf : area.isLeaf64 = true) :
    generate64 cache area = .ok (area.leafOffsets.map (leafComp cache)) := by
  simp [generate64, hleaf]

theorem generate64_nonleaf (cache : DiffCache) (area : GradientCheck) (gen : List img_comp)
    (hleaf : area.isLeaf64 = false) (hgen : generate64 cache area = .ok gen) :
    (gen = [] ∧ (area.amount = 0 ∨ area.samples64 = some [])) ∨
    (area.amount ≠ 0 ∧ ∃ smp u, area.samples64 = some smp ∧
      area.precision64.toUnsigned = some u ∧
      gen = smp.map (sampleComp cache area.precision64 u)) := by
  unfold generate64 at hgen
  simp only [hleaf, Bool.false_eq_true, if_false] at hgen
  by_cases ha : area.amount = 0
  · rw [if_pos ha] at hgen
    split at hgen
    · cases hgen
    · cases hgen
      exact Or.inl ⟨rfl, Or.inl ha⟩
  · rw [if_neg ha] at hgen
    cases hs : area.samples64 with
    | none => rw [hs] at hgen; cases hgen
    | some smp =>
      rw [hs] at hgen
      cases smp with
      | nil =>
        simp only at hgen
        cases hgen
        exact Or.inl ⟨rfl, Or.inr rfl⟩
      | cons s rest =>
        simp only at hgen
        cases hu : area.precision64.toUnsigned with
        | none => rw [hu] at hgen; cases hgen
        | some u =>
          rw [hu] at hgen
          simp only at hgen
          cases hgen
          exact Or.inr ⟨ha, s :: rest, u, rfl, rfl, rfl⟩

theorem generate64_error (cache : DiffCache) (area : GradientCheck) (e : Fault)
    (h : generate64 cache area = .error e) :
    (e = Fault.badConversion ∧ area.precision64.toUnsigned = none) ∨
    (e = Fault.outOfFuel ∧ area.amount ≠ 0 ∧ area.samples64 = none) ∨
    (e = Fault.nonTermination ∧ area.amount = 0 ∧ area.bottom < area.top) := by
  unfold generate64 at h
  split at h
  · cases h
  · by_cases ha : area.amount = 0
    · rw [if_pos ha] at h
      split at h
      · rename_i hb
        cases h
        exact Or.inr (Or.inr ⟨rfl, ha, by omega⟩)
      · cases h
    · rw [if_neg ha] at h
      cases hs : area.samples64 with
      | none =>
        rw [hs] at h
        cases h
        exact Or.inr (Or.inl ⟨rfl, ha, rfl⟩)
      | some smp =>
        rw [hs] at h
        cases smp with
        | nil => simp only at h; cases h
        | cons s rest =>
          simp only at h
          cases hu : area.precision64.toUnsigned with
          | none =>
            rw [hu] at h
            cases h
            exact Or.inl ⟨rfl, rfl⟩
          | some u => rw [hu] at h; cases h

theorem evaluate64_ok (plane : GradientPlane) (gen comps : List img_comp)
    (evals : List (Int × Int × Precision))
    (h : evaluate64 plane gen = .ok (comps, evals)) :
    gen ≠ [] ∧
    comps = (gen.map (img_comp.increasePrecision64 plane (maxChecked plane gen))).map
      (img_comp.do_diff plane) ∧
    evals = (gen.map (img_comp.increasePrecision64 plane (maxChecked plane gen))).flatMap
      (fun c => if c.diff_set then [] else [(c.h_middle, c.v_middle, c.precision)]) := by
  cases gen with
  | nil => simp [evaluate64] at h
  | cons c rest =>
    simp only [evaluate64, Except.ok.injEq, Prod.mk.injEq] at h
    obtain ⟨h1, h2⟩ := h
    refine ⟨by simp, ?_, ?_⟩
    · rw [← h1, List.map_map]
      apply List.map_congr_left
      intro a _
      exact do_diffLogged_fst plane a
    · rw [← h2, List.flatMap_map]
      congr 1
      funext a
      exact do_diffLogged_snd plane a

theorem evaluate64_error (plane : GradientPlane) (gen : List img_comp) (e : Fault)
    (h : evaluate64 plane gen = .error e) : e = Fault.emptyDereference ∧ gen = [] := by
  cases gen with
  | nil => simp only [evaluate64] at h; cases h; exact ⟨rfl, rfl⟩
  | cons c rest => simp [evaluate64] at h

theorem evaluate64_cons (plane : GradientPlane) (c : img_comp) (rest : List img_comp) :
    ∃ comps evals, evaluate64 plane (c :: rest) = .ok (comps, evals) :=
  ⟨_, _, rfl⟩

theorem roundComps64_ok (plane : GradientPlane) (cache : DiffCache) (area : GradientCheck)
    (comps : List img_comp) (evals : List (Int × Int × Precision))
    (h : roundComps64 plane cache area = .ok (comps, evals)) :
    ∃ gen, generate64 cache area = .ok gen ∧ evaluate64 plane gen = .ok (comps, evals) := by
  unfold roundComps64 at h
  cases hg : generate64 cache area with
  | error e => rw [hg] at h; cases h
  | ok gen => rw [hg] at h; exact ⟨gen, rfl, h⟩

theorem roundComps64_of_generate (plane : GradientPlane) (cache : DiffCache)
    (area : GradientCheck) (gen : List img_comp) (hg : generate64 cache area = .ok gen) :
    roundComps64 plane cache area = evaluate64 plane gen := by
  unfold roundComps64
  rw [hg]
  rfl

theorem roundComps64_error (plane : GradientPlane) (cache : DiffCache)
    (area : GradientCheck) (e : Fault) (h : roundComps64 plane cache area = .error e) :
    (e = Fault.badConversion ∧ area.precision64.toUnsigned = none) ∨
    (e = Fault.emptyDereference ∧ generate64 cache area = .ok []) ∨
    (e = Fault.outOfFuel ∧ area.amount ≠ 0 ∧ area.samples64 = none) ∨
    (e = Fault.nonTermination ∧ area.amount = 0 ∧ area.bottom < area.top) := by
  unfold roundComps64 at h
  cases hg : generate64 cache area with
  | error e1 =>
    rw [hg] at h
    cases h
    rcases generate64_error cache area e hg with h1 | h1 | h1
    · exact Or.inl h1
    · exact Or.inr (Or.inr (Or.inl h1))
    · exact Or.inr (Or.inr (Or.inr h1))
  | ok gen =>
    rw [hg] at h
    obtain ⟨h1, h2⟩ := evaluate64_error plane gen e h
    rw [h2]
    exact Or.inr (Or.inl ⟨h1, rfl⟩)

theorem increasePrecision64_fields (plane : GradientPlane) (m : Nat) (g : img_comp) :
    (img_comp.increasePrecision64 plane m g).area = g.area ∧
    (img_comp.increasePrecision64 plane m g).h_middle = g.h_middle ∧
    (img_comp.increasePrecision64 plane m g).v_middle = g.v_middle ∧
    (img_comp.increasePrecision64 plane m g).diff = g.diff ∧
    (img_comp.increasePrecision64 plane m g).diff_set = g.diff_set :=
  ⟨rfl, rfl, rfl, rfl, rfl⟩

theorem do_diff_fields (plane : GradientPlane) (g : img_comp) :
    (img_comp.do_diff plane g).area = g.area ∧
    (img_comp.do_diff plane g).h_middle = g.h_middle ∧
    (img_comp.do_diff plane g).v_middle = g.v_middle ∧
    (img_comp.do_diff plane g).precision = g.precision ∧
    (img_comp.do_diff plane g).diff_set = g.diff_set := by
  unfold img_comp.do_diff
  split <;> exact ⟨rfl, rfl, rfl, rfl, rfl⟩

/-- Where the candidates of a round in binary64 come from. -/
theorem roundComps64_mem (plane : GradientPlane) (cache : DiffCache)
    (area : GradientCheck) (comps : List img_comp) (evals : List (Int × Int × Precision))
    (c : img_comp) (h : roundComps64 plane cache area = .ok (comps, evals))
    (hc : c ∈ comps) :
    (area.isLeaf64 = true ∧ c.area = ⟨0, 0, 0, 0, 0⟩ ∧
      (c.h_middle, c.v_middle) ∈ area.leafOffsets) ∨
    (area.isLeaf64 = false ∧ ∃ smp, area.samples64 = some smp ∧ ∃ s ∈ smp,
      c.area = s.2.2 ∧ c.h_middle = s.1 ∧ c.v_middle = s.2.1) := by
  obtain ⟨gen, hg, he⟩ := roundComps64_ok plane cache area comps evals h
  rw [(evaluate64_ok plane gen comps evals he).2.1] at hc
  rw [List.mem_map] at hc
  obtain ⟨c1, hc1, rfl⟩ := hc
  rw [List.mem_map] at hc1
  obtain ⟨g, hgm, rfl⟩ := hc1
  obtain ⟨d1, d2, d3, _, _⟩ := do_diff_fields plane
    (img_comp.increasePrecision64 plane (maxChecked plane gen) g)
  obtain ⟨i1, i2, i3, _, _⟩ := increasePrecision64_fields plane (maxChecked plane gen) g
  rw [d1, d2, d3, i1, i2, i3]
  cases hleaf : area.isLeaf64 with
  | true =>
    left
    rw [generate64_leaf cache area hleaf] at hg
    cases hg
    rw [List.mem_map] at hgm
    obtain ⟨p, hp, rfl⟩ := hgm
    exact ⟨rfl, rfl, hp⟩
  | false =>
    right
    rcases generate64_nonleaf cache area gen hleaf hg with ⟨h0, _⟩ | ⟨_, smp, u, hs, _, h1⟩
    · rw [h0] at hgm; cases hgm
    · rw [h1, List.mem_map] at hgm
      obtain ⟨s, hs1, rfl⟩ := hgm
      exact ⟨rfl, smp, hs, s, hs1, rfl, rfl, rfl⟩

/-- The shape of a run in binary64 that returns. -/
theorem findMinimumFuel64_ok (plane : GradientPlane) (fuel : Nat) (cache : DiffCache)
    (area : GradientCheck) (run : Run64)
    (h : findMinimumFuel64 plane (fuel + 1) cache area = .ok run) :
    ∃ comps evals cache1, roundComps64 plane cache area = .ok (comps, evals) ∧
      addToCache cache comps = .ok cache1 ∧
      ((findBest comps = none ∧
          run = { result := ⟨0, 0, DOUBLE_MAX⟩, cache := cache1, calls := [area],
                  evals := evals }) ∨
       (∃ best, findBest comps = some best ∧ ¬ best.area.level > 0 ∧
          run = { result := ⟨best.h_middle, best.v_middle, best.diff⟩, cache := cache1,
                  calls := [area], evals := evals }) ∨
       (∃ best inner, findBest comps = some best ∧ best.area.level > 0 ∧
          findMinimumFuel64 plane fuel cache1 best.area = .ok inner ∧
          run = { inner with calls := area :: inner.calls,
                             evals := evals ++ inner.evals })) := by
  unfold findMinimumFuel64 at h
  cases hr : roundComps64 plane cache area with
  | error e => rw [hr] at h; cases h
  | ok pr =>
    obtain ⟨comps, evals⟩ := pr
    rw [hr] at h
    simp only at h
    cases ha : addToCache cache comps with
    | error e => rw [ha] at h; cases h
    | ok cache1 =>
      rw [ha] at h
      simp only at h
      refine ⟨comps, evals, cache1, rfl, ha, ?_⟩
      cases hb : findBest comps with
      | none =>
        rw [hb] at h
        simp only at h
        cases h
        exact Or.inl ⟨rfl, rfl⟩
      | some best =>
        rw [hb] at h
        simp only at h
        by_cases hlev : best.area.level > 0
        · rw [if_pos hlev] at h
          cases hi : findMinimumFuel64 plane fuel cache1 best.area with
          | error e => rw [hi] at h; cases h
          | ok inner =>
            rw [hi] at h
            simp only at h
            cases h
            exact Or.inr (Or.inr ⟨best, inner, rfl, hlev, hi, rfl⟩)
        · rw [if_neg hlev] at h
          cases h
          exact Or.inr (Or.inl ⟨best, rfl, hlev, rfl⟩)

theorem findMinimumFuel64_succ (plane : GradientPlane) :
    ∀ (fuel : Nat) (cache : DiffCache) (area : GradientCheck),
      findMinimumFuel64 plane fuel cache area ≠ .error Fault.outOfFuel →
      findMinimumFuel64 plane (fuel + 1) cache area =
        findMinimumFuel64 plane fuel cache area := by
  intro fuel
  induction fuel with
  | zero => intro cache area h; exact absurd rfl h
  | succ n ih =>
    intro cache area h
    rw [findMinimumFuel64] at h ⊢
    conv_rhs => rw [findMinimumFuel64]
    cases hr : roundComps64 plane cache area with
    | error e => rfl
    | ok pr =>
      obtain ⟨comps, evals⟩ := pr
      rw [hr] at h
      simp only at h ⊢
      cases ha : addToCache cache comps with
      | error e => rfl
      | ok cache1 =>
        rw [ha] at h
        simp only at h ⊢
        cases hb : findBest comps with
        | none => rfl
        | some best =>
          rw [hb] at h
          simp only at h ⊢
          by_cases hlev : best.area.level > 0
          · rw [if_pos hlev] at h ⊢
            rw [if_pos hlev]
            have hne : findMinimumFuel64 plane n cache1 best.area
                ≠ .error Fault.outOfFuel := by
              intro hc
              rw [hc] at h
              exact h rfl
            rw [ih cache1 best.area hne]
          · rw [if_neg hlev, if_neg hlev]

theorem findMinimumFuel64_add (plane : GradientPlane) (fuel : Nat) (cache : DiffCache)
    (area : GradientCheck)
    (h : findMinimumFuel64 plane fuel cache area ≠ .error Fault.outOfFuel) (n : Nat) :
    findMinimumFuel64 plane (fuel + n) cache area =
      findMinimumFuel64 plane fuel cache area := by
  induction n with
  | zero => rfl
  | succ m ih =>
    rw [← Nat.add_assoc,
      findMinimumFuel64_succ plane (fuel + m) cache area (by rw [ih]; exact h), ih]

/-! ## Termination in binary64 -/

theorem hasRoom_of_inRange (area : GradientCheck) (hw : area.left ≤ area.right)
    (ht : area.top ≤ area.bottom) (hr : area.inRange) : area.hasRoom (2 ^ 29) := by
  obtain ⟨a1, a2, a3, a4, a5, a6, a7, a8, a9, a10⟩ := hr
  refine ⟨by norm_num, ⟨a1, a2, a3, a4, a5, a6, a7, a8⟩, ?_, ?_, ?_, ?_⟩ <;> omega

theorem edgesWithin_of_hasRoom (area : GradientCheck) (B : Int)
    (hw : area.left ≤ area.right) (ht : area.top ≤ area.bottom) (h : area.hasRoom B) :
    area.edgesWithin (2 ^ 30) ∧ area.level ≤ 2 ^ 30 - 2 := by
  obtain ⟨h0, ⟨b1, b2, b3, b4, b5, b6, b7, b8⟩, h1, h2, h3, h4⟩ := h
  refine ⟨⟨?_, ?_, ?_, ?_, ?_, ?_, ?_, ?_⟩, ?_⟩ <;> omega

theorem sides_of_hasRoom (area : GradientCheck) (B : Int) (h : area.hasRoom B) :
    area.right - area.left < 2 ^ 31 ∧ area.bottom - area.top < 2 ^ 31 := by
  obtain ⟨h0, ⟨b1, b2, b3, b4, b5, b6, b7, b8⟩, h1, h2, h3, h4⟩ := h
  constructor <;> omega

theorem edgesWithin_mono (area : GradientCheck) (B C : Int) (h : area.edgesWithin B)
    (hBC : B ≤ C) : area.edgesWithin C := by
  obtain ⟨b1, b2, b3, b4, b5, b6, b7, b8⟩ := h
  refine ⟨?_, ?_, ?_, ?_, ?_, ?_, ?_, ?_⟩ <;> omega

/-- One step `fl( d / amount )` of a side `d ≥ 0` for `amount ≥ 6`: it is not negative
and at most `e = ⌈d / 6⌉`. -/
theorem step64_bounds (d amount : Int) (hd : 0 ≤ d) (hdb : d ≤ 2 ^ 40) (ha : 6 ≤ amount) :
    0 ≤ fl ((d : ℚ) / (amount : ℚ)) ∧
    ∃ e : Int, 0 ≤ e ∧ 6 * e ≤ d + 5 ∧ e ≤ 2 ^ 40 ∧ fl ((d : ℚ) / (amount : ℚ)) ≤ (e : ℚ) := by
  have hdq : (0 : ℚ) ≤ (d : ℚ) := by exact_mod_cast hd
  have haq : (6 : ℚ) ≤ (amount : ℚ) := by exact_mod_cast ha
  have hq0 : (0 : ℚ) ≤ (d : ℚ) / (amount : ℚ) := div_nonneg hdq (by linarith)
  refine ⟨fl_nonneg _ hq0, (d + 5) / 6, by omega, by omega, by omega, ?_⟩
  apply fl_le_of_le_intCast
  · rw [abs_le]; constructor <;> omega
  · have h1 : (d : ℚ) / (amount : ℚ) ≤ (d : ℚ) / 6 :=
      div_le_div_of_nonneg_left hdq (by norm_num) haq
    have h2 : d ≤ 6 * ((d + 5) / 6) := by omega
    have h3 : (d : ℚ) ≤ 6 * (((d + 5) / 6 : Int) : ℚ) := by exact_mod_cast h2
    linarith

/-- One axis of a sub-area in binary64: the interval
`[floor( fl( i-off ) ), ceil( fl( i+off ) )]` around a position `i` of `[lo, hi]`, for a
step `0 ≤ off ≤ e`. -/
theorem subrange64_bounds (lo hi e : Int) (i off : ℚ) (hlo : |lo| ≤ 2 ^ 40)
    (hhi : |hi| ≤ 2 ^ 40) (he0 : 0 ≤ e) (he : e ≤ 2 ^ 40) (hi1 : (lo : ℚ) ≤ i)
    (hi2 : i ≤ (hi : ℚ)) (hoff0 : 0 ≤ off) (hoff : off ≤ (e : ℚ)) :
    lo - e ≤ ⌊fl (i - off)⌋ ∧ ⌈fl (i + off)⌉ ≤ hi + e ∧
    ⌊fl (i - off)⌋ ≤ ⌈fl (i + off)⌉ ∧ ⌈fl (i + off)⌉ - ⌊fl (i - off)⌋ ≤ 1 + 2 * e := by
  have hlo2 := abs_le.mp hlo
  have hhi2 := abs_le.mp hhi
  have hlohi : lo ≤ hi := by
    have : (lo : ℚ) ≤ (hi : ℚ) := le_trans hi1 hi2
    exact_mod_cast this
  have hfl1 : lo ≤ ⌊i⌋ := Int.le_floor.mpr hi1
  have hfl2 : ⌊i⌋ ≤ hi := by
    have : ((⌊i⌋ : Int) : ℚ) ≤ (hi : ℚ) := le_trans (Int.floor_le i) hi2
    exact_mod_cast this
  have hce1 : ⌈i⌉ ≤ hi := Int.ceil_le.mpr hi2
  have hce2 : ⌈i⌉ ≤ ⌊i⌋ + 1 := Int.ceil_le_floor_add_one i
  have hce0 : ⌊i⌋ ≤ ⌈i⌉ := Int.floor_le_ceil i
  have p1 : ((⌊i⌋ - e : Int) : ℚ) ≤ fl (i - off) := by
    apply le_fl_of_intCast_le
    · rw [abs_le]; constructor <;> omega
    · push_cast
      have := Int.floor_le i
      linarith
  have p2 : fl (i + off) ≤ ((⌈i⌉ + e : Int) : ℚ) := by
    apply fl_le_of_le_intCast
    · rw [abs_le]; constructor <;> omega
    · push_cast
      have := Int.le_ceil i
      linarith
  have q1 : ⌊i⌋ - e ≤ ⌊fl (i - off)⌋ := Int.le_floor.mpr p1
  have q2 : ⌈fl (i + off)⌉ ≤ ⌈i⌉ + e := Int.ceil_le.mpr p2
  have q3 : ⌊fl (i - off)⌋ ≤ ⌈fl (i + off)⌉ := by
    have m : fl (i - off) ≤ fl (i + off) := fl_mono (by linarith)
    have : ((⌊fl (i - off)⌋ : Int) : ℚ) ≤ ((⌈fl (i + off)⌉ : Int) : ℚ) :=
      le_trans (Int.floor_le _) (le_trans m (Int.le_ceil _))
    exact_mod_cast this
  refine ⟨by omega, by omega, q3, by omega⟩

theorem sample64_eq_some (area : GradientCheck) (iy ix : ℚ) (s : Int × Int × GradientCheck)
    (h : area.sample64 iy ix = some s) :
    s.1 = roundHalfAway64 ix ∧ s.2.1 = roundHalfAway64 iy ∧
    ¬ (s.1 = area.right ∧ s.1 ≠ area.left) ∧ ¬ (s.2.1 = area.bottom ∧ s.2.1 ≠ area.top) ∧
    s.2.2 = { left := ⌊fl (ix - area.h_offset64)⌋, right := ⌈fl (ix + area.h_offset64)⌉,
              top := ⌊fl (iy - area.v_offset64)⌋, bottom := ⌈fl (iy + area.v_offset64)⌉,
              level := area.subLevel } := by
  unfold GradientCheck.sample64 at h
  simp only at h
  split at h
  · cases h
  · rename_i hskip
    cases h
    push_neg at hskip
    refine ⟨rfl, rfl, ?_, ?_, rfl⟩
    · rintro ⟨h1, h2⟩; exact h2 (hskip.1 h1)
    · rintro ⟨h1, h2⟩; exact h2 (hskip.2 h1)

theorem h_add64_ge_one (area : GradientCheck) : 1 ≤ area.h_add64 := by
  unfold GradientCheck.h_add64
  split
  · exact le_refl _
  · rename_i h; exact not_lt.mp h

theorem v_add64_ge_one (area : GradientCheck) : 1 ≤ area.v_add64 := by
  unfold GradientCheck.v_add64
  split
  · exact le_refl _
  · rename_i h; exact not_lt.mp h

theorem offsets64_nonneg (area : GradientCheck) (hw : area.left ≤ area.right)
    (ht : area.top ≤ area.bottom) (ha : 0 < area.amount) :
    0 ≤ area.h_offset64 ∧ 0 ≤ area.v_offset64 := by
  have haq : (0 : ℚ) < (area.amount : ℚ) := by exact_mod_cast ha
  constructor
  · apply fl_nonneg
    apply div_nonneg _ haq.le
    have : 0 ≤ area.right - area.left := by omega
    exact_mod_cast this
  · apply fl_nonneg
    apply div_nonneg _ haq.le
    have : 0 ≤ area.bottom - area.top := by omega
    exact_mod_cast this

/-- The two loops of the recursive case end in binary64, and every sample they make is
the body of the inner loop at a position inside the region. -/
theorem samples64_some (area : GradientCheck) (hw : area.left ≤ area.right)
    (ht : area.top ≤ area.bottom) (ha : 0 < area.amount)
    (hb : area.edgesWithin (2 ^ 40)) :
    ∃ smp, area.samples64 = some smp ∧
      ∀ s ∈ smp, ∃ iy ix : ℚ, (area.top : ℚ) ≤ iy ∧ iy ≤ (area.bottom : ℚ) ∧
        (area.left : ℚ) ≤ ix ∧ ix ≤ (area.right : ℚ) ∧ area.sample64 iy ix = some s := by
  obtain ⟨b1, b2, b3, b4, b5, b6, b7, b8⟩ := hb
  obtain ⟨hh0, hv0⟩ := offsets64_nonneg area hw ht ha
  have c52 : ∀ n : Int, -2 ^ 40 ≤ n → n ≤ 2 ^ 40 → |n| ≤ 2 ^ 52 := by
    intro n h1 h2
    rw [abs_le]; constructor <;> omega
  have c53 : ∀ n : Int, -2 ^ 40 ≤ n → n ≤ 2 ^ 40 → |n| ≤ 2 ^ 53 := by
    intro n h1 h2
    rw [abs_le]; constructor <;> omega
  have sv : (area.top : ℚ) ≤ fl ((area.top : ℚ) + area.v_offset64) :=
    le_fl_of_intCast_le _ _ (c53 _ b5 b6) (by linarith)
  have sh : (area.left : ℚ) ≤ fl ((area.left : ℚ) + area.h_offset64) :=
    le_fl_of_intCast_le _ _ (c53 _ b1 b2) (by linarith)
  obtain ⟨rows, hrows, mrows⟩ := doubleRange64_terminates
    (fl ((area.top : ℚ) + area.v_offset64)) area.v_add64 area.bottom area.top
    (v_add64_ge_one area) (c52 _ b5 b6) (c52 _ b7 b8) sv
  obtain ⟨cols, hcols, mcols⟩ := doubleRange64_terminates
    (fl ((area.left : ℚ) + area.h_offset64)) area.h_add64 area.right area.left
    (h_add64_ge_one area) (c52 _ b1 b2) (c52 _ b3 b4) sh
  unfold GradientCheck.samples64
  rw [hrows]
  cases rows with
  | nil => exact ⟨[], rfl, by simp⟩
  | cons iy rest =>
    simp only [hcols]
    refine ⟨_, rfl, ?_⟩
    intro s hs
    rw [List.mem_flatMap] at hs
    obtain ⟨jy, hjy, hs⟩ := hs
    rw [List.mem_filterMap] at hs
    obtain ⟨ix, hix, hs⟩ := hs
    exact ⟨jy, ix, (mrows jy hjy).1, (mrows jy hjy).2, (mcols ix hix).1, (mcols ix hix).2, hs⟩

/-- Above level 1 every sample of a well-formed region carries a well-formed sub-area of
the level below, which reaches out of the region by at most a sixth of a side, rounded
up, and is at most two units wider and higher. -/
theorem sample64_general (area : GradientCheck) (B : Int) (hw : area.left ≤ area.right)
    (ht : area.top ≤ area.bottom) (hl : 2 ≤ area.level) (hroom : area.hasRoom B)
    (smp : List (Int × Int × GradientCheck)) (hsmp : area.samples64 = some smp)
    (s : Int × Int × GradientCheck) (hs : s ∈ smp) :
    s.2.2.left ≤ s.2.2.right ∧ s.2.2.top ≤ s.2.2.bottom ∧ s.2.2.level = area.level - 1 ∧
    (∃ C, s.2.2.hasRoom C) ∧
    s.2.2.right - s.2.2.left ≤ area.right - area.left + 2 ∧
    s.2.2.bottom - s.2.2.top ≤ area.bottom - area.top + 2 := by
  obtain ⟨hB0, ⟨b1, b2, b3, b4, b5, b6, b7, b8⟩, r1, r2, r3, r4⟩ := hroom
  have hamt : 6 ≤ area.amount := by unfold GradientCheck.amount; omega
  have hb40 : area.edgesWithin (2 ^ 40) := by
    refine ⟨?_, ?_, ?_, ?_, ?_, ?_, ?_, ?_⟩ <;> omega
  obtain ⟨smp2, hsmp2, hmem⟩ := samples64_some area hw ht (by omega) hb40
  rw [hsmp] at hsmp2
  cases hsmp2
  obtain ⟨iy, ix, y1, y2, x1, x2, hsample⟩ := hmem s hs
  obtain ⟨_, _, _, _, hsub⟩ := sample64_eq_some area iy ix s hsample
  obtain ⟨hh0, ex, ex0, ex6, exb, hex⟩ := step64_bounds (area.right - area.left)
    area.amount (by omega) (by omega) hamt
  obtain ⟨hv0, ey, ey0, ey6, eyb, hey⟩ := step64_bounds (area.bottom - area.top)
    area.amount (by omega) (by omega) hamt
  have c40 : ∀ n : Int, -B ≤ n → n ≤ B → |n| ≤ 2 ^ 40 := by
    intro n h1 h2
    rw [abs_le]; constructor <;> omega
  obtain ⟨px1, px2, px3, px4⟩ := subrange64_bounds area.left area.right ex ix
    area.h_offset64 (c40 _ b1 b2) (c40 _ b3 b4) ex0 exb x1 x2 hh0 hex
  obtain ⟨py1, py2, py3, py4⟩ := subrange64_bounds area.top area.bottom ey iy
    area.v_offset64 (c40 _ b5 b6) (c40 _ b7 b8) ey0 eyb y1 y2 hv0 hey
  have hsl : area.subLevel = area.level - 1 := by
    unfold GradientCheck.subLevel
    rw [if_pos (by omega)]
  rw [hsub]
  simp only
  refine ⟨px3, py3, hsl, ?_, by omega, by omega⟩
  rw [hsl]
  refine ⟨B + max ex ey, ?_⟩
  have m1 : ex ≤ max ex ey := le_max_left _ _
  have m2 : ey ≤ max ex ey := le_max_right _ _
  have m3 : max ex ey = ex ∨ max ex ey = ey := by
    rcases le_total ex ey with h | h
    · right; exact max_eq_right h
    · left; exact max_eq_left h
  generalize max ex ey = m at m1 m2 m3
  refine ⟨by omega, ⟨?_, ?_, ?_, ?_, ?_, ?_, ?_, ?_⟩, ?_, ?_, ?_, ?_⟩ <;>
    simp only <;> rcases m3 with h | h <;> omega

theorem amount_low (area : GradientCheck) (h0 : 0 ≤ area.level) (h1 : area.level ≤ 1) :
    area.amount = 2 ∨ area.amount = 4 := by
  unfold GradientCheck.amount; omega

/-- A well-formed region with a negative `amount` is scanned: both steps are at most 0. -/
theorem nonleaf64_level_nonneg (area : GradientCheck)
    (hw : area.left ≤ area.right) (ht : area.top ≤ area.bottom)
    (hamount : area.amount ≠ 0) (hleaf : area.isLeaf64 = false) : 0 ≤ area.level := by
  by_contra hneg
  have hlt : area.amount < 0 := by
    unfold GradientCheck.amount at hamount ⊢; omega
  have hq : (area.amount : ℚ) ≤ 0 := by exact_mod_cast le_of_lt hlt
  have hwq : (0 : ℚ) ≤ ((area.right - area.left : Int) : ℚ) := by
    have : (0 : Int) ≤ area.right - area.left := by omega
    exact_mod_cast this
  have htq : (0 : ℚ) ≤ ((area.bottom - area.top : Int) : ℚ) := by
    have : (0 : Int) ≤ area.bottom - area.top := by omega
    exact_mod_cast this
  have h1 : area.h_offset64 ≤ 0 := fl_nonpos _ (div_nonpos_of_nonneg_of_nonpos hwq hq)
  have h2 : area.v_offset64 ≤ 0 := fl_nonpos _ (div_nonpos_of_nonneg_of_nonpos htq hq)
  unfold GradientCheck.isLeaf64 at hleaf
  rw [if_neg hamount] at hleaf
  have e1 : area.h_offset64 < 1 := by linarith
  have e2 : area.v_offset64 < 1 := by linarith
  simp [e1, e2] at hleaf

/-- At levels 0 and 1 every sample made in binary64 has its offset and its sub-area
inside the region; the sub-area is well-formed, of level 1, and its bound on the nesting
depth is smaller. -/
theorem sample64_low (area : GradientCheck) (hw : area.left ≤ area.right)
    (ht : area.top ≤ area.bottom) (h0 : 0 ≤ area.level) (h1 : area.level ≤ 1)
    (hb : area.edgesWithin (2 ^ 31)) (hleaf : area.isLeaf64 = false)
    (smp : List (Int × Int × GradientCheck)) (hsmp : area.samples64 = some smp)
    (s : Int × Int × GradientCheck) (hs : s ∈ smp) :
    smp = area.samples ∧
    (area.left ≤ s.1 ∧ s.1 ≤ area.right ∧ area.top ≤ s.2.1 ∧ s.2.1 ≤ area.bottom) ∧
    (area.left ≤ s.2.2.left ∧ s.2.2.right ≤ area.right ∧
      area.top ≤ s.2.2.top ∧ s.2.2.bottom ≤ area.bottom) ∧
    s.2.2.left ≤ s.2.2.right ∧ s.2.2.top ≤ s.2.2.bottom ∧ s.2.2.level = 1 ∧
    s.2.2.depthBound < area.depthBound := by
  have ha := amount_low area h0 h1
  have hex := samples64_exact area ha hb
  rw [hsmp] at hex
  cases hex
  have hleaf2 : area.isLeaf = false := by
    rw [← isLeaf64_exact area ha hb]; exact hleaf
  obtain ⟨i1, i2⟩ := sample_inside area s hw ht h0 hs
  obtain ⟨d1, d2, d3, _, d5⟩ := sample_decreases area s hw ht h0 hleaf2 hs
  have hsl : area.subLevel = 1 := by
    unfold GradientCheck.subLevel
    rw [if_neg (by omega)]
  exact ⟨rfl, i1, i2, d1, d2, by rw [d3, hsl], d5⟩

/-- The winner of a round in binary64 of a well-formed region with room, when the search
recurses into it. -/
theorem best64_decreases (plane : GradientPlane) (cache : DiffCache) (area : GradientCheck)
    (comps : List img_comp) (evals : List (Int × Int × Precision)) (best : img_comp)
    (B : Int) (hw : area.left ≤ area.right) (ht : area.top ≤ area.bottom)
    (hl : 0 ≤ area.level) (hroom : area.hasRoom B)
    (hr : roundComps64 plane cache area = .ok (comps, evals))
    (hb : findBest comps = some best) (hlev : best.area.level > 0) :
    best.area.left ≤ best.area.right ∧ best.area.top ≤ best.area.bottom ∧
    1 ≤ best.area.level ∧ best.area.level = area.subLevel ∧ (∃ C, best.area.hasRoom C) ∧
    best.area.fuel64 < area.fuel64 := by
  rcases roundComps64_mem plane cache area comps evals best hr
      (mem_of_findBest comps best hb) with
    ⟨_, h0, _⟩ | ⟨hleaf, smp, hsmp, s, hs, hsa, _, _⟩
  · rw [h0] at hlev
    exact absurd hlev (by decide)
  · rw [hsa]
    by_cases h2 : 2 ≤ area.level
    · obtain ⟨g1, g2, g3, g4, g5, g6⟩ :=
        sample64_general area B hw ht h2 hroom smp hsmp s hs
      have hsl : area.subLevel = area.level - 1 := by
        unfold GradientCheck.subLevel
        rw [if_pos (by omega)]
      have fa : area.fuel64 = 2 * ((area.right - area.left).toNat
          + (area.bottom - area.top).toNat + 4 * area.level.toNat)
          + area.level.toNat + 2 := by
        unfold GradientCheck.fuel64
        rw [if_neg (by omega)]
      refine ⟨g1, g2, by rw [g3]; omega, by rw [g3, hsl], g4, ?_⟩
      rw [fa]
      unfold GradientCheck.fuel64 GradientCheck.depthBound
      rw [g3]
      by_cases h3 : area.level - 1 ≤ 1
      · rw [if_pos h3, if_neg (by omega)]
        omega
      · rw [if_neg h3]
        omega
    · have hb31 : area.edgesWithin (2 ^ 31) :=
        edgesWithin_mono area _ _ (edgesWithin_of_hasRoom area B hw ht hroom).1
          (by norm_num)
      obtain ⟨_, _, ⟨i1, i2, i3, i4⟩, w1, w2, l1, dd⟩ :=
        sample64_low area hw ht hl (by omega) hb31 hleaf smp hsmp s hs
      have hsl : area.subLevel = 1 := by
        unfold GradientCheck.subLevel
        rw [if_neg (by omega)]
      refine ⟨w1, w2, by rw [l1], by rw [l1, hsl], ⟨B, ?_⟩, ?_⟩
      · obtain ⟨hB0, ⟨b1, b2, b3, b4, b5, b6, b7, b8⟩, r1, r2, r3, r4⟩ := hroom
        refine ⟨hB0, ⟨?_, ?_, ?_, ?_, ?_, ?_, ?_, ?_⟩, ?_, ?_, ?_, ?_⟩ <;> omega
      · have fa : area.fuel64 = area.depthBound := by
          unfold GradientCheck.fuel64
          rw [if_pos (by omega)]
        have fs : s.2.2.fuel64 = s.2.2.depthBound := by
          unfold GradientCheck.fuel64
          rw [if_pos (by omega)]
        rw [fa, fs]
        exact dd

theorem fuel64_pos (area : GradientCheck) : 1 ≤ area.fuel64 := by
  unfold GradientCheck.fuel64 GradientCheck.depthBound
  split <;> omega

/-- With `fuel64` nested invocations the search in binary64 neither exhausts them nor
enters an endless loop. -/
theorem findMinimumFuel64_enough (plane : GradientPlane) :
    ∀ (fuel : Nat) (cache : DiffCache) (area : GradientCheck) (B : Int),
      area.left ≤ area.right → area.top ≤ area.bottom → 0 ≤ area.level →
      area.hasRoom B → area.fuel64 ≤ fuel →
      findMinimumFuel64 plane fuel cache area ≠ .error Fault.outOfFuel ∧
      findMinimumFuel64 plane fuel cache area ≠ .error Fault.nonTermination := by
  intro fuel
  induction fuel with
  | zero =>
    intro cache area B _ _ _ _ hf
    have := fuel64_pos area
    omega
  | succ n ih =>
    intro cache area B hw ht hl hroom hf
    unfold findMinimumFuel64
    cases hr : roundComps64 plane cache area with
    | error e =>
      simp only
      have hamount : 0 < area.amount := by unfold GradientCheck.amount; omega
      rcases roundComps64_error plane cache area e hr with
        ⟨h, _⟩ | ⟨h, _⟩ | ⟨_, _, h⟩ | ⟨_, h, _⟩
      · rw [h]; exact ⟨by decide, by decide⟩
      · rw [h]; exact ⟨by decide, by decide⟩
      · obtain ⟨smp, hsmp, _⟩ := samples64_some area hw ht hamount
          (edgesWithin_mono area _ _ (edgesWithin_of_hasRoom area B hw ht hroom).1
            (by norm_num))
        rw [hsmp] at h
        cases h
      · omega
    | ok pr =>
      obtain ⟨comps, evals⟩ := pr
      simp only
      cases ha : addToCache cache comps with
      | error e =>
        simp only
        rw [addToCache_error comps cache e ha]
        exact ⟨by decide, by decide⟩
      | ok cache1 =>
        simp only
        cases hb : findBest comps with
        | none => exact ⟨by simp, by simp⟩
        | some best =>
          simp only
          by_cases hlev : best.area.level > 0
          · rw [if_pos hlev]
            obtain ⟨h1, h2, h3, _, ⟨C, h4⟩, h5⟩ :=
              best64_decreases plane cache area comps evals best B hw ht hl hroom hr hb hlev
            have hih := ih cache1 best.area C h1 h2 (by omega) h4 (by omega)
            cases hi : findMinimumFuel64 plane n cache1 best.area with
            | error e =>
              rw [hi] at hih
              simp only
              exact hih
            | ok inner => exact ⟨by simp, by simp⟩
          · rw [if_neg hlev]
            exact ⟨by simp, by simp⟩

/-- The regions of the nested invocations of a run in binary64 stay well-formed, with edges
within `2^30` of zero, sides below `2^31` and a level of at most `2^30 - 2`: the `int`
arithmetic of the source is exact on them. -/
theorem calls64_inRange (plane : GradientPlane) :
    ∀ (fuel : Nat) (cache : DiffCache) (area : GradientCheck) (B : Int) (run : Run64),
      area.left ≤ area.right → area.top ≤ area.bottom → 0 ≤ area.level →
      area.hasRoom B → findMinimumFuel64 plane fuel cache area = .ok run →
      ∀ a ∈ run.calls, a.left ≤ a.right ∧ a.top ≤ a.bottom ∧ 0 ≤ a.level ∧
        a.edgesWithin (2 ^ 30) ∧ a.right - a.left < 2 ^ 31 ∧ a.bottom - a.top < 2 ^ 31 ∧
        a.level ≤ 2 ^ 30 - 2 := by
  intro fuel
  induction fuel with
  | zero => intro cache area B run _ _ _ _ h; simp [findMinimumFuel64] at h
  | succ n ih =>
    intro cache area B run hw ht hl hroom h
    have hself := edgesWithin_of_hasRoom area B hw ht hroom
    have hside := sides_of_hasRoom area B hroom
    obtain ⟨comps, evals, cache1, hr, _, hcase⟩ :=
      findMinimumFuel64_ok plane n cache area run h
    rcases hcase with ⟨_, hrun⟩ | ⟨best, hb, _, hrun⟩ | ⟨best, inner, hb, hlev, hi, hrun⟩
    · rw [hrun]
      intro a ha
      simp only [List.mem_singleton] at ha
      rw [ha]; exact ⟨hw, ht, hl, hself.1, hside.1, hside.2, hself.2⟩
    · rw [hrun]
      intro a ha
      simp only [List.mem_singleton] at ha
      rw [ha]; exact ⟨hw, ht, hl, hself.1, hside.1, hside.2, hself.2⟩
    · obtain ⟨h1, h2, h3, _, ⟨C, h4⟩, _⟩ :=
        best64_decreases plane cache area comps evals best B hw ht hl hroom hr hb hlev
      have := ih cache1 best.area C inner h1 h2 (by omega) h4 hi
      rw [hrun]
      intro a ha
      simp only [List.mem_cons] at ha
      rcases ha with ha | ha
      · rw [ha]; exact ⟨hw, ht, hl, hself.1, hside.1, hside.2, hself.2⟩
      · exact this a ha

/-! ## Precisions in binary64 -/

theorem max1_ofDouble (x : ℚ) (hx : 0 ≤ x) :
    (Precision.ofDouble x).max1 = Precision.ofDouble (max x 1) := by
  show Precision.root (max (x * x) 1) = Precision.root (max x 1 * max x 1)
  congr 1
  rcases le_total x 1 with h | h
  · rw [max_eq_right h, max_eq_right (by nlinarith)]
    norm_num
  · rw [max_eq_left h, max_eq_left (by nlinarith)]

theorem ofDouble_le (x y : ℚ) (hx : 0 ≤ x) (hy : 0 ≤ y) :
    (Precision.ofDouble x).le (Precision.ofDouble y) = true ↔ x ≤ y := by
  show decide (x * x ≤ y * y) = true ↔ x ≤ y
  rw [decide_eq_true_iff]
  constructor
  · intro h
    by_contra hc
    push_neg at hc
    nlinarith
  · intro h
    nlinarith

theorem ofDouble_one : Precision.ofDouble 1 = Precision.root 1 := by
  show Precision.root (1 * 1) = Precision.root 1
  norm_num

theorem toUnsigned_ofDouble_some (x : ℚ) (hx : 0 ≤ x) (hlt : x < 2 ^ 32) :
    (Precision.ofDouble x).toUnsigned = some ⌊x⌋₊ := by
  rw [toUnsigned_ofDouble x hx, if_pos]
  rw [Nat.floor_lt hx]
  exact_mod_cast hlt

/-- The quotient `p / (max_checked / checked)` in binary64 for a precision `p ≥ 0` that
is a binary64 number and overlaps `0 < checked ≤ max_checked`: it lies between 0 and
`p`, and it is `p` when the overlap is the largest. -/
theorem quot64_bounds (p : ℚ) (m own : Nat) (hp : 0 ≤ p) (hfp : fl p = p) (hown : 0 < own)
    (hle : own ≤ m) :
    0 ≤ fl (p / fl ((m : ℚ) / (own : ℚ))) ∧ fl (p / fl ((m : ℚ) / (own : ℚ))) ≤ p ∧
    (own = m → fl (p / fl ((m : ℚ) / (own : ℚ))) = p) := by
  have hoq : (0 : ℚ) < (own : ℚ) := by exact_mod_cast hown
  have hmq : (own : ℚ) ≤ (m : ℚ) := by exact_mod_cast hle
  have hq1 : (1 : ℚ) ≤ (m : ℚ) / (own : ℚ) := by
    rw [le_div_iff₀ hoq]; linarith
  have hq : (1 : ℚ) ≤ fl ((m : ℚ) / (own : ℚ)) := by
    have := le_fl_of_intCast_le ((m : ℚ) / (own : ℚ)) 1 (by norm_num) (by simpa using hq1)
    simpa using this
  have hdiv0 : 0 ≤ p / fl ((m : ℚ) / (own : ℚ)) := div_nonneg hp (by linarith)
  have hdivle : p / fl ((m : ℚ) / (own : ℚ)) ≤ p := div_le_self hp hq
  refine ⟨fl_nonneg _ hdiv0, ?_, ?_⟩
  · have := fl_mono hdivle
    rwa [hfp] at this
  · intro heq
    rw [heq, div_self (ne_of_gt (by rw [← heq]; exact hoq)), fl_one, div_one, hfp]

/-- The precision after `increasePrecision` in binary64, for a candidate of precision
`p ≥ 0` in a round whose largest overlap is not zero. -/
theorem increasePrecision64_ofDouble (plane : GradientPlane) (m : Nat) (c : img_comp)
    (p : ℚ) (hc : c.precision = Precision.ofDouble p) (hp : 0 ≤ p) (hm : 0 < m) :
    (c.increasePrecision64 plane m).precision = Precision.ofDouble
      (max (if c.checkedPercentage plane = 0 then 0
        else fl (p / fl ((m : ℚ) / ((c.checkedPercentage plane : Nat) : ℚ)))) 1) := by
  have hm0 : m ≠ 0 := by omega
  unfold img_comp.increasePrecision64
  simp only [hc]
  unfold Precision.ofDouble Precision.divQuot64
  simp only
  by_cases h0 : c.checkedPercentage plane = 0
  · rw [if_pos h0, if_neg hm0, if_pos h0]
    exact max1_ofDouble 0 (le_refl _)
  · rw [if_neg h0, if_neg hm0, if_neg h0]
    have hq : qsqrt (p * p) = p := qsqrt_mul_self p hp
    rw [hq]
    have hoq : (0 : ℚ) < ((c.checkedPercentage plane : Nat) : ℚ) := by
      have : 0 < c.checkedPercentage plane := Nat.pos_of_ne_zero h0
      exact_mod_cast this
    have hmq : (0 : ℚ) < (m : ℚ) := by exact_mod_cast hm
    have hq0 : (0 : ℚ) ≤ fl ((m : ℚ) / ((c.checkedPercentage plane : Nat) : ℚ)) :=
      fl_nonneg _ (div_nonneg hmq.le hoq.le)
    exact max1_ofDouble _ (fl_nonneg _ (div_nonneg hp hq0))

/-- The precision of the recursive case in binary64 for a well-formed region: a binary64
number between 0 and `2^16`. -/
theorem precision64_ofDouble (area : GradientCheck) (hw : area.left ≤ area.right)
    (ht : area.top ≤ area.bottom) (ha : 0 < area.amount)
    (hb : area.edgesWithin (2 ^ 30)) :
    ∃ p : ℚ, 0 ≤ p ∧ p ≤ 2 ^ 16 ∧ fl p = p ∧ area.precision64 = Precision.ofDouble p := by
  obtain ⟨b1, b2, b3, b4, b5, b6, b7, b8⟩ := hb
  obtain ⟨hh0, hv0⟩ := offsets64_nonneg area hw ht ha
  have haq : (1 : ℚ) ≤ (area.amount : ℚ) := by
    have : 1 ≤ area.amount := by omega
    exact_mod_cast this
  have key : ∀ d : Int, 0 ≤ d → d ≤ 2 ^ 31 →
      fl ((d : ℚ) / (area.amount : ℚ)) < 2 ^ 32 := by
    intro d hd0 hd
    have hdq : (0 : ℚ) ≤ (d : ℚ) := by exact_mod_cast hd0
    have h1 : (d : ℚ) / (area.amount : ℚ) ≤ (d : ℚ) := div_le_self hdq haq
    have h2 := fl_le_of_le_intCast _ d (by rw [abs_le]; constructor <;> omega) h1
    have h3 : (d : ℚ) ≤ 2 ^ 31 := by exact_mod_cast hd
    linarith
  have hh1 : area.h_offset64 < 2 ^ 32 := key _ (by omega) (by omega)
  have hv1 : area.v_offset64 < 2 ^ 32 := key _ (by omega) (by omega)
  have fin : ∀ v : ℚ, 0 ≤ v → v < 2 ^ 32 →
      ∃ p : ℚ, 0 ≤ p ∧ p ≤ 2 ^ 16 ∧ fl p = p ∧ Precision.sqrt64 v = Precision.ofDouble p := by
    intro v hv0 hv1
    obtain ⟨f1, f2, f3⟩ := fsqrt_bounds v hv0 hv1
    refine ⟨fsqrt v, f1, f2, f3, ?_⟩
    unfold Precision.sqrt64
    rw [if_neg (not_lt.mpr hv0)]
  unfold GradientCheck.precision64
  simp only
  split
  · exact fin _ (le_max_of_le_left hh0) (max_lt hh1 hv1)
  · exact fin _ (le_min hh0 hv0) (lt_of_le_of_lt (min_le_left _ _) hh1)

/-- The candidates generated in binary64 for a well-formed region: each carries a
precision that is a binary64 number between 0 and `2^16`, and is seeded from the cache
at its offset. -/
theorem generated64_precision (cache : DiffCache) (area : GradientCheck)
    (gen : List img_comp) (hw : area.left ≤ area.right) (ht : area.top ≤ area.bottom)
    (hl : 0 ≤ area.level) (hb : area.edgesWithin (2 ^ 30))
    (hg : generate64 cache area = .ok gen) :
    ∀ g ∈ gen, ∃ p : ℚ, 0 ≤ p ∧ p ≤ 2 ^ 16 ∧ fl p = p ∧
      g.precision = Precision.ofDouble p ∧
      (area.isLeaf64 = true → p = 1) ∧
      (area.isLeaf64 = false → area.precision64 = Precision.ofDouble p) := by
  intro g hgm
  have ha : 0 < area.amount := by unfold GradientCheck.amount; omega
  cases hleaf : area.isLeaf64 with
  | true =>
    rw [generate64_leaf cache area hleaf] at hg
    cases hg
    rw [List.mem_map] at hgm
    obtain ⟨q, _, rfl⟩ := hgm
    refine ⟨1, by norm_num, by norm_num, fl_one, ?_, fun _ => rfl, fun h => by cases h⟩
    rw [ofDouble_one]
    rfl
  | false =>
    rcases generate64_nonleaf cache area gen hleaf hg with ⟨h0, _⟩ | ⟨_, smp, u, _, _, h1⟩
    · rw [h0] at hgm; cases hgm
    · rw [h1, List.mem_map] at hgm
      obtain ⟨s, _, rfl⟩ := hgm
      obtain ⟨p, p0, p1, p2, p3⟩ := precision64_ofDouble area hw ht ha hb
      exact ⟨p, p0, p1, p2, p3, (fun h => by cases h), fun _ => p3⟩

/-- The candidate generation in binary64 returns for a well-formed region with room. -/
theorem generate64_runs (cache : DiffCache) (area : GradientCheck)
    (hw : area.left ≤ area.right) (ht : area.top ≤ area.bottom) (hl : 0 ≤ area.level)
    (hb : area.edgesWithin (2 ^ 30)) :
    ∃ gen, generate64 cache area = .ok gen := by
  have ha : 0 < area.amount := by unfold GradientCheck.amount; omega
  cases hg : generate64 cache area with
  | ok gen => exact ⟨gen, rfl⟩
  | error e =>
    exfalso
    rcases generate64_error cache area e hg with ⟨_, h⟩ | ⟨_, _, h⟩ | ⟨_, h, _⟩
    · obtain ⟨p, p0, p1, _, p3⟩ := precision64_ofDouble area hw ht ha hb
      rw [p3, toUnsigned_ofDouble_some p p0 (by linarith [show (2 : ℚ) ^ 16 < 2 ^ 32 by norm_num])] at h
      cases h
    · obtain ⟨smp, hsmp, _⟩ := samples64_some area hw ht ha
        (edgesWithin_mono area _ _ hb (by norm_num))
      rw [hsmp] at h
      cases h
    · omega

/-! ## Scores of a round in binary64 -/

/-- A candidate generated in binary64 whose score was taken from a cache of metric values
holds a metric value at its offset. -/
theorem generated64_hit (plane : GradientPlane) (cache : DiffCache)
    (area : GradientCheck) (gen : List img_comp) (c : img_comp)
    (hsound : ∀ e ∈ cache, ∃ q : Precision, q.toUnsigned = some e.precision ∧
      e.diff = plane.getDifference e.x e.y q)
    (hgen : generate64 cache area = .ok gen) (hc : c ∈ gen) (hset : c.diff_set = true) :
    ∃ q : Precision, c.diff = plane.getDifference c.h_middle c.v_middle q := by
  cases hleaf : area.isLeaf64 with
  | true =>
    rw [generate64_leaf cache area hleaf] at hgen
    cases hgen
    rw [List.mem_map] at hc
    obtain ⟨p, _, rfl⟩ := hc
    obtain ⟨e, he, h1, h2, _, h4⟩ :=
      set_diff_hit cache (img_comp.createDefault p.1 p.2) 1 rfl hset
    obtain ⟨q, _, hq2⟩ := hsound e he
    refine ⟨q, ?_⟩
    have h1' : e.x = p.1 := h1
    have h2' : e.y = p.2 := h2
    have h4' : (leafComp cache p).diff = e.diff := h4
    rw [h4', hq2, h1', h2']
    rfl
  | false =>
    rcases generate64_nonleaf cache area gen hleaf hgen with ⟨h0, _⟩ | ⟨_, smp, u, _, hu, h1⟩
    · rw [h0] at hc; cases hc
    · rw [h1, List.mem_map] at hc
      obtain ⟨s, _, rfl⟩ := hc
      obtain ⟨e, he, h1, h2, _, h4⟩ :=
        set_diff_hit cache (img_comp.create s.1 s.2.1 s.2.2 area.precision64) u rfl hset
      obtain ⟨q, _, hq2⟩ := hsound e he
      refine ⟨q, ?_⟩
      have h1' : e.x = s.1 := h1
      have h2' : e.y = s.2.1 := h2
      have h4' : (sampleComp cache area.precision64 u s).diff = e.diff := h4
      rw [h4', hq2, h1', h2']
      rfl

/-- Every score of a round in binary64 that started from a cache of metric values is a
value of the metric at the candidate's offset; a score that was not taken from the cache
is the metric at the candidate's precision. -/
theorem scored64_diff (plane : GradientPlane) (cache : DiffCache) (area : GradientCheck)
    (comps : List img_comp) (evals : List (Int × Int × Precision))
    (hsound : ∀ e ∈ cache, ∃ q : Precision, q.toUnsigned = some e.precision ∧
      e.diff = plane.getDifference e.x e.y q)
    (hr : roundComps64 plane cache area = .ok (comps, evals)) :
    (∀ c ∈ comps, ∃ q : Precision, c.diff = plane.getDifference c.h_middle c.v_middle q) ∧
    (∀ c ∈ comps, c.diff_set = false →
      c.diff = plane.getDifference c.h_middle c.v_middle c.precision) := by
  obtain ⟨gen, hg, he⟩ := roundComps64_ok plane cache area comps evals hr
  have hcomps := (evaluate64_ok plane gen comps evals he).2.1
  constructor
  · intro c hc
    rw [hcomps, List.mem_map] at hc
    obtain ⟨c1, hc1, rfl⟩ := hc
    rw [List.mem_map] at hc1
    obtain ⟨g, hgm, rfl⟩ := hc1
    cases hset : g.diff_set with
    | true =>
      obtain ⟨q, hq⟩ := generated64_hit plane cache area gen g hsound hg hgm hset
      refine ⟨q, ?_⟩
      have : img_comp.do_diff plane
          (img_comp.increasePrecision64 plane (maxChecked plane gen) g)
          = img_comp.increasePrecision64 plane (maxChecked plane gen) g := by
        unfold img_comp.do_diff
        rw [if_pos (by simpa [img_comp.increasePrecision64] using hset)]
      rw [this]
      exact hq
    | false =>
      refine ⟨(img_comp.increasePrecision64 plane (maxChecked plane gen) g).precision, ?_⟩
      unfold img_comp.do_diff
      rw [if_neg (by simpa [img_comp.increasePrecision64] using hset)]
  · intro c hc hset
    rw [hcomps, List.mem_map] at hc
    obtain ⟨c1, _, rfl⟩ := hc
    unfold img_comp.do_diff at hset ⊢
    split
    · rename_i h1
      rw [if_pos h1] at hset
      rw [h1] at hset
      cases hset
    · rfl

/-- A round in binary64 from a cache of metric values on a well-formed region, when one
candidate has a non-zero overlap and the metric is below `DOUBLE_MAX` at the offsets of
the candidates: the round leaves a cache of metric values and selects a candidate whose
diff is the least of the round. -/
theorem round64_runs (plane : GradientPlane) (cache : DiffCache) (area : GradientCheck)
    (gen : List img_comp) (hw : area.left ≤ area.right) (ht : area.top ≤ area.bottom)
    (hl : 0 ≤ area.level) (hb : area.edgesWithin (2 ^ 30))
    (hmax : ∀ g ∈ gen, ∀ p, plane.getDifference g.h_middle g.v_middle p < DOUBLE_MAX)
    (hsound : ∀ e ∈ cache, ∃ q : Precision, q.toUnsigned = some e.precision ∧
      e.diff = plane.getDifference e.x e.y q)
    (hgen : generate64 cache area = .ok gen)
    (hov : ∃ g ∈ gen, 0 < g.checkedPercentage plane) :
    ∃ comps evals cache1 best, roundComps64 plane cache area = .ok (comps, evals) ∧
      addToCache cache comps = .ok cache1 ∧
      (∀ e ∈ cache1, ∃ q : Precision, q.toUnsigned = some e.precision ∧
        e.diff = plane.getDifference e.x e.y q) ∧
      findBest comps = some best ∧ ∀ c ∈ comps, best.diff ≤ c.diff := by
  obtain ⟨g0, hg0, hg0pos⟩ := hov
  have hne : gen ≠ [] := List.ne_nil_of_mem hg0
  obtain ⟨comps, evals, he⟩ : ∃ comps evals, evaluate64 plane gen = .ok (comps, evals) := by
    cases gen with
    | nil => exact absurd rfl hne
    | cons c rest => exact evaluate64_cons plane c rest
  have hr : roundComps64 plane cache area = .ok (comps, evals) := by
    rw [roundComps64_of_generate plane cache area gen hgen]
    exact he
  have hcomps := (evaluate64_ok plane gen comps evals he).2.1
  have hm : 0 < maxChecked plane gen := by
    have h1 := le_maxChecked plane gen g0 hg0
    omega
  have hprec := generated64_precision cache area gen hw ht hl hb hgen
  have hconv : ∀ c ∈ comps, c.diff_set = false → ∃ u, c.precision.toUnsigned = some u := by
    intro c hc _
    rw [hcomps, List.mem_map] at hc
    obtain ⟨c1, hc1, rfl⟩ := hc
    rw [List.mem_map] at hc1
    obtain ⟨g, hg, rfl⟩ := hc1
    obtain ⟨p, p0, p1, p2, p3, _⟩ := hprec g hg
    rw [(do_diff_fields plane _).2.2.2.1,
      increasePrecision64_ofDouble plane _ g p p3 p0 hm]
    have hval : (if g.checkedPercentage plane = 0 then (0 : ℚ)
        else fl (p / fl ((maxChecked plane gen : ℚ) / ((g.checkedPercentage plane : Nat) : ℚ))))
        ≤ p := by
      split
      · exact p0
      · rename_i h0
        exact (quot64_bounds p _ _ p0 p2 (Nat.pos_of_ne_zero h0)
          (le_maxChecked plane gen g hg)).2.1
    refine ⟨_, toUnsigned_ofDouble_some _ (le_trans zero_le_one (le_max_right _ _)) ?_⟩
    apply max_lt _ (by norm_num)
    have : (2 : ℚ) ^ 16 < 2 ^ 32 := by norm_num
    linarith
  obtain ⟨cache1, ha⟩ := addToCache_ok comps cache hconv
  obtain ⟨hscore, hfresh⟩ := scored64_diff plane cache area comps evals hsound hr
  have hsound1 := addToCache_entries plane comps cache cache1 hsound hfresh ha
  have hc0 : ∃ c0 ∈ comps, c0.h_middle = g0.h_middle ∧ c0.v_middle = g0.v_middle := by
    refine ⟨img_comp.do_diff plane (img_comp.increasePrecision64 plane
      (maxChecked plane gen) g0), ?_, ?_, ?_⟩
    · rw [hcomps]
      exact List.mem_map_of_mem _ (List.mem_map_of_mem _ hg0)
    · rw [(do_diff_fields plane _).2.1]; rfl
    · rw [(do_diff_fields plane _).2.2.1]; rfl
  obtain ⟨c0, hc0m, hc0x, hc0y⟩ := hc0
  cases hbest : findBest comps with
  | none =>
    have := findBest_eq_none comps hbest c0 hc0m
    obtain ⟨q, hq⟩ := hscore c0 hc0m
    rw [hq, hc0x, hc0y] at this
    exact absurd (hmax g0 hg0 q) (not_lt.mpr this)
  | some best =>
    refine ⟨comps, evals, cache1, best, hr, ha, hsound1, hbest, ?_⟩
    obtain ⟨_, pre, post, hl, hpre, hpost⟩ := findBest_eq_some comps best hbest
    intro c hc
    rw [hl] at hc
    rcases List.mem_append.mp hc with h | h
    · exact le_of_lt (hpre c h)
    · rcases List.mem_cons.mp h with h | h
      · rw [h]
      · exact hpost c h

/-- Every sample of the recursive case in binary64 has a candidate in the scored vector. -/
theorem roundComps64_of_sample (plane : GradientPlane) (cache : DiffCache)
    (area : GradientCheck) (comps : List img_comp) (evals : List (Int × Int × Precision))
    (smp : List (Int × Int × GradientCheck)) (s : Int × Int × GradientCheck)
    (hleaf : area.isLeaf64 = false) (h : roundComps64 plane cache area = .ok (comps, evals))
    (hsmp : area.samples64 = some smp) (hs : s ∈ smp) :
    ∃ c ∈ comps, c.h_middle = s.1 ∧ c.v_middle = s.2.1 := by
  obtain ⟨gen, hg, he⟩ := roundComps64_ok plane cache area comps evals h
  obtain ⟨hne, hcomps, _⟩ := evaluate64_ok plane gen comps evals he
  rcases generate64_nonleaf cache area gen hleaf hg with ⟨h0, _⟩ | ⟨_, smp2, u, hs2, _, h1⟩
  · exact absurd h0 hne
  · rw [hsmp] at hs2
    cases hs2
    refine ⟨img_comp.do_diff plane (img_comp.increasePrecision64 plane (maxChecked plane gen)
      (sampleComp cache area.precision64 u s)), ?_, ?_, ?_⟩
    · rw [hcomps]
      apply List.mem_map_of_mem
      apply List.mem_map_of_mem
      rw [h1]
      exact List.mem_map_of_mem _ hs
    · rw [(do_diff_fields plane _).2.1]; rfl
    · rw [(do_diff_fields plane _).2.2.1]; rfl

/-- Every offset of the trivial step has a candidate in the scored vector in binary64. -/
theorem roundComps64_of_offset (plane : GradientPlane) (cache : DiffCache)
    (area : GradientCheck) (comps : List img_comp) (evals : List (Int × Int × Precision))
    (p : Int × Int) (hleaf : area.isLeaf64 = true)
    (h : roundComps64 plane cache area = .ok (comps, evals)) (hp : p ∈ area.leafOffsets) :
    ∃ c ∈ comps, c.h_middle = p.1 ∧ c.v_middle = p.2 := by
  obtain ⟨gen, hg, he⟩ := roundComps64_ok plane cache area comps evals h
  obtain ⟨hne, hcomps, _⟩ := evaluate64_ok plane gen comps evals he
  rw [generate64_leaf cache area hleaf] at hg
  cases hg
  refine ⟨img_comp.do_diff plane (img_comp.increasePrecision64 plane
    (maxChecked plane (area.leafOffsets.map (leafComp cache))) (leafComp cache p)), ?_, ?_, ?_⟩
  · rw [hcomps]
    apply List.mem_map_of_mem
    apply List.mem_map_of_mem
    exact List.mem_map_of_mem _ hp
  · rw [(do_diff_fields plane _).2.1]; rfl
  · rw [(do_diff_fields plane _).2.2.1]; rfl

/-- Every candidate generated in binary64 at level 0 or 1 in a round of a well-formed
region has its offset inside the region; in the recursive case its sub-region lies
inside the region. -/
theorem generated64_inside (cache : DiffCache) (area : GradientCheck) (gen : List img_comp)
    (c : img_comp) (hw : area.left ≤ area.right) (ht : area.top ≤ area.bottom)
    (hl1 : area.level ≤ 1) (hb : area.edgesWithin (2 ^ 31))
    (hg : generate64 cache area = .ok gen) (hc : c ∈ gen) :
    (area.left ≤ c.h_middle ∧ c.h_middle ≤ area.right ∧
      area.top ≤ c.v_middle ∧ c.v_middle ≤ area.bottom) ∧
    (area.isLeaf64 = true → c.area.level = 0) ∧
    (area.isLeaf64 = false →
      (area.left ≤ c.area.left ∧ c.area.right ≤ area.right ∧
        area.top ≤ c.area.top ∧ c.area.bottom ≤ area.bottom) ∧
      c.area.left ≤ c.area.right ∧ c.area.top ≤ c.area.bottom ∧ c.area.level = 1) := by
  cases hleaf : area.isLeaf64 with
  | true =>
    rw [generate64_leaf cache area hleaf] at hg
    cases hg
    rw [List.mem_map] at hc
    obtain ⟨p, hp, rfl⟩ := hc
    have hin := (mem_leafOffsets area p).mp hp
    exact ⟨hin, (fun _ => rfl), fun h => by cases h⟩
  | false =>
    rcases generate64_nonleaf cache area gen hleaf hg with ⟨h0, _⟩ | ⟨ha, smp, u, hs, _, h1⟩
    · rw [h0] at hc; cases hc
    · rw [h1, List.mem_map] at hc
      obtain ⟨s, hs1, rfl⟩ := hc
      have hl0 := nonleaf64_level_nonneg area hw ht ha hleaf
      obtain ⟨_, i1, i2, w1, w2, l1, _⟩ :=
        sample64_low area hw ht hl0 hl1 hb hleaf smp hs s hs1
      exact ⟨i1, (fun h => by cases h), fun _ => ⟨i2, w1, w2, l1⟩⟩

/-- The search in binary64 follows the target at level 1: from a cache of metric values,
on a region of level 1 that holds the target (in each axis not on the upper edge unless
the region is at most 1 wide or that edge is at most 0) and at whose offsets the overlap
is not zero and the metric is below `DOUBLE_MAX`, the run returns the target with the
score 0. -/
theorem findMinimumFuel64_target (plane : GradientPlane) (tx ty : Int)
    (hind : ∀ x y p q, plane.getDifference x y p = plane.getDifference x y q)
    (h0 : ∀ p, plane.getDifference tx ty p = 0)
    (hmx : ∀ x x1 y p, |x - tx| < |x1 - tx| →
      plane.getDifference x y p < plane.getDifference x1 y p)
    (hmy : ∀ x y y1 p, |y - ty| < |y1 - ty| →
      plane.getDifference x y p < plane.getDifference x y1 p) :
    ∀ (fuel : Nat) (cache : DiffCache) (area : GradientCheck),
      (∀ e ∈ cache, ∃ q : Precision, q.toUnsigned = some e.precision ∧
        e.diff = plane.getDifference e.x e.y q) →
      area.level = 1 →
      area.left ≤ tx → tx ≤ area.right → area.top ≤ ty → ty ≤ area.bottom →
      (tx < area.right ∨ area.right - area.left ≤ 1 ∨ area.right ≤ 0) →
      (ty < area.bottom ∨ area.bottom - area.top ≤ 1 ∨ area.bottom ≤ 0) →
      area.edgesWithin (2 ^ 30) →
      (∀ x y, area.left ≤ x → x ≤ area.right → area.top ≤ y → y ≤ area.bottom →
        0 < (img_comp.createDefault x y).checkedPercentage plane ∧
        ∀ p, plane.getDifference x y p < DOUBLE_MAX) →
      area.depthBound ≤ fuel →
      ∃ run, findMinimumFuel64 plane fuel cache area = .ok run ∧
        run.result = ⟨tx, ty, 0⟩ := by
  intro fuel
  induction fuel with
  | zero =>
    intro cache area _ _ _ _ _ _ _ _ _ _ hf
    have := depthBound_pos area
    omega
  | succ n ih =>
    intro cache area hsound hl hx1 hx2 hy1 hy2 hJx hJy hb hov hf
    have hw : area.left ≤ area.right := le_trans hx1 hx2
    have ht : area.top ≤ area.bottom := le_trans hy1 hy2
    have hb31 : area.edgesWithin (2 ^ 31) := edgesWithin_mono area _ _ hb (by norm_num)
    have hamt : area.amount = 2 ∨ area.amount = 4 := amount_low area (by omega) (by omega)
    have hleafeq := isLeaf64_exact area hamt hb31
    have hsmpeq := samples64_exact area hamt hb31
    obtain ⟨gen, hgen⟩ := generate64_runs cache area hw ht (by omega) hb
    have hgne : gen ≠ [] := by
      intro h
      rw [h] at hgen
      cases hleaf : area.isLeaf64 with
      | true =>
        rw [generate64_leaf cache area hleaf] at hgen
        have hmem : (tx, ty) ∈ area.leafOffsets :=
          (mem_leafOffsets area (tx, ty)).mpr ⟨hx1, hx2, hy1, hy2⟩
        have : leafComp cache (tx, ty) ∈ area.leafOffsets.map (leafComp cache) :=
          List.mem_map_of_mem _ hmem
        simp only [Except.ok.injEq] at hgen
        rw [hgen] at this
        cases this
      | false =>
        rcases generate64_nonleaf cache area [] hleaf hgen with
          ⟨_, h1 | h1⟩ | ⟨_, smp, u, hs, _, h1⟩
        · unfold GradientCheck.amount at h1; omega
        · rw [hsmpeq] at h1
          simp only [Option.some.injEq] at h1
          have hex := generate_ne_nil_of_level_pos cache area hw ht (by omega)
          apply hex
          unfold generate
          rw [← hleafeq, hleaf]
          simp only [Bool.false_eq_true, if_false]
          rw [if_neg (by unfold GradientCheck.amount; omega), h1]
        · rw [hsmpeq] at hs
          simp only [Option.some.injEq] at hs
          have hex := generate_ne_nil_of_level_pos cache area hw ht (by omega)
          apply hex
          unfold generate
          rw [← hleafeq, hleaf]
          simp only [Bool.false_eq_true, if_false]
          rw [if_neg (by unfold GradientCheck.amount; omega)]
          have : smp = [] := by
            cases smp with
            | nil => rfl
            | cons a b => simp at h1
          rw [hs, this]
    have hgin0 : ∀ g ∈ gen, area.left ≤ g.h_middle ∧ g.h_middle ≤ area.right ∧
        area.top ≤ g.v_middle ∧ g.v_middle ≤ area.bottom := by
      intro g hg
      exact (generated64_inside cache area gen g hw ht (by omega) hb31 hgen hg).1
    have hgin : ∀ g ∈ gen, 0 < g.checkedPercentage plane := by
      intro g hg
      have hin := hgin0 g hg
      rw [checkedPercentage_congr plane g (img_comp.createDefault g.h_middle g.v_middle)
        rfl rfl]
      exact (hov _ _ hin.1 hin.2.1 hin.2.2.1 hin.2.2.2).1
    have hmax : ∀ g ∈ gen, ∀ p,
        plane.getDifference g.h_middle g.v_middle p < DOUBLE_MAX := by
      intro g hg
      have hin := hgin0 g hg
      exact (hov _ _ hin.1 hin.2.1 hin.2.2.1 hin.2.2.2).2
    obtain ⟨g0, hg0⟩ := List.exists_mem_of_ne_nil gen hgne
    obtain ⟨comps, evals, cache1, best, hr, ha, hsound1, hbst, hbest⟩ :=
      round64_runs plane cache area gen hw ht (by omega) hb hmax hsound hgen
        ⟨g0, hg0, hgin g0 hg0⟩
    have hscore := (scored64_diff plane cache area comps evals hsound hr).1
    have hbmem := mem_of_findBest comps best hbst
    obtain ⟨qb, hqb⟩ := hscore best hbmem
    rw [findMinimumFuel64]
    simp only [hr, ha, hbst]
    rcases roundComps64_mem plane cache area comps evals best hr hbmem with
      ⟨hleaf, harea, _⟩ | ⟨hleaf, smp, hsmp, s, hs, hsa, hsx, hsy⟩
    · -- the trivial step: the target is a candidate, and the only one with score 0
      have hlev : ¬ best.area.level > 0 := by rw [harea]; decide
      rw [if_neg hlev]
      obtain ⟨ct, hct, hctx, hcty⟩ := roundComps64_of_offset plane cache area comps evals
        (tx, ty) hleaf hr ((mem_leafOffsets area (tx, ty)).mpr ⟨hx1, hx2, hy1, hy2⟩)
      obtain ⟨qt, hqt⟩ := hscore ct hct
      have hct0 : ct.diff = 0 := by
        rw [hqt, hctx, hcty]
        exact h0 qt
      have hle : best.diff ≤ 0 := by
        rw [← hct0]
        exact hbest ct hct
      have hxy : ¬ (best.h_middle ≠ tx ∨ best.v_middle ≠ ty) := by
        intro hne
        have := metric_pos plane tx ty h0 hmx hmy best.h_middle best.v_middle qb hne
        rw [← hqb] at this
        linarith
      push_neg at hxy
      refine ⟨_, rfl, ?_⟩
      have hd : best.diff = 0 := by
        rw [hqb, hxy.1, hxy.2]
        exact h0 qb
      simp only [hxy.1, hxy.2, hd]
    · -- the recursive case: the winner is the closest sample of its row and its column
      obtain ⟨hsmp2, _, hinside, hw1, ht1, hl1, hdec⟩ :=
        sample64_low area hw ht (by omega) (by omega) hb31 hleaf smp hsmp s hs
      rw [hsmp2] at hs
      have hminx : ∀ s1 ∈ area.samples, s1.2.1 = s.2.1 → ¬ (|s1.1 - tx| < |s.1 - tx|) := by
        intro s1 hs1 hrow hlt
        obtain ⟨c1, hc1, hc1x, hc1y⟩ :=
          roundComps64_of_sample plane cache area comps evals smp s1 hleaf hr hsmp
            (by rw [hsmp2]; exact hs1)
        obtain ⟨q1, hq1⟩ := hscore c1 hc1
        have hle := hbest c1 hc1
        rw [hqb, hq1, hsx, hsy, hc1x, hc1y, hrow, hind s1.1 s.2.1 q1 qb] at hle
        have := hmx s1.1 s.1 s.2.1 qb hlt
        linarith
      have hminy : ∀ s1 ∈ area.samples, s1.1 = s.1 → ¬ (|s1.2.1 - ty| < |s.2.1 - ty|) := by
        intro s1 hs1 hcol hlt
        obtain ⟨c1, hc1, hc1x, hc1y⟩ :=
          roundComps64_of_sample plane cache area comps evals smp s1 hleaf hr hsmp
            (by rw [hsmp2]; exact hs1)
        obtain ⟨q1, hq1⟩ := hscore c1 hc1
        have hle := hbest c1 hc1
        rw [hqb, hq1, hsx, hsy, hc1x, hc1y, hcol, hind s.1 s1.2.1 q1 qb] at hle
        have := hmy s.1 s1.2.1 s.2.1 qb hlt
        linarith
      obtain ⟨hcont, hJx1, hJy1⟩ :=
        sample_target area tx ty s (by omega) hx1 hx2 hy1 hy2 hJx hJy hs hminx hminy
      have hlev : best.area.level > 0 := by rw [hsa]; omega
      rw [if_pos hlev, hsa]
      have hb1 : s.2.2.edgesWithin (2 ^ 30) := by
        obtain ⟨b1, b2, b3, b4, b5, b6, b7, b8⟩ := hb
        refine ⟨?_, ?_, ?_, ?_, ?_, ?_, ?_, ?_⟩ <;> omega
      obtain ⟨inner, hinner, hres⟩ := ih cache1 s.2.2 hsound1 hl1 hcont.1 hcont.2.1
        hcont.2.2.1 hcont.2.2.2 hJx1 hJy1 hb1
        (fun x y h1 h2 h3 h4 => hov x y (by omega) (by omega) (by omega) (by omega))
        (by omega)
      rw [hinner]
      exact ⟨_, rfl, hres⟩

/-! ## Termination -/

/-- C5 (termination). For every well-formed region (`left ≤ right`, `top ≤ bottom`,
`level ≥ 0`) in the range in which the `int` arithmetic of the source does not overflow
(edges within `2^29` of zero, level at most `2^27`), every cache content and every
metric, the recursion of `findMinimum`, computed in binary64, into the sub-region of the
winning candidate is well-founded: `fuel64` nested invocations are enough, the run never
exhausts them, no loop over `double` runs out of its iterations and none is endless, and
more fuel does not change the outcome. The regions of the nested invocations stay
well-formed, with edges within `2^30` of zero, sides below `2^31` and a level of at most
`2^30 - 2`, so that no `int` overflows on the way. (The outcome is a result or one of the
two undefined operations `emptyDereference` and `badConversion`.) -/
theorem findMinimum_terminates (plane : GradientPlane) (cache : DiffCache)
    (area : GradientCheck) (hw : area.left ≤ area.right) (ht : area.top ≤ area.bottom)
    (hl : 0 ≤ area.level) (hr : area.inRange) :
    findMinimum64 plane cache area ≠ .error Fault.outOfFuel ∧
    findMinimum64 plane cache area ≠ .error Fault.nonTermination ∧
    (∀ fuel, area.fuel64 ≤ fuel →
      findMinimumFuel64 plane fuel cache area = findMinimum64 plane cache area) ∧
    (∀ run, findMinimum64 plane cache area = .ok run →
      ∀ a ∈ run.calls, a.left ≤ a.right ∧ a.top ≤ a.bottom ∧ 0 ≤ a.level ∧
        a.edgesWithin (2 ^ 30) ∧ a.right - a.left < 2 ^ 31 ∧ a.bottom - a.top < 2 ^ 31 ∧
        a.level ≤ 2 ^ 30 - 2) := by
  have hroom := hasRoom_of_inRange area hw ht hr
  have h := findMinimumFuel64_enough plane area.fuel64 cache area _ hw ht hl hroom
    (le_refl _)
  refine ⟨h.1, h.2, ?_, ?_⟩
  · intro fuel hf
    obtain ⟨n, rfl⟩ := Nat.exists_eq_add_of_le hf
    exact findMinimumFuel64_add plane area.fuel64 cache area h.1 n
  · intro run hrun
    exact calls64_inRange plane area.fuel64 cache area _ run hw ht hl hroom hrun

/-- The search of `[1,5]×[-3,4]` at level 2 on the demonstration planes ends: it returns
after two nested invocations. -/
theorem findMinimum_terminates_witness :
    (GradientCheck.mk 1 5 (-3) 4 2).left ≤ (GradientCheck.mk 1 5 (-3) 4 2).right ∧
    (GradientCheck.mk 1 5 (-3) 4 2).top ≤ (GradientCheck.mk 1 5 (-3) 4 2).bottom ∧
    0 ≤ (GradientCheck.mk 1 5 (-3) 4 2).level ∧
    (GradientCheck.mk 1 5 (-3) 4 2).inRange ∧
    (findMinimum64 demoPlane [] (GradientCheck.mk 1 5 (-3) 4 2)).toOption.map
        (fun r => r.calls.length) = some 2 ∧
    findMinimum64 demoPlane [] (GradientCheck.mk 1 5 (-3) 4 2) ≠ .error Fault.outOfFuel ∧
    findMinimum64 demoPlane [] (GradientCheck.mk 1 5 (-3) 4 2)
      ≠ .error Fault.nonTermination :=
  ⟨by decide, by decide, by decide, by decide, by decide!,
    (findMinimum_terminates demoPlane [] (GradientCheck.mk 1 5 (-3) 4 2)
      (by decide) (by decide) (by decide) (by decide)).1,
    (findMinimum_terminates demoPlane [] (GradientCheck.mk 1 5 (-3) 4 2)
      (by decide) (by decide) (by decide) (by decide)).2.1⟩

/-! ## The result and the region -/

/-- C12, as stated, fails, in two ways. The metric of `shiftedPlane` ignores the
precision, is 0 at `(3, -1)` and grows with `|x-3|` and `|y+1|`. (1) The region
`[1,3]×[-5,-1]` at level 1 holds `(3, -1)` on its right edge: the columns are 1.5 and
2.5, the column that rounds to 3 is skipped because 3 is the right edge, and
`findMinimum` returns `(2, -1)` with the score 1. (2) The region `[2,3]×[-6,2]` at level
2 is 1 wide: the step `fl(1/6)` is rounded, `floor( fl( fl(2 + fl(1/6)) - fl(1/6) ) )`
is 1 and not 2, the sub-region of the winner is `[1,3]×[-3,1]`, with `(3, -1)` on its
right edge, and `findMinimum` returns `(2, -1)` with the score 1. -/
theorem target_is_missed :
    (∀ x y p q, shiftedPlane.getDifference x y p = shiftedPlane.getDifference x y q) ∧
    (∀ p, shiftedPlane.getDifference 3 (-1) p = 0) ∧
    (∀ x x1 y p, |x - 3| < |x1 - 3| →
      shiftedPlane.getDifference x y p < shiftedPlane.getDifference x1 y p) ∧
    (∀ x y y1 p, |y + 1| < |y1 + 1| →
      shiftedPlane.getDifference x y p < shiftedPlane.getDifference x y1 p) ∧
    ((GradientCheck.mk 1 3 (-5) (-1) 1).left ≤ 3 ∧ 3 ≤ (GradientCheck.mk 1 3 (-5) (-1) 1).right ∧
      (GradientCheck.mk 1 3 (-5) (-1) 1).top ≤ -1 ∧
      -1 ≤ (GradientCheck.mk 1 3 (-5) (-1) 1).bottom ∧
      1 ≤ (GradientCheck.mk 1 3 (-5) (-1) 1).level ∧
      (GradientCheck.mk 1 3 (-5) (-1) 1).inRange ∧
      (findMinimum64 shiftedPlane [] (GradientCheck.mk 1 3 (-5) (-1) 1)).toOption.map
          (fun run => (run.result, run.calls))
        = some (⟨2, -1, 1⟩,
            [GradientCheck.mk 1 3 (-5) (-1) 1, GradientCheck.mk 1 2 (-3) (-1) 1])) ∧
    ((GradientCheck.mk 2 3 (-6) 2 2).left ≤ 3 ∧ 3 ≤ (GradientCheck.mk 2 3 (-6) 2 2).right ∧
      (GradientCheck.mk 2 3 (-6) 2 2).top ≤ -1 ∧ -1 ≤ (GradientCheck.mk 2 3 (-6) 2 2).bottom ∧
      1 ≤ (GradientCheck.mk 2 3 (-6) 2 2).level ∧
      (GradientCheck.mk 2 3 (-6) 2 2).inRange ∧
      (GradientCheck.mk 2 3 (-6) 2 2).right - (GradientCheck.mk 2 3 (-6) 2 2).left ≤ 1 ∧
      ⌊fl (fl (2 + (GradientCheck.mk 2 3 (-6) 2 2).h_offset64)
        - (GradientCheck.mk 2 3 (-6) 2 2).h_offset64)⌋ = 1 ∧
      (findMinimum64 shiftedPlane [] (GradientCheck.mk 2 3 (-6) 2 2)).toOption.map
          (fun run => (run.result, run.calls))
        = some (⟨2, -1, 1⟩,
            [GradientCheck.mk 2 3 (-6) 2 2, GradientCheck.mk 1 3 (-3) 1 1,
              GradientCheck.mk 1 2 (-2) 0 1])) := by
  obtain ⟨h1, h2, h3, h4⟩ := shiftedPlane_metric
  exact ⟨h1, h2, h3, h4,
    ⟨by decide, by decide, by decide, by decide, by decide, by decide, by decide!⟩,
    ⟨by decide, by decide, by decide, by decide, by decide, by decide, by decide,
      by decide!, by decide!⟩⟩

/-- C12 (scenario C), amended. Let the region be well-formed, of level 1, in the range of
`int` (edges within `2^29` of zero), and hold the offset `(3, -1)`, with 3 not on its
right edge unless the region is at most 1 wide; let the planes overlap and the metric be
below `DOUBLE_MAX` at every offset of the region. For every metric that does not depend
on the precision, is 0 at `(3, -1)` and is strictly increasing in `|x-3|` and in
`|y+1|`, `findMinimum`, computed in binary64 and started from the empty cache, returns
the offset `(3, -1)` with the score 0. (At level 1 the steps are quarters of the sides,
which binary64 represents; above level 1 the rounded steps move the sub-regions.) -/
theorem scenario_convergence (plane : GradientPlane) (area : GradientCheck)
    (hl : area.level = 1) (hr : area.inRange)
    (hx1 : area.left ≤ 3) (hx2 : 3 ≤ area.right)
    (hy1 : area.top ≤ -1) (hy2 : -1 ≤ area.bottom)
    (hedge : 3 < area.right ∨ area.right - area.left ≤ 1)
    (hov : ∀ x y, area.left ≤ x → x ≤ area.right → area.top ≤ y → y ≤ area.bottom →
      0 < (img_comp.createDefault x y).checkedPercentage plane ∧
      ∀ p, plane.getDifference x y p < DOUBLE_MAX)
    (hind : ∀ x y p q, plane.getDifference x y p = plane.getDifference x y q)
    (h0 : ∀ p, plane.getDifference 3 (-1) p = 0)
    (hmx : ∀ x x1 y p, |x - 3| < |x1 - 3| →
      plane.getDifference x y p < plane.getDifference x1 y p)
    (hmy : ∀ x y y1 p, |y + 1| < |y1 + 1| →
      plane.getDifference x y p < plane.getDifference x y1 p) :
    ∃ run, findMinimum64 plane [] area = .ok run ∧ run.result = ⟨3, -1, 0⟩ := by
  have hmy1 : ∀ x y y1 p, |y - (-1)| < |y1 - (-1)| →
      plane.getDifference x y p < plane.getDifference x y1 p := by
    intro x y y1 p h
    rw [sub_neg_eq_add, sub_neg_eq_add] at h
    exact hmy x y y1 p h
  have hb : area.edgesWithin (2 ^ 30) := by
    obtain ⟨a1, a2, a3, a4, a5, a6, a7, a8, _, _⟩ := hr
    refine ⟨?_, ?_, ?_, ?_, ?_, ?_, ?_, ?_⟩ <;> omega
  have hfuel : area.fuel64 = area.depthBound := by
    unfold GradientCheck.fuel64
    rw [if_pos (by omega)]
  unfold findMinimum64
  rw [hfuel]
  exact findMinimumFuel64_target plane 3 (-1) hind h0 hmx hmy1 area.depthBound [] area
    (fun e he => by cases he) hl hx1 hx2 hy1 hy2
    (by rcases hedge with h | h
        · exact Or.inl h
        · exact Or.inr (Or.inl h))
    (by omega) hb hov (le_refl _)

/-- C12 on `[0,8]×[-4,4]` at level 1 with the metric `(x-3)² + (y+1)²`. -/
theorem scenario_convergence_witness :
    (GradientCheck.mk 0 8 (-4) 4 1).level = 1 ∧ (GradientCheck.mk 0 8 (-4) 4 1).inRange ∧
    (GradientCheck.mk 0 8 (-4) 4 1).left ≤ 3 ∧ 3 < (GradientCheck.mk 0 8 (-4) 4 1).right ∧
    (GradientCheck.mk 0 8 (-4) 4 1).top ≤ -1 ∧ -1 ≤ (GradientCheck.mk 0 8 (-4) 4 1).bottom ∧
    ∃ run, findMinimum64 shiftedPlane [] (GradientCheck.mk 0 8 (-4) 4 1) = .ok run ∧
      run.result = ⟨3, -1, 0⟩ ∧
      run.calls = [GradientCheck.mk 0 8 (-4) 4 1, GradientCheck.mk 0 4 (-4) 0 1,
        GradientCheck.mk 2 4 (-2) 0 1] := by
  obtain ⟨h1, h2, h3, h4⟩ := shiftedPlane_metric
  obtain ⟨run, hrun, hres⟩ :=
    scenario_convergence shiftedPlane (GradientCheck.mk 0 8 (-4) 4 1)
      (by decide) (by decide) (by decide) (by decide) (by decide) (by decide)
      (Or.inl (by decide))
      (fun x y hx1 hx2 hy1 hy2 =>
        shiftedPlane_region x y
          (le_trans (by decide) (show (0 : Int) ≤ x from hx1))
          (le_trans (show x ≤ (8 : Int) from hx2) (by decide))
          (le_trans (by decide) (show (-4 : Int) ≤ y from hy1))
          (le_trans (show y ≤ (4 : Int) from hy2) (by decide)))
      h1 h2 h3 h4
  have hcalls : (findMinimum64 shiftedPlane [] (GradientCheck.mk 0 8 (-4) 4 1)).toOption.map
      (fun r => r.calls) = some [GradientCheck.mk 0 8 (-4) 4 1, GradientCheck.mk 0 4 (-4) 0 1,
        GradientCheck.mk 2 4 (-2) 0 1] := by decide!
  rw [hrun] at hcalls
  refine ⟨by decide, by decide, by decide, by decide, by decide, by decide, run, hrun,
    hres, ?_⟩
  simpa [Except.toOption] using hcalls

/-! ## Scenario B in binary64: reuse of the cache by leaf regions -/

/-- A candidate of precision 1 keeps its precision in `increasePrecision` in binary64
when the largest overlap is not zero. -/
theorem increasePrecision64_one (plane : GradientPlane) (m : Nat) (c : img_comp)
    (hp : c.precision = Precision.root 1) (hm : 0 < m)
    (hown : c.checkedPercentage plane ≤ m) : c.increasePrecision64 plane m = c := by
  have hp1 : c.precision = Precision.ofDouble 1 := by rw [hp, ofDouble_one]
  have h := increasePrecision64_ofDouble plane m c 1 hp1 zero_le_one hm
  have hval : max (if c.checkedPercentage plane = 0 then (0 : ℚ)
      else fl (1 / fl ((m : ℚ) / ((c.checkedPercentage plane : Nat) : ℚ)))) 1 = 1 := by
    apply max_eq_right
    split
    · exact zero_le_one
    · rename_i h0
      exact (quot64_bounds 1 m _ zero_le_one fl_one (Nat.pos_of_ne_zero h0) hown).2.1
  rw [hval, ← hp1] at h
  have hstruct : c.increasePrecision64 plane m
      = { c with precision := (c.increasePrecision64 plane m).precision } := rfl
  rw [hstruct, h]

/-- The calls of the metric in a round on candidates of the trivial step: one call at
precision 1 for each offset whose candidate was not seeded from the cache. -/
theorem leaf_evals (cache : DiffCache) (l : List (Int × Int)) :
    (l.map (leafComp cache)).flatMap
        (fun c => if c.diff_set then [] else [(c.h_middle, c.v_middle, c.precision)])
      = (l.filter fun p => !(leafComp cache p).diff_set).map
          fun p => (p.1, p.2, Precision.root 1) := by
  induction l with
  | nil => rfl
  | cons p rest ih =>
    rw [List.map_cons, List.flatMap_cons, ih, List.filter_cons]
    cases hset : (leafComp cache p).diff_set with
    | true => simp
    | false =>
      simp only [Bool.false_eq_true, if_false, Bool.not_false, if_true, List.map_cons,
        List.singleton_append]
      rfl

/-- The round of the trivial step in binary64 when some offset of the region has a
non-zero overlap: the precisions stay 1, the candidates that were not seeded from the
cache get the metric at precision 1, and these are the calls of the metric. -/
theorem leaf64_round (plane : GradientPlane) (cache : DiffCache) (area : GradientCheck)
    (hleaf : area.isLeaf64 = true)
    (hov : ∃ p ∈ area.leafOffsets,
      0 < (img_comp.createDefault p.1 p.2).checkedPercentage plane) :
    roundComps64 plane cache area
      = .ok (area.leafOffsets.map fun p => (leafComp cache p).do_diff plane,
          (area.leafOffsets.filter fun p => !(leafComp cache p).diff_set).map
            fun p => (p.1, p.2, Precision.root 1)) := by
  obtain ⟨p, hp, hpos⟩ := hov
  have hmem : leafComp cache p ∈ area.leafOffsets.map (leafComp cache) :=
    List.mem_map.mpr ⟨p, hp, rfl⟩
  have hmax : 0 < maxChecked plane (area.leafOffsets.map (leafComp cache)) := by
    have h1 := le_maxChecked plane _ _ hmem
    have h2 : (leafComp cache p).checkedPercentage plane
        = (img_comp.createDefault p.1 p.2).checkedPercentage plane :=
      checkedPercentage_congr plane _ _ rfl rfl
    omega
  have hid : (area.leafOffsets.map (leafComp cache)).map
      (img_comp.increasePrecision64 plane
        (maxChecked plane (area.leafOffsets.map (leafComp cache))))
      = area.leafOffsets.map (leafComp cache) := by
    conv_rhs => rw [← List.map_id (area.leafOffsets.map (leafComp cache))]
    apply List.map_congr_left
    intro c hc
    have hprec : c.precision = Precision.root 1 := by
      rw [List.mem_map] at hc
      obtain ⟨q, _, rfl⟩ := hc
      rfl
    rw [id]
    exact increasePrecision64_one plane _ c hprec hmax (le_maxChecked plane _ c hc)
  rw [roundComps64_of_generate plane cache area _ (generate64_leaf cache area hleaf)]
  obtain ⟨c0, rest, hgen⟩ : ∃ c0 rest, area.leafOffsets.map (leafComp cache) = c0 :: rest := by
    cases h : area.leafOffsets.map (leafComp cache) with
    | nil => rw [h] at hmem; cases hmem
    | cons c0 rest => exact ⟨c0, rest, rfl⟩
  obtain ⟨comps, evals, he⟩ := evaluate64_cons plane c0 rest
  rw [← hgen] at he
  obtain ⟨_, h1, h2⟩ := evaluate64_ok plane _ comps evals he
  rw [hid] at h1 h2
  rw [he, h1, h2, List.map_map, leaf_evals]
  rfl

/-- A run of `findMinimum` in binary64 on a leaf region some offset of which has a
non-zero overlap is a single round. -/
theorem leaf64_findMinimum (plane : GradientPlane) (cache cache1 : DiffCache)
    (area : GradientCheck) (hleaf : area.isLeaf64 = true)
    (hov : ∃ p ∈ area.leafOffsets,
      0 < (img_comp.createDefault p.1 p.2).checkedPercentage plane)
    (hadd : addToCache cache (area.leafOffsets.map fun p => (leafComp cache p).do_diff plane)
      = .ok cache1) :
    findMinimum64 plane cache area
      = .ok { result :=
                match findBest (area.leafOffsets.map fun p => (leafComp cache p).do_diff plane)
                with
                | none => ⟨0, 0, DOUBLE_MAX⟩
                | some best => ⟨best.h_middle, best.v_middle, best.diff⟩,
              cache := cache1, calls := [area],
              evals := (area.leafOffsets.filter fun p => !(leafComp cache p).diff_set).map
                fun p => (p.1, p.2, Precision.root 1) } := by
  unfold findMinimum64
  obtain ⟨n, hn⟩ : ∃ n, area.fuel64 = n + 1 :=
    ⟨area.fuel64 - 1, by have := fuel64_pos area; omega⟩
  rw [hn, findMinimumFuel64, leaf64_round plane cache area hleaf hov]
  simp only [hadd]
  cases hb : findBest (area.leafOffsets.map fun p => (leafComp cache p).do_diff plane) with
  | none => rfl
  | some best =>
    simp only
    have hmem := mem_of_findBest _ best hb
    rw [List.mem_map] at hmem
    obtain ⟨p, _, rfl⟩ := hmem
    have hlev : ¬ ((leafComp cache p).do_diff plane).area.level > 0 := by
      unfold img_comp.do_diff
      split <;> simp [leafComp, img_comp.createDefault, img_comp.create, img_comp.set_diff]
    rw [if_neg hlev]

/-- C11 (scenario B, reuse of the cache). Let `A` and `B` be leaf regions (both step
sizes below 1) in the range of `int`, let the metric be non-negative and let some offset
of `A` and some offset of `B` have a non-zero overlap. The run records every call that
`do_diff` makes of the metric. Started from the empty cache, `findMinimum( A )` returns
after `do_diff` called the metric once at every offset of `A`, at precision 1; the
following `findMinimum( B )` returns after `do_diff` called the metric exactly at the
offsets of `B` that are not in `A`, in order, and every candidate of `B` whose offset is
in `A` took its score, the metric at precision 1, from the cache; a second
`findMinimum( A )` calls the metric not once, leaves the cache as it is and returns the
same `MergeResult`. -/
theorem cache_reuse (plane : GradientPlane) (A B : GradientCheck)
    (hrA : A.inRange) (hrB : B.inRange)
    (hA : A.isLeaf64 = true) (hB : B.isLeaf64 = true)
    (hm : ∀ x y q, 0 ≤ plane.getDifference x y q)
    (hovA : ∃ p ∈ A.leafOffsets,
      0 < (img_comp.createDefault p.1 p.2).checkedPercentage plane)
    (hovB : ∃ p ∈ B.leafOffsets,
      0 < (img_comp.createDefault p.1 p.2).checkedPercentage plane) :
    ∃ runA runB, findMinimum64 plane [] A = .ok runA ∧
      runA.evals = A.leafOffsets.map (fun p => (p.1, p.2, Precision.root 1)) ∧
      findMinimum64 plane runA.cache B = .ok runB ∧
      runB.evals = (B.leafOffsets.filter (fun p => decide (p ∉ A.leafOffsets))).map
        (fun p => (p.1, p.2, Precision.root 1)) ∧
      (∀ c ∈ compsOf (generate64 runA.cache B), (c.h_middle, c.v_middle) ∈ A.leafOffsets →
        c.diff_set = true ∧ c.diff = runA.cache.get_diff c.h_middle c.v_middle 1 ∧
        c.diff = plane.getDifference c.h_middle c.v_middle (Precision.root 1)) ∧
      findMinimum64 plane runA.cache A
        = .ok { result := runA.result, cache := runA.cache, calls := [A], evals := [] } := by
  -- the cache that the first call leaves
  have hcache : addToCache [] (A.leafOffsets.map fun p => (leafComp [] p).do_diff plane)
      = .ok (A.leafOffsets.map fun q =>
          (⟨q.1, q.2, plane.getDifference q.1 q.2 (Precision.root 1), 1⟩ : Cached)) := by
    rw [addToCache_unset _ [] ?_]
    · rw [List.nil_append, List.map_map]
      rfl
    · intro c hc
      rw [List.mem_map] at hc
      obtain ⟨p, _, rfl⟩ := hc
      rw [(leafComp_seeded plane [] p hm).2.1]
      exact ⟨rfl, rfl⟩
  have hfirst := leaf64_findMinimum plane [] _ A hA hovA hcache
  -- the cache that the call on B leaves
  have hconvB : ∀ c ∈ (B.leafOffsets.map fun p => (leafComp (A.leafOffsets.map fun q =>
        (⟨q.1, q.2, plane.getDifference q.1 q.2 (Precision.root 1), 1⟩ : Cached)) p).do_diff
          plane),
      c.diff_set = false → ∃ u, c.precision.toUnsigned = some u := by
    intro c hc _
    rw [List.mem_map] at hc
    obtain ⟨p, _, rfl⟩ := hc
    refine ⟨1, ?_⟩
    rw [(do_diff_fields plane _).2.2.2.1]
    show (Precision.root 1).toUnsigned = some 1
    decide!
  obtain ⟨cacheB, haddB⟩ := addToCache_ok _ (A.leafOffsets.map fun q =>
    (⟨q.1, q.2, plane.getDifference q.1 q.2 (Precision.root 1), 1⟩ : Cached)) hconvB
  have hsecond := leaf64_findMinimum plane _ cacheB B hB hovB haddB
  refine ⟨_, _, hfirst, ?_, hsecond, ?_, ?_, ?_⟩
  · -- the first call evaluates every offset of A
    simp only
    rw [List.filter_eq_self.mpr]
    intro p _
    rw [(leafComp_seeded plane [] p hm).1]
    rfl
  · -- the call on B evaluates the offsets of B that are not in A
    simp only
    congr 1
    apply List.filter_congr
    intro p _
    by_cases hp : p ∈ A.leafOffsets
    · rw [(leafComp_seeded plane A.leafOffsets p hm).2.2.1 hp]
      simp [hp]
    · rw [(leafComp_seeded plane A.leafOffsets p hm).2.2.2 hp]
      simp [hp]
  · -- the offsets of A are served from the cache
    intro c hc hin
    simp only at hc
    rw [generate64_leaf _ B hB] at hc
    simp only [compsOf] at hc
    rw [List.mem_map] at hc
    obtain ⟨p, _, rfl⟩ := hc
    have hp : p ∈ A.leafOffsets := hin
    have hseed := (leafComp_seeded plane A.leafOffsets p hm).2.2.1 hp
    refine ⟨by rw [hseed], rfl, ?_⟩
    rw [hseed]
    rfl
  · -- the second call on A evaluates nothing and returns the same result
    have hset : ∀ p ∈ A.leafOffsets,
        (leafComp (A.leafOffsets.map fun q =>
          (⟨q.1, q.2, plane.getDifference q.1 q.2 (Precision.root 1), 1⟩ : Cached)) p).do_diff plane
        = { img_comp.createDefault p.1 p.2 with
            diff := plane.getDifference p.1 p.2 (Precision.root 1), diff_set := true } := by
      intro p hp
      rw [(leafComp_seeded plane A.leafOffsets p hm).2.2.1 hp]
      rfl
    have hadd2 : addToCache (A.leafOffsets.map fun q =>
          (⟨q.1, q.2, plane.getDifference q.1 q.2 (Precision.root 1), 1⟩ : Cached))
        (A.leafOffsets.map fun p => (leafComp (A.leafOffsets.map fun q =>
          (⟨q.1, q.2, plane.getDifference q.1 q.2 (Precision.root 1), 1⟩ : Cached)) p).do_diff
            plane)
        = .ok (A.leafOffsets.map fun q =>
          (⟨q.1, q.2, plane.getDifference q.1 q.2 (Precision.root 1), 1⟩ : Cached)) := by
      apply addToCache_set
      intro c hc
      rw [List.mem_map] at hc
      obtain ⟨p, hp, rfl⟩ := hc
      rw [hset p hp]
    simp only
    rw [leaf64_findMinimum plane _ _ A hA hovA hadd2]
    have hnone : (A.leafOffsets.filter fun p => !(leafComp (A.leafOffsets.map fun q =>
          (⟨q.1, q.2, plane.getDifference q.1 q.2 (Precision.root 1), 1⟩ : Cached)) p).diff_set)
        = [] := by
      rw [List.filter_eq_nil_iff]
      intro p hp
      rw [(leafComp_seeded plane A.leafOffsets p hm).2.2.1 hp]
      simp
    rw [hnone]
    have hrel : List.Forall₂
        (fun a b : img_comp => a.diff = b.diff ∧ a.h_middle = b.h_middle ∧
          a.v_middle = b.v_middle)
        (A.leafOffsets.map fun p => (leafComp (A.leafOffsets.map fun q =>
          (⟨q.1, q.2, plane.getDifference q.1 q.2 (Precision.root 1), 1⟩ : Cached)) p).do_diff
            plane)
        (A.leafOffsets.map fun p => (leafComp [] p).do_diff plane) := by
      rw [List.forall₂_map_left_iff, List.forall₂_map_right_iff]
      apply List.forall₂_same.mpr
      intro p hp
      rw [hset p hp, (leafComp_seeded plane [] p hm).2.1]
      exact ⟨rfl, rfl, rfl⟩
    have hbest := findBest_forall₂ (fun a b h => h.1) hrel
    generalize findBest (A.leafOffsets.map fun p => (leafComp (A.leafOffsets.map fun q =>
          (⟨q.1, q.2, plane.getDifference q.1 q.2 (Precision.root 1), 1⟩ : Cached)) p).do_diff
            plane) = r2 at hbest ⊢
    generalize findBest (A.leafOffsets.map fun p => (leafComp [] p).do_diff plane) = r1
      at hbest ⊢
    cases hbest with
    | none => rfl
    | some hab =>
      obtain ⟨h1, h2, h3⟩ := hab
      simp only [h1, h2, h3, List.map_nil]

/-- C11 on the leaf regions `[-1,1]×[-1,1]` and `[0,2]×[0,1]` with the metric `x² + y²`:
the first call makes nine calls of the metric, the call on the second region two, at
`(2, 0)` and `(2, 1)`, and the repeated call none; the three records are also computed
directly from the runs. -/
theorem cache_reuse_witness :
    (GradientCheck.mk (-1) 1 (-1) 1 1).inRange ∧ (GradientCheck.mk 0 2 0 1 1).inRange ∧
    (GradientCheck.mk (-1) 1 (-1) 1 1).isLeaf64 = true ∧
    (GradientCheck.mk 0 2 0 1 1).isLeaf64 = true ∧
    (findMinimum64 demoPlane [] (GradientCheck.mk (-1) 1 (-1) 1 1)).toOption.map
        (fun r => r.evals.length) = some 9 ∧
    ((findMinimum64 demoPlane [] (GradientCheck.mk (-1) 1 (-1) 1 1)).toOption.bind fun r =>
        (findMinimum64 demoPlane r.cache (GradientCheck.mk 0 2 0 1 1)).toOption).map
        (fun r => r.evals) = some [(2, 0, Precision.root 1), (2, 1, Precision.root 1)] ∧
    ((findMinimum64 demoPlane [] (GradientCheck.mk (-1) 1 (-1) 1 1)).toOption.bind fun r =>
        (findMinimum64 demoPlane r.cache (GradientCheck.mk (-1) 1 (-1) 1 1)).toOption).map
        (fun r => r.evals) = some [] ∧
    ∃ runA runB, findMinimum64 demoPlane [] (GradientCheck.mk (-1) 1 (-1) 1 1) = .ok runA ∧
      runA.evals.map (fun e => (e.1, e.2.1))
        = [(-1, -1), (-1, 0), (-1, 1), (0, -1), (0, 0), (0, 1), (1, -1), (1, 0), (1, 1)] ∧
      findMinimum64 demoPlane runA.cache (GradientCheck.mk 0 2 0 1 1) = .ok runB ∧
      runB.evals = [(2, 0, Precision.root 1), (2, 1, Precision.root 1)] ∧
      findMinimum64 demoPlane runA.cache (GradientCheck.mk (-1) 1 (-1) 1 1)
        = .ok { result := runA.result, cache := runA.cache,
                calls := [GradientCheck.mk (-1) 1 (-1) 1 1], evals := [] } := by
  have hm : ∀ (x y : Int) (q : Precision), 0 ≤ demoPlane.getDifference x y q := by
    intro x y q
    show (0 : ℚ) ≤ ((x * x + y * y : Int) : ℚ)
    have : (0 : Int) ≤ x * x + y * y := by nlinarith [mul_self_nonneg x, mul_self_nonneg y]
    exact_mod_cast this
  obtain ⟨runA, runB, h1, h2, h3, h4, _, h6⟩ :=
    cache_reuse demoPlane (GradientCheck.mk (-1) 1 (-1) 1 1) (GradientCheck.mk 0 2 0 1 1)
      (by decide) (by decide) (by decide!) (by decide!) hm
      ⟨(0, 0), by decide!, by decide!⟩ ⟨(0, 0), by decide!, by decide!⟩
  refine ⟨by decide, by decide, by decide!, by decide!, by decide!, by decide!, by decide!,
    runA, runB, h1, ?_, h3, ?_, h6⟩
  · rw [h2]; decide!
  · rw [h4]; decide!

/-! ## Re-evaluation of the precision in binary64 -/

/-- The largest overlap of a round is the overlap of one of its candidates. -/
theorem maxChecked_attained (plane : GradientPlane) (comps : List img_comp)
    (h : 0 < maxChecked plane comps) :
    ∃ c ∈ comps, c.checkedPercentage plane = maxChecked plane comps := by
  have key : ∀ (l : List img_comp) (init : Nat),
      l.foldl (fun m c => max m (c.checkedPercentage plane)) init = init ∨
      ∃ c ∈ l, c.checkedPercentage plane
        = l.foldl (fun m c => max m (c.checkedPercentage plane)) init := by
    intro l
    induction l with
    | nil => intro init; exact Or.inl rfl
    | cons d rest ih =>
      intro init
      rw [List.foldl_cons]
      rcases ih (max init (d.checkedPercentage plane)) with h1 | ⟨c, hc, h1⟩
      · rw [h1]
        rcases le_total init (d.checkedPercentage plane) with h2 | h2
        · right
          exact ⟨d, List.mem_cons_self _ _, by rw [max_eq_right h2]⟩
        · left
          exact max_eq_left h2
      · right
        exact ⟨c, List.mem_cons_of_mem _ hc, h1⟩
  rcases key comps 0 with h1 | h1
  · unfold maxChecked at h
    omega
  · exact h1

/-- C16, as stated, fails. In the round of `[-8,8]×[-8,8]` at level 1 on two planes of 16
by 16 pixels the initial precision is `sqrt( 4 ) = 2` and the largest overlap is 256
pixels; the candidate `(4, 4)` overlaps in 144 pixels and ends with the precision
`fl( 2 / fl( 256/144 ) ) = 9/8`, which is smaller than its initial precision and is not
`2·256/144 = 32/9`. -/
theorem smaller_overlap_refines_precision :
    (GradientCheck.mk (-8) 8 (-8) 8 1).precision64 = Precision.ofDouble 2 ∧
    maxChecked demoPlane (compsOf (generate64 [] (GradientCheck.mk (-8) 8 (-8) 8 1))) = 256 ∧
    (roundComps64 demoPlane [] (GradientCheck.mk (-8) 8 (-8) 8 1)).toOption.map
        (fun r => (r.1.filter fun c => decide (c.h_middle = 4 ∧ c.v_middle = 4)).map
          fun c => (c.checkedPercentage demoPlane, c.precision,
            (Precision.ofDouble 2).le c.precision))
      = some [(144, Precision.ofDouble (9 / 8), false)] ∧
    fl (2 / fl (256 / 144)) = 9 / 8 ∧
    Precision.ofDouble (9 / 8) ≠ Precision.ofDouble (2 * 256 / 144) := by
  refine ⟨by decide!, by decide!, by decide!, by decide!, by decide!⟩

/-- C16 (precision relaxation), amended. In every round of a well-formed region in the
range of `int` whose largest overlap is not zero, `max_checked` is the largest overlap of
the candidates of the round, and a candidate of initial precision `p` and overlap `own`
ends with the precision `max( fl( p / fl( max_checked / own ) ), 1 )`, with the two
divisions in binary64 (and with the precision 1 when `own` is 0): the precision is
divided by `max_checked / own`, not multiplied, and floored at 1, hence it is never
larger than `max( p, 1 )`; a candidate with the largest overlap keeps `max( p, 1 )`. -/
theorem precision_scaled_by_overlap (plane : GradientPlane) (cache : DiffCache)
    (area : GradientCheck) (gen comps : List img_comp) (evals : List (Int × Int × Precision))
    (hw : area.left ≤ area.right) (ht : area.top ≤ area.bottom) (hl : 0 ≤ area.level)
    (hr : area.inRange)
    (hg : generate64 cache area = .ok gen)
    (hrc : roundComps64 plane cache area = .ok (comps, evals))
    (hov : 0 < maxChecked plane gen) :
    (∀ g ∈ gen, g.checkedPercentage plane ≤ maxChecked plane gen) ∧
    (∃ g ∈ gen, g.checkedPercentage plane = maxChecked plane gen) ∧
    List.Forall₂ (fun g c =>
      c.h_middle = g.h_middle ∧ c.v_middle = g.v_middle ∧
      ∃ p : ℚ, 0 ≤ p ∧ g.precision = Precision.ofDouble p ∧
        c.precision = Precision.ofDouble
          (max (if g.checkedPercentage plane = 0 then 0
            else fl (p / fl ((maxChecked plane gen : ℚ)
              / ((g.checkedPercentage plane : Nat) : ℚ)))) 1) ∧
        c.precision.le (Precision.ofDouble (max p 1)) = true ∧
        (Precision.root 1).le c.precision = true ∧
        (g.checkedPercentage plane = maxChecked plane gen →
          c.precision = Precision.ofDouble (max p 1))) gen comps := by
  have hb : area.edgesWithin (2 ^ 30) := by
    obtain ⟨a1, a2, a3, a4, a5, a6, a7, a8, _, _⟩ := hr
    refine ⟨?_, ?_, ?_, ?_, ?_, ?_, ?_, ?_⟩ <;> omega
  refine ⟨fun g hgm => le_maxChecked plane gen g hgm, maxChecked_attained plane gen hov, ?_⟩
  obtain ⟨gen2, hg2, he⟩ := roundComps64_ok plane cache area comps evals hrc
  rw [hg] at hg2
  cases hg2
  have hcomps := (evaluate64_ok plane gen comps evals he).2.1
  have hprec := generated64_precision cache area gen hw ht hl hb hg
  rw [hcomps, List.map_map, List.forall₂_map_right_iff]
  apply List.forall₂_same.mpr
  intro g hgm
  obtain ⟨p, p0, _, p2, p3, _⟩ := hprec g hgm
  have hfin := increasePrecision64_ofDouble plane (maxChecked plane gen) g p p3 p0 hov
  have hcp : (Function.comp (img_comp.do_diff plane)
      (img_comp.increasePrecision64 plane (maxChecked plane gen)) g).precision
      = (img_comp.increasePrecision64 plane (maxChecked plane gen) g).precision :=
    (do_diff_fields plane _).2.2.2.1
  have hval0 : (0 : ℚ) ≤ (if g.checkedPercentage plane = 0 then (0 : ℚ)
      else fl (p / fl ((maxChecked plane gen : ℚ)
        / ((g.checkedPercentage plane : Nat) : ℚ)))) := by
    split
    · exact le_refl _
    · rename_i h0
      exact (quot64_bounds p _ _ p0 p2 (Nat.pos_of_ne_zero h0)
        (le_maxChecked plane gen g hgm)).1
  have hvalp : (if g.checkedPercentage plane = 0 then (0 : ℚ)
      else fl (p / fl ((maxChecked plane gen : ℚ)
        / ((g.checkedPercentage plane : Nat) : ℚ)))) ≤ p := by
    split
    · exact p0
    · rename_i h0
      exact (quot64_bounds p _ _ p0 p2 (Nat.pos_of_ne_zero h0)
        (le_maxChecked plane gen g hgm)).2.1
  refine ⟨(do_diff_fields plane _).2.1, (do_diff_fields plane _).2.2.1, p, p0, p3, ?_, ?_,
    ?_, ?_⟩
  · rw [hcp, hfin]
  · rw [hcp, hfin, ofDouble_le _ _ (le_trans zero_le_one (le_max_right _ _))
      (le_trans zero_le_one (le_max_right _ _))]
    exact max_le_max hvalp (le_refl _)
  · rw [hcp, hfin, ← ofDouble_one, ofDouble_le _ _ zero_le_one
      (le_trans zero_le_one (le_max_right _ _))]
    exact le_max_right _ _
  · intro heq
    rw [hcp, hfin]
    have h0 : g.checkedPercentage plane ≠ 0 := by omega
    rw [if_neg h0, (quot64_bounds p _ _ p0 p2 (Nat.pos_of_ne_zero h0)
      (le_maxChecked plane gen g hgm)).2.2 heq]

/-- C16 in the round of `[-8,8]×[-8,8]` at level 1 on two planes of 16 by 16 pixels: the
largest overlap is 256, and a candidate has it. The two divisions are rounded: a
precision of 9 with the overlaps 413343 of 531441 becomes `fl( 9 / fl( 531441/413343 ) )`,
which is below 7 and is converted to the `unsigned` 6. -/
theorem precision_scaled_by_overlap_witness :
    (GradientCheck.mk (-8) 8 (-8) 8 1).left ≤ (GradientCheck.mk (-8) 8 (-8) 8 1).right ∧
    (GradientCheck.mk (-8) 8 (-8) 8 1).inRange ∧
    0 < maxChecked demoPlane (compsOf (generate64 [] (GradientCheck.mk (-8) 8 (-8) 8 1))) ∧
    ((Precision.ofDouble 9).divQuot64 531441 413343).max1
      = Precision.ofDouble (fl (9 / fl (531441 / 413343))) ∧
    fl (9 / fl (531441 / 413343)) < 7 ∧
    ((Precision.ofDouble 9).divQuot64 531441 413343).max1.toUnsigned = some 6 ∧
    ∃ gen comps evals,
      generate64 [] (GradientCheck.mk (-8) 8 (-8) 8 1) = .ok gen ∧
      roundComps64 demoPlane [] (GradientCheck.mk (-8) 8 (-8) 8 1) = .ok (comps, evals) ∧
      comps.length = 9 ∧
      ∃ g ∈ gen, g.checkedPercentage demoPlane = maxChecked demoPlane gen := by
  refine ⟨by decide, by decide, by decide!, by decide!, by decide!, by decide!, ?_⟩
  cases hg : generate64 [] (GradientCheck.mk (-8) 8 (-8) 8 1) with
  | error e =>
    have h : (generate64 [] (GradientCheck.mk (-8) 8 (-8) 8 1)).toOption.isSome = true := by
      decide!
    rw [hg] at h
    cases h
  | ok gen =>
    cases hrc : roundComps64 demoPlane [] (GradientCheck.mk (-8) 8 (-8) 8 1) with
    | error e =>
      have h : (roundComps64 demoPlane [] (GradientCheck.mk (-8) 8 (-8) 8 1)).toOption.isSome
          = true := by decide!
      rw [hrc] at h
      cases h
    | ok pr =>
      obtain ⟨comps, evals⟩ := pr
      have hpos : 0 < maxChecked demoPlane gen := by
        have h : 0 < maxChecked demoPlane
            (compsOf (generate64 [] (GradientCheck.mk (-8) 8 (-8) 8 1))) := by decide!
        rw [hg] at h
        exact h
      have hlen : (roundComps64 demoPlane [] (GradientCheck.mk (-8) 8 (-8) 8 1)).toOption.map
          (fun r => r.1.length) = some 9 := by decide!
      rw [hrc] at hlen
      refine ⟨gen, comps, evals, rfl, rfl, by simpa [Except.toOption] using hlen, ?_⟩
      exact (precision_scaled_by_overlap demoPlane [] (GradientCheck.mk (-8) 8 (-8) 8 1)
        gen comps evals (by decide) (by decide) (by decide) (by decide) hg hrc hpos).2.1

/-! ## The region invariant in binary64 -/

theorem truncToInt_neg (v : ℚ) : truncToInt (-v) = -truncToInt v := by
  unfold truncToInt
  rcases lt_trichotomy v 0 with h | h | h
  · rw [if_neg (by linarith), if_pos h, Int.floor_neg]
  · rw [h]; simp
  · rw [if_pos (by linarith), if_neg (by linarith), Int.ceil_neg]

/-- C19, as stated, fails. A size of 4294967295 by 16 has `width ≥ 1` and `height ≥ 1`;
`(int)size.width()` is `-1`, so that with the scales 1 the constructor computes
`left = (1 - (-1)) * 1 = 2` and `right = (-1 - 1) * 1 = -2`: the region has
`left > right`. -/
theorem constructor_inverts_wide_plane :
    1 ≤ (4294967295 : Nat) ∧ 1 ≤ (16 : Nat) ∧ (0 : ℚ) ≤ 1 ∧
    toInt32 4294967295 = -1 ∧
    GradientCheck.ofSize64 4294967295 16 1 1 0 = GradientCheck.mk 2 (-2) (-15) 15 0 ∧
    ¬ ((GradientCheck.ofSize64 4294967295 16 1 1 0).left
      ≤ (GradientCheck.ofSize64 4294967295 16 1 1 0).right) := by
  refine ⟨by decide, by decide, by norm_num, by decide!, by decide!, by decide!⟩

/-- C19 (region invariant), amended. The region built by the constructor of
`GradientCheck`, with its products rounded to binary64, from a size with
`1 ≤ width ≤ INT_MAX` and `1 ≤ height ≤ INT_MAX` and non-negative scales whose
products with `width - 1` and `height - 1` fit an `int` satisfies `left ≤ right` and
`top ≤ bottom`, with `left = -right` and `top = -bottom`; and for
every well-formed region in the range of `int` that is not a leaf, `findMinimum`
generates its candidates, and the nested sub-region of each is
`[floor(fl(ix − h_offset)), ceil(fl(ix + h_offset))] ×
[floor(fl(iy − v_offset)), ceil(fl(iy + v_offset))]`, computed in binary64, for a
position `(ix, iy)` of the two loops inside the region, satisfies `left ≤ right` and
`top ≤ bottom`, and has the level `max(level − 1, 1)`. -/
theorem region_invariant :
    (∀ (width height : Nat) (width_scale height_scale : ℚ) (lvl : Int),
      1 ≤ width → width < 2 ^ 31 → 1 ≤ height → height < 2 ^ 31 →
      0 ≤ width_scale → 0 ≤ height_scale →
      ((width : ℚ) - 1) * width_scale < 2 ^ 31 →
      ((height : ℚ) - 1) * height_scale < 2 ^ 31 →
      (GradientCheck.ofSize64 width height width_scale height_scale lvl).left
        ≤ (GradientCheck.ofSize64 width height width_scale height_scale lvl).right ∧
      (GradientCheck.ofSize64 width height width_scale height_scale lvl).top
        ≤ (GradientCheck.ofSize64 width height width_scale height_scale lvl).bottom ∧
      (GradientCheck.ofSize64 width height width_scale height_scale lvl).left
        = -(GradientCheck.ofSize64 width height width_scale height_scale lvl).right ∧
      (GradientCheck.ofSize64 width height width_scale height_scale lvl).top
        = -(GradientCheck.ofSize64 width height width_scale height_scale lvl).bottom ∧
      (GradientCheck.ofSize64 width height width_scale height_scale lvl).level = lvl) ∧
    (∀ (cache : DiffCache) (area : GradientCheck),
      area.left ≤ area.right → area.top ≤ area.bottom → 0 ≤ area.level → area.inRange →
      area.isLeaf64 = false →
      ∃ gen, generate64 cache area = .ok gen ∧
      ∀ c ∈ gen,
        (∃ iy ix : ℚ, (area.top : ℚ) ≤ iy ∧ iy ≤ (area.bottom : ℚ) ∧
          (area.left : ℚ) ≤ ix ∧ ix ≤ (area.right : ℚ) ∧
          c.area.left = ⌊fl (ix - area.h_offset64)⌋ ∧
          c.area.right = ⌈fl (ix + area.h_offset64)⌉ ∧
          c.area.top = ⌊fl (iy - area.v_offset64)⌋ ∧
          c.area.bottom = ⌈fl (iy + area.v_offset64)⌉) ∧
        c.area.left ≤ c.area.right ∧ c.area.top ≤ c.area.bottom ∧
        c.area.level = max (area.level - 1) 1) := by
  constructor
  · intro width height ws hs lvl hw1 hw2 hh1 hh2 hws hhs _ _
    have hwq : (1 : ℚ) ≤ (width : ℚ) := by exact_mod_cast hw1
    have hhq : (1 : ℚ) ≤ (height : ℚ) := by exact_mod_cast hh1
    have key : ∀ (n : Nat) (sc : ℚ), 1 ≤ n → n < 2 ^ 31 → 0 ≤ sc →
        truncToInt (fl ((((1 : Int) - toInt32 n : Int) : ℚ) * sc))
          = -truncToInt (fl (((toInt32 n - 1 : Int) : ℚ) * sc)) ∧
        0 ≤ truncToInt (fl (((toInt32 n - 1 : Int) : ℚ) * sc)) := by
      intro n sc hn1 hn2 hsc
      have hnq : (1 : ℚ) ≤ (n : ℚ) := by exact_mod_cast hn1
      rw [toInt32_of_lt n hn2]
      have e : ((((1 : Int) - (n : Int) : Int)) : ℚ) * sc
          = -((((n : Int) - 1 : Int) : ℚ) * sc) := by push_cast; ring
      rw [e, fl_neg, truncToInt_neg]
      refine ⟨rfl, truncToInt_nonneg _ (fl_nonneg _ ?_)⟩
      push_cast
      exact mul_nonneg (by linarith) hsc
    obtain ⟨kw1, kw2⟩ := key width ws hw1 hw2 hws
    obtain ⟨kh1, kh2⟩ := key height hs hh1 hh2 hhs
    unfold GradientCheck.ofSize64
    simp only
    refine ⟨?_, ?_, kw1, kh1, trivial⟩
    · rw [kw1]; omega
    · rw [kh1]; omega
  · intro cache area hw ht hl hr hleaf
    have hb : area.edgesWithin (2 ^ 30) := by
      obtain ⟨a1, a2, a3, a4, a5, a6, a7, a8, _, _⟩ := hr
      refine ⟨?_, ?_, ?_, ?_, ?_, ?_, ?_, ?_⟩ <;> omega
    have ha : 0 < area.amount := by unfold GradientCheck.amount; omega
    obtain ⟨gen, hgen⟩ := generate64_runs cache area hw ht hl hb
    refine ⟨gen, hgen, ?_⟩
    intro c hc
    rcases generate64_nonleaf cache area gen hleaf hgen with ⟨h0, _⟩ | ⟨_, smp, u, hs, _, h1⟩
    · rw [h0] at hc; cases hc
    · rw [h1, List.mem_map] at hc
      obtain ⟨s, hs1, rfl⟩ := hc
      obtain ⟨smp2, hsmp2, hmem⟩ := samples64_some area hw ht ha
        (edgesWithin_mono area _ _ hb (by norm_num))
      rw [hs] at hsmp2
      cases hsmp2
      obtain ⟨iy, ix, y1, y2, x1, x2, hsample⟩ := hmem s hs1
      obtain ⟨_, _, _, _, hsub⟩ := sample64_eq_some area iy ix s hsample
      obtain ⟨hh0, hv0⟩ := offsets64_nonneg area hw ht ha
      have harea : (sampleComp cache area.precision64 u s).area = s.2.2 := rfl
      rw [harea, hsub]
      simp only
      have wfx : ⌊fl (ix - area.h_offset64)⌋ ≤ ⌈fl (ix + area.h_offset64)⌉ := by
        have m : fl (ix - area.h_offset64) ≤ fl (ix + area.h_offset64) :=
          fl_mono (by linarith)
        have : ((⌊fl (ix - area.h_offset64)⌋ : Int) : ℚ)
            ≤ ((⌈fl (ix + area.h_offset64)⌉ : Int) : ℚ) :=
          le_trans (Int.floor_le _) (le_trans m (Int.le_ceil _))
        exact_mod_cast this
      have wfy : ⌊fl (iy - area.v_offset64)⌋ ≤ ⌈fl (iy + area.v_offset64)⌉ := by
        have m : fl (iy - area.v_offset64) ≤ fl (iy + area.v_offset64) :=
          fl_mono (by linarith)
        have : ((⌊fl (iy - area.v_offset64)⌋ : Int) : ℚ)
            ≤ ((⌈fl (iy + area.v_offset64)⌉ : Int) : ℚ) :=
          le_trans (Int.floor_le _) (le_trans m (Int.le_ceil _))
        exact_mod_cast this
      refine ⟨⟨iy, ix, y1, y2, x1, x2, rfl, rfl, rfl, rfl⟩, wfx, wfy, ?_⟩
      unfold GradientCheck.subLevel
      split <;> omega

/-- C19 at a plane of 11 by 11 pixels with the scales `fl( 0.7 )`, where the rounded
product `fl( 10 · fl( 0.7 ) )` is 7, and at the samples of `[1,5]×[-3,4]` at level 2. -/
theorem region_invariant_witness :
    GradientCheck.ofSize64 11 11 (fl (7 / 10)) (fl (7 / 10)) 1
      = GradientCheck.mk (-7) 7 (-7) 7 1 ∧
    (GradientCheck.ofSize64 16 16 1 1 1).left ≤ (GradientCheck.ofSize64 16 16 1 1 1).right ∧
    (GradientCheck.mk 1 5 (-3) 4 2).inRange ∧
    (GradientCheck.mk 1 5 (-3) 4 2).isLeaf64 = false ∧
    ∃ gen, generate64 [] (GradientCheck.mk 1 5 (-3) 4 2) = .ok gen ∧
      gen.map (fun c => c.area)
        = [GradientCheck.mk 0 3 (-3) 0 1, GradientCheck.mk 2 4 (-3) 0 1, GradientCheck.mk 3 5 (-3) 0 1,
           GradientCheck.mk 0 3 (-2) 1 1, GradientCheck.mk 2 4 (-2) 1 1, GradientCheck.mk 3 5 (-2) 1 1,
           GradientCheck.mk 0 3 (-1) 2 1, GradientCheck.mk 2 4 (-1) 2 1, GradientCheck.mk 3 5 (-1) 2 1,
           GradientCheck.mk 0 3 0 3 1, GradientCheck.mk 2 4 0 3 1, GradientCheck.mk 3 5 0 3 1,
           GradientCheck.mk 0 3 1 5 1, GradientCheck.mk 2 4 1 5 1, GradientCheck.mk 3 5 1 5 1] ∧
      ∀ c ∈ gen, c.area.left ≤ c.area.right ∧ c.area.top ≤ c.area.bottom ∧
        c.area.level = max ((GradientCheck.mk 1 5 (-3) 4 2).level - 1) 1 := by
  refine ⟨by decide!,
    (region_invariant.1 16 16 1 1 1 (by decide) (by decide) (by decide) (by decide)
      (by norm_num) (by norm_num) (by norm_num) (by norm_num)).1, by decide, by decide!, ?_⟩
  obtain ⟨gen, hgen, hall⟩ := region_invariant.2 [] (GradientCheck.mk 1 5 (-3) 4 2)
    (by decide) (by decide) (by decide) (by decide) (by decide!)
  have hareas : (generate64 [] (GradientCheck.mk 1 5 (-3) 4 2)).toOption.map
      (fun g => g.map fun c => c.area)
      = some [GradientCheck.mk 0 3 (-3) 0 1, GradientCheck.mk 2 4 (-3) 0 1, GradientCheck.mk 3 5 (-3) 0 1,
           GradientCheck.mk 0 3 (-2) 1 1, GradientCheck.mk 2 4 (-2) 1 1, GradientCheck.mk 3 5 (-2) 1 1,
           GradientCheck.mk 0 3 (-1) 2 1, GradientCheck.mk 2 4 (-1) 2 1, GradientCheck.mk 3 5 (-1) 2 1,
           GradientCheck.mk 0 3 0 3 1, GradientCheck.mk 2 4 0 3 1, GradientCheck.mk 3 5 0 3 1,
           GradientCheck.mk 0 3 1 5 1, GradientCheck.mk 2 4 1 5 1, GradientCheck.mk 3 5 1 5 1] := by decide!
  rw [hgen] at hareas
  exact ⟨gen, hgen, by simpa [Except.toOption] using hareas, fun c hc => (hall c hc).2⟩

end Overmix
